import Mathlib

/-!
# Doubly linked list with a migrating dummy tail (`src/src/dll.c`)

A shallow embedding of the C implementation.  Memory is an explicit heap:
node cells (`dll_node_t`) and list headers (`struct dll`) live in two maps
indexed by address, every C statement that reads or writes a field is a heap
read or write in the same order as in the source, and every failure the C
program can run into (a failed `assert`, a dereference of `NULL` or of a cell
that is not allocated, a loop that never ends) is the result `none`.

Modelling choices, none of which the source decides:
* `malloc` hands out addresses in increasing order and does not reuse a freed
  cell; whether a given call succeeds is a parameter of the heap (`mallocOk`).
* `size_t` has 64 bits and `int` 32 bits.  Addresses fit in a `size_t`, which is
  why the counter of `DLLCount` is shown never to wrap.
* A callback (`dll_act_func_t`, `dll_cmp_func_t`) is a function of the pointer
  it is given, with `param` fixed; an action may change the caller's state
  behind `param`, not the nodes of the list.
* Loops carry a bound of `brk + 1` iterations: a chain that is not cyclic has at
  most `brk` nodes, so the bound is reached only where the C loop would not end.
  The outer loop of `DLLArrange`, which is not a walk along the chain, takes its
  bound as a parameter: the call returns when some bound gives a result.
* `*(int *)p` reads the caller's memory, a map `mem` from addresses to integers;
  a pointer that is not a payload of the caller cannot be read as an `int`.
-/

namespace DLL

/-! ## Pointers and memory -/

/-- Values of type `void *` that the program handles.  A payload stored by the
caller is `user p`; the dummy node stores `tailField l`, the address
`&(dll->tail)` of the list header at address `l`; `node a` is a node pointer
converted to `void *`; `dataField a` is `&node->data` of the node at `a`. -/
inductive VoidPtr where
  | null
  | user (p : Nat)
  | node (a : Nat)
  | tailField (l : Nat)
  | dataField (a : Nat)
  deriving DecidableEq, Repr

/-- An iterator `dll_iter_t`, i.e. a `dll_node_t *`: `none` is `NULL`. -/
abbrev Iter := Option Nat

/-- Conversion of a node pointer to `void *`. -/
def Iter.toVoid : Iter → VoidPtr
  | none => .null
  | some a => .node a

/-- The C struct `dll_node_t`. -/
structure Node where
  data : VoidPtr
  next : Iter
  prev : Iter
  deriving DecidableEq, Repr

/-- The C struct `struct dll`. -/
structure Dll where
  head : Iter
  tail : Iter
  deriving DecidableEq, Repr

/-- Width of `size_t` in bits. -/
def SIZE_BITS : Nat := 64

/-- Largest `int`. -/
def INT_MAX : Int := 2147483647

/-- The memory.  `nodes a` is the node cell at address `a` when one is
allocated there, `lists l` the list header at `l`.  `malloc` is a bump
allocator: the call number `brk` either fails or returns address `brk`,
as `mallocOk brk` says, so that any pattern of failures can be chosen. -/
structure Heap where
  nodes : Nat → Option Node
  lists : Nat → Option Dll
  brk : Nat
  mallocOk : Nat → Bool

/-- Pointwise update of a memory map. -/
def upd {α : Type} (f : Nat → Option α) (a : Nat) (x : Option α) : Nat → Option α :=
  fun b => if b = a then x else f b

/-- The heap with nothing allocated. -/
def Heap.empty (ok : Nat → Bool) : Heap :=
  { nodes := fun _ => none, lists := fun _ => none, brk := 0, mallocOk := ok }

/-- The call `malloc(sizeof(dll_node_t))`: the new cell is not initialised, its
fields are written before they are read. -/
def mallocNode (h : Heap) : Heap × Iter :=
  if h.mallocOk h.brk then
    ({ h with nodes := upd h.nodes h.brk (some ⟨.null, none, none⟩), brk := h.brk + 1 },
      some h.brk)
  else ({ h with brk := h.brk + 1 }, none)

/-- The call `malloc(sizeof(dll_t))`. -/
def mallocDll (h : Heap) : Heap × Option Nat :=
  if h.mallocOk h.brk then
    ({ h with lists := upd h.lists h.brk (some ⟨none, none⟩), brk := h.brk + 1 },
      some h.brk)
  else ({ h with brk := h.brk + 1 }, none)

/-- The call `free(node)`. -/
def freeNode (h : Heap) (a : Nat) : Heap :=
  { h with nodes := upd h.nodes a none }

/-- The call `free(dll)`. -/
def freeDll (h : Heap) (l : Nat) : Heap :=
  { h with lists := upd h.lists l none }

/-- The assignment `a->data = v`. -/
def setData (h : Heap) (a : Nat) (v : VoidPtr) : Option Heap :=
  match h.nodes a with
  | none => none
  | some n => some { h with nodes := upd h.nodes a (some { n with data := v }) }

/-- The assignment `a->next = p`. -/
def setNext (h : Heap) (a : Nat) (p : Iter) : Option Heap :=
  match h.nodes a with
  | none => none
  | some n => some { h with nodes := upd h.nodes a (some { n with next := p }) }

/-- The assignment `a->prev = p`. -/
def setPrev (h : Heap) (a : Nat) (p : Iter) : Option Heap :=
  match h.nodes a with
  | none => none
  | some n => some { h with nodes := upd h.nodes a (some { n with prev := p }) }

/-- The assignment `*(dll_node_t **)(p) = q`.  The program only ever does it
with `p` the content of a dummy node, the address of a list's `tail` field;
through any other pointer the store is outside what the model describes. -/
def storeNodePtr (h : Heap) (p : VoidPtr) (q : Iter) : Option Heap :=
  match p with
  | .tailField l =>
    match h.lists l with
    | none => none
    | some d => some { h with lists := upd h.lists l (some { d with tail := q }) }
  | _ => none

/-! ## The operations of `dll.c` -/

/-- The function `DLLCreate`.  The result `some (h, none)` is the return of
`NULL` after a failed allocation. -/
def DLLCreate (h : Heap) : Option (Heap × Option Nat) :=
  match mallocDll h with
  | (h, none) => some (h, none)
  | (h, some dll) =>
    match mallocNode h with
    | (h, head) =>
      let h := { h with lists := upd h.lists dll (some ⟨head, head⟩) }
      match head with
      | none => some (freeDll h dll, none)
      | some s =>
      (setNext h s none).bind fun h =>
      (setPrev h s none).bind fun h =>
      (setData h s (.tailField dll)).bind fun h =>
      some (h, some dll)

/-- The loop `while(iterator->next) iterator = iterator->next;` of
`DLLInsertBefore`, with a bound on the number of iterations. -/
def walkToEnd (h : Heap) : Nat → Nat → Option Nat
  | 0, _ => none
  | fuel + 1, it =>
    match h.nodes it with
    | none => none
    | some n =>
      match n.next with
      | none => some it
      | some nx => walkToEnd h fuel nx

/-- The function `DLLInsertBefore`.  A chain without a cycle has fewer than
`brk` nodes, so the bound given to the failure path is never the reason it
stops on such a chain. -/
def DLLInsertBefore (h : Heap) (iterator : Iter) (data : VoidPtr) : Option (Heap × Iter) :=
  match mallocNode h with
  | (h, new_node) =>
    match iterator with
    | none => none
    | some it =>
      match new_node with
      | none => (walkToEnd h (h.brk + 1) it).map fun e => (h, some e)
      | some nn =>
        (h.nodes it).bind fun n =>
        (match n.next with
          | none => storeNodePtr h n.data (some nn)
          | some nx => setPrev h nx (some nn)).bind fun h =>
        (h.nodes it).bind fun n =>
        (setData h nn n.data).bind fun h =>
        (setData h it data).bind fun h =>
        (setPrev h nn (some it)).bind fun h =>
        (h.nodes it).bind fun n =>
        (setNext h nn n.next).bind fun h =>
        (setNext h it (some nn)).bind fun h =>
        some (h, some it)

/-- The function `DLLInsertAfter`. -/
def DLLInsertAfter (h : Heap) (iterator : Iter) (data : VoidPtr) : Option (Heap × Iter) :=
  match iterator with
  | none => none
  | some it => (h.nodes it).bind fun n => DLLInsertBefore h n.next data

/-- The function `DLLRemove`. -/
def DLLRemove (h : Heap) (iterator : Iter) : Option (Heap × Iter) :=
  match iterator with
  | none => none
  | some it =>
    (h.nodes it).bind fun n =>
    match n.next with
    | none => none
    | some tmp =>
      (h.nodes tmp).bind fun t =>
      (setData h it t.data).bind fun h =>
      (h.nodes tmp).bind fun t =>
      (setNext h it t.next).bind fun h =>
      (h.nodes it).bind fun n =>
      (match n.next with
        | none => (h.nodes tmp).bind fun t => storeNodePtr h t.data (some it)
        | some nx => setPrev h nx (some it)).bind fun h =>
      some (freeNode h tmp, some it)

/-- The function `DLLPushBack`. -/
def DLLPushBack (h : Heap) (dll : Option Nat) (data : VoidPtr) : Option (Heap × Iter) :=
  match dll with
  | none => none
  | some l => (h.lists l).bind fun d => DLLInsertBefore h d.tail data

/-- The function `DLLPushFront`. -/
def DLLPushFront (h : Heap) (dll : Option Nat) (data : VoidPtr) : Option (Heap × Iter) :=
  match dll with
  | none => none
  | some l => (h.lists l).bind fun d => DLLInsertBefore h d.head data

/-- The function `DLLPopBack`. -/
def DLLPopBack (h : Heap) (dll : Option Nat) : Option (Heap × VoidPtr) :=
  match dll with
  | none => none
  | some l =>
    (h.lists l).bind fun d =>
    match d.tail with
    | none => none
    | some t =>
      (h.nodes t).bind fun tn =>
      match tn.prev with
      | none => none
      | some p =>
        (h.nodes p).bind fun pn =>
        let data := pn.data
        (DLLRemove h (some p)).bind fun r => some (r.1, data)

/-- The function `DLLPopFront`. -/
def DLLPopFront (h : Heap) (dll : Option Nat) : Option (Heap × VoidPtr) :=
  match dll with
  | none => none
  | some l =>
    (h.lists l).bind fun d =>
    match d.head with
    | none => none
    | some hd =>
      (h.nodes hd).bind fun hn =>
      let data := hn.data
      (DLLRemove h d.head).bind fun r => some (r.1, data)

/-- The function `DLLSetData`. -/
def DLLSetData (h : Heap) (iterator : Iter) (data : VoidPtr) : Option Heap :=
  match iterator with
  | none => none
  | some it => setData h it data

/-- The function `DLLGetData`. -/
def DLLGetData (h : Heap) (position : Iter) : Option VoidPtr :=
  match position with
  | none => none
  | some it => (h.nodes it).map fun n => n.data

/-- The function `DLLBegin`. -/
def DLLBegin (h : Heap) (dll : Option Nat) : Option Iter :=
  match dll with
  | none => none
  | some l => (h.lists l).map fun d => d.head

/-- The function `DLLEnd`. -/
def DLLEnd (h : Heap) (dll : Option Nat) : Option Iter :=
  match dll with
  | none => none
  | some l => (h.lists l).map fun d => d.tail

/-- The function `DLLNext`. -/
def DLLNext (h : Heap) (iterator : Iter) : Option Iter :=
  match iterator with
  | none => none
  | some it => (h.nodes it).map fun n => n.next

/-- The function `DLLPrev`. -/
def DLLPrev (h : Heap) (iterator : Iter) : Option Iter :=
  match iterator with
  | none => none
  | some it => (h.nodes it).map fun n => n.prev

/-- The function `DLLIsEmpty`. -/
def DLLIsEmpty (h : Heap) (dll : Option Nat) : Option Int :=
  match dll with
  | none => none
  | some _ =>
    (DLLBegin h dll).bind fun b =>
    (DLLEnd h dll).bind fun e =>
    some (if b = e then 1 else 0)

/-- The function `DLLIterIsEqual`. -/
def DLLIterIsEqual (iter1 iter2 : Iter) : Option Int :=
  match iter1, iter2 with
  | some a, some b => some (if a = b then 1 else 0)
  | _, _ => none

/-- The loop of `DLLForEach`.  The action is a function of the pointer it
receives, `&from->data`, and of the caller's state behind `param`; it gives its
status and the new state. -/
def DLLForEach.loop {σ : Type} (h : Heap) (to_ : Iter) (act : VoidPtr → σ → Int × σ) :
    Nat → Iter → σ → Option (Int × σ)
  | 0, _, _ => none
  | fuel + 1, frm, s =>
    if frm = to_ then some (0, s)
    else
      match frm with
      | none => none
      | some a =>
        match h.nodes a with
        | none => none
        | some n =>
          match act (.dataField a) s with
          | (status, s) =>
            if status ≠ 0 then some (status, s)
            else DLLForEach.loop h to_ act fuel n.next s

/-- The function `DLLForEach`. -/
def DLLForEach {σ : Type} (h : Heap) (frm to_ : Iter) (act : VoidPtr → σ → Int × σ)
    (param : σ) : Option (Int × σ) :=
  match frm, to_ with
  | some _, some _ => DLLForEach.loop h to_ act (h.brk + 1) frm param
  | _, _ => none

/-- The function `Action`: `param` points to a `size_t`, which it increments. -/
def Action (_data : VoidPtr) (param : Nat) : Int × Nat :=
  (0, (param + 1) % 2 ^ SIZE_BITS)

/-- The function `DLLCount`. -/
def DLLCount (h : Heap) (dll : Option Nat) : Option Nat :=
  match dll with
  | none => none
  | some l =>
    (h.lists l).bind fun d =>
    (DLLForEach h d.head d.tail Action 0).map fun r => r.2

/-- The loop of `DLLFind`. -/
def DLLFind.loop (h : Heap) (to_ : Iter) (cmp : VoidPtr → Int) : Nat → Iter → Option Iter
  | 0, _ => none
  | fuel + 1, runner =>
    if runner = to_ then some to_
    else
      match runner with
      | none => none
      | some a =>
        match h.nodes a with
        | none => none
        | some n =>
          if cmp n.data = 0 then some runner
          else DLLFind.loop h to_ cmp fuel n.next

/-- The function `DLLFind`; `cmp` is the comparison with `param` already
given. -/
def DLLFind (h : Heap) (frm to_ : Iter) (cmp : VoidPtr → Int) : Option Iter :=
  match frm, to_ with
  | some _, some _ => DLLFind.loop h to_ cmp (h.brk + 1) frm
  | _, _ => none

/-- The loop of `DLLMultiFind`: one turn is the test `found != to`, the body
and then the step `found = found->next`. -/
def DLLMultiFind.loop (to_ : Iter) (cmp : VoidPtr → Int) (dest : Option Nat) :
    Nat → Heap → Iter → Int → Option (Heap × Int)
  | 0, _, _, _ => none
  | fuel + 1, h, found, status =>
    if found = to_ then some (h, status)
    else
      (DLLFind h found to_ cmp).bind fun found =>
      (if to_ ≠ found then
        (DLLPushBack h dest found.toVoid).bind fun r =>
        (DLLNext r.1 r.2).bind fun nx =>
        if nx = none then some (r.1, found, (-1 : Int), true)
        else if status + 1 > INT_MAX then none
        else some (r.1, found, status + 1, false)
       else some (h, found, status, false)).bind fun r =>
      match r with
      | (h, found, status, ret) =>
        if ret then some (h, status)
        else (DLLNext h found).bind fun nx => DLLMultiFind.loop to_ cmp dest fuel h nx status

/-- The function `DLLMultiFind`. -/
def DLLMultiFind (h : Heap) (frm to_ : Iter) (cmp : VoidPtr → Int) (dest : Option Nat) :
    Option (Heap × Int) :=
  match dest, frm, to_ with
  | some _, some _, some _ => DLLMultiFind.loop to_ cmp dest (h.brk + 1) h frm 0
  | _, _, _ => none

/-- The first block of `DLLSplice`, the rotation of the three data slots:
`source_from->data = source_to->data; source_to->data = dest->data;
dest->data = tmp1;`. -/
def DLLSplice.rotateData (h : Heap) (d sf st : Nat) (tmp1 : VoidPtr) : Option Heap :=
  (h.nodes st).bind fun nst =>
  (setData h sf nst.data).bind fun h =>
  (h.nodes d).bind fun nd =>
  (setData h st nd.data).bind fun h =>
  setData h d tmp1

/-- The second block of `DLLSplice`, the three `next` links:
`source_to->next = dest->next; dest->next = source_from->next;
source_from->next = tmp_node;`. -/
def DLLSplice.moveLinks (h : Heap) (d sf st : Nat) (tmp_node : Iter) : Option Heap :=
  (h.nodes d).bind fun nd =>
  (setNext h st nd.next).bind fun h =>
  (h.nodes sf).bind fun nsf =>
  (setNext h d nsf.next).bind fun h =>
  setNext h sf tmp_node

/-- The statement `dest->next->prev = dest;` of `DLLSplice`. -/
def DLLSplice.setNextPrev (h : Heap) (d : Nat) : Option Heap :=
  (h.nodes d).bind fun nd =>
  match nd.next with
  | none => none
  | some dn => setPrev h dn (some d)

/-- The block `if(NULL == x->next) *(dll_node_t **)(x->data) = x; else x->next->prev = x;`
that `DLLSplice` runs for `source_from` and then for `source_to`. -/
def DLLSplice.rethread (h : Heap) (x : Nat) : Option Heap :=
  (h.nodes x).bind fun n =>
  match n.next with
  | none => storeNodePtr h n.data (some x)
  | some y => setPrev h y (some x)

/-- The function `DLLSplice`, block by block.  The three `assert`s come after
the reads of `source_from->data` and `source_to->next`, which already need both
pointers. -/
def DLLSplice (h : Heap) (dest source_from source_to : Iter) : Option Heap :=
  match source_from, source_to, dest with
  | some sf, some st, some d =>
    (h.nodes sf).bind fun nsf =>
    (h.nodes st).bind fun nst =>
    (DLLSplice.rotateData h d sf st nsf.data).bind fun h =>
    (DLLSplice.moveLinks h d sf st nst.next).bind fun h =>
    (DLLSplice.setNextPrev h d).bind fun h =>
    (DLLSplice.rethread h sf).bind fun h =>
    DLLSplice.rethread h st
  | _, _, _ => none

/-- The read `*(int *)p`: `mem` is the caller's memory, which gives the `int`
stored at a payload address. -/
def derefInt (mem : Nat → Option Int) : VoidPtr → Option Int
  | .user p => mem p
  | _ => none

/-- The function `DLLSwap`. -/
def DLLSwap (h : Heap) (iter1 iter2 : Iter) : Option Heap :=
  (DLLIterIsEqual iter1 iter2).bind fun e =>
  if e ≠ 0 then some h
  else
    match iter1, iter2 with
    | some a, some b =>
      (h.nodes a).bind fun na =>
      let tempData := na.data
      (h.nodes b).bind fun nb =>
      (setData h a nb.data).bind fun h =>
      setData h b tempData
    | _, _ => none

/-- The first inner loop of `DLLArrange`:
`while (left != right && *(int *)left->data < piv) left = DLLNext(left);`. -/
def DLLArrange.advanceLeft (h : Heap) (mem : Nat → Option Int) (piv : Int) (right : Iter) :
    Nat → Iter → Option Iter
  | 0, _ => none
  | fuel + 1, left =>
    if left = right then some left
    else
      match left with
      | none => none
      | some a =>
        (h.nodes a).bind fun n =>
        (derefInt mem n.data).bind fun x =>
        if x < piv then (DLLNext h left).bind fun nx => DLLArrange.advanceLeft h mem piv right fuel nx
        else some left

/-- The second inner loop of `DLLArrange`:
`while (left != right && *(int *)right->data > piv) right = DLLPrev(right);`. -/
def DLLArrange.retreatRight (h : Heap) (mem : Nat → Option Int) (piv : Int) (left : Iter) :
    Nat → Iter → Option Iter
  | 0, _ => none
  | fuel + 1, right =>
    if left = right then some right
    else
      match right with
      | none => none
      | some a =>
        (h.nodes a).bind fun n =>
        (derefInt mem n.data).bind fun x =>
        if x > piv then
          (DLLPrev h right).bind fun pv => DLLArrange.retreatRight h mem piv left fuel pv
        else some right

/-- The outer loop of `DLLArrange`.  Nothing in the source bounds the number
of its turns, so the bound is a parameter. -/
def DLLArrange.loop (mem : Nat → Option Int) (piv : Int) : Nat → Heap → Iter → Iter → Option Heap
  | 0, _, _, _ => none
  | fuel + 1, h, left, right =>
    if left = right then some h
    else
      (DLLNext h right).bind fun nr =>
      if left = nr then some h
      else
        (DLLArrange.advanceLeft h mem piv right (h.brk + 1) left).bind fun left =>
        (DLLArrange.retreatRight h mem piv left (h.brk + 1) right).bind fun right =>
        (DLLSwap h left right).bind fun h =>
        DLLArrange.loop mem piv fuel h left right

/-- The function `DLLArrange`, with at most `fuel` turns of its outer loop: the
call returns when some `fuel` gives a result, and does not when none does. -/
def DLLArrange (fuel : Nat) (h : Heap) (dll : Option Nat) (mem : Nat → Option Int)
    (pivot : VoidPtr) : Option Heap :=
  (DLLBegin h dll).bind fun left =>
  (DLLEnd h dll).bind fun e =>
  (DLLPrev h e).bind fun right =>
  (derefInt mem pivot).bind fun piv =>
  DLLArrange.loop mem piv fuel h left right

/-! ## The run of `DLLArrange`, its faults told apart

The functions above give `none` for every way in which the C code does not
return.  The functions below are the same code with the reason kept, and with
the pairs `(left, right)` met at the loop tests recorded in order. -/

/-- How a piece of code ends. -/
inductive Outcome (α : Type) where
  /-- It runs to its end, with the result `a`. -/
  | done (a : α)
  /-- It applies `DLLNext`, `DLLPrev`, `DLLIterIsEqual` or `->data` to a null
  iterator. -/
  | nullIter
  /-- It fails in another way: a null list pointer, a cell that is not
  allocated, a value that is not a pointer to an `int`. -/
  | otherFault
  /-- The bound on the number of turns of a loop is reached. -/
  | unfinished

/-- The result, when the code runs to its end. -/
def Outcome.toOption {α : Type} : Outcome α → Option α
  | .done a => some a
  | _ => none

/-- The pairs `(left, right)` met so far, with how the code ended. -/
abbrev Traced (α : Type) := List (Iter × Iter) × Outcome α

/-- Sequencing: the code `f` runs on the result of `r`, when `r` ran to its end. -/
def Traced.andThen {α β : Type} (r : Traced α) (f : α → Traced β) : Traced β :=
  match r.2 with
  | .done a => (r.1 ++ (f a).1, (f a).2)
  | .nullIter => (r.1, .nullIter)
  | .otherFault => (r.1, .otherFault)
  | .unfinished => (r.1, .unfinished)

/-- The access `it->field` through an iterator. -/
def readNode (h : Heap) (it : Iter) : Outcome Node :=
  match it with
  | none => .nullIter
  | some a =>
    match h.nodes a with
    | none => .otherFault
    | some n => .done n

/-- The read `*(int *)p`. -/
def readInt (mem : Nat → Option Int) (p : VoidPtr) : Outcome Int :=
  match derefInt mem p with
  | none => .otherFault
  | some x => .done x

/-- The first inner loop of `DLLArrange`, as `DLLArrange.advanceLeft`. -/
def DLLArrange.advanceLeftRun (h : Heap) (mem : Nat → Option Int) (piv : Int) (right : Iter) :
    Nat → Iter → Traced Iter
  | 0, left => ([(left, right)], .unfinished)
  | fuel + 1, left =>
    if left = right then ([(left, right)], .done left)
    else
      Traced.andThen ([(left, right)], readNode h left) fun n =>
      Traced.andThen ([], readInt mem n.data) fun x =>
      if x < piv then DLLArrange.advanceLeftRun h mem piv right fuel n.next
      else ([], .done left)

/-- The second inner loop of `DLLArrange`, as `DLLArrange.retreatRight`. -/
def DLLArrange.retreatRightRun (h : Heap) (mem : Nat → Option Int) (piv : Int) (left : Iter) :
    Nat → Iter → Traced Iter
  | 0, right => ([(left, right)], .unfinished)
  | fuel + 1, right =>
    if left = right then ([(left, right)], .done right)
    else
      Traced.andThen ([(left, right)], readNode h right) fun n =>
      Traced.andThen ([], readInt mem n.data) fun x =>
      if x > piv then DLLArrange.retreatRightRun h mem piv left fuel n.prev
      else ([], .done right)

/-- The call `DLLSwap(left, right)`, as `DLLSwap`. -/
def DLLSwapRun (h : Heap) (iter1 iter2 : Iter) : Outcome Heap :=
  match DLLSwap h iter1 iter2 with
  | some h => .done h
  | none => if iter1 = none ∨ iter2 = none then .nullIter else .otherFault

/-- The outer loop of `DLLArrange`, as `DLLArrange.loop`. -/
def DLLArrange.loopRun (mem : Nat → Option Int) (piv : Int) :
    Nat → Heap → Iter → Iter → Traced Heap
  | 0, _, left, right => ([(left, right)], .unfinished)
  | fuel + 1, h, left, right =>
    if left = right then ([(left, right)], .done h)
    else
      Traced.andThen ([(left, right)], readNode h right) fun rn =>
      if left = rn.next then ([], .done h)
      else
        Traced.andThen (DLLArrange.advanceLeftRun h mem piv right (h.brk + 1) left) fun left =>
        Traced.andThen (DLLArrange.retreatRightRun h mem piv left (h.brk + 1) right) fun right =>
        Traced.andThen ([], DLLSwapRun h left right) fun h =>
        DLLArrange.loopRun mem piv fuel h left right

/-- The function `DLLArrange`, as `DLLArrange` above. -/
def DLLArrange.run (fuel : Nat) (h : Heap) (dll : Option Nat) (mem : Nat → Option Int)
    (pivot : VoidPtr) : Traced Heap :=
  match dll with
  | none => ([], .otherFault)
  | some l =>
    match h.lists l with
    | none => ([], .otherFault)
    | some d =>
      Traced.andThen ([], readNode h d.tail) fun en =>
      Traced.andThen ([], readInt mem pivot) fun piv =>
      DLLArrange.loopRun mem piv fuel h d.head en.prev

/-! ## Reading a list through its public interface -/

/-- The walk `for (it = from; it != to; it = DLLNext(it))` collecting
`DLLGetData(it)`. -/
def collect (h : Heap) (to_ : Iter) : Nat → Iter → Option (List VoidPtr)
  | 0, _ => none
  | fuel + 1, it =>
    if it = to_ then some []
    else
      (DLLGetData h it).bind fun d =>
      (DLLNext h it).bind fun nx =>
      (collect h to_ fuel nx).map fun ds => d :: ds

/-- The value sequence of a list: the data read with `DLLGetData` while
walking with `DLLNext` from `DLLBegin` to `DLLEnd`. -/
def values (h : Heap) (l : Nat) : Option (List VoidPtr) :=
  (DLLBegin h (some l)).bind fun b =>
  (DLLEnd h (some l)).bind fun e =>
  collect h e (h.brk + 1) b

/-- The iterator reached from `it` by `k` calls of `DLLNext`. -/
def advance (h : Heap) : Nat → Iter → Option Iter
  | 0, it => some it
  | k + 1, it => (DLLNext h it).bind fun nx => advance h k nx

/-- The iterator at position `i` of a list: `DLLBegin` followed by `i` calls of
`DLLNext`.  Position `count` is the dummy, `DLLEnd`. -/
def iterAt (h : Heap) (l : Nat) (i : Nat) : Option Iter :=
  (DLLBegin h (some l)).bind fun b => advance h i b

/-! ## Well-formed lists -/

/-- The pointer to the first node of a run of nodes, `dflt` for an empty run. -/
def hdPtr (as : List Nat) (dflt : Iter) : Iter :=
  match as with
  | [] => dflt
  | a :: _ => some a

/-- The pointer to the last node of a run of nodes, `dflt` for an empty run. -/
def lastPtr (as : List Nat) (dflt : Iter) : Iter :=
  match as.getLast? with
  | none => dflt
  | some a => some a

/-- A run of linked nodes: the nodes at the addresses `as` hold the data `ds`,
each one's `next` is the following one (`nxt` for the last) and each one's `prev`
the preceding one (`prv` for the first). -/
def Seg (h : Heap) : Iter → List Nat → List VoidPtr → Iter → Prop
  | prv, a :: as, d :: ds, nxt =>
    h.nodes a = some ⟨d, hdPtr as nxt, prv⟩ ∧ Seg h (some a) as ds nxt
  | _, [], [], _ => True
  | _, _ :: _, [], _ => False
  | _, [], _ :: _, _ => False

/-- The list header at `l` describes the chain of nodes `as`, the last of which
is the dummy: node `as[i]` holds `ds[i]`, the chain is linked in both directions
from `head` to the dummy, whose `next` is `NULL` and whose data slot is the
address of the `tail` field of `l`. -/
structure ListRep (h : Heap) (l : Nat) (as : List Nat) (ds : List VoidPtr) : Prop where
  seg : Seg h none as ds none
  nodup : as.Nodup
  dummy : ds.getLast? = some (.tailField l)
  header : h.lists l = some ⟨as.head?, as.getLast?⟩

/-- The allocator state is sound: nothing is allocated at or beyond `brk`, and
every address handed out fits in a `size_t`. -/
structure Heap.Valid (h : Heap) : Prop where
  nodes_brk : ∀ a, h.brk ≤ a → h.nodes a = none
  lists_brk : ∀ a, h.brk ≤ a → h.lists a = none
  nodes_size : ∀ a, 2 ^ SIZE_BITS ≤ a → h.nodes a = none
  ok_size : ∀ a, 2 ^ SIZE_BITS ≤ a → h.mallocOk a = false

/-- Well-formedness of the list at `l`, as the specification words it, with
`count` the number of real nodes: the dummy `tail` is reached from `head` by
following `next` exactly `count` times, `tail.next` is null, `tail.prev` is null
iff the list is empty, `head.prev` is null, `n.next.prev == n` for every real
node `n`, and the data slot of the dummy refers to the `tail` field of `l`. -/
def WellFormed (h : Heap) (l : Nat) : Prop :=
  ∃ hd tl count,
    DLLBegin h (some l) = some (some hd) ∧
    DLLEnd h (some l) = some (some tl) ∧
    advance h count (some hd) = some (some tl) ∧
    DLLNext h (some tl) = some none ∧
    (DLLPrev h (some tl) = some none ↔ count = 0) ∧
    DLLPrev h (some hd) = some none ∧
    (∀ k, k < count →
      ∃ n, advance h k (some hd) = some n ∧ (DLLNext h n).bind (DLLPrev h) = some n) ∧
    DLLGetData h (some tl) = some (.tailField l)

/-! ## The heaps that insertion and removal produce -/

/-- The heap after a successful `DLLInsertBefore` in front of a node that has a successor. -/
def insertedMid (h : Heap) (it b : Nat) (v : VoidPtr) (n m : Node) : Heap :=
  { h with
    nodes := upd (upd (upd h.nodes b (some { m with prev := some h.brk }))
      h.brk (some ⟨n.data, some b, some it⟩)) it (some ⟨v, some h.brk, n.prev⟩),
    brk := h.brk + 1 }

/-- The heap after a successful `DLLInsertBefore` in front of the dummy of list `l`. -/
def insertedEnd (h : Heap) (it l : Nat) (v : VoidPtr) (n : Node) (d : Dll) : Heap :=
  { h with
    nodes := upd (upd h.nodes h.brk (some ⟨n.data, none, some it⟩))
      it (some ⟨v, some h.brk, n.prev⟩),
    lists := upd h.lists l (some { d with tail := some h.brk }),
    brk := h.brk + 1 }

/-- The heap after `DLLRemove` of a node whose successor is itself followed by a node. -/
def removedMid (h : Heap) (it tmp c : Nat) (n t m : Node) : Heap :=
  { h with
    nodes := upd (upd (upd h.nodes it (some ⟨t.data, some c, n.prev⟩))
      c (some { m with prev := some it })) tmp none }

/-- The heap after `DLLRemove` of the node in front of the dummy of list `l`. -/
def removedEnd (h : Heap) (it tmp l : Nat) (n t : Node) (d : Dll) : Heap :=
  { h with
    nodes := upd (upd h.nodes it (some ⟨t.data, none, n.prev⟩)) tmp none,
    lists := upd h.lists l (some { d with tail := some it }) }

/-! ## Sequences of calls -/

/-- Pushing the values `vs` in order with `DLLPushBack`. -/
def pushBackAll (h : Heap) (l : Nat) : List VoidPtr → Option Heap
  | [] => some h
  | v :: vs => (DLLPushBack h (some l) v).bind fun r => pushBackAll r.1 l vs

/-- Pushing the values `vs` in order with `DLLPushFront`. -/
def pushFrontAll (h : Heap) (l : Nat) : List VoidPtr → Option Heap
  | [] => some h
  | v :: vs => (DLLPushFront h (some l) v).bind fun r => pushFrontAll r.1 l vs

/-- Successive calls of `DLLPopFront`, `n` of them, with the values they
return, in the order of the calls. -/
def popFrontAll (h : Heap) (l : Nat) : Nat → Option (Heap × List VoidPtr)
  | 0 => some (h, [])
  | n + 1 =>
    (DLLPopFront h (some l)).bind fun r =>
    (popFrontAll r.1 l n).map fun q => (q.1, r.2 :: q.2)

/-- Successive calls of `DLLPopBack`, `n` of them, with the values they return,
in the order of the calls. -/
def popBackAll (h : Heap) (l : Nat) : Nat → Option (Heap × List VoidPtr)
  | 0 => some (h, [])
  | n + 1 =>
    (DLLPopBack h (some l)).bind fun r =>
    (popBackAll r.1 l n).map fun q => (q.1, r.2 :: q.2)

/-- A call of one of the four push and pop functions. -/
inductive Op where
  | pushBack (v : VoidPtr)
  | pushFront (v : VoidPtr)
  | popBack
  | popFront
  deriving DecidableEq, Repr

/-- The heap after one call on the list at `l`. -/
def applyOp (h : Heap) (l : Nat) : Op → Option Heap
  | .pushBack v => (DLLPushBack h (some l) v).map fun r => r.1
  | .pushFront v => (DLLPushFront h (some l) v).map fun r => r.1
  | .popBack => (DLLPopBack h (some l)).map fun r => r.1
  | .popFront => (DLLPopFront h (some l)).map fun r => r.1

/-- The heap after a sequence of calls on the list at `l`. -/
def runOps (h : Heap) (l : Nat) : List Op → Option Heap
  | [] => some h
  | op :: ops => (applyOp h l op).bind fun h => runOps h l ops

/-- Whether the call is a push. -/
def Op.isPush : Op → Bool
  | .pushBack _ => true
  | .pushFront _ => true
  | .popBack => false
  | .popFront => false

/-- The number of pushes in a sequence of calls. -/
def pushes (ops : List Op) : Nat := ops.countP fun op => op.isPush

/-- The number of pops in a sequence of calls. -/
def pops (ops : List Op) : Nat := ops.countP fun op => !op.isPush

/-- No pop of the sequence is issued on an empty list, when the list holds `n`
elements before the first call and every push succeeds. -/
def popsOk : Nat → List Op → Bool
  | _, [] => true
  | n, op :: ops => if op.isPush then popsOk (n + 1) ops else n ≠ 0 && popsOk (n - 1) ops

/-! ## Observing the callbacks -/

/-- What `DLLForEach` does on the nodes `as` of a range: the action is applied
to the nodes in order, each time on the address of the node's data slot, until
it gives a status other than 0, which is then the result; the result is 0 when
it never does. -/
def forEachSpec {σ : Type} (act : VoidPtr → σ → Int × σ) : List Nat → σ → Int × σ
  | [], s => (0, s)
  | a :: as, s =>
    match act (.dataField a) s with
    | (status, s) => if status ≠ 0 then (status, s) else forEachSpec act as s

/-- The action `act` with a record of its calls: each call appends the pointer
it was handed and the status it gave to the record kept next to the state. -/
def logged {σ : Type} (act : VoidPtr → σ → Int × σ) (p : VoidPtr)
    (s : σ × List (VoidPtr × Int)) : Int × (σ × List (VoidPtr × Int)) :=
  match act p s.1 with
  | (status, s') => (status, (s', s.2 ++ [(p, status)]))

/-- The nodes among `as`, holding the data `ds`, on whose data the comparison
function gives 0, in order. -/
def matching (cmp : VoidPtr → Int) : List Nat → List VoidPtr → List Nat
  | a :: as, d :: ds => if cmp d = 0 then a :: matching cmp as ds else matching cmp as ds
  | _, _ => []

/-- The iterators, as `void *`, of the nodes at the positions `i`, ..., `i + n - 1`
of the list at `l` on whose value the comparison function gives 0, in order. -/
def matchesIn (h : Heap) (l : Nat) (cmp : VoidPtr → Int) (i n : Nat) : List VoidPtr :=
  (List.range' i n).filterMap fun k =>
    match iterAt h l k with
    | some it =>
      match DLLGetData h it with
      | some d => if cmp d = 0 then some it.toVoid else none
      | none => none
    | none => none

/-! ## Calls that change the shape of a list -/

/-- The iterator `it` belongs to the list at `l`: it is not null and is reached
from `DLLBegin` by calls of `DLLNext`. -/
def IsIter (h : Heap) (l : Nat) (it : Iter) : Prop :=
  it ≠ none ∧ ∃ i, iterAt h l i = some it

/-- The iterator `it` denotes a real node of the list at `l`, not the dummy. -/
def IsRealIter (h : Heap) (l : Nat) (it : Iter) : Prop :=
  IsIter h l it ∧ DLLEnd h (some l) ≠ some it

/-- A call of a public function that allocates or frees a node of a list. -/
inductive Call where
  | insertBefore (it : Iter) (v : VoidPtr)
  | insertAfter (it : Iter) (v : VoidPtr)
  | pushBack (v : VoidPtr)
  | pushFront (v : VoidPtr)
  | remove (it : Iter)
  | popBack
  | popFront

/-- The heap after the call, on the list at `l` for the push and pop functions. -/
def Call.run (h : Heap) (l : Nat) : Call → Option Heap
  | .insertBefore it v => (DLLInsertBefore h it v).map fun r => r.1
  | .insertAfter it v => (DLLInsertAfter h it v).map fun r => r.1
  | .pushBack v => (DLLPushBack h (some l) v).map fun r => r.1
  | .pushFront v => (DLLPushFront h (some l) v).map fun r => r.1
  | .remove it => (DLLRemove h it).map fun r => r.1
  | .popBack => (DLLPopBack h (some l)).map fun r => r.1
  | .popFront => (DLLPopFront h (some l)).map fun r => r.1

/-- The call is made within its precondition on the list at `l` and, when it
allocates, the allocation succeeds. -/
def Call.pre (h : Heap) (l : Nat) : Call → Prop
  | .insertBefore it _ => IsIter h l it ∧ h.mallocOk h.brk = true
  | .insertAfter it _ => IsRealIter h l it ∧ h.mallocOk h.brk = true
  | .pushBack _ => h.mallocOk h.brk = true
  | .pushFront _ => h.mallocOk h.brk = true
  | .remove it => IsRealIter h l it
  | .popBack => DLLIsEmpty h (some l) = some 0
  | .popFront => DLLIsEmpty h (some l) = some 0

/-- The result of a call of one of the four inserting functions, on the list
at `l` for the two push functions. -/
def Call.insert (h : Heap) (l : Nat) : Call → Option (Heap × Iter)
  | .insertBefore it v => DLLInsertBefore h it v
  | .insertAfter it v => DLLInsertAfter h it v
  | .pushBack v => DLLPushBack h (some l) v
  | .pushFront v => DLLPushFront h (some l) v
  | _ => none

/-- The call is one of the four inserting functions and is made within its
precondition on the list at `l`, whatever the allocation does. -/
def Call.insertPre (h : Heap) (l : Nat) : Call → Prop
  | .insertBefore it _ => IsIter h l it
  | .insertAfter it _ => IsRealIter h l it
  | .pushBack _ => True
  | .pushFront _ => True
  | _ => False

/-! ## Concrete heaps -/

/-- The heap with nothing allocated in which the first thousand calls of
`malloc` succeed. -/
def emptyHeap : Heap := Heap.empty fun n => decide (n < 1000)

/-- The heap after `DLLCreate` in the empty heap: the list is at address 0. -/
def createdHeap : Heap :=
  match DLLCreate emptyHeap with
  | some (h, _) => h
  | none => emptyHeap

/-- The heap in which the list at address 0 holds the payloads 1, 2, 3, pushed
in this order with `DLLPushBack` on the newly created list. -/
def exHeap : Heap :=
  match pushBackAll createdHeap 0 [.user 1, .user 2, .user 3] with
  | some h => h
  | none => emptyHeap

/-- A comparison function: it gives 0 on the payload 2 and 1 on anything else. -/
def isTwo (p : VoidPtr) : Int := if p = .user 2 then 0 else 1

/-- The heap in which the list at address 0 holds the payloads `vs`, pushed
with `DLLPushBack`, and a second list, empty, has just been created. -/
def searchHeap (vs : List VoidPtr) : Option (Heap × Option Nat) :=
  (pushBackAll createdHeap 0 vs).bind fun h => DLLCreate h

/-- The heap with the list 2, 5 at address 0 and an empty list at address 4. -/
def twoFiveHeap : Heap :=
  match searchHeap [.user 2, .user 5] with
  | some (h, _) => h
  | none => emptyHeap

/-- The heap with the list 2, 5, 2, 7, 2 at address 0 and an empty list at
address 7. -/
def fiveHeap : Heap :=
  match searchHeap [.user 2, .user 5, .user 2, .user 7, .user 2] with
  | some (h, _) => h
  | none => emptyHeap

/-- The heap of the list 1, 2, 3 when no memory is left: every further call of
`malloc` fails. -/
def fullHeap : Heap := { exHeap with mallocOk := fun _ => false }

/-- The heap of the lists 2, 5, 2, 7, 2 (at address 0) and empty (at address 7)
when memory is left for one more node only: the call of `malloc` number 9
succeeds and every later one fails. -/
def lowHeap : Heap := { fiveHeap with mallocOk := fun n => decide (n < 10) }

/-- The heap with the list 1, 2, 3, 4 at address 0 (nodes 1 to 4, dummy 5) and
an empty list at address 6. -/
def fourHeap : Heap :=
  match searchHeap [.user 1, .user 2, .user 3, .user 4] with
  | some (h, _) => h
  | none => emptyHeap

/-- The heap with the list 1, 2, 3, 4 at address 0 (nodes 1 to 4, dummy 5) and
the list 10, 20 at address 6 (nodes 7 and 8, dummy 9). -/
def pairHeap : Heap :=
  match pushBackAll fourHeap 6 [.user 10, .user 20] with
  | some h => h
  | none => emptyHeap

/-- A memory of the caller in which the `int` at the address `p` is `p`: the
payload `.user p` is then a pointer to the integer `p`. -/
def intMem : Nat → Option Int := fun p => some (p : Int)

/-- The heap in which the list at address 0 holds pointers to the integers
8, 1, 9, 3, 5, 2 (nodes 1 to 6, dummy 7). -/
def arrHeap : Heap :=
  match pushBackAll createdHeap 0 [.user 8, .user 1, .user 9, .user 3, .user 5, .user 2] with
  | some h => h
  | none => emptyHeap

/-- A memory of the caller in which the `int` at every address is 5. -/
def fiveMem : Nat → Option Int := fun _ => some 5

/-- The heap in which the list at address 0 holds the pointers `.user 1` and
`.user 2` (nodes 1 and 2, dummy 3): with `fiveMem`, the list of integers 5, 5. -/
def fivesHeap : Heap :=
  match pushBackAll createdHeap 0 [.user 1, .user 2] with
  | some h => h
  | none => emptyHeap

/-- The heap after `DLLArrange` with pivot 5 on the list 8, 1, 9, 3, 5, 2. -/
def arrangedHeap : Heap :=
  match DLLArrange 5 arrHeap (some 0) intMem (.user 5) with
  | some g => g
  | none => emptyHeap

/-- An action on a counter: it counts its calls and gives the status 7 on the
data slot of node 2, the status 0 elsewhere. -/
def stopAtTwo (p : VoidPtr) (n : Nat) : Int × Nat :=
  (if p = .dataField 2 then 7 else 0, n + 1)

/-- An action of the caller that counts its calls and tests its first argument
with `isTwo`: the status 7 when it is handed the payload 2, the status 0
otherwise. -/
def stopAtValueTwo (data : VoidPtr) (n : Nat) : Int × Nat :=
  (if isTwo data = 0 then 7 else 0, n + 1)

/-! ## Memory lemmas -/

@[simp] theorem upd_same {α : Type} (f : Nat → Option α) (a : Nat) (x : Option α) :
    upd f a x a = x := by simp [upd]

theorem upd_other {α : Type} (f : Nat → Option α) {a b : Nat} (x : Option α) (hne : b ≠ a) :
    upd f a x b = f b := by simp [upd, hne]

@[simp] theorem hdPtr_nil (d : Iter) : hdPtr [] d = d := rfl
@[simp] theorem hdPtr_cons (a : Nat) (as : List Nat) (d : Iter) : hdPtr (a :: as) d = some a := rfl
@[simp] theorem lastPtr_nil (d : Iter) : lastPtr [] d = d := rfl
@[simp] theorem lastPtr_singleton (a : Nat) (d : Iter) : lastPtr [a] d = some a := rfl

theorem lastPtr_cons (a : Nat) (as : List Nat) (d : Iter) :
    lastPtr (a :: as) d = lastPtr as (some a) := by
  cases as with
  | nil => rfl
  | cons b bs =>
    cases hl : (b :: bs).getLast? with
    | none => simp at hl
    | some x => simp [lastPtr, List.getLast?_cons_cons, hl]

theorem lastPtr_append_cons (as : List Nat) (b : Nat) (bs : List Nat) (d : Iter) :
    lastPtr (as ++ b :: bs) d = lastPtr (b :: bs) d := by
  simp [lastPtr, List.getLast?_append]
  cases h : (b :: bs).getLast? with
  | none => simp at h
  | some x => simp

theorem hdPtr_append_cons (as : List Nat) (b : Nat) (bs : List Nat) (d : Iter) :
    hdPtr (as ++ b :: bs) d = hdPtr as (some b) := by
  cases as <;> rfl

/-! ## Runs of nodes -/

theorem seg_length {h : Heap} : ∀ {as : List Nat} {ds : List VoidPtr} {p n : Iter},
    Seg h p as ds n → as.length = ds.length
  | [], [], _, _, _ => rfl
  | _ :: _, [], _, _, hs => by simp [Seg] at hs
  | [], _ :: _, _, _, hs => by simp [Seg] at hs
  | _ :: as, _ :: ds, _, _, hs => by
    simp only [Seg] at hs
    simp [seg_length hs.2]

theorem seg_frame {h h' : Heap} : ∀ {as : List Nat} {ds : List VoidPtr} {p n : Iter},
    (∀ a ∈ as, h'.nodes a = h.nodes a) → Seg h p as ds n → Seg h' p as ds n
  | [], [], _, _, _, _ => trivial
  | _ :: _, [], _, _, _, hs => by simp [Seg] at hs
  | [], _ :: _, _, _, _, hs => by simp [Seg] at hs
  | a :: as, _ :: ds, _, _, hf, hs => by
    simp only [Seg] at hs ⊢
    exact ⟨by rw [hf a (List.mem_cons_self _ _)]; exact hs.1,
      seg_frame (fun b hb => hf b (List.mem_cons_of_mem _ hb)) hs.2⟩

theorem seg_append {h : Heap} : ∀ {as : List Nat} {ds : List VoidPtr} {bs : List Nat}
    {e : List VoidPtr} {p n : Iter},
    Seg h p as ds (hdPtr bs n) → Seg h (lastPtr as p) bs e n → Seg h p (as ++ bs) (ds ++ e) n
  | [], [], _, _, _, _, _, h2 => by simpa using h2
  | _ :: _, [], _, _, _, _, h1, _ => by simp [Seg] at h1
  | [], _ :: _, _, _, _, _, h1, _ => by simp [Seg] at h1
  | a :: as, d :: ds, bs, es, p, n, h1, h2 => by
    simp only [Seg] at h1
    simp only [List.cons_append, Seg]
    refine ⟨?_, seg_append h1.2 (by rwa [lastPtr_cons] at h2)⟩
    rw [h1.1]
    cases as <;> cases bs <;> simp

theorem seg_split {h : Heap} : ∀ {as : List Nat} {ds : List VoidPtr} {bs : List Nat}
    {es : List VoidPtr} {p n : Iter},
    as.length = ds.length → Seg h p (as ++ bs) (ds ++ es) n →
    Seg h p as ds (hdPtr bs n) ∧ Seg h (lastPtr as p) bs es n
  | [], [], _, _, _, _, _, hs => by simpa [Seg] using hs
  | _ :: _, [], _, _, _, _, hl, _ => by simp at hl
  | [], _ :: _, _, _, _, _, hl, _ => by simp at hl
  | a :: as, d :: ds, bs, es, p, n, hl, hs => by
    simp only [List.cons_append, Seg] at hs
    have ih := seg_split (by simpa using hl) hs.2
    simp only [Seg, lastPtr_cons]
    refine ⟨⟨?_, ih.1⟩, ih.2⟩
    rw [hs.1]
    cases as <;> cases bs <;> simp

theorem seg_alloc {h : Heap} : ∀ {as : List Nat} {ds : List VoidPtr} {p n : Iter},
    Seg h p as ds n → ∀ a ∈ as, ∃ nd, h.nodes a = some nd
  | [], _, _, _, _, _, ha => by simp at ha
  | _ :: _, [], _, _, hs, _, _ => by simp [Seg] at hs
  | b :: as, _ :: ds, _, _, hs, a, ha => by
    simp only [Seg] at hs
    rcases List.mem_cons.1 ha with rfl | ha
    · exact ⟨_, hs.1⟩
    · exact seg_alloc hs.2 a ha

theorem nodup_length_le {as : List Nat} {n : Nat} (hnd : as.Nodup) (hlt : ∀ a ∈ as, a < n) :
    as.length ≤ n := by
  have hsub : as ⊆ List.range n := fun a ha => List.mem_range.2 (hlt a ha)
  simpa using (List.subperm_of_subset hnd hsub).length_le

theorem seg_lt_brk {h : Heap} (hv : h.Valid) {as : List Nat} {ds : List VoidPtr} {p n : Iter}
    (hs : Seg h p as ds n) : ∀ a ∈ as, a < h.brk := by
  intro a ha
  obtain ⟨nd, hnd⟩ := seg_alloc hs a ha
  by_contra hge
  rw [hv.nodes_brk a (not_lt.1 hge)] at hnd
  cases hnd

theorem seg_lt_size {h : Heap} (hv : h.Valid) {as : List Nat} {ds : List VoidPtr} {p n : Iter}
    (hs : Seg h p as ds n) : ∀ a ∈ as, a < 2 ^ SIZE_BITS := by
  intro a ha
  obtain ⟨nd, hnd⟩ := seg_alloc hs a ha
  by_contra hge
  rw [hv.nodes_size a (not_lt.1 hge)] at hnd
  cases hnd

/-! ## Walking along a run -/

theorem collect_seg {h : Heap} {to_ : Iter} : ∀ {as : List Nat} {ds : List VoidPtr} {p : Iter}
    (fuel : Nat), Seg h p as ds to_ → (∀ a ∈ as, some a ≠ to_) → as.length < fuel →
    collect h to_ fuel (hdPtr as to_) = some ds
  | [], [], _, fuel + 1, _, _, _ => by simp [collect]
  | [], [], _, 0, _, _, hf => by simp at hf
  | _ :: _, [], _, _, hs, _, _ => by simp [Seg] at hs
  | [], _ :: _, _, _, hs, _, _ => by simp [Seg] at hs
  | a :: as, d :: ds, _, 0, _, _, hf => by simp at hf
  | a :: as, d :: ds, _, fuel + 1, hs, hne, hf => by
    simp only [Seg] at hs
    have ih := collect_seg fuel hs.2 (fun b hb => hne b (List.mem_cons_of_mem _ hb))
      (by simpa using hf)
    simp [collect, hne a (List.mem_cons_self _ _), DLLGetData, DLLNext, hs.1, ih]

theorem advance_seg {h : Heap} {nxt : Iter} : ∀ {as : List Nat} {ds : List VoidPtr} {p : Iter}
    (i : Nat), Seg h p as ds nxt → i ≤ as.length →
    advance h i (hdPtr as nxt) = some (hdPtr (as.drop i) nxt)
  | _, _, _, 0, _, _ => by simp [advance]
  | [], _, _, i + 1, _, hi => by simp at hi
  | _ :: _, [], _, _, hs, _ => by simp [Seg] at hs
  | a :: as, d :: ds, _, i + 1, hs, hi => by
    simp only [Seg] at hs
    have ih := advance_seg i hs.2 (by simpa using hi)
    simp [advance, DLLNext, hs.1, ih]

theorem forEach_count_seg {h : Heap} {to_ : Iter} : ∀ {as : List Nat} {ds : List VoidPtr}
    {p : Iter} (fuel c : Nat), Seg h p as ds to_ → (∀ a ∈ as, some a ≠ to_) →
    as.length < fuel → c + as.length < 2 ^ SIZE_BITS →
    DLLForEach.loop h to_ Action fuel (hdPtr as to_) c = some (0, c + as.length)
  | [], [], _, fuel + 1, _, _, _, _, _ => by simp [DLLForEach.loop]
  | [], [], _, 0, _, _, _, hf, _ => by simp at hf
  | _ :: _, [], _, _, _, hs, _, _, _ => by simp [Seg] at hs
  | [], _ :: _, _, _, _, hs, _, _, _ => by simp [Seg] at hs
  | a :: as, d :: ds, _, 0, _, _, _, hf, _ => by simp at hf
  | a :: as, d :: ds, _, fuel + 1, c, hs, hne, hf, hc => by
    simp only [Seg] at hs
    have hlt : c + 1 < 2 ^ SIZE_BITS := by simp only [List.length_cons] at hc; omega
    have ih := forEach_count_seg fuel (c + 1) hs.2
      (fun b hb => hne b (List.mem_cons_of_mem _ hb)) (by simpa using hf)
      (by simp only [List.length_cons] at hc; omega)
    simp only [DLLForEach.loop, hdPtr_cons, hne a (List.mem_cons_self _ _), if_false, hs.1,
      Action, Nat.mod_eq_of_lt hlt, ne_eq, not_true_eq_false, ih, List.length_cons]
    congr 2; omega

/-! ## Well-formed lists: the chain and its dummy -/

theorem repr_unfold {h : Heap} {l : Nat} {as : List Nat} {ds : List VoidPtr}
    (hr : ListRep h l as ds) :
    ∃ ns s vs, as = ns ++ [s] ∧ ds = vs ++ [.tailField l] ∧ ns.length = vs.length ∧
      Seg h none ns vs (some s) ∧ h.nodes s = some ⟨.tailField l, none, lastPtr ns none⟩ ∧
      s ∉ ns ∧ ns.Nodup ∧ h.lists l = some ⟨hdPtr ns (some s), some s⟩ := by
  have hlen := seg_length hr.seg
  have hds : ds.dropLast ++ [.tailField l] = ds :=
    List.dropLast_append_getLast? _ (by simp [hr.dummy])
  have hne : as ≠ [] := by
    intro h0
    rw [h0, ← hds] at hlen
    simp at hlen
  have has : as.dropLast ++ [as.getLast hne] = as := List.dropLast_append_getLast hne
  have hl2 : as.dropLast.length = ds.dropLast.length := by simp [hlen]
  have hseg := hr.seg
  rw [← has, ← hds] at hseg
  obtain ⟨h1, h2⟩ := seg_split hl2 hseg
  have hnd := hr.nodup
  rw [← has] at hnd
  have hnd2 := List.nodup_append.1 hnd
  refine ⟨as.dropLast, as.getLast hne, ds.dropLast, has.symm, hds.symm, hl2, by simpa using h1,
    by simpa [Seg] using h2, ?_, hnd2.1, ?_⟩
  · intro hmem
    exact hnd2.2.2 hmem (List.mem_singleton_self _)
  · rw [hr.header]
    congr 2
    · conv_lhs => rw [← has]
      cases as.dropLast <;> simp
    · rw [List.getLast?_eq_getLast _ hne]

theorem repr_fold {h : Heap} {l : Nat} {ns : List Nat} {s : Nat} {vs : List VoidPtr}
    (hseg : Seg h none ns vs (some s))
    (hs : h.nodes s = some ⟨.tailField l, none, lastPtr ns none⟩)
    (hmem : s ∉ ns) (hnd : ns.Nodup)
    (hhd : h.lists l = some ⟨hdPtr ns (some s), some s⟩) :
    ListRep h l (ns ++ [s]) (vs ++ [.tailField l]) where
  seg := seg_append (by simpa using hseg) (by simpa [Seg] using hs)
  nodup := by
    refine List.nodup_append.2 ⟨hnd, List.nodup_singleton _, ?_⟩
    intro a ha hb
    rw [List.mem_singleton] at hb
    exact hmem (hb ▸ ha)
  dummy := by simp
  header := by
    rw [hhd]
    congr 2
    · cases ns <;> simp
    · simp

theorem repr_length_lt {h : Heap} (hv : h.Valid) {l : Nat} {as : List Nat} {ds : List VoidPtr}
    (hr : ListRep h l as ds) : as.length ≤ h.brk ∧ as.length ≤ 2 ^ SIZE_BITS :=
  ⟨nodup_length_le hr.nodup (seg_lt_brk hv hr.seg),
    nodup_length_le hr.nodup (seg_lt_size hv hr.seg)⟩

theorem repr_values {h : Heap} (hv : h.Valid) {l : Nat} {as : List Nat} {ds : List VoidPtr}
    (hr : ListRep h l as ds) : values h l = some ds.dropLast := by
  obtain ⟨ns, s, vs, rfl, rfl, hl, hseg, hs, hmem, hnd, hhd⟩ := repr_unfold hr
  have hb := (repr_length_lt hv hr).1
  simp only [List.length_append, List.length_singleton] at hb
  have := collect_seg (h.brk + 1) hseg
    (fun a ha he => hmem (by rw [Option.some.injEq] at he; exact he ▸ ha)) (by omega)
  simp [values, DLLBegin, DLLEnd, hhd, this]

theorem repr_count {h : Heap} (hv : h.Valid) {l : Nat} {as : List Nat} {ds : List VoidPtr}
    (hr : ListRep h l as ds) : DLLCount h (some l) = some (as.length - 1) := by
  obtain ⟨ns, s, vs, rfl, rfl, hl, hseg, hs, hmem, hnd, hhd⟩ := repr_unfold hr
  have hb := repr_length_lt hv hr
  simp only [List.length_append, List.length_singleton] at hb
  have := forEach_count_seg (h.brk + 1) 0 hseg
    (fun a ha he => hmem (by rw [Option.some.injEq] at he; exact he ▸ ha)) (by omega) (by omega)
  cases ns with
  | nil => simp [DLLCount, DLLForEach, hhd, DLLForEach.loop]
  | cons a ns => simp [DLLCount, DLLForEach, hhd] at this ⊢; simp [this]

theorem repr_iterAt {h : Heap} {l : Nat} {as : List Nat} {ds : List VoidPtr}
    (hr : ListRep h l as ds) {i : Nat} (hi : i < as.length) : iterAt h l i = some as[i]? := by
  have hseg := hr.seg
  have := advance_seg i hseg (by omega)
  have hne : as ≠ [] := by intro h0; simp [h0] at hi
  have hh : hdPtr as none = as.head? := by cases as <;> simp
  have hd : hdPtr (as.drop i) none = as[i]? := by
    rw [← List.head?_drop]; cases as.drop i <;> simp
  rw [hh, hd] at this
  simp [iterAt, DLLBegin, hr.header, this]

/-! ## Insertion and removal on a well-formed list -/

theorem insertBefore_mid {h : Heap} {it b : Nat} {n m : Node} (v : VoidPtr)
    (hok : h.mallocOk h.brk = true) (hit : h.nodes it = some n) (hnx : n.next = some b)
    (hb : h.nodes b = some m) (hne : b ≠ it) (hfi : it ≠ h.brk) (hfb : b ≠ h.brk) :
    DLLInsertBefore h (some it) v = some (insertedMid h it b v n m, some it) := by
  have hfi' : h.brk ≠ it := Ne.symm hfi
  have hfb' : h.brk ≠ b := Ne.symm hfb
  have hne' : it ≠ b := Ne.symm hne
  simp [DLLInsertBefore, mallocNode, hok, upd, hit, hnx, hb, hne, hfi, hfb, hfi', hfb', hne',
    setPrev, setData, setNext, insertedMid]
  funext a
  simp only [upd]
  split_ifs <;> simp_all


theorem insertBefore_end {h : Heap} {it l : Nat} {n : Node} {d : Dll} (v : VoidPtr)
    (hok : h.mallocOk h.brk = true) (hit : h.nodes it = some n) (hnx : n.next = none)
    (hdat : n.data = .tailField l) (hl : h.lists l = some d) (hfi : it ≠ h.brk) :
    DLLInsertBefore h (some it) v = some (insertedEnd h it l v n d, some it) := by
  have hfi' : h.brk ≠ it := Ne.symm hfi
  simp [DLLInsertBefore, mallocNode, hok, upd, hit, hnx, hl, hfi, hfi', hdat,
    setPrev, setData, setNext, insertedEnd, storeNodePtr]
  funext a
  simp only [upd]
  split_ifs <;> simp_all

theorem valid_fresh {h : Heap} (hv : h.Valid) {as : List Nat} {ds : List VoidPtr} {p n : Iter}
    (hs : Seg h p as ds n) : h.brk ∉ as :=
  fun hm => lt_irrefl _ (seg_lt_brk hv hs _ hm)

theorem nodup_insert_fresh {pre post : List Nat} {it nn : Nat}
    (hnd : (pre ++ it :: post).Nodup) (hf : nn ∉ pre ++ it :: post) :
    (pre ++ it :: nn :: post).Nodup := by
  have hp : (pre ++ it :: nn :: post).Perm (nn :: (pre ++ it :: post)) := by
    have := @List.perm_middle _ nn (pre ++ [it]) post
    simpa using this
  exact hp.nodup_iff.2 (List.nodup_cons.2 ⟨hf, hnd⟩)

theorem insertBefore_repr {h : Heap} {l : Nat} {pre post : List Nat} {it : Nat}
    {dpre dpost : List VoidPtr} {d : VoidPtr} (v : VoidPtr) (hv : h.Valid)
    (hr : ListRep h l (pre ++ it :: post) (dpre ++ d :: dpost)) (hlen : pre.length = dpre.length)
    (hok : h.mallocOk h.brk = true) :
    ∃ h', DLLInsertBefore h (some it) v = some (h', some it) ∧ h'.Valid ∧
      ListRep h' l (pre ++ it :: h.brk :: post) (dpre ++ v :: d :: dpost) ∧
      h'.brk = h.brk + 1 ∧ h'.mallocOk = h.mallocOk ∧
      (∀ a, a ∉ pre ++ it :: post → a ≠ h.brk → h'.nodes a = h.nodes a) ∧
      (∀ k, k ≠ l → h'.lists k = h.lists k) := by
  obtain ⟨s1, s2⟩ := seg_split hlen hr.seg
  simp only [Seg, hdPtr_cons] at s1 s2
  obtain ⟨hit, s3⟩ := s2
  have hfresh := valid_fresh hv hr.seg
  have hnd := hr.nodup
  have hfi : it ≠ h.brk := fun e => hfresh (by simp [e])
  have hbsz : h.brk < 2 ^ SIZE_BITS := by
    by_contra hge
    rw [hv.ok_size _ (not_lt.1 hge)] at hok
    cases hok
  have hpre : ∀ a ∈ pre, a ≠ it ∧ a ≠ h.brk ∧ a ∉ post := by
    intro a ha
    have h1 := (List.nodup_append.1 hnd).2.2 ha
    refine ⟨fun e => h1 (by simp [e]), fun e => hfresh (by simp [← e, ha]), fun hm => ?_⟩
    exact h1 (List.mem_cons_of_mem _ hm)
  have hpost : ∀ a ∈ post, a ≠ it ∧ a ≠ h.brk := by
    intro a ha
    have h1 := (List.nodup_cons.1 (List.nodup_append.1 hnd).2.1).1
    exact ⟨fun e => h1 (e ▸ ha), fun e => hfresh (by simp [← e, ha])⟩
  cases post with
  | nil =>
    cases dpost with
    | cons _ _ => simp [Seg] at s3
    | nil =>
      have hd : d = .tailField l := by simpa using hr.dummy
      subst hd
      have hhd := hr.header
      refine ⟨_, insertBefore_end v hok hit rfl rfl hhd hfi, ?_, ?_, rfl, rfl, ?_, ?_⟩
      · refine ⟨fun a ha => ?_, fun a ha => ?_, fun a ha => ?_, hv.ok_size⟩
        · have hlt : h.brk + 1 ≤ a := ha
          have e1 : a ≠ it := fun e => hfresh (by
            have := hv.nodes_brk a (by omega); rw [e, hit] at this; cases this)
          simp only [insertedEnd]
          rw [upd_other _ _ e1, upd_other _ _ (by omega)]
          exact hv.nodes_brk a (by omega)
        · have hlt : h.brk + 1 ≤ a := ha
          have e1 : a ≠ l := fun e => by
            have := hv.lists_brk a (by omega); rw [e, hhd] at this; cases this
          simp only [insertedEnd]
          rw [upd_other _ _ e1]
          exact hv.lists_brk a (by omega)
        · have e1 : a ≠ it := fun e => by
            have := hv.nodes_size a ha; rw [e, hit] at this; cases this
          simp only [insertedEnd]
          rw [upd_other _ _ e1, upd_other _ _ (by omega)]
          exact hv.nodes_size a ha
      · refine ⟨?_, nodup_insert_fresh hnd hfresh, by simp, ?_⟩
        · refine seg_append (e := [v, .tailField l]) (seg_frame (fun a ha => ?_) s1) ?_
          · obtain ⟨e1, e2, _⟩ := hpre a ha
            simp only [insertedEnd]
            rw [upd_other _ _ e1, upd_other _ _ e2]
          · simp [Seg, insertedEnd, upd_other _ _ (Ne.symm hfi)]
        · simp only [insertedEnd, upd_same]
          congr 2
          · cases pre <;> simp
          · simp [List.getLast?_append]
      · intro a ha hb
        have e1 : a ≠ it := fun e => ha (by simp [e])
        simp only [insertedEnd]
        rw [upd_other _ _ e1, upd_other _ _ hb]
      · intro k hk
        simp only [insertedEnd]
        rw [upd_other _ _ hk]
  | cons b post =>
    cases dpost with
    | nil => simp [Seg] at s3
    | cons db dpost =>
      simp only [Seg] at s3
      obtain ⟨hb, s4⟩ := s3
      obtain ⟨hbi, hbf⟩ := hpost b (List.mem_cons_self _ _)
      have hnx : (⟨d, hdPtr (b :: post) none, lastPtr pre none⟩ : Node).next = some b := rfl
      refine ⟨_, insertBefore_mid v hok hit hnx hb hbi hfi hbf, ?_, ?_, rfl, rfl, ?_, ?_⟩
      · refine ⟨fun a ha => ?_, fun a ha => hv.lists_brk a (Nat.le_of_succ_le ha),
          fun a ha => ?_, hv.ok_size⟩
        · have hlt : h.brk + 1 ≤ a := ha
          have e1 : a ≠ it := fun e => hfresh (by
            have := hv.nodes_brk a (by omega); rw [e, hit] at this; cases this)
          have e2 : a ≠ b := fun e => by
            have := hv.nodes_brk a (by omega); rw [e, hb] at this; cases this
          simp only [insertedMid]
          rw [upd_other _ _ e1, upd_other _ _ (by omega), upd_other _ _ e2]
          exact hv.nodes_brk a (by omega)
        · have e1 : a ≠ it := fun e => by
            have := hv.nodes_size a ha; rw [e, hit] at this; cases this
          have e2 : a ≠ b := fun e => by
            have := hv.nodes_size a ha; rw [e, hb] at this; cases this
          simp only [insertedMid]
          rw [upd_other _ _ e1, upd_other _ _ (by omega), upd_other _ _ e2]
          exact hv.nodes_size a ha
      · refine ⟨?_, nodup_insert_fresh hnd hfresh, ?_, ?_⟩
        · refine seg_append (e := v :: d :: db :: dpost) (seg_frame (fun a ha => ?_) s1) ?_
          · obtain ⟨e1, e2, e3⟩ := hpre a ha
            have e4 : a ≠ b := fun e => e3 (by simp [e])
            simp only [insertedMid]
            rw [upd_other _ _ e1, upd_other _ _ e2, upd_other _ _ e4]
          · simp only [Seg, insertedMid, upd_same, hdPtr_cons, true_and]
            rw [upd_other _ _ (Ne.symm hfi), upd_same, upd_other _ _ hbi, upd_other _ _ hbf,
              upd_same]
            refine ⟨rfl, rfl, seg_frame (fun a ha => ?_) s4⟩
            obtain ⟨e1, e2⟩ := hpost a (List.mem_cons_of_mem _ ha)
            have e3 : a ≠ b := fun e =>
              (List.nodup_cons.1 (List.nodup_cons.1 (List.nodup_append.1 hnd).2.1).2).1 (e ▸ ha)
            dsimp only
            rw [upd_other _ _ e1, upd_other _ _ e2, upd_other _ _ e3]
        · have := hr.dummy
          simpa [List.getLast?_append, List.getLast?_cons_cons] using this
        · have := hr.header
          simp only [insertedMid]
          rw [this]
          congr 2
          · cases pre <;> simp
          · simp [List.getLast?_append, List.getLast?_cons_cons]
      · intro a ha hb2
        have e1 : a ≠ it := fun e => ha (by simp [e])
        have e2 : a ≠ b := fun e => ha (by simp [e])
        simp only [insertedMid]
        rw [upd_other _ _ e1, upd_other _ _ hb2, upd_other _ _ e2]
      · intro k _
        rfl

theorem remove_mid {h : Heap} {it tmp c : Nat} {n t m : Node}
    (hit : h.nodes it = some n) (hnx : n.next = some tmp) (ht : h.nodes tmp = some t)
    (htn : t.next = some c) (hc : h.nodes c = some m)
    (h1 : tmp ≠ it) (h2 : c ≠ it) (h3 : c ≠ tmp) :
    DLLRemove h (some it) = some (removedMid h it tmp c n t m, some it) := by
  have h1' := Ne.symm h1
  have h2' := Ne.symm h2
  have h3' := Ne.symm h3
  simp [DLLRemove, upd, hit, hnx, ht, htn, hc, h1, h2, h3, h1', h2', h3',
    setPrev, setData, setNext, removedMid, freeNode]
  funext a
  simp only [upd]
  split_ifs <;> simp_all

theorem remove_end {h : Heap} {it tmp l : Nat} {n t : Node} {d : Dll}
    (hit : h.nodes it = some n) (hnx : n.next = some tmp) (ht : h.nodes tmp = some t)
    (htn : t.next = none) (hdat : t.data = .tailField l) (hl : h.lists l = some d)
    (h1 : tmp ≠ it) :
    DLLRemove h (some it) = some (removedEnd h it tmp l n t d, some it) := by
  have h1' := Ne.symm h1
  simp [DLLRemove, upd, hit, hnx, ht, htn, hl, hdat, h1, h1',
    setPrev, setData, setNext, removedEnd, freeNode, storeNodePtr]
  funext a
  simp only [upd]
  split_ifs <;> simp_all

theorem nodup_remove_mid {pre post : List Nat} {it tmp : Nat}
    (hnd : (pre ++ it :: tmp :: post).Nodup) : (pre ++ it :: post).Nodup := by
  have hp : (pre ++ it :: tmp :: post).Perm (tmp :: (pre ++ it :: post)) := by
    have := @List.perm_middle _ tmp (pre ++ [it]) post
    simpa using this
  exact (List.nodup_cons.1 (hp.nodup_iff.1 hnd)).2

theorem remove_repr {h : Heap} {l : Nat} {pre post : List Nat} {it tmp : Nat}
    {dpre dpost : List VoidPtr} {d dt : VoidPtr} (hv : h.Valid)
    (hr : ListRep h l (pre ++ it :: tmp :: post) (dpre ++ d :: dt :: dpost))
    (hlen : pre.length = dpre.length) :
    ∃ h', DLLRemove h (some it) = some (h', some it) ∧ h'.Valid ∧
      ListRep h' l (pre ++ it :: post) (dpre ++ dt :: dpost) ∧
      h'.brk = h.brk ∧ h'.mallocOk = h.mallocOk ∧
      (∀ a, a ∉ pre ++ it :: tmp :: post → h'.nodes a = h.nodes a) ∧
      (∀ k, k ≠ l → h'.lists k = h.lists k) := by
  obtain ⟨s1, s2⟩ := seg_split hlen hr.seg
  simp only [Seg, hdPtr_cons] at s1 s2
  obtain ⟨hit, htmp, s3⟩ := s2
  have hnd := hr.nodup
  have hnd2 := List.nodup_append.1 hnd
  have hnd3 := List.nodup_cons.1 hnd2.2.1
  have hnd4 := List.nodup_cons.1 hnd3.2
  have hti : tmp ≠ it := fun e => hnd3.1 (by simp [e])
  have hpre : ∀ a ∈ pre, a ≠ it ∧ a ≠ tmp ∧ a ∉ post := by
    intro a ha
    have h1 := hnd2.2.2 ha
    exact ⟨fun e => h1 (by simp [e]), fun e => h1 (by simp [e]),
      fun hm => h1 (List.mem_cons_of_mem _ (List.mem_cons_of_mem _ hm))⟩
  have hpost : ∀ a ∈ post, a ≠ it ∧ a ≠ tmp := by
    intro a ha
    exact ⟨fun e => hnd3.1 (List.mem_cons_of_mem _ (e ▸ ha)), fun e => hnd4.1 (e ▸ ha)⟩
  have hvalid : ∀ h' : Heap, h'.brk = h.brk → h'.mallocOk = h.mallocOk →
      (∀ a, h.nodes a = none → h'.nodes a = none) →
      (∀ a, h.lists a = none → h'.lists a = none) → h'.Valid := by
    intro h' e1 e2 e3 e4
    exact ⟨fun a ha => e3 a (hv.nodes_brk a (e1 ▸ ha)), fun a ha => e4 a (hv.lists_brk a (e1 ▸ ha)),
      fun a ha => e3 a (hv.nodes_size a ha), fun a ha => by rw [e2]; exact hv.ok_size a ha⟩
  cases post with
  | nil =>
    cases dpost with
    | cons _ _ => simp [Seg] at s3
    | nil =>
      have hd : dt = .tailField l := by
        simpa [List.getLast?_append, List.getLast?_cons_cons] using hr.dummy
      subst hd
      have hhd := hr.header
      refine ⟨_, remove_end hit rfl htmp rfl rfl hhd hti, ?_, ?_, rfl, rfl, ?_, ?_⟩
      · refine hvalid _ rfl rfl (fun a ha => ?_) (fun a ha => ?_)
        · have e1 : a ≠ it := fun e => by rw [e, hit] at ha; cases ha
          simp only [removedEnd, upd]
          split_ifs <;> simp_all
        · have e1 : a ≠ l := fun e => by rw [e, hhd] at ha; cases ha
          simp only [removedEnd]
          rw [upd_other _ _ e1]; exact ha
      · refine ⟨?_, nodup_remove_mid hnd, by simp, ?_⟩
        · refine seg_append (e := [.tailField l]) (seg_frame (fun a ha => ?_) s1) ?_
          · obtain ⟨e1, e2, _⟩ := hpre a ha
            simp only [removedEnd]
            rw [upd_other _ _ e2, upd_other _ _ e1]
          · simp [Seg, removedEnd, upd_other _ _ (Ne.symm hti)]
        · simp only [removedEnd, upd_same]
          congr 2
          · cases pre <;> simp
          · simp [List.getLast?_append]
      · intro a ha
        have e1 : a ≠ it := fun e => ha (by simp [e])
        have e2 : a ≠ tmp := fun e => ha (by simp [e])
        simp only [removedEnd]
        rw [upd_other _ _ e2, upd_other _ _ e1]
      · intro k hk
        simp only [removedEnd]
        rw [upd_other _ _ hk]
  | cons c post =>
    cases dpost with
    | nil => simp [Seg] at s3
    | cons dc dpost =>
      simp only [Seg] at s3
      obtain ⟨hc, s4⟩ := s3
      obtain ⟨hci, hct⟩ := hpost c (List.mem_cons_self _ _)
      refine ⟨_, remove_mid hit rfl htmp rfl hc hti hci hct, ?_, ?_, rfl, rfl, ?_, ?_⟩
      · refine hvalid _ rfl rfl (fun a ha => ?_) (fun a ha => ha)
        have e1 : a ≠ it := fun e => by rw [e, hit] at ha; cases ha
        have e2 : a ≠ c := fun e => by rw [e, hc] at ha; cases ha
        simp only [removedMid, upd]
        split_ifs <;> simp_all
      · refine ⟨?_, nodup_remove_mid hnd, ?_, ?_⟩
        · refine seg_append (e := dt :: dc :: dpost) (seg_frame (fun a ha => ?_) s1) ?_
          · obtain ⟨e1, e2, e3⟩ := hpre a ha
            have e4 : a ≠ c := fun e => e3 (by simp [e])
            simp only [removedMid]
            rw [upd_other _ _ e2, upd_other _ _ e4, upd_other _ _ e1]
          · simp only [Seg, removedMid, hdPtr_cons]
            rw [upd_other _ _ (Ne.symm hti), upd_other _ _ (Ne.symm hci), upd_same,
              upd_other _ _ hct, upd_same]
            refine ⟨rfl, rfl, seg_frame (fun a ha => ?_) s4⟩
            obtain ⟨e1, e2⟩ := hpost a (List.mem_cons_of_mem _ ha)
            have e3 : a ≠ c := fun e => (List.nodup_cons.1 hnd4.2).1 (e ▸ ha)
            dsimp only
            rw [upd_other _ _ e2, upd_other _ _ e3, upd_other _ _ e1]
        · have := hr.dummy
          simpa [List.getLast?_append, List.getLast?_cons_cons] using this
        · have := hr.header
          simp only [removedMid]
          rw [this]
          congr 2
          · cases pre <;> simp
          · simp [List.getLast?_append, List.getLast?_cons_cons]
      · intro a ha
        have e1 : a ≠ it := fun e => ha (by simp [e])
        have e2 : a ≠ tmp := fun e => ha (by simp [e])
        have e3 : a ≠ c := fun e => ha (by simp [e])
        simp only [removedMid]
        rw [upd_other _ _ e2, upd_other _ _ e3, upd_other _ _ e1]
      · intro k _
        rfl

/-! ## The specification's well-formedness and the chain description agree -/

theorem advance_null {h : Heap} : ∀ k, advance h (k + 1) none = none
  | _ => by simp [advance, DLLNext]

theorem advance_succ_some {h : Heap} {k a : Nat} {r : Nat}
    (hadv : advance h (k + 1) (some a) = some (some r)) :
    ∃ nd b, h.nodes a = some nd ∧ nd.next = some b ∧ advance h k (some b) = some (some r) := by
  simp only [advance, DLLNext] at hadv
  cases hn : h.nodes a with
  | none => simp [hn] at hadv
  | some nd =>
    simp only [hn, Option.map_some', Option.some_bind] at hadv
    cases hx : nd.next with
    | none =>
      rw [hx] at hadv
      cases k with
      | zero => simp [advance] at hadv
      | succ k => simp [advance_null] at hadv
    | some b => exact ⟨nd, b, rfl, hx, by rwa [hx] at hadv⟩

theorem advance_dist_unique {h : Heap} {tl : Nat} (htl : DLLNext h (some tl) = some none) :
    ∀ (k k' : Nat) (a : Nat), advance h k (some a) = some (some tl) →
      advance h k' (some a) = some (some tl) → k = k'
  | 0, 0, _, _, _ => rfl
  | 0, k' + 1, a, h1, h2 => by
    simp only [advance, Option.some.injEq] at h1
    subst h1
    obtain ⟨nd, b, hn, hx, _⟩ := advance_succ_some h2
    simp [DLLNext, hn, hx] at htl
  | k + 1, 0, a, h1, h2 => by
    simp only [advance, Option.some.injEq] at h2
    subst h2
    obtain ⟨nd, b, hn, hx, _⟩ := advance_succ_some h1
    simp [DLLNext, hn, hx] at htl
  | k + 1, k' + 1, a, h1, h2 => by
    obtain ⟨nd, b, hn, hx, h1'⟩ := advance_succ_some h1
    obtain ⟨nd', b', hn', hx', h2'⟩ := advance_succ_some h2
    rw [hn] at hn'
    cases hn'
    rw [hx] at hx'
    cases hx'
    rw [advance_dist_unique htl k k' b h1' h2']

theorem chain_of_advance {h : Heap} {tl : Nat} (htl : DLLNext h (some tl) = some none) :
    ∀ (count a : Nat) (p : Iter), advance h count (some a) = some (some tl) →
      DLLPrev h (some a) = some p →
      (∀ k, k < count →
        ∃ n, advance h k (some a) = some n ∧ (DLLNext h n).bind (DLLPrev h) = some n) →
      ∃ ns vs, ns.length = count ∧ Seg h p ns vs (some tl) ∧ hdPtr ns (some tl) = some a ∧
        DLLPrev h (some tl) = some (lastPtr ns p) ∧ ns.Nodup ∧ tl ∉ ns ∧
        ∀ b ∈ ns, ∃ k, k ≤ count ∧ advance h k (some b) = some (some tl)
  | 0, a, p, hadv, hp, _ => by
    simp only [advance, Option.some.injEq] at hadv
    subst hadv
    exact ⟨[], [], rfl, trivial, rfl, hp, List.nodup_nil, by simp, by simp⟩
  | c + 1, a, p, hadv, hp, hreal => by
    obtain ⟨nd, b, hn, hx, hadv'⟩ := advance_succ_some hadv
    have hpb : DLLPrev h (some b) = some (some a) := by
      obtain ⟨n, h1, h2⟩ := hreal 0 (Nat.succ_pos _)
      simp only [advance, Option.some.injEq] at h1
      subst h1
      simpa [DLLNext, hn, hx] using h2
    have hreal' : ∀ k, k < c →
        ∃ n, advance h k (some b) = some n ∧ (DLLNext h n).bind (DLLPrev h) = some n := by
      intro k hk
      obtain ⟨n, h1, h2⟩ := hreal (k + 1) (Nat.succ_lt_succ hk)
      refine ⟨n, ?_, h2⟩
      simpa [advance, DLLNext, hn, hx] using h1
    obtain ⟨ns, vs, hlen, hseg, hhd, hlast, hnd, hmem, hdist⟩ :=
      chain_of_advance htl c b (some a) hadv' hpb hreal'
    have hpa : nd.prev = p := by simpa [DLLPrev, hn] using hp
    have hatl : a ≠ tl := by
      intro e
      subst e
      simp [DLLNext, hn, hx] at htl
    refine ⟨a :: ns, nd.data :: vs, by simp [hlen], ?_, rfl, ?_, ?_, ?_, ?_⟩
    · simp only [Seg]
      refine ⟨?_, hseg⟩
      rw [hn, hhd, ← hx, ← hpa]
    · rw [lastPtr_cons]; exact hlast
    · refine List.nodup_cons.2 ⟨fun hm => ?_, hnd⟩
      obtain ⟨k, hk, hadvk⟩ := hdist a hm
      have := advance_dist_unique htl _ _ a hadv hadvk
      omega
    · intro hm
      rcases List.mem_cons.1 hm with e | hm
      · exact hatl e.symm
      · exact hmem hm
    · intro x hx'
      rcases List.mem_cons.1 hx' with e | hm
      · exact ⟨c + 1, le_refl _, e ▸ hadv⟩
      · obtain ⟨k, hk, hadvk⟩ := hdist x hm
        exact ⟨k, Nat.le_succ_of_le hk, hadvk⟩

theorem repr_of_wellFormed {h : Heap} {l : Nat} (hwf : WellFormed h l) :
    ∃ as ds, ListRep h l as ds := by
  obtain ⟨hd, tl, count, hb, he, hadv, hnx, _, hpv, hreal, hdat⟩ := hwf
  obtain ⟨ns, vs, hlen, hseg, hhd, hlast, hnd, hmem, _⟩ :=
    chain_of_advance hnx count hd none hadv hpv hreal
  cases hl : h.lists l with
  | none => simp [DLLBegin, hl] at hb
  | some d =>
    cases hn : h.nodes tl with
    | none => simp [DLLNext, hn] at hnx
    | some nd =>
      refine ⟨ns ++ [tl], vs ++ [.tailField l], repr_fold hseg ?_ hmem hnd ?_⟩
      · have e1 : nd.next = none := by simpa [DLLNext, hn] using hnx
        have e2 : nd.data = .tailField l := by simpa [DLLGetData, hn] using hdat
        have e3 : nd.prev = lastPtr ns none := by simpa [DLLPrev, hn] using hlast
        obtain ⟨dd, nn, pp⟩ := nd
        simp only at e1 e2 e3
        subst e1 e2 e3
        exact hn
      · have e1 : d.head = some hd := by simpa [DLLBegin, hl] using hb
        have e2 : d.tail = some tl := by simpa [DLLEnd, hl] using he
        rw [hhd, ← e1, ← e2]
        exact hl

theorem seg_next_prev {h : Heap} {s : Nat} : ∀ {ns : List Nat} {vs : List VoidPtr} {p : Iter},
    Seg h p ns vs (some s) → DLLPrev h (some s) = some (lastPtr ns p) →
    ∀ k, k < ns.length →
      ∃ n, advance h k (hdPtr ns (some s)) = some n ∧ (DLLNext h n).bind (DLLPrev h) = some n
  | [], _, _, _, _, k, hk => by simp at hk
  | _ :: _, [], _, hs, _, _, _ => by simp [Seg] at hs
  | a :: ns, v :: vs, p, hs, hlast, 0, _ => by
    simp only [Seg] at hs
    refine ⟨some a, rfl, ?_⟩
    cases ns with
    | nil => simpa [DLLNext, hs.1] using hlast
    | cons b ns =>
      cases vs with
      | nil => simp [Seg] at hs
      | cons w ws =>
        have := hs.2
        simp only [Seg] at this
        simp [DLLNext, hs.1, DLLPrev, this.1]
  | a :: ns, v :: vs, p, hs, hlast, k + 1, hk => by
    simp only [Seg] at hs
    rw [lastPtr_cons] at hlast
    obtain ⟨n, h1, h2⟩ := seg_next_prev hs.2 hlast k (by simpa using hk)
    exact ⟨n, by simpa [advance, DLLNext, hs.1] using h1, h2⟩

theorem wellFormed_of_repr {h : Heap} {l : Nat} {as : List Nat} {ds : List VoidPtr}
    (hr : ListRep h l as ds) : WellFormed h l := by
  obtain ⟨ns, s, vs, rfl, rfl, hl, hseg, hs, hmem, hnd, hhd⟩ := repr_unfold hr
  have hadv := advance_seg ns.length hseg (le_refl _)
  simp only [List.drop_length, hdPtr_nil] at hadv
  have hprev : DLLPrev h (some s) = some (lastPtr ns none) := by simp [DLLPrev, hs]
  cases ns with
  | nil =>
    refine ⟨s, s, 0, by simp [DLLBegin, hhd], by simp [DLLEnd, hhd], rfl, by simp [DLLNext, hs],
      by simp [DLLPrev, hs], by simp [DLLPrev, hs], fun k hk => by simp at hk,
      by simp [DLLGetData, hs]⟩
  | cons a ns =>
    cases vs with
    | nil => simp at hl
    | cons v vs =>
      have ha := hseg
      simp only [Seg] at ha
      refine ⟨a, s, (a :: ns).length, by simp [DLLBegin, hhd], by simp [DLLEnd, hhd],
        by simpa using hadv, by simp [DLLNext, hs], ?_, by simp [DLLPrev, ha.1],
        seg_next_prev hseg hprev, by simp [DLLGetData, hs]⟩
      rw [hprev, lastPtr_cons]
      simp only [List.length_cons, Nat.succ_ne_zero, iff_false]
      cases hq : ns.getLast? <;> simp [lastPtr, hq]

theorem wellFormed_iff_repr {h : Heap} {l : Nat} :
    WellFormed h l ↔ ∃ as ds, ListRep h l as ds :=
  ⟨repr_of_wellFormed, fun ⟨_, _, hr⟩ => wellFormed_of_repr hr⟩

/-! ## Positions in a well-formed list -/

theorem insertIdx_length_append {α : Type} (v : α) : ∀ (pre rest : List α),
    (pre ++ rest).insertIdx pre.length v = pre ++ v :: rest
  | [], _ => by simp
  | a :: pre, rest => by simp [insertIdx_length_append v pre rest]

theorem eraseIdx_length_append {α : Type} (d : α) : ∀ (pre rest : List α),
    (pre ++ d :: rest).eraseIdx pre.length = pre ++ rest
  | [], _ => by simp
  | a :: pre, rest => by simp [eraseIdx_length_append d pre rest]

theorem repr_node {h : Heap} {l : Nat} {pre post : List Nat} {a : Nat}
    {dpre dpost : List VoidPtr} {d : VoidPtr}
    (hr : ListRep h l (pre ++ a :: post) (dpre ++ d :: dpost)) (hlen : pre.length = dpre.length) :
    h.nodes a = some ⟨d, hdPtr post none, lastPtr pre none⟩ := by
  have := (seg_split hlen hr.seg).2
  simp only [Seg] at this
  exact this.1

theorem wf_position {h : Heap} (hv : h.Valid) {l : Nat} {xs : List VoidPtr} {i : Nat} {it : Iter}
    (hwf : WellFormed h l) (hxs : values h l = some xs) (hi : i ≤ xs.length)
    (hit : iterAt h l i = some it) :
    ∃ pre a post dpre d dpost, it = some a ∧
      ListRep h l (pre ++ a :: post) (dpre ++ d :: dpost) ∧ pre.length = i ∧ dpre.length = i ∧
      xs = (dpre ++ d :: dpost).dropLast := by
  obtain ⟨as, ds, hr⟩ := repr_of_wellFormed hwf
  have hval := repr_values hv hr
  rw [hxs, Option.some.injEq] at hval
  have hlen := seg_length hr.seg
  have hds : ds ≠ [] := by
    intro e
    have := hr.dummy
    simp [e] at this
  have hxl : xs.length + 1 = ds.length := by
    rw [hval, List.length_dropLast]
    have := List.length_pos.2 hds
    omega
  have hia : i < as.length := by omega
  have hid : i < ds.length := by omega
  have hit2 := repr_iterAt hr hia
  rw [hit, List.getElem?_eq_getElem hia, Option.some.injEq] at hit2
  have e1 : as = as.take i ++ as[i] :: as.drop (i + 1) := by
    rw [← List.drop_eq_getElem_cons hia, List.take_append_drop]
  have e2 : ds = ds.take i ++ ds[i] :: ds.drop (i + 1) := by
    rw [← List.drop_eq_getElem_cons hid, List.take_append_drop]
  refine ⟨as.take i, as[i], as.drop (i + 1), ds.take i, ds[i], ds.drop (i + 1), hit2, ?_,
    by simp; omega, by simp; omega, ?_⟩
  · rw [← e1, ← e2]; exact hr
  · rw [← e2]; exact hval

/-! ## Creation, push and pop on the chain description -/

theorem create_repr {h0 h : Heap} {l : Nat} (hv : h0.Valid)
    (hc : DLLCreate h0 = some (h, some l)) :
    h.Valid ∧ ListRep h l [l + 1] [.tailField l] ∧ l = h0.brk ∧ h.brk = h0.brk + 2 ∧
      h.mallocOk = h0.mallocOk ∧ (∀ a, a ≠ l + 1 → h.nodes a = h0.nodes a) ∧
      (∀ k, k ≠ l → h.lists k = h0.lists k) := by
  cases hok1 : h0.mallocOk h0.brk with
  | false => simp [DLLCreate, mallocDll, hok1] at hc
  | true =>
    cases hok2 : h0.mallocOk (h0.brk + 1) with
    | false => simp [DLLCreate, mallocDll, mallocNode, hok1, hok2] at hc
    | true =>
      simp only [DLLCreate, mallocDll, mallocNode, hok1, hok2, if_true, setNext, setPrev, setData,
        upd_same, Option.some_bind, Option.some.injEq, Prod.mk.injEq] at hc
      obtain ⟨rfl, rfl⟩ := hc
      have hb2 : h0.brk + 1 < 2 ^ SIZE_BITS := by
        by_contra hge
        rw [hv.ok_size _ (not_lt.1 hge)] at hok2
        cases hok2
      refine ⟨⟨fun a ha => ?_, fun a ha => ?_, fun a ha => ?_, hv.ok_size⟩,
        ⟨?_, by simp, by simp, ?_⟩, rfl, rfl, rfl, fun a ha => ?_, fun k hk => ?_⟩
      · have : h0.brk + 2 ≤ a := ha
        simp only [upd]
        rw [if_neg (by omega), if_neg (by omega), if_neg (by omega), if_neg (by omega)]
        exact hv.nodes_brk a (by omega)
      · have : h0.brk + 2 ≤ a := ha
        simp only [upd]
        rw [if_neg (by omega), if_neg (by omega)]
        exact hv.lists_brk a (by omega)
      · simp only [upd]
        rw [if_neg (by omega), if_neg (by omega), if_neg (by omega), if_neg (by omega)]
        exact hv.nodes_size a ha
      · simp [Seg]
      · simp
      · simp only [upd]
        rw [if_neg ha, if_neg ha, if_neg ha, if_neg ha]
      · simp only [upd]
        rw [if_neg hk, if_neg hk]

theorem pushBack_repr {h : Heap} {l : Nat} {as : List Nat} {xs : List VoidPtr} (v : VoidPtr)
    (hv : h.Valid) (hr : ListRep h l as (xs ++ [.tailField l])) (hok : h.mallocOk h.brk = true) :
    ∃ h' r, DLLPushBack h (some l) v = some (h', r) ∧ DLLEnd h (some l) = some r ∧ h'.Valid ∧
      ListRep h' l (as ++ [h.brk]) (xs ++ [v] ++ [.tailField l]) ∧
      h'.brk = h.brk + 1 ∧ h'.mallocOk = h.mallocOk := by
  obtain ⟨ns, s, vs, rfl, hds, hl, _, _, _, _, hhd⟩ := repr_unfold hr
  obtain rfl : xs = vs := List.append_inj_left' hds rfl
  obtain ⟨h', hins, hv', hr', hb, hm, _⟩ :=
    insertBefore_repr v hv
      (show ListRep h l (ns ++ s :: []) (xs ++ VoidPtr.tailField l :: []) from hr) hl hok
  refine ⟨h', some s, by simp [DLLPushBack, hhd, hins], by simp [DLLEnd, hhd], hv', ?_, hb, hm⟩
  simpa using hr'

theorem pushFront_repr {h : Heap} {l : Nat} {as : List Nat} {ds : List VoidPtr} (v : VoidPtr)
    (hv : h.Valid) (hr : ListRep h l as ds) (hok : h.mallocOk h.brk = true) :
    ∃ h' r as', DLLPushFront h (some l) v = some (h', r) ∧ DLLBegin h (some l) = some r ∧
      h'.Valid ∧ ListRep h' l as' (v :: ds) ∧
      h'.brk = h.brk + 1 ∧ h'.mallocOk = h.mallocOk := by
  cases as with
  | nil =>
    have := seg_length hr.seg
    have hd := hr.dummy
    cases ds <;> simp at this hd
  | cons a post =>
    cases ds with
    | nil => have := seg_length hr.seg; simp at this
    | cons d dpost =>
      obtain ⟨h', hins, hv', hr', hb, hm, _⟩ :=
        insertBefore_repr v hv
          (show ListRep h l ([] ++ a :: post) ([] ++ d :: dpost) from hr) rfl hok
      have hhd := hr.header
      exact ⟨h', some a, _, by simp [DLLPushFront, hhd, hins], by simp [DLLBegin, hhd], hv',
        hr', hb, hm⟩

theorem popBack_repr {h : Heap} {l : Nat} {as : List Nat} {xs : List VoidPtr} {v : VoidPtr}
    (hv : h.Valid) (hr : ListRep h l as (xs ++ [v] ++ [.tailField l])) :
    ∃ h' as', DLLPopBack h (some l) = some (h', v) ∧ h'.Valid ∧
      ListRep h' l as' (xs ++ [.tailField l]) ∧ h'.brk = h.brk ∧ h'.mallocOk = h.mallocOk := by
  obtain ⟨ns, s, vs, rfl, hds, hl, hseg, hs, _, _, hhd⟩ := repr_unfold hr
  obtain rfl : xs ++ [v] = vs := List.append_inj_left' hds rfl
  have hne : ns ≠ [] := by intro e; simp [e] at hl
  obtain ⟨pre, p, rfl⟩ : ∃ pre p, ns = pre ++ [p] :=
    ⟨ns.dropLast, ns.getLast hne, (List.dropLast_append_getLast hne).symm⟩
  have hl2 : pre.length = xs.length := by simpa using hl
  have hr2 : ListRep h l (pre ++ p :: s :: []) (xs ++ v :: .tailField l :: []) := by
    simpa using hr
  obtain ⟨h', hrem, hv', hr', hb, hm, _⟩ := remove_repr hv hr2 hl2
  have hp := repr_node hr2 hl2
  refine ⟨h', _, ?_, hv', hr', hb, hm⟩
  have hlp : lastPtr (pre ++ [p]) none = some p := by
    simp [lastPtr, List.getLast?_append]
  simp [DLLPopBack, hhd, hs, hlp, hp, hrem]

theorem popFront_repr {h : Heap} {l : Nat} {as : List Nat} {ds : List VoidPtr} {v : VoidPtr}
    (hv : h.Valid) (hr : ListRep h l as (v :: ds)) (hne : ds ≠ []) :
    ∃ h' as', DLLPopFront h (some l) = some (h', v) ∧ h'.Valid ∧
      ListRep h' l as' ds ∧ h'.brk = h.brk ∧ h'.mallocOk = h.mallocOk ∧
      DLLBegin h' (some l) = DLLBegin h (some l) := by
  have hlen := seg_length hr.seg
  cases ds with
  | nil => exact absurd rfl hne
  | cons dt dpost =>
    cases as with
    | nil => simp at hlen
    | cons a as =>
      cases as with
      | nil => simp at hlen
      | cons tmp post =>
        obtain ⟨h', hrem, hv', hr', hb, hm, _⟩ :=
          remove_repr hv
            (show ListRep h l ([] ++ a :: tmp :: post) ([] ++ v :: dt :: dpost) from hr) rfl
        have ha := repr_node
          (show ListRep h l ([] ++ a :: tmp :: post) ([] ++ v :: dt :: dpost) from hr) rfl
        have hhd := hr.header
        have hhd' := hr'.header
        refine ⟨h', _, ?_, hv', hr', hb, hm, ?_⟩
        · simp at hhd
          simp [DLLPopFront, hhd, ha, hrem]
        · simp at hhd hhd'
          simp [DLLBegin, hhd, hhd']

/-! ## Sequences of pushes and pops -/

theorem repr_dummy_split {h : Heap} {l : Nat} {as : List Nat} {ds : List VoidPtr}
    (hr : ListRep h l as ds) : ds = ds.dropLast ++ [.tailField l] :=
  (List.dropLast_append_getLast? _ (by simp [hr.dummy])).symm

theorem wf_values {h : Heap} (hv : h.Valid) {l : Nat} {xs : List VoidPtr}
    (hwf : WellFormed h l) (hxs : values h l = some xs) :
    ∃ as, ListRep h l as (xs ++ [.tailField l]) := by
  obtain ⟨as, ds, hr⟩ := repr_of_wellFormed hwf
  have hval := repr_values hv hr
  rw [hxs, Option.some.injEq] at hval
  refine ⟨as, ?_⟩
  rw [hval, ← repr_dummy_split hr]
  exact hr

theorem pushBackAll_repr : ∀ (vs : List VoidPtr) {h : Heap} {l : Nat} {as : List Nat}
    {xs : List VoidPtr}, h.Valid → ListRep h l as (xs ++ [.tailField l]) →
    (∀ k, k < vs.length → h.mallocOk (h.brk + k) = true) →
    ∃ h' as', pushBackAll h l vs = some h' ∧ h'.Valid ∧
      ListRep h' l as' (xs ++ vs ++ [.tailField l])
  | [], h, _, as, _, hv, hr, _ => ⟨h, as, rfl, hv, by simpa using hr⟩
  | v :: vs, h, l, as, xs, hv, hr, hok => by
    obtain ⟨h1, r, hp, _, hv1, hr1, hb, hm⟩ := pushBack_repr v hv hr (by simpa using hok 0 (by simp))
    obtain ⟨h', as', hp', hv', hr'⟩ := pushBackAll_repr vs hv1 hr1 (by
      intro k hk
      rw [hm, hb, Nat.add_assoc, Nat.add_comm 1 k]
      exact hok (k + 1) (by simpa using hk))
    exact ⟨h', as', by simp [pushBackAll, hp, hp'], hv', by simpa using hr'⟩

theorem runOps_repr : ∀ (ops : List Op) {h : Heap} {l : Nat} {as : List Nat}
    {xs : List VoidPtr}, h.Valid → ListRep h l as (xs ++ [.tailField l]) →
    popsOk xs.length ops = true →
    (∀ k, k < pushes ops → h.mallocOk (h.brk + k) = true) →
    ∃ h' as' xs', runOps h l ops = some h' ∧ h'.Valid ∧
      ListRep h' l as' (xs' ++ [.tailField l]) ∧
      xs'.length + pops ops = xs.length + pushes ops
  | [], h, _, as, xs, hv, hr, _, _ => ⟨h, as, xs, rfl, hv, hr, by simp [pushes, pops]⟩
  | .pushBack v :: ops, h, l, as, xs, hv, hr, hp, hok => by
    have hpu : pushes (Op.pushBack v :: ops) = pushes ops + 1 := by simp [pushes, Op.isPush]
    have hpo : pops (Op.pushBack v :: ops) = pops ops := by simp [pops, Op.isPush]
    obtain ⟨h1, r, hp1, _, hv1, hr1, hb, hm⟩ :=
      pushBack_repr v hv hr (by simpa using hok 0 (by omega))
    obtain ⟨h', as', xs', hrun, hv', hr', hcnt⟩ := runOps_repr ops hv1 hr1
      (by simpa [popsOk, Op.isPush] using hp) (by
        intro k hk
        rw [hm, hb, Nat.add_assoc, Nat.add_comm 1 k]
        exact hok (k + 1) (by omega))
    refine ⟨h', as', xs', by simp [runOps, applyOp, hp1, hrun], hv', hr', ?_⟩
    simp only [List.length_append, List.length_singleton] at hcnt
    omega
  | .pushFront v :: ops, h, l, as, xs, hv, hr, hp, hok => by
    have hpu : pushes (Op.pushFront v :: ops) = pushes ops + 1 := by simp [pushes, Op.isPush]
    have hpo : pops (Op.pushFront v :: ops) = pops ops := by simp [pops, Op.isPush]
    obtain ⟨h1, r, as1, hp1, _, hv1, hr1, hb, hm⟩ :=
      pushFront_repr v hv hr (by simpa using hok 0 (by omega))
    obtain ⟨h', as', xs', hrun, hv', hr', hcnt⟩ := runOps_repr ops hv1
      (show ListRep h1 l as1 ((v :: xs) ++ [VoidPtr.tailField l]) from hr1)
      (by simpa [popsOk, Op.isPush] using hp) (by
        intro k hk
        rw [hm, hb, Nat.add_assoc, Nat.add_comm 1 k]
        exact hok (k + 1) (by omega))
    refine ⟨h', as', xs', by simp [runOps, applyOp, hp1, hrun], hv', hr', ?_⟩
    simp only [List.length_cons] at hcnt
    omega
  | .popBack :: ops, h, l, as, xs, hv, hr, hp, hok => by
    have hpu : pushes (Op.popBack :: ops) = pushes ops := by simp [pushes, Op.isPush]
    have hpo : pops (Op.popBack :: ops) = pops ops + 1 := by simp [pops, Op.isPush]
    simp only [popsOk, Op.isPush, Bool.false_eq_true, if_false, Bool.and_eq_true,
      decide_eq_true_eq] at hp
    have hne : xs ≠ [] := fun e => hp.1 (by simp [e])
    obtain ⟨ys, v, rfl⟩ : ∃ ys v, xs = ys ++ [v] :=
      ⟨xs.dropLast, xs.getLast hne, (List.dropLast_append_getLast hne).symm⟩
    obtain ⟨h1, as1, hp1, hv1, hr1, hb, hm⟩ := popBack_repr hv hr
    obtain ⟨h', as', xs', hrun, hv', hr', hcnt⟩ := runOps_repr ops hv1 hr1
      (by simpa using hp.2) (by
        intro k hk
        rw [hm, hb]
        exact hok k (by omega))
    refine ⟨h', as', xs', by simp [runOps, applyOp, hp1, hrun], hv', hr', ?_⟩
    simp only [List.length_append, List.length_singleton]
    omega
  | .popFront :: ops, h, l, as, xs, hv, hr, hp, hok => by
    have hpu : pushes (Op.popFront :: ops) = pushes ops := by simp [pushes, Op.isPush]
    have hpo : pops (Op.popFront :: ops) = pops ops + 1 := by simp [pops, Op.isPush]
    simp only [popsOk, Op.isPush, Bool.false_eq_true, if_false, Bool.and_eq_true,
      decide_eq_true_eq] at hp
    cases xs with
    | nil => exact absurd rfl hp.1
    | cons v ys =>
      obtain ⟨h1, as1, hp1, hv1, hr1, hb, hm, _⟩ :=
        popFront_repr hv
          (show ListRep h l as (v :: (ys ++ [VoidPtr.tailField l])) from hr) (by simp)
      obtain ⟨h', as', xs', hrun, hv', hr', hcnt⟩ := runOps_repr ops hv1 hr1
        (by simpa using hp.2) (by
          intro k hk
          rw [hm, hb]
          exact hok k (by omega))
      refine ⟨h', as', xs', by simp [runOps, applyOp, hp1, hrun], hv', hr', ?_⟩
      simp only [List.length_cons]
      omega

/-! ## Searching a range -/

theorem find_seg {h : Heap} {to_ : Iter} (cmp : VoidPtr → Int) :
    ∀ {as : List Nat} {ds : List VoidPtr} {p : Iter} (fuel : Nat),
    Seg h p as ds to_ → (∀ a ∈ as, some a ≠ to_) → as.length < fuel →
    ∃ r, DLLFind.loop h to_ cmp fuel (hdPtr as to_) = some r ∧
      ((r = to_ ∧ ∀ (k : Nat) (d : VoidPtr), ds[k]? = some d → cmp d ≠ 0) ∨
       (∃ (k : Nat) (a : Nat) (d : VoidPtr), as[k]? = some a ∧ r = some a ∧ ds[k]? = some d ∧
          cmp d = 0 ∧ ∀ (k' : Nat) (d' : VoidPtr), k' < k → ds[k']? = some d' → cmp d' ≠ 0))
  | [], [], _, fuel + 1, _, _, _ => ⟨to_, by simp [DLLFind.loop], Or.inl ⟨rfl, by simp⟩⟩
  | [], [], _, 0, _, _, hf => by simp at hf
  | _ :: _, [], _, _, hs, _, _ => by simp [Seg] at hs
  | [], _ :: _, _, _, hs, _, _ => by simp [Seg] at hs
  | a :: as, d :: ds, _, 0, _, _, hf => by simp at hf
  | a :: as, d :: ds, _, fuel + 1, hs, hne, hf => by
    simp only [Seg] at hs
    have hna := hne a (List.mem_cons_self _ _)
    by_cases hc : cmp d = 0
    · refine ⟨some a, by simp [DLLFind.loop, hna, hs.1, hc], Or.inr ⟨0, a, d, by simp, rfl, by simp, hc, ?_⟩⟩
      intro k' d' hk'
      omega
    · obtain ⟨r, hr, hcase⟩ := find_seg cmp fuel hs.2
        (fun b hb => hne b (List.mem_cons_of_mem _ hb)) (by simpa using hf)
      refine ⟨r, by simp [DLLFind.loop, hna, hs.1, hc, hr], ?_⟩
      rcases hcase with ⟨e, hall⟩ | ⟨k, b, e, h1, h2, h3, h4, h5⟩
      · refine Or.inl ⟨e, ?_⟩
        intro k x hx
        cases k with
        | zero => simp at hx; exact hx ▸ hc
        | succ k => exact hall k x (by simpa using hx)
      · refine Or.inr ⟨k + 1, b, e, by simpa using h1, h2, by simpa using h3, h4, ?_⟩
        intro k' d' hk' hd'
        cases k' with
        | zero => simp at hd'; exact hd' ▸ hc
        | succ k' => exact h5 k' d' (by omega) (by simpa using hd')

theorem repr_range {h : Heap} {l : Nat} {as : List Nat} {ds : List VoidPtr}
    (hr : ListRep h l as ds) {i j : Nat} (hij : i ≤ j) (hj : j < as.length) :
    ∃ p, Seg h p ((as.drop i).take (j - i)) ((ds.drop i).take (j - i)) as[j]? ∧
      hdPtr ((as.drop i).take (j - i)) as[j]? = as[i]? ∧
      (∀ a ∈ (as.drop i).take (j - i), some a ≠ as[j]?) := by
  have hlen := seg_length hr.seg
  have e1 : as = as.take i ++ ((as.drop i).take (j - i) ++ as.drop j) := by
    have : (as.drop i).drop (j - i) = as.drop j := by
      rw [List.drop_drop]; congr 1; omega
    rw [← this, List.take_append_drop, List.take_append_drop]
  have e2 : ds = ds.take i ++ ((ds.drop i).take (j - i) ++ ds.drop j) := by
    have : (ds.drop i).drop (j - i) = ds.drop j := by
      rw [List.drop_drop]; congr 1; omega
    rw [← this, List.take_append_drop, List.take_append_drop]
  have hseg := hr.seg
  rw [e1, e2] at hseg
  have s2 := (seg_split (by simp [hlen]) hseg).2
  have s3 := (seg_split (by simp [hlen]) s2).1
  have hdj : hdPtr (as.drop j) none = as[j]? := by
    rw [← List.head?_drop]; cases as.drop j <;> simp
  rw [hdj] at s3
  refine ⟨_, s3, ?_, ?_⟩
  · have hdi : as[i]? = (as.drop i).head? := by rw [List.head?_drop]
    rw [hdi]
    by_cases hlt : i < j
    · have hpos : 0 < j - i := by omega
      have hne : as.drop i ≠ [] := by simp; omega
      obtain ⟨x, rest, hx⟩ := List.exists_cons_of_ne_nil hne
      rw [hx]
      obtain ⟨m, hm⟩ : ∃ m, j - i = m + 1 := ⟨j - i - 1, by omega⟩
      rw [hm]
      simp
    · have : j = i := by omega
      subst this
      simp [List.head?_drop]
  · intro a ha he
    have hnd := hr.nodup
    rw [e1] at hnd
    have hnd2 := (List.nodup_append.1 (List.nodup_append.1 hnd).2.1).2.2
    have hmem : a ∈ as.drop j := by
      rw [List.getElem?_eq_getElem hj, Option.some.injEq] at he
      rw [List.drop_eq_getElem_cons hj, he]
      exact List.mem_cons_self _ _
    exact hnd2 ha hmem

theorem range_getElem? {α : Type} (ds : List α) {i j k : Nat} (hk : k < j - i) :
    ((ds.drop i).take (j - i))[k]? = ds[i + k]? := by
  rw [List.getElem?_take_of_lt hk, List.getElem?_drop]

theorem dropLast_getElem? {α : Type} (ds : List α) {k : Nat} (hk : k + 1 < ds.length) :
    ds.dropLast[k]? = ds[k]? := by
  rw [List.dropLast_eq_take, List.getElem?_take_of_lt (by omega)]

/-! ## Iterators of a list -/

theorem advance_seg_beyond {h : Heap} : ∀ {as : List Nat} {ds : List VoidPtr} {p : Iter}
    (i : Nat), Seg h p as ds none → as.length < i → advance h i (hdPtr as none) = none
  | [], [], _, i + 1, _, _ => advance_null i
  | [], [], _, 0, _, hi => by simp at hi
  | _ :: _, [], _, _, hs, _ => by simp [Seg] at hs
  | [], _ :: _, _, _, hs, _ => by simp [Seg] at hs
  | a :: as, d :: ds, _, 0, _, hi => by simp at hi
  | a :: as, d :: ds, _, i + 1, hs, hi => by
    simp only [Seg] at hs
    have ih := advance_seg_beyond i hs.2 (by simpa using hi)
    simp [advance, DLLNext, hs.1, ih]

theorem isIter_position {h : Heap} {l : Nat} {as : List Nat} {ds : List VoidPtr}
    (hr : ListRep h l as ds) {it : Iter} (hit : IsIter h l it) :
    ∃ pre a post dpre d dpost, it = some a ∧ as = pre ++ a :: post ∧
      ds = dpre ++ d :: dpost ∧ pre.length = dpre.length := by
  obtain ⟨hne, i, hi⟩ := hit
  have hlen := seg_length hr.seg
  have hhd : hdPtr as none = as.head? := by cases as <;> simp
  have hlt : i < as.length := by
    by_contra hge
    have hge := not_lt.1 hge
    simp only [iterAt, DLLBegin, hr.header, Option.map_some', Option.some_bind] at hi
    rw [← hhd] at hi
    rcases Nat.eq_or_lt_of_le hge with e | hgt
    · rw [← e, advance_seg as.length hr.seg (le_refl _)] at hi
      simp at hi
      exact hne hi.symm
    · rw [advance_seg_beyond i hr.seg hgt] at hi
      cases hi
  have hat := repr_iterAt hr hlt
  rw [hi, List.getElem?_eq_getElem hlt, Option.some.injEq] at hat
  have hid : i < ds.length := by omega
  refine ⟨as.take i, as[i], as.drop (i + 1), ds.take i, ds[i], ds.drop (i + 1), hat, ?_, ?_,
    by simp [hlen]⟩
  · rw [← List.drop_eq_getElem_cons hlt, List.take_append_drop]
  · rw [← List.drop_eq_getElem_cons hid, List.take_append_drop]

theorem isRealIter_position {h : Heap} {l : Nat} {as : List Nat} {ds : List VoidPtr}
    (hr : ListRep h l as ds) {it : Iter} (hit : IsRealIter h l it) :
    ∃ pre a b post dpre d db dpost, it = some a ∧ as = pre ++ a :: b :: post ∧
      ds = dpre ++ d :: db :: dpost ∧ pre.length = dpre.length := by
  obtain ⟨pre, a, post, dpre, d, dpost, rfl, rfl, rfl, hl⟩ := isIter_position hr hit.1
  have hlen := seg_length hr.seg
  cases post with
  | nil =>
    exfalso
    apply hit.2
    simp [DLLEnd, hr.header, List.getLast?_append]
  | cons b post =>
    cases dpost with
    | nil => simp at hlen; omega
    | cons db dpost => exact ⟨pre, a, b, post, dpre, d, db, dpost, rfl, rfl, rfl, hl⟩

theorem insertAfter_repr {h : Heap} {l : Nat} {pre post : List Nat} {a b : Nat}
    {dpre dpost : List VoidPtr} {d db : VoidPtr} (v : VoidPtr) (hv : h.Valid)
    (hr : ListRep h l (pre ++ a :: b :: post) (dpre ++ d :: db :: dpost))
    (hlen : pre.length = dpre.length) (hok : h.mallocOk h.brk = true) :
    ∃ h', DLLInsertAfter h (some a) v = some (h', some b) ∧ h'.Valid ∧
      ListRep h' l (pre ++ a :: b :: h.brk :: post) (dpre ++ d :: v :: db :: dpost) := by
  have ha := repr_node hr hlen
  have hr2 : ListRep h l ((pre ++ [a]) ++ b :: post) ((dpre ++ [d]) ++ db :: dpost) := by
    simpa using hr
  obtain ⟨h', hins, hv', hr', _⟩ := insertBefore_repr v hv hr2 (by simp [hlen]) hok
  exact ⟨h', by simp [DLLInsertAfter, ha, hins], hv', by simpa using hr'⟩

theorem nonempty_of_isEmpty_zero {h : Heap} {l : Nat} {as : List Nat} {ds : List VoidPtr}
    (hr : ListRep h l as ds) (he : DLLIsEmpty h (some l) = some 0) :
    ∃ v xs, ds = v :: xs ∧ xs ≠ [] ∧ ∃ ys w, ds = ys ++ [w] ++ [.tailField l] := by
  obtain ⟨ns, s, vs, rfl, rfl, hl, _, _, _, _, hhd⟩ := repr_unfold hr
  cases ns with
  | nil => simp [DLLIsEmpty, DLLBegin, DLLEnd, hhd] at he
  | cons a ns =>
    cases vs with
    | nil => simp at hl
    | cons v vs =>
      refine ⟨v, vs ++ [VoidPtr.tailField l], rfl, by simp, ?_⟩
      have hne : v :: vs ≠ [] := List.cons_ne_nil _ _
      exact ⟨(v :: vs).dropLast, (v :: vs).getLast hne, by
        rw [List.dropLast_append_getLast hne]⟩

theorem create_ok {h0 : Heap} (hok0 : h0.mallocOk h0.brk = true)
    (hok1 : h0.mallocOk (h0.brk + 1) = true) :
    ∃ h, DLLCreate h0 = some (h, some h0.brk) := by
  simp [DLLCreate, mallocDll, mallocNode, hok0, hok1, setNext, setPrev, setData]

/-! ## The concrete heaps are sound and their lists well formed -/

theorem emptyHeap_valid : emptyHeap.Valid := by
  refine ⟨fun _ _ => rfl, fun _ _ => rfl, fun _ _ => rfl, fun a ha => ?_⟩
  have h1 : (2 : Nat) ^ SIZE_BITS = 18446744073709551616 := by norm_num [SIZE_BITS]
  rw [h1] at ha
  simp only [emptyHeap, Heap.empty, decide_eq_false_iff_not, not_lt]
  omega

theorem createdHeap_eq : DLLCreate emptyHeap = some (createdHeap, some 0) := rfl

theorem createdHeap_valid : createdHeap.Valid :=
  (create_repr emptyHeap_valid createdHeap_eq).1

theorem createdHeap_wf : WellFormed createdHeap 0 :=
  wellFormed_of_repr (create_repr emptyHeap_valid createdHeap_eq).2.1

theorem pushBackAll_valid {h h' : Heap} {l : Nat} {vs : List VoidPtr} (hv : h.Valid)
    (hwf : WellFormed h l) (hok : ∀ k, k < vs.length → h.mallocOk (h.brk + k) = true)
    (hp : pushBackAll h l vs = some h') : h'.Valid ∧ WellFormed h' l := by
  obtain ⟨as, ds, hr⟩ := repr_of_wellFormed hwf
  rw [repr_dummy_split hr] at hr
  obtain ⟨g, as', hg, hv', hr'⟩ := pushBackAll_repr vs hv hr hok
  rw [hp, Option.some.injEq] at hg
  subst hg
  exact ⟨hv', wellFormed_of_repr hr'⟩

theorem exHeap_eq : pushBackAll createdHeap 0 [.user 1, .user 2, .user 3] = some exHeap := rfl

theorem exHeap_sound : exHeap.Valid ∧ WellFormed exHeap 0 :=
  pushBackAll_valid createdHeap_valid createdHeap_wf
    (fun k hk => by
      have hk3 : k < 3 := hk
      interval_cases k <;> rfl)
    exHeap_eq


theorem twoFiveHeap_eq : searchHeap [.user 2, .user 5] = some (twoFiveHeap, some 4) := rfl

theorem twoFiveHeap_sound :
    twoFiveHeap.Valid ∧ WellFormed twoFiveHeap 0 ∧ WellFormed twoFiveHeap 4 := by
  have hp : pushBackAll createdHeap 0 [.user 2, .user 5] =
      some (match pushBackAll createdHeap 0 [.user 2, .user 5] with
        | some h => h
        | none => emptyHeap) := rfl
  have hv := (pushBackAll_valid createdHeap_valid createdHeap_wf
    (fun k hk => by
      have hk2 : k < 2 := hk
      interval_cases k <;> rfl) hp).1
  have hc : DLLCreate (match pushBackAll createdHeap 0 [.user 2, .user 5] with
        | some h => h
        | none => emptyHeap) = some (twoFiveHeap, some 4) := rfl
  obtain ⟨hv', hr', _⟩ := create_repr hv hc
  have hr0 : ListRep twoFiveHeap 0 [1, 2, 3] [.user 2, .user 5, .tailField 0] :=
    ⟨⟨rfl, rfl, rfl, trivial⟩, by decide, rfl, rfl⟩
  exact ⟨hv', wellFormed_of_repr hr0, wellFormed_of_repr hr'⟩

/-! ## Insertion when the allocation fails -/

theorem walkToEnd_seg {h : Heap} : ∀ {as : List Nat} {ds : List VoidPtr} {p : Iter} (a : Nat)
    (fuel : Nat), Seg h p (a :: as) ds none → as.length < fuel →
    walkToEnd h fuel a = lastPtr (a :: as) none
  | _, [], _, _, _, hs, _ => by simp [Seg] at hs
  | _, _ :: _, _, _, 0, _, hf => by simp at hf
  | [], d :: ds, _, a, fuel + 1, hs, _ => by
    simp only [Seg] at hs
    simp [walkToEnd, hs.1]
  | b :: as, d :: ds, _, a, fuel + 1, hs, hf => by
    simp only [Seg] at hs
    have ih := walkToEnd_seg b fuel hs.2 (by simpa using hf)
    rw [lastPtr_cons] at ih ⊢
    simp only [walkToEnd, hs.1, hdPtr_cons]
    rw [ih]
    cases as with
    | nil => rfl
    | cons c cs => simp only [lastPtr_cons]

/-- The heap after a call of `malloc` that fails. -/
theorem mallocNode_fail {h : Heap} (hok : h.mallocOk h.brk = false) :
    mallocNode h = ({ h with brk := h.brk + 1 }, none) := by
  simp [mallocNode, hok]

theorem valid_after_fail {h : Heap} (hv : h.Valid) : ({ h with brk := h.brk + 1 } : Heap).Valid :=
  ⟨fun a ha => hv.nodes_brk a (Nat.le_of_succ_le ha),
    fun a ha => hv.lists_brk a (Nat.le_of_succ_le ha), hv.nodes_size, hv.ok_size⟩

theorem repr_after_fail {h : Heap} {l : Nat} {as : List Nat} {ds : List VoidPtr}
    (hr : ListRep h l as ds) : ListRep ({ h with brk := h.brk + 1 } : Heap) l as ds :=
  ⟨seg_frame (h := h) (fun _ _ => rfl) hr.seg, hr.nodup, hr.dummy, hr.header⟩

theorem insertBefore_fail {h : Heap} {l : Nat} {pre post : List Nat} {it : Nat}
    {dpre dpost : List VoidPtr} {d : VoidPtr} (v : VoidPtr) (hv : h.Valid)
    (hr : ListRep h l (pre ++ it :: post) (dpre ++ d :: dpost)) (hlen : pre.length = dpre.length)
    (hok : h.mallocOk h.brk = false) :
    DLLInsertBefore h (some it) v =
      some ({ h with brk := h.brk + 1 }, (pre ++ it :: post).getLast?) := by
  have hs := (seg_split hlen hr.seg).2
  have hb := (repr_length_lt hv hr).1
  simp only [List.length_append, List.length_cons] at hb
  have hw := walkToEnd_seg (h := ({ h with brk := h.brk + 1 } : Heap)) it (h.brk + 1 + 1)
    (seg_frame (h := h) (fun _ _ => rfl) hs) (by omega)
  have hl : lastPtr (it :: post) none = (pre ++ it :: post).getLast? := by
    rw [List.getLast?_append]
    simp only [lastPtr]
    cases hq : (it :: post).getLast? with
    | none => simp at hq
    | some x => simp
  simp only [DLLInsertBefore, mallocNode_fail hok]
  rw [hw, hl]
  cases hq : (pre ++ it :: post).getLast? with
  | none => simp at hq
  | some x => simp

theorem end_ne_of_later {h : Heap} {l : Nat} {xs ys : List Nat} {r y : Nat}
    {ds : List VoidPtr} (hr : ListRep h l (xs ++ r :: y :: ys) ds) :
    DLLEnd h (some l) ≠ some (some r) := by
  have hnd := List.nodup_cons.1 (List.nodup_append.1 hr.nodup).2.1
  intro he
  simp only [DLLEnd, hr.header, Option.map_some', Option.some.injEq] at he
  rw [List.getLast?_append] at he
  cases hq : (r :: y :: ys).getLast? with
  | none => simp at hq
  | some z =>
    rw [hq] at he
    simp at he
    subst he
    rw [List.getLast?_cons_cons] at hq
    exact hnd.1 (List.mem_of_getLast?_eq_some hq)

theorem end_after_fail {h : Heap} (l : Nat) :
    DLLEnd ({ h with brk := h.brk + 1 } : Heap) (some l) = DLLEnd h (some l) := rfl

theorem fullHeap_sound : fullHeap.Valid ∧ WellFormed fullHeap 0 := by
  obtain ⟨hv, hwf⟩ := exHeap_sound
  obtain ⟨as, ds, hr⟩ := repr_of_wellFormed hwf
  exact ⟨⟨hv.nodes_brk, hv.lists_brk, hv.nodes_size, fun _ _ => rfl⟩,
    wellFormed_of_repr
      (⟨seg_frame (h := exHeap) (fun _ _ => rfl) hr.seg, hr.nodup, hr.dummy, hr.header⟩ :
        ListRep fullHeap 0 as ds)⟩

/-! ## Traversal with an action -/

theorem forEach_seg {σ : Type} {h : Heap} {to_ : Iter} (act : VoidPtr → σ → Int × σ) :
    ∀ {as : List Nat} {ds : List VoidPtr} {p : Iter} (fuel : Nat) (s : σ),
    Seg h p as ds to_ → (∀ a ∈ as, some a ≠ to_) → as.length < fuel →
    DLLForEach.loop h to_ act fuel (hdPtr as to_) s = some (forEachSpec act as s)
  | [], [], _, fuel + 1, _, _, _, _ => by simp [DLLForEach.loop, forEachSpec]
  | [], [], _, 0, _, _, _, hf => by simp at hf
  | _ :: _, [], _, _, _, hs, _, _ => by simp [Seg] at hs
  | [], _ :: _, _, _, _, hs, _, _ => by simp [Seg] at hs
  | a :: as, d :: ds, _, 0, _, _, _, hf => by simp at hf
  | a :: as, d :: ds, _, fuel + 1, s, hs, hne, hf => by
    simp only [Seg] at hs
    have ih := fun s' => forEach_seg act fuel s' hs.2
      (fun b hb => hne b (List.mem_cons_of_mem _ hb)) (by simpa using hf)
    simp only [DLLForEach.loop, hdPtr_cons, hne a (List.mem_cons_self _ _), if_false, hs.1,
      forEachSpec]
    cases hact : act (.dataField a) s with
    | mk status s' =>
      simp only
      by_cases hst : status = 0
      · simp [hst, ih]
      · simp [hst]

theorem forEachSpec_logged {σ : Type} (act : VoidPtr → σ → Int × σ) :
    ∀ (as : List Nat) (s : σ) (log0 : List (VoidPtr × Int)),
    ∃ lg : List (VoidPtr × Int),
      (forEachSpec (logged act) as (s, log0)).2.2 = log0 ++ lg ∧
      forEachSpec act as s =
        ((forEachSpec (logged act) as (s, log0)).1, (forEachSpec (logged act) as (s, log0)).2.1) ∧
      lg.map Prod.fst = (as.take lg.length).map VoidPtr.dataField ∧
      (∀ t, t + 1 < lg.length → (lg[t]?).map Prod.snd = some 0) ∧
      ((forEachSpec (logged act) as (s, log0)).1 ≠ 0 →
        (lg.getLast?).map Prod.snd = some (forEachSpec (logged act) as (s, log0)).1) ∧
      ((forEachSpec (logged act) as (s, log0)).1 = 0 ↔
        lg.length = as.length ∧ ∀ e ∈ lg, e.2 = 0)
  | [], s, log0 => ⟨[], by simp [forEachSpec]⟩
  | a :: as, s, log0 => by
    cases hact : act (.dataField a) s with
    | mk status s' =>
      by_cases hst : status = 0
      · subst hst
        obtain ⟨lg, h1, h2, h3, h4, h5, h6⟩ :=
          forEachSpec_logged act as s' (log0 ++ [(.dataField a, 0)])
        have hstep : forEachSpec (logged act) (a :: as) (s, log0) =
            forEachSpec (logged act) as (s', log0 ++ [(.dataField a, 0)]) := by
          simp [forEachSpec, logged, hact]
        have hstep2 : forEachSpec act (a :: as) s = forEachSpec act as s' := by
          simp [forEachSpec, hact]
        rw [hstep, hstep2]
        refine ⟨(.dataField a, 0) :: lg, by simp [h1], h2, by simp [h3], ?_, ?_, ?_⟩
        · intro t ht
          cases t with
          | zero => simp
          | succ t => simpa using h4 t (by simpa using ht)
        · intro hne
          have := h5 hne
          cases lg with
          | nil => simp at this
          | cons e lg => simpa [List.getLast?_cons_cons] using this
        · rw [h6]
          simp
      · have hstep : forEachSpec (logged act) (a :: as) (s, log0) =
            (status, (s', log0 ++ [(.dataField a, status)])) := by
          simp [forEachSpec, logged, hact, hst]
        have hstep2 : forEachSpec act (a :: as) s = (status, s') := by
          simp [forEachSpec, hact, hst]
        rw [hstep, hstep2]
        exact ⟨[(.dataField a, status)], rfl, rfl, by simp, by simp, by simp, by simp [hst]⟩

theorem range_length {α : Type} (as : List α) {i j : Nat} (hij : i ≤ j) (hj : j ≤ as.length) :
    ((as.drop i).take (j - i)).length = j - i := by
  simp only [List.length_take, List.length_drop]
  omega

/-- The run of `DLLForEach` with a recording action over the range from position `i`
to position `j` of a well-formed list. -/
theorem forEach_range {σ : Type} {h : Heap} {l : Nat} {as : List Nat} {ds : List VoidPtr}
    (hv : h.Valid) (hr : ListRep h l as ds) {i j : Nat} (hij : i ≤ j) (hj : j < as.length)
    (act : VoidPtr → σ → Int × σ) (s : σ) :
    ∃ status s' log,
      DLLForEach h as[i]? as[j]? (logged act) (s, []) = some (status, (s', log)) ∧
      DLLForEach h as[i]? as[j]? act s = some (status, s') ∧
      log.length ≤ j - i ∧
      (∀ t, t < log.length → ∃ a, as[i + t]? = some a ∧
        (log[t]?).map Prod.fst = some (.dataField a)) ∧
      (∀ t, t + 1 < log.length → (log[t]?).map Prod.snd = some 0) ∧
      (status ≠ 0 → (log.getLast?).map Prod.snd = some status) ∧
      (status = 0 ↔ log.length = j - i ∧ ∀ e ∈ log, e.2 = 0) := by
  obtain ⟨p, hseg, hhd, hne⟩ := repr_range hr hij hj
  have hbrk := (repr_length_lt hv hr).1
  have hrl := range_length as hij (Nat.le_of_lt hj)
  have hfuel : ((as.drop i).take (j - i)).length < h.brk + 1 := by omega
  have hia : i < as.length := by omega
  have hdef : ∀ {τ : Type} (f : VoidPtr → τ → Int × τ) (s0 : τ),
      DLLForEach h as[i]? as[j]? f s0 =
        some (forEachSpec f ((as.drop i).take (j - i)) s0) := by
    intro τ f s0
    rw [← forEach_seg f (h.brk + 1) s0 hseg hne hfuel, hhd]
    rw [List.getElem?_eq_getElem hia, List.getElem?_eq_getElem hj]
    rfl
  obtain ⟨lg, h1, h2, h3, h4, h5, h6⟩ :=
    forEachSpec_logged act ((as.drop i).take (j - i)) s []
  have hlen : lg.length ≤ j - i := by
    have := congrArg List.length h3
    simp only [List.length_map, List.length_take, hrl] at this
    omega
  cases hres : forEachSpec (logged act) ((as.drop i).take (j - i)) (s, []) with
  | mk status rest =>
    obtain ⟨s', log⟩ := rest
    rw [hres] at h1 h2 h5 h6
    simp only [List.nil_append] at h1
    subst h1
    refine ⟨status, s', log, ?_, ?_, hlen, ?_, h4, h5, ?_⟩
    · rw [hdef, hres]
    · rw [hdef, h2]
    · intro t ht
      have hit : i + t < as.length := by omega
      refine ⟨as[i + t], List.getElem?_eq_getElem hit, ?_⟩
      have := congrArg (fun x => x[t]?) h3
      simp only [List.getElem?_map] at this
      rw [this, List.getElem?_take_of_lt ht, range_getElem? as (by omega),
        List.getElem?_eq_getElem hit]
      rfl
    · rw [h6, hrl]

theorem wf_range {h : Heap} (hv : h.Valid) {l : Nat} {xs : List VoidPtr} {i j : Nat}
    {frm to_ : Iter} (hwf : WellFormed h l) (hxs : values h l = some xs) (hij : i ≤ j)
    (hj : j ≤ xs.length) (hfrm : iterAt h l i = some frm) (hto : iterAt h l j = some to_) :
    ∃ as ds, ListRep h l as ds ∧ xs = ds.dropLast ∧ as.length = xs.length + 1 ∧
      ds.length = xs.length + 1 ∧ frm = as[i]? ∧ to_ = as[j]? := by
  obtain ⟨as, ds, hr⟩ := repr_of_wellFormed hwf
  have hval := repr_values hv hr
  rw [hxs, Option.some.injEq] at hval
  have hlen := seg_length hr.seg
  have hds : ds ≠ [] := by
    intro e
    have := hr.dummy
    simp [e] at this
  have hxl : xs.length + 1 = ds.length := by
    rw [hval, List.length_dropLast]
    have := List.length_pos.2 hds
    omega
  have hfrm2 := repr_iterAt hr (show i < as.length by omega)
  have hto2 := repr_iterAt hr (show j < as.length by omega)
  rw [hfrm, Option.some.injEq] at hfrm2
  rw [hto, Option.some.injEq] at hto2
  exact ⟨as, ds, hr, hval, by omega, by omega, hfrm2, hto2⟩

theorem find_single {h : Heap} {l : Nat} {as : List Nat} {ds : List VoidPtr}
    (hv : h.Valid) (hr : ListRep h l as ds) {k : Nat} (hk : k + 1 < as.length)
    (cmp : VoidPtr → Int) :
    ∃ r, DLLFind h as[k]? as[k + 1]? cmp = some r ∧
      (r = as[k]? ↔ ∃ v, ds[k]? = some v ∧ cmp v = 0) := by
  obtain ⟨p, hseg, hhd, hne⟩ := repr_range hr (Nat.le_succ k) hk
  have hbrk := (repr_length_lt hv hr).1
  have hlen := seg_length hr.seg
  have h1 : k + 1 - k = 1 := by omega
  rw [h1] at hseg hhd hne
  have hka : k < as.length := by omega
  have hkd : k < ds.length := by omega
  have e1 : (as.drop k).take 1 = [as[k]] := by
    rw [List.drop_eq_getElem_cons hka]; rfl
  have e2 : (ds.drop k).take 1 = [ds[k]] := by
    rw [List.drop_eq_getElem_cons hkd]; rfl
  rw [e1] at hseg hhd hne
  rw [e2] at hseg
  obtain ⟨r, hfind, hcase⟩ := find_seg cmp (h.brk + 1) hseg hne
    (by simp only [List.length_singleton]; omega)
  have hdef : DLLFind h as[k]? as[k + 1]? cmp =
      DLLFind.loop h as[k + 1]? cmp (h.brk + 1) as[k]? := by
    rw [List.getElem?_eq_getElem hka, List.getElem?_eq_getElem hk]
    rfl
  rw [hhd] at hfind
  refine ⟨r, by rw [hdef, hfind], ?_⟩
  have hne' : as[k]? ≠ as[k + 1]? := by
    rw [List.getElem?_eq_getElem hka]
    exact hne as[k] (List.mem_singleton_self _)
  rw [List.getElem?_eq_getElem hkd]
  rcases hcase with ⟨e, hall⟩ | ⟨t, a, d, h1, h2, h3, h4, _⟩
  · constructor
    · intro e2
      exact absurd (e2.symm.trans e) hne'
    · rintro ⟨v, hv1, hv2⟩
      exact absurd hv2 (hall 0 v (by simpa using hv1))
  · have ht : t = 0 := by
      have := (List.getElem?_eq_some.1 h1).1
      simpa using this
    subst ht
    simp only [List.getElem?_cons_zero, Option.some.injEq] at h1 h3
    subst h1 h3
    constructor
    · intro _
      exact ⟨_, rfl, h4⟩
    · intro _
      rw [h2, List.getElem?_eq_getElem hka]

/-! ## Two lists in one heap -/

theorem seg_determ {h : Heap} : ∀ {as bs : List Nat} {ds es : List VoidPtr} {p q : Iter},
    Seg h p as ds none → Seg h q bs es none → hdPtr as none = hdPtr bs none →
    as = bs ∧ ds = es
  | [], [], [], [], _, _, _, _, _ => ⟨rfl, rfl⟩
  | [], _ :: _, _, _, _, _, _, _, he => by simp at he
  | _ :: _, [], _, _, _, _, _, _, he => by simp at he
  | [], [], _ :: _, _, _, _, hs, _, _ => by simp [Seg] at hs
  | [], [], [], _ :: _, _, _, _, hs, _ => by simp [Seg] at hs
  | _ :: _, _ :: _, [], _, _, _, hs, _, _ => by simp [Seg] at hs
  | _ :: _, _ :: _, _ :: _, [], _, _, _, hs, _ => by simp [Seg] at hs
  | a :: as, b :: bs, d :: ds, e :: es, _, _, h1, h2, he => by
    simp only [hdPtr_cons, Option.some.injEq] at he
    subst he
    simp only [Seg] at h1 h2
    have := h1.1.symm.trans h2.1
    simp only [Option.some.injEq, Node.mk.injEq] at this
    obtain ⟨e1, e2⟩ := seg_determ h1.2 h2.2 this.2.1
    exact ⟨by rw [e1], by rw [this.1, e2]⟩

theorem seg_suffix {h : Heap} {as : List Nat} {ds : List VoidPtr} {p : Iter}
    (hs : Seg h p as ds none) {a : Nat} (ha : a ∈ as) :
    ∃ q post dsuf, Seg h q (a :: post) dsuf none ∧ dsuf.getLast? = ds.getLast? := by
  obtain ⟨pre, post, rfl⟩ := List.append_of_mem ha
  have hlen := seg_length hs
  have hsplit : ds = ds.take pre.length ++ ds.drop pre.length :=
    (List.take_append_drop _ _).symm
  rw [hsplit] at hs
  have hl : pre.length = (ds.take pre.length).length := by
    simp only [List.length_append, List.length_cons] at hlen
    simp only [List.length_take]
    omega
  have h2 := (seg_split hl hs).2
  refine ⟨_, post, ds.drop pre.length, h2, ?_⟩
  have hne : ds.drop pre.length ≠ [] := by
    intro e
    rw [e] at h2
    simp [Seg] at h2
  conv_rhs => rw [hsplit]
  rw [List.getLast?_append]
  cases hq : (ds.drop pre.length).getLast? with
  | none => exact absurd (List.getLast?_eq_none_iff.1 hq) hne
  | some x => simp

theorem repr_disjoint {h : Heap} {la lb : Nat} {as bs : List Nat} {ds es : List VoidPtr}
    (ha : ListRep h la as ds) (hb : ListRep h lb bs es) (hne : la ≠ lb) :
    ∀ a ∈ as, a ∉ bs := by
  intro a h1 h2
  obtain ⟨q, post, dsuf, s1, e1⟩ := seg_suffix ha.seg h1
  obtain ⟨q', post', esuf, s2, e2⟩ := seg_suffix hb.seg h2
  obtain ⟨_, e3⟩ := seg_determ s1 s2 rfl
  rw [e3, e2, hb.dummy] at e1
  rw [ha.dummy] at e1
  simp only [Option.some.injEq, VoidPtr.tailField.injEq] at e1
  exact hne e1.symm

theorem repr_frame {h h' : Heap} {l : Nat} {as : List Nat} {ds : List VoidPtr}
    (hr : ListRep h l as ds) (hn : ∀ a ∈ as, h'.nodes a = h.nodes a)
    (hl : h'.lists l = h.lists l) : ListRep h' l as ds :=
  ⟨seg_frame hn hr.seg, hr.nodup, hr.dummy, by rw [hl]; exact hr.header⟩

/-- A successful `DLLPushBack` on one list, with what it leaves alone. -/
theorem pushBack_frame {h : Heap} {l : Nat} {as : List Nat} {xs : List VoidPtr} (v : VoidPtr)
    (hv : h.Valid) (hr : ListRep h l as (xs ++ [.tailField l])) (hok : h.mallocOk h.brk = true) :
    ∃ h' s, DLLPushBack h (some l) v = some (h', some s) ∧ DLLNext h' (some s) = some (some h.brk) ∧
      h'.Valid ∧ ListRep h' l (as ++ [h.brk]) (xs ++ [v] ++ [.tailField l]) ∧
      h'.brk = h.brk + 1 ∧ h'.mallocOk = h.mallocOk ∧
      (∀ a, a ∉ as → a ≠ h.brk → h'.nodes a = h.nodes a) ∧
      (∀ k, k ≠ l → h'.lists k = h.lists k) := by
  obtain ⟨ns, s, vs, rfl, hds, hl, _, _, _, _, hhd⟩ := repr_unfold hr
  obtain rfl : xs = vs := List.append_inj_left' hds rfl
  obtain ⟨h', hins, hv', hr', hb, hm, hfn, hfl⟩ := insertBefore_repr v hv
    (show ListRep h l (ns ++ s :: []) (xs ++ VoidPtr.tailField l :: []) from hr) hl hok
  have hs := repr_node hr' hl
  exact ⟨h', s, by simp [DLLPushBack, hhd, hins], by simp [DLLNext, hs], hv',
    by simpa using hr', hb, hm, hfn, hfl⟩

/-- A `DLLPushBack` whose allocation fails. -/
theorem pushBack_fail {h : Heap} {l : Nat} {as : List Nat} {ds : List VoidPtr} (v : VoidPtr)
    (hv : h.Valid) (hr : ListRep h l as ds) (hok : h.mallocOk h.brk = false) :
    ∃ s, DLLPushBack h (some l) v = some ({ h with brk := h.brk + 1 }, some s) ∧
      DLLNext ({ h with brk := h.brk + 1 } : Heap) (some s) = some none := by
  obtain ⟨ns, s, vs, rfl, rfl, hl, _, hs, _, _, hhd⟩ := repr_unfold hr
  have := insertBefore_fail v hv
    (show ListRep h l (ns ++ s :: []) (vs ++ VoidPtr.tailField l :: []) from hr) hl hok
  refine ⟨s, ?_, by simp [DLLNext, hs]⟩
  simp only [DLLPushBack, hhd, Option.some_bind, this]
  simp [List.getLast?_append]

/-! ## The loop of `DLLMultiFind` -/

theorem find_first {h : Heap} {to_ : Iter} (cmp : VoidPtr → Int) :
    ∀ {R : List Nat} {D : List VoidPtr} {p : Iter} (fuel : Nat),
    Seg h p R D to_ → (∀ a ∈ R, some a ≠ to_) → R.length < fuel →
    ((∀ d ∈ D, cmp d ≠ 0) ∧ DLLFind.loop h to_ cmp fuel (hdPtr R to_) = some to_) ∨
    ∃ R1 m R2 D1 dm D2, R = R1 ++ m :: R2 ∧ D = D1 ++ dm :: D2 ∧ R1.length = D1.length ∧
      (∀ d ∈ D1, cmp d ≠ 0) ∧ cmp dm = 0 ∧
      DLLFind.loop h to_ cmp fuel (hdPtr R to_) = some (some m)
  | [], [], _, fuel + 1, _, _, _ => Or.inl ⟨by simp, by simp [DLLFind.loop]⟩
  | [], [], _, 0, _, _, hf => by simp at hf
  | _ :: _, [], _, _, hs, _, _ => by simp [Seg] at hs
  | [], _ :: _, _, _, hs, _, _ => by simp [Seg] at hs
  | a :: as, d :: ds, _, 0, _, _, hf => by simp at hf
  | a :: R, d :: D, _, fuel + 1, hs, hne, hf => by
    simp only [Seg] at hs
    have hna := hne a (List.mem_cons_self _ _)
    by_cases hc : cmp d = 0
    · exact Or.inr ⟨[], a, R, [], d, D, rfl, rfl, rfl, by simp, hc,
        by simp [DLLFind.loop, hna, hs.1, hc]⟩
    · rcases find_first cmp fuel hs.2 (fun b hb => hne b (List.mem_cons_of_mem _ hb))
          (by simpa using hf) with ⟨hall, hres⟩ | ⟨R1, m, R2, D1, dm, D2, e1, e2, hl, hall, hm, hres⟩
      · refine Or.inl ⟨?_, by simp [DLLFind.loop, hna, hs.1, hc, hres]⟩
        intro x hx
        rcases List.mem_cons.1 hx with e | hx
        · exact e ▸ hc
        · exact hall x hx
      · refine Or.inr ⟨a :: R1, m, R2, d :: D1, dm, D2, by simp [e1], by simp [e2],
          by simp [hl], ?_, hm, by simp [DLLFind.loop, hna, hs.1, hc, hres]⟩
        intro x hx
        rcases List.mem_cons.1 hx with e | hx
        · exact e ▸ hc
        · exact hall x hx

theorem matching_none (cmp : VoidPtr → Int) : ∀ (R : List Nat) (D : List VoidPtr),
    (∀ d ∈ D, cmp d ≠ 0) → matching cmp R D = []
  | [], _, _ => by simp [matching]
  | _ :: _, [], _ => by simp [matching]
  | a :: R, d :: D, hall => by
    simp only [matching, hall d (List.mem_cons_self _ _), if_false]
    exact matching_none cmp R D (fun x hx => hall x (List.mem_cons_of_mem _ hx))

theorem matching_first (cmp : VoidPtr → Int) (m : Nat) (dm : VoidPtr) (R2 : List Nat)
    (D2 : List VoidPtr) (hm : cmp dm = 0) : ∀ (R1 : List Nat) (D1 : List VoidPtr),
    R1.length = D1.length → (∀ d ∈ D1, cmp d ≠ 0) →
    matching cmp (R1 ++ m :: R2) (D1 ++ dm :: D2) = m :: matching cmp R2 D2
  | [], [], _, _ => by simp [matching, hm]
  | [], _ :: _, hl, _ => by simp at hl
  | _ :: _, [], hl, _ => by simp at hl
  | a :: R1, d :: D1, hl, hall => by
    simp only [List.cons_append, matching, hall d (List.mem_cons_self _ _), if_false]
    exact matching_first cmp m dm R2 D2 hm R1 D1 (by simpa using hl)
      (fun x hx => hall x (List.mem_cons_of_mem _ hx))

theorem multiFind_done (t : Nat) (cmp : VoidPtr → Int) (dest : Option Nat) (n : Nat) (h : Heap)
    (status : Int) :
    DLLMultiFind.loop (some t) cmp dest (n + 1) h (some t) status = some (h, status) := by
  simp [DLLMultiFind.loop]

/-- One turn of the loop of `DLLMultiFind` that finds the match `m` and appends it. -/
theorem multiFind_step {h : Heap} {t lb : Nat} (cmp : VoidPtr → Int) {R1 R2 : List Nat} {m : Nat}
    {D1 D2 : List VoidPtr} {dm : VoidPtr} {p : Iter} {bs : List Nat} {es : List VoidPtr}
    (n : Nat) (status : Int) (hv : h.Valid)
    (hseg : Seg h p (R1 ++ m :: R2) (D1 ++ dm :: D2) (some t))
    (hl : R1.length = D1.length) (hall : ∀ d ∈ D1, cmp d ≠ 0) (hm : cmp dm = 0)
    (hne : ∀ a ∈ R1 ++ m :: R2, a ≠ t)
    (hb : ListRep h lb bs (es ++ [.tailField lb]))
    (hdis : ∀ a ∈ R1 ++ m :: R2, a ∉ bs) (hlt : ∀ a ∈ R1 ++ m :: R2, a < h.brk)
    (hlen : (R1 ++ m :: R2).length ≤ h.brk)
    (hok : h.mallocOk h.brk = true) (hint : status + 1 ≤ INT_MAX) :
    ∃ h1 q, DLLMultiFind.loop (some t) cmp (some lb) (n + 1) h (hdPtr (R1 ++ m :: R2) (some t))
          status =
        DLLMultiFind.loop (some t) cmp (some lb) n h1 (hdPtr R2 (some t)) (status + 1) ∧
      h1.Valid ∧ Seg h1 q R2 D2 (some t) ∧
      ListRep h1 lb (bs ++ [h.brk]) (es ++ [.node m] ++ [.tailField lb]) ∧
      h1.brk = h.brk + 1 ∧ h1.mallocOk = h.mallocOk ∧
      (∀ a, a ∉ bs → a ≠ h.brk → h1.nodes a = h.nodes a) ∧
      (∀ k, k ≠ lb → h1.lists k = h.lists k) := by
  obtain ⟨h1, s, hpush, hnx, hv1, hr1, hb1, hm1, hfn, hfl⟩ := pushBack_frame (.node m) hv hb hok
  have hne' : ∀ a ∈ R1 ++ m :: R2, some a ≠ some t := fun a ha e =>
    hne a ha (Option.some.inj e)
  have hfind : DLLFind.loop h (some t) cmp (h.brk + 1) (hdPtr (R1 ++ m :: R2) (some t)) =
      some (some m) := by
    rcases find_first cmp (h.brk + 1) hseg hne' (by omega) with
      ⟨hnone, _⟩ | ⟨R1', m', R2', D1', dm', D2', e1, e2, hl', hall', hm', hres⟩
    · exact absurd hm (hnone dm (by simp))
    · have e3 := matching_first cmp m dm R2 D2 hm R1 D1 hl hall
      have e4 := matching_first cmp m' dm' R2' D2' hm' R1' D1' hl' hall'
      rw [← e1, ← e2, e3] at e4
      rw [hres, (List.cons.inj e4).1]
  have hs2 := (seg_split hl hseg).2
  simp only [Seg] at hs2
  have hmem : m ∈ R1 ++ m :: R2 := by simp
  have hmn : h1.nodes m = h.nodes m :=
    hfn m (hdis m hmem) (Nat.ne_of_lt (hlt m hmem))
  have hseg2 : Seg h1 (some m) R2 D2 (some t) := by
    refine seg_frame (fun a ha => ?_) hs2.2
    have ha' : a ∈ R1 ++ m :: R2 := by simp [ha]
    exact hfn a (hdis a ha') (Nat.ne_of_lt (hlt a ha'))
  refine ⟨h1, some m, ?_, hv1, hseg2, hr1, hb1, hm1, hfn, hfl⟩
  have hhd : ∃ x, hdPtr (R1 ++ m :: R2) (some t) = some x ∧ x ≠ t := by
    cases R1 with
    | nil => exact ⟨m, rfl, hne m hmem⟩
    | cons a R1 => exact ⟨a, rfl, hne a (by simp)⟩
  obtain ⟨x, hx, hxt⟩ := hhd
  have hmt : m ≠ t := hne m hmem
  have hint' : ¬ status + 1 > INT_MAX := not_lt.2 hint
  rw [hx] at hfind ⊢
  have hnm : DLLNext h1 (some m) = some (hdPtr R2 (some t)) := by
    simp [DLLNext, hmn, hs2.1]
  simp only [DLLMultiFind.loop, Option.some.injEq, hxt, if_false, DLLFind, hfind,
    Option.some_bind, ne_eq, Ne.symm hmt, not_false_eq_true, if_true, Iter.toVoid, hpush, hnx,
    reduceCtorEq, hint', hnm, Bool.false_eq_true]

/-- One turn of the loop of `DLLMultiFind` that finds the match `m` and fails to append it. -/
theorem multiFind_step_fail {h : Heap} {t lb : Nat} (cmp : VoidPtr → Int) {R1 R2 : List Nat}
    {m : Nat} {D1 D2 : List VoidPtr} {dm : VoidPtr} {p : Iter} {bs : List Nat}
    {es : List VoidPtr} (n : Nat) (status : Int) (hv : h.Valid)
    (hseg : Seg h p (R1 ++ m :: R2) (D1 ++ dm :: D2) (some t))
    (hl : R1.length = D1.length) (hall : ∀ d ∈ D1, cmp d ≠ 0) (hm : cmp dm = 0)
    (hne : ∀ a ∈ R1 ++ m :: R2, a ≠ t)
    (hb : ListRep h lb bs es)
    (hlen : (R1 ++ m :: R2).length ≤ h.brk)
    (hok : h.mallocOk h.brk = false) :
    DLLMultiFind.loop (some t) cmp (some lb) (n + 1) h (hdPtr (R1 ++ m :: R2) (some t)) status =
      some ({ h with brk := h.brk + 1 }, -1) := by
  obtain ⟨s, hpush, hnx⟩ := pushBack_fail (.node m) hv hb hok
  have hne' : ∀ a ∈ R1 ++ m :: R2, some a ≠ some t := fun a ha e =>
    hne a ha (Option.some.inj e)
  have hfind : DLLFind.loop h (some t) cmp (h.brk + 1) (hdPtr (R1 ++ m :: R2) (some t)) =
      some (some m) := by
    rcases find_first cmp (h.brk + 1) hseg hne' (by omega) with
      ⟨hnone, _⟩ | ⟨R1', m', R2', D1', dm', D2', e1, e2, hl', hall', hm', hres⟩
    · exact absurd hm (hnone dm (by simp))
    · have e3 := matching_first cmp m dm R2 D2 hm R1 D1 hl hall
      have e4 := matching_first cmp m' dm' R2' D2' hm' R1' D1' hl' hall'
      rw [← e1, ← e2, e3] at e4
      rw [hres, (List.cons.inj e4).1]
  have hmem : m ∈ R1 ++ m :: R2 := by simp
  have hhd : ∃ x, hdPtr (R1 ++ m :: R2) (some t) = some x ∧ x ≠ t := by
    cases R1 with
    | nil => exact ⟨m, rfl, hne m hmem⟩
    | cons a R1 => exact ⟨a, rfl, hne a (by simp)⟩
  obtain ⟨x, hx, hxt⟩ := hhd
  have hmt : m ≠ t := hne m hmem
  rw [hx] at hfind ⊢
  simp only [DLLMultiFind.loop, Option.some.injEq, hxt, if_false, DLLFind, hfind,
    Option.some_bind, ne_eq, Ne.symm hmt, not_false_eq_true, if_true, Iter.toVoid, hpush, hnx]

theorem seg_last_of_split {R1 R2 : List Nat} {m : Nat} {D1 D2 : List VoidPtr} {dm : VoidPtr}
    (cmp : VoidPtr → Int) (hlen : R2.length = D2.length)
    (hlast : R1 ++ m :: R2 = [] ∨ ∃ d, (D1 ++ dm :: D2).getLast? = some d ∧ cmp d = 0) :
    R2 = [] ∨ ∃ d, D2.getLast? = some d ∧ cmp d = 0 := by
  cases R2 with
  | nil => exact Or.inl rfl
  | cons a R2 =>
    cases D2 with
    | nil => simp at hlen
    | cons e D2 =>
      rcases hlast with h0 | ⟨d, hd, hc⟩
      · simp at h0
      · refine Or.inr ⟨d, ?_, hc⟩
        rw [List.getLast?_append, List.getLast?_cons_cons] at hd
        cases hq : (e :: D2).getLast? with
        | none => simp at hq
        | some x => rw [hq] at hd; simpa using hd

theorem multiFind_all {t lb : Nat} (cmp : VoidPtr → Int) :
    ∀ (n : Nat) {h : Heap} {R : List Nat} {D : List VoidPtr} {p : Iter} {bs : List Nat}
      {es : List VoidPtr} (status : Int),
    h.Valid → Seg h p R D (some t) → (∀ a ∈ R, a ≠ t) →
    ListRep h lb bs (es ++ [.tailField lb]) → (∀ a ∈ R, a ∉ bs) → (∀ a ∈ R, a < h.brk) →
    R.length ≤ h.brk → R.length < n →
    (∀ k, k < (matching cmp R D).length → h.mallocOk (h.brk + k) = true) →
    (R = [] ∨ ∃ d, D.getLast? = some d ∧ cmp d = 0) →
    status + (matching cmp R D).length ≤ INT_MAX →
    ∃ h' bs', DLLMultiFind.loop (some t) cmp (some lb) n h (hdPtr R (some t)) status =
        some (h', status + (matching cmp R D).length) ∧
      h'.Valid ∧
      ListRep h' lb bs' (es ++ (matching cmp R D).map VoidPtr.node ++ [.tailField lb]) ∧
      h'.mallocOk = h.mallocOk ∧ h'.brk = h.brk + (matching cmp R D).length ∧
      (∀ a, a ∉ bs → a < h.brk → h'.nodes a = h.nodes a) ∧
      (∀ k, k ≠ lb → h'.lists k = h.lists k)
  | 0, _, _, _, _, _, _, _, _, _, _, _, _, _, _, hn, _, _, _ => by simp at hn
  | n + 1, h, R, D, p, bs, es, status, hv, hseg, hne, hb, hdis, hlt, hlen, hn, hok, hlast,
      hint => by
    have hne' : ∀ a ∈ R, some a ≠ some t := fun a ha e => hne a ha (Option.some.inj e)
    rcases find_first cmp (h.brk + 1) hseg hne' (by omega) with
      ⟨hnone, _⟩ | ⟨R1, m, R2, D1, dm, D2, rfl, rfl, hl, hall, hm, _⟩
    · have hM := matching_none cmp R D hnone
      rcases hlast with rfl | ⟨d, hd, hc⟩
      · refine ⟨h, bs, ?_, hv, ?_, rfl, by simp [hM], fun _ _ _ => rfl, fun _ _ => rfl⟩
        · rw [hM]; simp [multiFind_done]
        · rw [hM]; simpa using hb
      · exact absurd hc (hnone d (List.mem_of_getLast?_eq_some hd))
    · have hM := matching_first cmp m dm R2 D2 hm R1 D1 hl hall
      rw [hM] at hok hint ⊢
      simp only [List.length_cons] at hok hint
      have hint1 : status + 1 ≤ INT_MAX := by
        have : (0 : Int) ≤ ((matching cmp R2 D2).length : Int) := Int.natCast_nonneg _
        push_cast at hint
        omega
      obtain ⟨h1, q, hstep, hv1, hseg1, hr1, hb1, hm1, hfn, hfl⟩ :=
        multiFind_step cmp n status hv hseg hl hall hm hne hb hdis hlt hlen
          (by simpa using hok 0 (by omega)) hint1
      have hsub : ∀ a ∈ R2, a ∈ R1 ++ m :: R2 := fun a ha => by simp [ha]
      have hlen2 := seg_length hseg1
      obtain ⟨h', bs', hloop, hv', hr', hm', hb', hfn', hfl'⟩ :=
        multiFind_all cmp n (status + 1) hv1 hseg1 (fun a ha => hne a (hsub a ha))
          (show ListRep h1 lb (bs ++ [h.brk]) ((es ++ [VoidPtr.node m]) ++ [VoidPtr.tailField lb])
            from hr1)
          (fun a ha hmem => by
            rcases List.mem_append.1 hmem with h2 | h2
            · exact hdis a (hsub a ha) h2
            · have := hlt a (hsub a ha)
              simp at h2
              omega)
          (fun a ha => by rw [hb1]; exact Nat.lt_succ_of_lt (hlt a (hsub a ha)))
          (by simp only [List.length_append, List.length_cons] at hlen; omega)
          (by simp only [List.length_append, List.length_cons] at hn; omega)
          (fun k hk => by
            rw [hm1, hb1, Nat.add_assoc, Nat.add_comm 1 k]
            exact hok (k + 1) (by omega))
          (seg_last_of_split cmp hlen2 hlast)
          (by push_cast at hint ⊢; omega)
      refine ⟨h', bs', ?_, hv', ?_, by rw [hm', hm1],
        by rw [hb', hb1, List.length_cons]; omega, ?_, ?_⟩
      · rw [hstep, hloop]
        congr 2
        simp only [List.length_cons]
        push_cast
        omega
      · simpa using hr'
      · intro a ha hal
        rw [hfn' a (by simp [ha]; omega) (by omega), hfn a ha (by omega)]
      · intro k hk
        rw [hfl' k hk, hfl k hk]

theorem multiFind_fail {t lb : Nat} (cmp : VoidPtr → Int) :
    ∀ (n : Nat) {h : Heap} {R : List Nat} {D : List VoidPtr} {p : Iter} {bs : List Nat}
      {es : List VoidPtr} (status : Int) (k : Nat),
    h.Valid → Seg h p R D (some t) → (∀ a ∈ R, a ≠ t) →
    ListRep h lb bs (es ++ [.tailField lb]) → (∀ a ∈ R, a ∉ bs) → (∀ a ∈ R, a < h.brk) →
    R.length ≤ h.brk → R.length < n →
    k < (matching cmp R D).length → h.mallocOk (h.brk + k) = false →
    (∀ k', k' < k → h.mallocOk (h.brk + k') = true) →
    status + k ≤ INT_MAX →
    ∃ h' bs', DLLMultiFind.loop (some t) cmp (some lb) n h (hdPtr R (some t)) status =
        some (h', -1) ∧
      h'.Valid ∧
      ListRep h' lb bs' (es ++ ((matching cmp R D).take k).map VoidPtr.node ++ [.tailField lb]) ∧
      (∀ a, a ∉ bs → a < h.brk → h'.nodes a = h.nodes a) ∧
      (∀ j, j ≠ lb → h'.lists j = h.lists j)
  | 0, _, _, _, _, _, _, _, _, _, _, _, _, _, _, _, hn, _, _, _, _ => by simp at hn
  | n + 1, h, R, D, p, bs, es, status, k, hv, hseg, hne, hb, hdis, hlt, hlen, hn, hk, hfail,
      hok, hint => by
    have hne' : ∀ a ∈ R, some a ≠ some t := fun a ha e => hne a ha (Option.some.inj e)
    rcases find_first cmp (h.brk + 1) hseg hne' (by omega) with
      ⟨hnone, _⟩ | ⟨R1, m, R2, D1, dm, D2, rfl, rfl, hl, hall, hm, _⟩
    · rw [matching_none cmp R D hnone] at hk
      simp at hk
    · have hM := matching_first cmp m dm R2 D2 hm R1 D1 hl hall
      rw [hM] at hk ⊢
      simp only [List.length_cons] at hk
      cases k with
      | zero =>
        refine ⟨_, bs, multiFind_step_fail cmp n status hv hseg hl hall hm hne hb hlen
          (by simpa using hfail), valid_after_fail hv, ?_, fun _ _ _ => rfl, fun _ _ => rfl⟩
        simpa using repr_after_fail hb
      | succ k =>
        have hint1 : status + 1 ≤ INT_MAX := by
          push_cast at hint
          omega
        obtain ⟨h1, q, hstep, hv1, hseg1, hr1, hb1, hm1, hfn, hfl⟩ :=
          multiFind_step cmp n status hv hseg hl hall hm hne hb hdis hlt hlen
            (by simpa using hok 0 (by omega)) hint1
        have hsub : ∀ a ∈ R2, a ∈ R1 ++ m :: R2 := fun a ha => by simp [ha]
        obtain ⟨h', bs', hloop, hv', hr', hfn', hfl'⟩ :=
          multiFind_fail cmp n (status + 1) k hv1 hseg1 (fun a ha => hne a (hsub a ha))
            (show ListRep h1 lb (bs ++ [h.brk])
              ((es ++ [VoidPtr.node m]) ++ [VoidPtr.tailField lb]) from hr1)
            (fun a ha hmem => by
              rcases List.mem_append.1 hmem with h2 | h2
              · exact hdis a (hsub a ha) h2
              · have := hlt a (hsub a ha)
                simp at h2
                omega)
            (fun a ha => by rw [hb1]; exact Nat.lt_succ_of_lt (hlt a (hsub a ha)))
            (by simp only [List.length_append, List.length_cons] at hlen; omega)
            (by simp only [List.length_append, List.length_cons] at hn; omega)
            (by omega)
            (by
              rw [hm1, hb1, Nat.add_assoc, Nat.add_comm 1 k]
              exact hfail)
            (fun k' hk' => by
              rw [hm1, hb1, Nat.add_assoc, Nat.add_comm 1 k']
              exact hok (k' + 1) (by omega))
            (by push_cast at hint ⊢; omega)
        refine ⟨h', bs', by rw [hstep, hloop], hv', by simpa using hr', ?_, ?_⟩
        · intro a ha hal
          rw [hfn' a (by simp [ha]; omega) (by omega), hfn a ha (by omega)]
        · intro j hj
          rw [hfl' j hj, hfl j hj]

theorem repr_getData {h : Heap} {l : Nat} {as : List Nat} {ds : List VoidPtr}
    (hr : ListRep h l as ds) {k : Nat} (hk : k < as.length) :
    DLLGetData h as[k]? = ds[k]? := by
  have hlen := seg_length hr.seg
  have hkd : k < ds.length := by omega
  have e1 : as = as.take k ++ as[k] :: as.drop (k + 1) := by
    rw [← List.drop_eq_getElem_cons hk, List.take_append_drop]
  have e2 : ds = ds.take k ++ ds[k] :: ds.drop (k + 1) := by
    rw [← List.drop_eq_getElem_cons hkd, List.take_append_drop]
  have hr2 := hr
  rw [e1, e2] at hr2
  have hn := repr_node hr2 (by simp; omega)
  rw [List.getElem?_eq_getElem hk, List.getElem?_eq_getElem hkd]
  simp [DLLGetData, hn]

theorem matchesIn_eq {h : Heap} {l : Nat} {as : List Nat} {ds : List VoidPtr}
    (hr : ListRep h l as ds) (cmp : VoidPtr → Int) : ∀ (n i : Nat), i + n ≤ as.length →
    matchesIn h l cmp i n =
      (matching cmp ((as.drop i).take n) ((ds.drop i).take n)).map VoidPtr.node
  | 0, _, _ => by simp [matchesIn, matching]
  | n + 1, i, hin => by
    have hlen := seg_length hr.seg
    have hi : i < as.length := by omega
    have hid : i < ds.length := by omega
    have ih := matchesIn_eq hr cmp n (i + 1) (by omega)
    have e1 : (as.drop i).take (n + 1) = as[i] :: (as.drop (i + 1)).take n := by
      rw [List.drop_eq_getElem_cons hi]; rfl
    have e2 : (ds.drop i).take (n + 1) = ds[i] :: (ds.drop (i + 1)).take n := by
      rw [List.drop_eq_getElem_cons hid]; rfl
    have hit := repr_iterAt hr hi
    have hgd := repr_getData hr hi
    rw [List.getElem?_eq_getElem hi] at hit hgd
    rw [List.getElem?_eq_getElem hid] at hgd
    rw [e1, e2]
    simp only [matchesIn] at ih ⊢
    rw [List.range'_succ, List.filterMap_cons, hit]
    simp only [hgd, matching]
    by_cases hc : cmp ds[i] = 0
    · simp only [hc, if_true, List.map_cons]
      rw [ih]
      rfl
    · simp only [hc, if_false]
      rw [ih]

theorem multiFind_negative {lb : Nat} (to_ : Iter) (cmp : VoidPtr → Int) :
    ∀ (n : Nat) {h h' : Heap} {bs : List Nat} {es : List VoidPtr} (found : Iter)
      (status r : Int),
    h.Valid → ListRep h lb bs es → 0 ≤ status →
    DLLMultiFind.loop to_ cmp (some lb) n h found status = some (h', r) →
    0 ≤ r ∨ (r = -1 ∧ ∃ k, h'.brk = h.brk + k + 1 ∧ h.mallocOk (h.brk + k) = false ∧
      ∀ k', k' < k → h.mallocOk (h.brk + k') = true)
  | 0, _, _, _, _, _, _, _, _, _, _, hres => by simp [DLLMultiFind.loop] at hres
  | n + 1, h, h', bs, es, found, status, r, hv, hb, hst, hres => by
    simp only [DLLMultiFind.loop] at hres
    by_cases hft : found = to_
    · simp only [hft, if_true, Option.some.injEq, Prod.mk.injEq] at hres
      exact Or.inl (hres.2 ▸ hst)
    · simp only [hft, if_false] at hres
      cases hfind : DLLFind h found to_ cmp with
      | none => simp [hfind] at hres
      | some f =>
        simp only [hfind, Option.some_bind] at hres
        by_cases htf : to_ = f
        · simp only [htf, ne_eq, not_true_eq_false, if_false, Option.some_bind,
            Bool.false_eq_true] at hres
          cases hnx : DLLNext h f with
          | none => simp [hnx] at hres
          | some nx =>
            simp only [hnx, Option.some_bind] at hres
            exact multiFind_negative to_ cmp n nx status r hv hb hst (htf ▸ hres)
        · simp only [ne_eq, htf, not_false_eq_true, if_true] at hres
          cases hok : h.mallocOk h.brk with
          | false =>
            obtain ⟨s, hpush, hnx⟩ := pushBack_fail f.toVoid hv hb hok
            simp only [hpush, Option.some_bind, hnx, if_true, Option.some.injEq,
              Prod.mk.injEq] at hres
            refine Or.inr ⟨hres.2.symm, 0, ?_, by simpa using hok, fun k' hk' => by omega⟩
            rw [← hres.1]
          | true =>
            have hb2 := hb
            rw [repr_dummy_split hb] at hb2
            obtain ⟨h1, s, hpush, hnx, hv1, hr1, hb1, hm1, _, _⟩ :=
              pushBack_frame f.toVoid hv hb2 hok
            simp only [hpush, Option.some_bind, hnx, reduceCtorEq, if_false] at hres
            by_cases hov : status + 1 > INT_MAX
            · simp [hov] at hres
            · simp only [hov, if_false, Option.some_bind, Bool.false_eq_true] at hres
              cases hnf : DLLNext h1 f with
              | none => simp [hnf] at hres
              | some nx =>
                simp only [hnf, Option.some_bind] at hres
                rcases multiFind_negative to_ cmp n nx (status + 1) r hv1 hr1 (by omega)
                    hres with hpos | ⟨hr, k, hk1, hk2, hk3⟩
                · exact Or.inl hpos
                · refine Or.inr ⟨hr, k + 1, by rw [hk1, hb1]; omega, ?_, ?_⟩
                  · rw [hm1, hb1, Nat.add_assoc, Nat.add_comm 1 k] at hk2
                    exact hk2
                  · intro k' hk'
                    cases k' with
                    | zero => simpa using hok
                    | succ k' =>
                      have := hk3 k' (by omega)
                      rw [hm1, hb1, Nat.add_assoc, Nat.add_comm 1 k'] at this
                      exact this

theorem create_keeps {g h : Heap} {l0 l : Nat} {as : List Nat} {ds : List VoidPtr}
    (hv : g.Valid) (hr : ListRep g l0 as ds) (hc : DLLCreate g = some (h, some l)) :
    ListRep h l0 as ds ∧ l ≠ l0 := by
  obtain ⟨_, _, hl, _, _, hfn, hfl⟩ := create_repr hv hc
  have hl0 : l0 < g.brk := by
    by_contra hge
    have := hv.lists_brk l0 (not_lt.1 hge)
    rw [hr.header] at this
    cases this
  have hne : l ≠ l0 := by omega
  refine ⟨repr_frame hr (fun a ha => hfn a ?_) (hfl l0 (Ne.symm hne)), hne⟩
  have := seg_lt_brk hv hr.seg a ha
  omega

theorem range_getLast {α : Type} (ds : List α) {i j : Nat} (hij : i < j) (hj : j ≤ ds.length) :
    ((ds.drop i).take (j - i)).getLast? = ds[j - 1]? := by
  rw [List.getLast?_eq_getElem?]
  have hl : ((ds.drop i).take (j - i)).length = j - i := by
    simp only [List.length_take, List.length_drop]; omega
  rw [hl, List.getElem?_take_of_lt (by omega), List.getElem?_drop]
  congr 1
  omega

theorem multiFind_setup {h : Heap} (hv : h.Valid) {la lb : Nat} {xs ys : List VoidPtr}
    {i j : Nat} {frm to_ : Iter} (cmp : VoidPtr → Int)
    (hwfA : WellFormed h la) (hwfB : WellFormed h lb) (hne : la ≠ lb)
    (hxs : values h la = some xs) (hys : values h lb = some ys)
    (hij : i ≤ j) (hj : j ≤ xs.length)
    (hfrm : iterAt h la i = some frm) (hto : iterAt h la j = some to_) :
    ∃ as ds bs R D t p, ListRep h la as ds ∧ ListRep h lb bs (ys ++ [.tailField lb]) ∧
      xs = ds.dropLast ∧
      to_ = some t ∧ frm = hdPtr R (some t) ∧ Seg h p R D (some t) ∧ (∀ a ∈ R, a ≠ t) ∧
      (∀ a ∈ as, a ∉ bs) ∧ (∀ a ∈ as, a < h.brk) ∧ (∀ a ∈ R, a ∈ as) ∧
      R.length ≤ h.brk ∧
      matchesIn h la cmp i (j - i) = (matching cmp R D).map VoidPtr.node ∧
      (i = j → R = []) ∧ (i < j → D.getLast? = xs[j - 1]?) ∧
      DLLMultiFind h frm to_ cmp (some lb) =
        DLLMultiFind.loop (some t) cmp (some lb) (h.brk + 1) h (hdPtr R (some t)) 0 := by
  obtain ⟨as, ds, hr, hxd, hal, hdl, hf, ht⟩ := wf_range hv hwfA hxs hij hj hfrm hto
  obtain ⟨bs, hb⟩ := wf_values hv hwfB hys
  have hjl : j < as.length := by omega
  have hil : i < as.length := by omega
  obtain ⟨p, hseg, hhd, hnt⟩ := repr_range hr hij hjl
  rw [List.getElem?_eq_getElem hjl] at hseg hhd hnt ht
  have hRl : ((as.drop i).take (j - i)).length = j - i := by
    simp only [List.length_take, List.length_drop]; omega
  have hlt := (repr_length_lt hv hr).1
  refine ⟨as, ds, bs, _, _, as[j], p, hr, hb, hxd, ht, ?_, hseg, ?_, repr_disjoint hr hb hne,
    seg_lt_brk hv hr.seg, ?_, ?_, ?_, ?_, ?_, ?_⟩
  · rw [hhd, hf]
  · intro a ha e
    exact hnt a ha (by rw [e])
  · intro a ha
    exact List.mem_of_mem_drop (List.mem_of_mem_take ha)
  · rw [hRl]; omega
  · exact matchesIn_eq hr cmp (j - i) i (by omega)
  · intro e
    rw [e, Nat.sub_self, List.take_zero]
  · intro hlt'
    rw [range_getLast ds hlt' (by omega), hxd, List.getElem?_dropLast]
    rw [if_pos (by omega)]
  · rw [hf, ht, List.getElem?_eq_getElem hil, hhd, List.getElem?_eq_getElem hil]
    rfl

theorem oracle_sound {h : Heap} {l : Nat} (f : Nat → Bool)
    (hf : ∀ a, 2 ^ SIZE_BITS ≤ a → f a = false) (hv : h.Valid) (hwf : WellFormed h l) :
    ({ h with mallocOk := f } : Heap).Valid ∧ WellFormed ({ h with mallocOk := f } : Heap) l := by
  obtain ⟨as, ds, hr⟩ := repr_of_wellFormed hwf
  exact ⟨⟨hv.nodes_brk, hv.lists_brk, hv.nodes_size, hf⟩,
    wellFormed_of_repr
      (⟨seg_frame (h := h) (fun _ _ => rfl) hr.seg, hr.nodup, hr.dummy, hr.header⟩ :
        ListRep ({ h with mallocOk := f } : Heap) l as ds)⟩

theorem searchHeap_sound {vs : List VoidPtr} {h : Heap} {l : Nat} (hlen : vs.length ≤ 900)
    (hs : searchHeap vs = some (h, some l)) :
    h.Valid ∧ WellFormed h 0 ∧ WellFormed h l ∧ 0 ≠ l := by
  simp only [searchHeap] at hs
  cases hp : pushBackAll createdHeap 0 vs with
  | none => simp [hp] at hs
  | some g =>
    simp only [hp, Option.some_bind] at hs
    obtain ⟨hv, hwf⟩ := pushBackAll_valid createdHeap_valid createdHeap_wf
      (fun k hk => by
        show decide (2 + k < 1000) = true
        simp only [decide_eq_true_eq]
        omega) hp
    obtain ⟨as, ds, hr⟩ := repr_of_wellFormed hwf
    obtain ⟨hv', hr', _⟩ := create_repr hv hs
    obtain ⟨hr0, hne⟩ := create_keeps hv hr hs
    exact ⟨hv', wellFormed_of_repr hr0, wellFormed_of_repr hr', fun e => hne e.symm⟩

theorem fiveHeap_eq :
    searchHeap [.user 2, .user 5, .user 2, .user 7, .user 2] = some (fiveHeap, some 7) := rfl

theorem fiveHeap_sound : fiveHeap.Valid ∧ WellFormed fiveHeap 0 ∧ WellFormed fiveHeap 7 := by
  obtain ⟨hv, h0, h7, _⟩ := searchHeap_sound (by decide) fiveHeap_eq
  exact ⟨hv, h0, h7⟩

theorem lowHeap_sound : lowHeap.Valid ∧ WellFormed lowHeap 0 ∧ WellFormed lowHeap 7 := by
  obtain ⟨hv, h0, h7⟩ := fiveHeap_sound
  have hf : ∀ a, 2 ^ SIZE_BITS ≤ a → (fun n => decide (n < 10)) a = false := by
    intro a ha
    have : (2 : Nat) ^ SIZE_BITS = 18446744073709551616 := by norm_num [SIZE_BITS]
    simp only [decide_eq_false_iff_not]
    omega
  exact ⟨(oracle_sound _ hf hv h0).1, (oracle_sound _ hf hv h0).2, (oracle_sound _ hf hv h7).2⟩

theorem matching_length (cmp : VoidPtr → Int) : ∀ (R : List Nat) (D : List VoidPtr),
    R.length = D.length → (matching cmp R D).length = D.countP (fun d => cmp d = 0)
  | [], [], _ => rfl
  | [], _ :: _, hl => by simp at hl
  | _ :: _, [], hl => by simp at hl
  | a :: R, d :: D, hl => by
    have ih := matching_length cmp R D (by simpa using hl)
    by_cases hc : cmp d = 0
    · simp [matching, hc, ih]
    · simp [matching, hc, ih]

theorem matchesIn_mem {h : Heap} {l : Nat} {as : List Nat} {ds : List VoidPtr}
    (hr : ListRep h l as ds) (cmp : VoidPtr → Int) {i n : Nat} (hin : i + n ≤ as.length)
    {e : VoidPtr} (he : e ∈ matchesIn h l cmp i n) :
    ∃ k a d, i ≤ k ∧ k < i + n ∧ e = .node a ∧ iterAt h l k = some (some a) ∧
      as[k]? = some a ∧ ds[k]? = some d ∧ cmp d = 0 := by
  have hlen := seg_length hr.seg
  simp only [matchesIn, List.mem_filterMap, List.mem_range'_1] at he
  obtain ⟨k, ⟨hk1, hk2⟩, hfk⟩ := he
  have hk : k < as.length := by omega
  have hkd : k < ds.length := by omega
  have hit := repr_iterAt hr hk
  have hgd := repr_getData hr hk
  rw [List.getElem?_eq_getElem hk] at hit hgd
  rw [List.getElem?_eq_getElem hkd] at hgd
  simp only [hit, hgd] at hfk
  by_cases hc : cmp ds[k] = 0
  · simp only [hc, if_true, Option.some.injEq] at hfk
    exact ⟨k, as[k], ds[k], hk1, hk2, hfk.symm, hit, List.getElem?_eq_getElem hk,
      List.getElem?_eq_getElem hkd, hc⟩
  · simp [hc] at hfk

theorem range_dropLast {α : Type} (ds : List α) {i j : Nat} (hj : j < ds.length) :
    (ds.dropLast.drop i).take (j - i) = (ds.drop i).take (j - i) := by
  rw [List.dropLast_eq_take, List.drop_take, List.take_take]
  congr 1
  omega

/-! ## Splicing -/

theorem splice_data_links {h : Heap} {d sf st : Nat} {nsf nst nd : Node}
    (hsf : h.nodes sf = some nsf) (hst : h.nodes st = some nst) (hd : h.nodes d = some nd)
    (h1 : sf ≠ st) (h2 : sf ≠ d) (h3 : st ≠ d) :
    ∃ h', (DLLSplice.rotateData h d sf st nsf.data).bind
        (fun h => DLLSplice.moveLinks h d sf st nst.next) = some h' ∧
      h'.nodes sf = some ⟨nst.data, nst.next, nsf.prev⟩ ∧
      h'.nodes st = some ⟨nd.data, nd.next, nst.prev⟩ ∧
      h'.nodes d = some ⟨nsf.data, nsf.next, nd.prev⟩ ∧
      (∀ a, a ≠ sf → a ≠ st → a ≠ d → h'.nodes a = h.nodes a) ∧
      h'.lists = h.lists ∧ h'.brk = h.brk ∧ h'.mallocOk = h.mallocOk := by
  have h1' := Ne.symm h1
  have h2' := Ne.symm h2
  have h3' := Ne.symm h3
  refine ⟨{ h with nodes := (fun a =>
      if a = sf then some ⟨nst.data, nst.next, nsf.prev⟩
      else if a = st then some ⟨nd.data, nd.next, nst.prev⟩
      else if a = d then some ⟨nsf.data, nsf.next, nd.prev⟩
      else h.nodes a) }, ?_, ?_, ?_, ?_, ?_, rfl, rfl, rfl⟩
  · simp only [DLLSplice.rotateData, DLLSplice.moveLinks, setData, setNext, upd, hsf, hst, hd,
      Option.some_bind, h1, h2, h3, h1', h2', h3', if_true, if_false, Option.some.injEq]
    congr 1
    funext a
    by_cases ha1 : a = sf
    · simp [upd, ha1, h1, h2]
    · by_cases ha2 : a = st
      · simp [upd, ha2, h1', h3]
      · by_cases ha3 : a = d
        · simp [upd, ha3, h2', h3']
        · simp [upd, ha1, ha2, ha3]
  · simp
  · simp [h1']
  · simp [h2', h3']
  · intro a ha1 ha2 ha3
    simp [ha1, ha2, ha3]

theorem seg_setPrev {h : Heap} {a : Nat} {as : List Nat} {ds : List VoidPtr} {p n : Iter}
    (q : Iter) (hs : Seg h p (a :: as) ds n) (hnd : a ∉ as) :
    ∃ h', setPrev h a q = some h' ∧ Seg h' q (a :: as) ds n ∧
      (∀ b, b ≠ a → h'.nodes b = h.nodes b) ∧
      h'.lists = h.lists ∧ h'.brk = h.brk ∧ h'.mallocOk = h.mallocOk := by
  cases ds with
  | nil => simp [Seg] at hs
  | cons d ds =>
    simp only [Seg] at hs
    refine ⟨{ h with nodes := upd h.nodes a (some ⟨d, hdPtr as n, q⟩) },
      by simp only [setPrev, hs.1], ?_, ?_, rfl, rfl, rfl⟩
    · simp only [Seg]
      refine ⟨by simp [upd], seg_frame (h := h) (fun b hb => ?_) hs.2⟩
      have : b ≠ a := fun e => hnd (e ▸ hb)
      simp [upd, this]
    · intro b hb
      simp [upd, hb]

theorem rethread_seg {h : Heap} {x l : Nat} {T : List Nat} {dT : List VoidPtr} {p px : Iter}
    {dx : VoidPtr} {L : Dll}
    (hx : h.nodes x = some ⟨dx, hdPtr T none, px⟩) (hs : Seg h p T dT none) (hnd : T.Nodup)
    (hT : T = [] → dx = .tailField l ∧ h.lists l = some L) :
    ∃ h', DLLSplice.rethread h x = some h' ∧ Seg h' (some x) T dT none ∧
      (∀ b, b ∉ T → h'.nodes b = h.nodes b) ∧
      (∀ k, (T = [] → k ≠ l) → h'.lists k = h.lists k) ∧
      (T = [] → h'.lists l = some ⟨L.head, some x⟩) ∧
      h'.brk = h.brk ∧ h'.mallocOk = h.mallocOk := by
  cases T with
  | nil =>
    obtain ⟨hdx, hL⟩ := hT rfl
    cases dT with
    | cons _ _ => simp [Seg] at hs
    | nil =>
      refine ⟨{ h with lists := upd h.lists l (some { L with tail := some x }) }, ?_, trivial,
        fun _ _ => rfl, ?_, ?_, rfl, rfl⟩
      · simp [DLLSplice.rethread, hx, hdx, storeNodePtr, hL]
      · intro k hk
        simp [upd, hk rfl]
      · intro _
        simp [upd]
  | cons y T =>
    obtain ⟨h', hset, hseg, hfr, hl, hb, hm⟩ :=
      seg_setPrev (some x) hs (List.nodup_cons.1 hnd).1
    refine ⟨h', ?_, hseg, ?_, ?_, ?_, hb, hm⟩
    · simp [DLLSplice.rethread, hx, hset]
    · intro b hb'
      exact hfr b (fun e => hb' (e ▸ List.mem_cons_self _ _))
    · intro k _
      rw [hl]
    · intro e
      cases e

theorem nodup_mid {α : Type} {X Y : List α} {a : α} (h : (X ++ a :: Y).Nodup) :
    a ∉ X ∧ a ∉ Y ∧ X.Nodup ∧ Y.Nodup ∧ (∀ b ∈ X, b ∉ Y) := by
  rw [List.nodup_append] at h
  obtain ⟨hX, hY, hd⟩ := h
  rw [List.nodup_cons] at hY
  exact ⟨fun ha => hd ha (List.mem_cons_self _ _), hY.1, hX, hY.2,
    fun b hb hb' => hd hb (List.mem_cons_of_mem _ hb')⟩

theorem splice_repr {h : Heap} {la lb : Nat} {PA M RA PB RB : List Nat} {sf st d : Nat}
    {dPA dM dRA dPB dRB : List VoidPtr} {xsf xst xd : VoidPtr}
    (hA : ListRep h la (PA ++ sf :: (M ++ st :: RA)) (dPA ++ xsf :: (dM ++ xst :: dRA)))
    (hB : ListRep h lb (PB ++ d :: RB) (dPB ++ xd :: dRB))
    (hne : la ≠ lb) (hlPA : PA.length = dPA.length) (hlM : M.length = dM.length)
    (hlPB : PB.length = dPB.length) :
    ∃ h', DLLSplice h (some d) (some sf) (some st) = some h' ∧
      ListRep h' la (PA ++ sf :: RA) (dPA ++ xst :: dRA) ∧
      ListRep h' lb (PB ++ d :: (M ++ st :: RB)) (dPB ++ xsf :: (dM ++ xd :: dRB)) ∧
      h'.brk = h.brk ∧ h'.mallocOk = h.mallocOk ∧
      (∀ a, a ∉ PA ++ sf :: (M ++ st :: RA) → a ∉ PB ++ d :: RB → h'.nodes a = h.nodes a) ∧
      (∀ k, k ≠ la → k ≠ lb → h'.lists k = h.lists k) := by
  -- the shape of the two chains
  have hlenA := seg_length hA.seg
  have hlenB := seg_length hB.seg
  obtain ⟨sPA, sA2⟩ := seg_split hlPA hA.seg
  simp only [Seg] at sA2
  obtain ⟨nsf, sA3⟩ := sA2
  obtain ⟨sM, sA4⟩ := seg_split hlM sA3
  simp only [Seg] at sA4
  obtain ⟨nst, sRA⟩ := sA4
  obtain ⟨sPB, sB2⟩ := seg_split hlPB hB.seg
  simp only [Seg] at sB2
  obtain ⟨nd, sRB⟩ := sB2
  simp only [hdPtr_cons] at sPA sM sPB
  have hlRA : RA.length = dRA.length := by
    simp only [List.length_append, List.length_cons] at hlenA
    omega
  have hlRB : RB.length = dRB.length := by
    simp only [List.length_append, List.length_cons] at hlenB
    omega
  -- distinctness
  obtain ⟨hsfPA, hsfT, nPA, nT, dPAT⟩ := nodup_mid hA.nodup
  obtain ⟨hstM, hstRA, nM, nRA, dMRA⟩ := nodup_mid nT
  obtain ⟨hdPB, hdRB, nPB, nRB, dPBRB⟩ := nodup_mid hB.nodup
  have hAB := repr_disjoint hA hB hne
  have hsfM : sf ∉ M := fun hm => hsfT (by simp [hm])
  have hsfst : sf ≠ st := fun e => hsfT (by simp [e])
  have hsfRA : sf ∉ RA := fun hm => hsfT (by simp [hm])
  have hsfd : sf ≠ d := fun e => hAB sf (by simp) (by simp [e])
  have hstd : st ≠ d := fun e => hAB st (by simp) (by simp [e])
  have hstPA : st ∉ PA := fun hm => dPAT st hm (by simp)
  have inA_PA : ∀ a ∈ PA, a ∈ PA ++ sf :: (M ++ st :: RA) := fun a ha => by simp [ha]
  have inA_M : ∀ a ∈ M, a ∈ PA ++ sf :: (M ++ st :: RA) := fun a ha => by simp [ha]
  have inA_RA : ∀ a ∈ RA, a ∈ PA ++ sf :: (M ++ st :: RA) := fun a ha => by simp [ha]
  have inA_sf : sf ∈ PA ++ sf :: (M ++ st :: RA) := by simp
  have inA_st : st ∈ PA ++ sf :: (M ++ st :: RA) := by simp
  have inB_PB : ∀ a ∈ PB, a ∈ PB ++ d :: RB := fun a ha => by simp [ha]
  have inB_RB : ∀ a ∈ RB, a ∈ PB ++ d :: RB := fun a ha => by simp [ha]
  have inB_d : d ∈ PB ++ d :: RB := by simp
  have nMst : (M ++ [st]).Nodup := by
    rw [List.nodup_append]
    exact ⟨nM, List.nodup_singleton _, fun a ha hb => hstM (by
      rw [List.mem_singleton] at hb
      exact hb ▸ ha)⟩
  have inA_Mst : ∀ a ∈ M ++ [st], a ∈ PA ++ sf :: (M ++ st :: RA) := fun a ha => by
    rcases List.mem_append.1 ha with hm | hm
    · exact inA_M a hm
    · rw [List.mem_singleton] at hm
      exact hm ▸ inA_st
  -- the data rotation and the three `next` links
  obtain ⟨h1, e1, h1sf, h1st, h1d, h1fr, h1l, h1b, h1m⟩ :=
    splice_data_links nsf nst nd hsfst hsfd hstd
  simp only at h1sf h1st h1d
  have fr1 : ∀ {as : List Nat} {ds : List VoidPtr} {p n : Iter}, Seg h p as ds n →
      sf ∉ as → st ∉ as → d ∉ as → Seg h1 p as ds n := fun hs a1 a2 a3 =>
    seg_frame (h := h) (fun a ha => h1fr a (fun e => a1 (e ▸ ha)) (fun e => a2 (e ▸ ha))
      (fun e => a3 (e ▸ ha))) hs
  have s1M : Seg h1 (some sf) (M ++ [st]) (dM ++ [xd]) (hdPtr RB none) := by
    refine seg_append (by simpa using fr1 sM hsfM hstM (fun hm => hAB d (inA_M d hm) inB_d)) ?_
    simp only [Seg, hdPtr_nil, and_true]
    exact h1st
  obtain ⟨y, T, hyT⟩ : ∃ y T, M ++ [st] = y :: T := by
    cases M with
    | nil => exact ⟨st, [], rfl⟩
    | cons m M => exact ⟨m, M ++ [st], rfl⟩
  have hdn : hdPtr (M ++ st :: RA) none = some y := by
    cases M with
    | nil =>
      simp only [List.nil_append, List.cons.injEq] at hyT
      simp [hyT.1]
    | cons m M =>
      simp only [List.cons_append, List.cons.injEq] at hyT
      simp [hyT.1]
  have hyin : y ∈ M ++ [st] := by rw [hyT]; exact List.mem_cons_self _ _
  rw [hyT] at s1M nMst
  obtain ⟨h2, e2, s2M, h2fr, h2l, h2b, h2m⟩ :=
    seg_setPrev (some d) s1M (List.nodup_cons.1 nMst).1
  rw [← hyT] at s2M
  have hysf : sf ≠ y := fun e => by
    rcases List.mem_append.1 (e ▸ hyin) with hm | hm
    · exact hsfM hm
    · exact hsfst (List.mem_singleton.1 hm)
  have hyd : d ≠ y := fun e => hAB d (inA_Mst d (e ▸ hyin)) inB_d
  have h2sf : h2.nodes sf = some ⟨xst, hdPtr RA none, lastPtr PA none⟩ := by
    rw [h2fr sf hysf, h1sf]
  have h2d : h2.nodes d = some ⟨xsf, some y, lastPtr PB none⟩ := by
    rw [h2fr d hyd, h1d, hdn]
  have fr2 : ∀ {as : List Nat} {ds : List VoidPtr} {p n : Iter}, Seg h p as ds n →
      sf ∉ as → st ∉ as → d ∉ as → y ∉ as → Seg h2 p as ds n := fun hs a1 a2 a3 a4 =>
    seg_frame (h := h1) (fun a ha => h2fr a (fun e => a4 (e ▸ ha))) (fr1 hs a1 a2 a3)
  have hyRA : y ∉ RA := fun hm => by
    rcases List.mem_append.1 hyin with hm' | hm'
    · exact dMRA y hm' hm
    · exact hstRA ((List.mem_singleton.1 hm') ▸ hm)
  have hyPA : y ∉ PA := fun hm => dPAT y hm (by
    rcases List.mem_append.1 hyin with hm' | hm'
    · simp [hm']
    · simp [List.mem_singleton.1 hm'])
  have hyB : y ∉ PB ++ d :: RB := hAB y (inA_Mst y hyin)
  -- `source_from` and what follows it
  have s2RA : Seg h2 (some st) RA dRA none :=
    fr2 sRA hsfRA hstRA (fun hm => hAB d (inA_RA d hm) inB_d) hyRA
  have hdumA : RA = [] → xst = VoidPtr.tailField la ∧
      h2.lists la = some ⟨(PA ++ sf :: (M ++ st :: RA)).head?,
        (PA ++ sf :: (M ++ st :: RA)).getLast?⟩ := by
    intro e
    subst e
    have hdRA : dRA = [] := List.length_eq_zero.1 (by simpa using hlRA.symm)
    subst hdRA
    refine ⟨?_, by rw [h2l, h1l]; exact hA.header⟩
    have := hA.dummy
    have e : dPA ++ xsf :: (dM ++ [xst]) = (dPA ++ xsf :: dM) ++ [xst] := by simp
    rw [e, List.getLast?_concat] at this
    exact Option.some.inj this
  obtain ⟨h3, e3, s3RA, h3fr, h3l, h3t, h3b, h3m⟩ := rethread_seg h2sf s2RA nRA hdumA
  -- `source_to` and what follows it
  have s3M : Seg h3 (some d) (M ++ [st]) (dM ++ [xd]) (hdPtr RB none) :=
    seg_frame (h := h2) (fun a ha => h3fr a (fun hm => by
      rcases List.mem_append.1 ha with hm' | hm'
      · exact dMRA a hm' hm
      · exact hstRA ((List.mem_singleton.1 hm') ▸ hm))) s2M
  have h3st : h3.nodes st = some ⟨xd, hdPtr RB none, lastPtr M (some d)⟩ := by
    have := (seg_split hlM s3M).2
    simp only [Seg, hdPtr_nil, and_true] at this
    exact this
  have s3RB : Seg h3 (some d) RB dRB none :=
    seg_frame (h := h2) (fun a ha => h3fr a (fun hm => hAB a (inA_RA a hm) (inB_RB a ha)))
      (fr2 sRB (fun hm => hAB sf inA_sf (inB_RB sf hm)) (fun hm => hAB st inA_st (inB_RB st hm))
        hdRB (fun hm => hyB (inB_RB y hm)))
  have hdumB : RB = [] → xd = VoidPtr.tailField lb ∧
      h3.lists lb = some ⟨(PB ++ d :: RB).head?, (PB ++ d :: RB).getLast?⟩ := by
    intro e
    subst e
    have hdRB' : dRB = [] := List.length_eq_zero.1 (by simpa using hlRB.symm)
    subst hdRB'
    refine ⟨?_, by rw [h3l lb (fun _ => Ne.symm hne), h2l, h1l]; exact hB.header⟩
    have := hB.dummy
    rw [List.getLast?_concat] at this
    exact Option.some.inj this
  obtain ⟨h4, e4, s4RB, h4fr, h4l, h4t, h4b, h4m⟩ := rethread_seg h3st s3RB nRB hdumB
  -- the two chains in the final heap
  have s4M : Seg h4 (some d) (M ++ [st]) (dM ++ [xd]) (hdPtr RB none) :=
    seg_frame (h := h3) (fun a ha => h4fr a (fun hm => hAB a (inA_Mst a ha) (inB_RB a hm))) s3M
  have s4RA : Seg h4 (some sf) RA dRA none :=
    seg_frame (h := h3) (fun a ha => h4fr a (fun hm => hAB a (inA_RA a ha) (inB_RB a hm))) s3RA
  have toFinal : ∀ a, a ∉ RA → a ∉ RB → a ≠ y → h4.nodes a = h1.nodes a := fun a a1 a2 a3 => by
    rw [h4fr a a2, h3fr a a1, h2fr a a3]
  have s4PA : Seg h4 none PA dPA (some sf) :=
    seg_frame (h := h1) (fun a ha => toFinal a (fun hm => dPAT a ha (by simp [hm]))
      (fun hm => hAB a (inA_PA a ha) (inB_RB a hm)) (fun e => hyPA (e ▸ ha)))
      (fr1 sPA hsfPA hstPA (fun hm => hAB d (inA_PA d hm) inB_d))
  have s4PB : Seg h4 none PB dPB (some d) :=
    seg_frame (h := h1) (fun a ha => toFinal a (fun hm => hAB a (inA_RA a hm) (inB_PB a ha))
      (fun hm => dPBRB a ha hm) (fun e => hyB (inB_PB y (e ▸ ha))))
      (fr1 sPB (fun hm => hAB sf inA_sf (inB_PB sf hm)) (fun hm => hAB st inA_st (inB_PB st hm))
        hdPB)
  have h4sf : h4.nodes sf = some ⟨xst, hdPtr RA none, lastPtr PA none⟩ := by
    rw [h4fr sf (fun hm => hAB sf inA_sf (inB_RB sf hm)), h3fr sf hsfRA, h2sf]
  have h4d : h4.nodes d = some ⟨xsf, hdPtr (M ++ st :: RB) none, lastPtr PB none⟩ := by
    rw [h4fr d hdRB, h3fr d (fun hm => hAB d (inA_RA d hm) inB_d), h2d]
    congr 2
    cases M with
    | nil =>
      simp only [List.nil_append, List.cons.injEq] at hyT
      simp [hyT.1]
    | cons m M =>
      simp only [List.cons_append, List.cons.injEq] at hyT
      simp [hyT.1]
  have segA : Seg h4 none (PA ++ sf :: RA) (dPA ++ xst :: dRA) none := by
    refine seg_append (by simpa using s4PA) ?_
    simp only [Seg]
    exact ⟨h4sf, s4RA⟩
  have segB : Seg h4 none (PB ++ d :: (M ++ st :: RB)) (dPB ++ xsf :: (dM ++ xd :: dRB)) none := by
    refine seg_append (by simpa using s4PB) ?_
    simp only [Seg]
    refine ⟨h4d, ?_⟩
    have e1 : M ++ st :: RB = (M ++ [st]) ++ RB := by simp
    have e2 : dM ++ xd :: dRB = (dM ++ [xd]) ++ dRB := by simp
    rw [e1, e2]
    refine seg_append s4M ?_
    have : lastPtr (M ++ [st]) (some d) = some st := by
      rw [lastPtr_append_cons]; rfl
    rw [this]
    exact s4RB
  have hrun : DLLSplice h (some d) (some sf) (some st) = some h4 := by
    have hassoc : DLLSplice h (some d) (some sf) (some st) =
        ((DLLSplice.rotateData h d sf st xsf).bind
          (fun g => DLLSplice.moveLinks g d sf st (hdPtr RA none))).bind
        (fun g => (DLLSplice.setNextPrev g d).bind fun g =>
          (DLLSplice.rethread g sf).bind fun g => DLLSplice.rethread g st) := by
      simp only [DLLSplice, nsf, nst, Option.some_bind, Option.bind_assoc]
    simp only at e1
    rw [hassoc, e1]
    simp only [Option.some_bind, DLLSplice.setNextPrev, h1d, hdn, e2, e3, e4]
  have hdA : (PA ++ sf :: RA).head? = (PA ++ sf :: (M ++ st :: RA)).head? := by
    cases PA <;> rfl
  have hdB : (PB ++ d :: (M ++ st :: RB)).head? = (PB ++ d :: RB).head? := by
    cases PB <;> rfl
  have repA : ListRep h4 la (PA ++ sf :: RA) (dPA ++ xst :: dRA) := by
    refine ⟨segA, ?_, ?_, ?_⟩
    · refine hA.nodup.sublist (List.Sublist.append (List.Sublist.refl _)
        (List.Sublist.cons₂ sf ?_))
      exact (List.sublist_cons_self st RA).trans (List.sublist_append_right M (st :: RA))
    · have := hA.dummy
      have e : dPA ++ xsf :: (dM ++ xst :: dRA) = (dPA ++ xsf :: dM) ++ xst :: dRA := by simp
      rw [e, List.getLast?_append_cons] at this
      rw [List.getLast?_append_cons]
      exact this
    · rw [h4l la (fun _ => hne)]
      cases RA with
      | nil =>
        rw [h3t rfl, hdA]
        simp
      | cons r RA =>
        rw [h3l la (fun e => by cases e), h2l, h1l, hA.header, hdA]
        have e : PA ++ sf :: (M ++ st :: r :: RA) = (PA ++ sf :: (M ++ [st])) ++ r :: RA := by
          simp
        have e' : PA ++ sf :: r :: RA = (PA ++ [sf]) ++ r :: RA := by simp
        rw [e, e', List.getLast?_append_cons, List.getLast?_append_cons]
  have repB : ListRep h4 lb (PB ++ d :: (M ++ st :: RB)) (dPB ++ xsf :: (dM ++ xd :: dRB)) := by
    refine ⟨segB, ?_, ?_, ?_⟩
    · refine List.nodup_append.2 ⟨nPB, List.nodup_cons.2 ⟨?_, List.nodup_append.2 ⟨nM,
        List.nodup_cons.2 ⟨fun hm => hAB st inA_st (inB_RB st hm), nRB⟩, ?_⟩⟩, ?_⟩
      · intro hm
        rcases List.mem_append.1 hm with hm | hm
        · exact hAB d (inA_M d hm) inB_d
        · rcases List.mem_cons.1 hm with hm | hm
          · exact hstd hm.symm
          · exact hdRB hm
      · intro a ha hb
        rcases List.mem_cons.1 hb with hb | hb
        · exact hstM (hb ▸ ha)
        · exact hAB a (inA_M a ha) (inB_RB a hb)
      · intro a ha hb
        rcases List.mem_cons.1 hb with hb | hb
        · exact hdPB (hb ▸ ha)
        · rcases List.mem_append.1 hb with hb | hb
          · exact hAB a (inA_M a hb) (inB_PB a ha)
          · rcases List.mem_cons.1 hb with hb | hb
            · exact hAB st inA_st (inB_PB st (hb ▸ ha))
            · exact dPBRB a ha hb
    · have := hB.dummy
      rw [List.getLast?_append_cons] at this
      have e : dPB ++ xsf :: (dM ++ xd :: dRB) = (dPB ++ xsf :: dM) ++ xd :: dRB := by simp
      rw [e, List.getLast?_append_cons]
      exact this
    · cases RB with
      | nil =>
        rw [h4t rfl, hdB]
        have e : PB ++ d :: (M ++ [st]) = (PB ++ d :: M) ++ [st] := by simp
        simp only [e, List.getLast?_concat]
      | cons r RB =>
        rw [h4l lb (fun e => by cases e), h3l lb (fun _ => Ne.symm hne), h2l, h1l, hB.header, hdB]
        have e : PB ++ d :: (M ++ st :: r :: RB) = (PB ++ d :: (M ++ [st])) ++ r :: RB := by
          simp
        have e' : PB ++ d :: r :: RB = (PB ++ [d]) ++ r :: RB := by simp
        rw [e, e', List.getLast?_append_cons, List.getLast?_append_cons]
  refine ⟨h4, hrun, repA, repB, by rw [h4b, h3b, h2b, h1b], by rw [h4m, h3m, h2m, h1m], ?_, ?_⟩
  · intro a haA haB
    rw [toFinal a (fun hm => haA (inA_RA a hm)) (fun hm => haB (inB_RB a hm))
      (fun e => haA (inA_Mst a (e ▸ hyin))),
      h1fr a (fun e => haA (e ▸ inA_sf)) (fun e => haA (e ▸ inA_st)) (fun e => haB (e ▸ inB_d))]
  · intro k hk1 hk2
    rw [h4l k (fun _ => hk2), h3l k (fun _ => hk1), h2l, h1l]

theorem wf_two_positions {h : Heap} (hv : h.Valid) {l : Nat} {xs : List VoidPtr} {i j : Nat}
    {b c : Iter} (hwf : WellFormed h l) (hxs : values h l = some xs) (hij : i < j)
    (hj : j ≤ xs.length) (hb : iterAt h l i = some b) (hc : iterAt h l j = some c) :
    ∃ PA sf M st RA dPA xsf dM xst dRA, b = some sf ∧ c = some st ∧
      ListRep h l (PA ++ sf :: (M ++ st :: RA)) (dPA ++ xsf :: (dM ++ xst :: dRA)) ∧
      PA.length = i ∧ dPA.length = i ∧ M.length = j - i - 1 ∧ dM.length = j - i - 1 ∧
      xs = dPA ++ xsf :: (dM ++ (xst :: dRA).dropLast) := by
  obtain ⟨pre, a, post, dpre, d, dpost, hba, hr, hl1, hl2, hx⟩ :=
    wf_position hv hwf hxs (by omega : i ≤ xs.length) hb
  have hlen := seg_length hr.seg
  simp only [List.length_append, List.length_cons] at hlen
  have hxl : xs.length + 1 = (dpre ++ d :: dpost).length := by
    rw [hx, List.length_dropLast]
    simp only [List.length_append, List.length_cons]
    omega
  simp only [List.length_append, List.length_cons] at hxl
  obtain ⟨n, hn⟩ : ∃ n, j - i - 1 = n := ⟨_, rfl⟩
  have hpl : n < post.length := by omega
  have hdl : n < dpost.length := by omega
  have hcj := repr_iterAt hr (by simp only [List.length_append, List.length_cons]; omega : j <
    (pre ++ a :: post).length)
  rw [hc, Option.some.injEq] at hcj
  have hidx : (pre ++ a :: post)[j]? = post[n]? := by
    have hji : j - pre.length = n + 1 := by omega
    rw [List.getElem?_append_right (by omega), hji, List.getElem?_cons_succ]
  rw [hidx, List.getElem?_eq_getElem hpl] at hcj
  obtain ⟨M, st, RA, e1, hM, hst⟩ : ∃ M st RA, post = M ++ st :: RA ∧ M.length = n ∧
      c = some st :=
    ⟨post.take n, post[n], post.drop (n + 1),
      by rw [← List.drop_eq_getElem_cons hpl, List.take_append_drop],
      by rw [List.length_take]; omega, hcj⟩
  obtain ⟨dM, xst, dRA, e2, hdM⟩ : ∃ dM xst dRA, dpost = dM ++ xst :: dRA ∧ dM.length = n :=
    ⟨dpost.take n, dpost[n], dpost.drop (n + 1),
      by rw [← List.drop_eq_getElem_cons hdl, List.take_append_drop],
      by rw [List.length_take]; omega⟩
  subst e1 e2
  refine ⟨pre, a, M, st, RA, dpre, d, dM, xst, dRA, hba, hst, hr, hl1, hl2, by omega, by omega,
    ?_⟩
  rw [hx, List.dropLast_append_of_ne_nil _ (by simp), List.dropLast_cons_of_ne_nil (by simp),
    List.dropLast_append_of_ne_nil _ (by simp)]

theorem wf_one_position {h : Heap} (hv : h.Valid) {l : Nat} {ys : List VoidPtr} {m : Nat}
    {d : Iter} (hwf : WellFormed h l) (hys : values h l = some ys) (hm : m ≤ ys.length)
    (hd : iterAt h l m = some d) :
    ∃ PB d' RB dPB xd dRB, d = some d' ∧ ListRep h l (PB ++ d' :: RB) (dPB ++ xd :: dRB) ∧
      PB.length = m ∧ dPB.length = m ∧ ys = dPB ++ (xd :: dRB).dropLast := by
  obtain ⟨pre, a, post, dpre, x, dpost, hba, hr, hl1, hl2, hx⟩ := wf_position hv hwf hys hm hd
  refine ⟨pre, a, post, dpre, x, dpost, hba, hr, hl1, hl2, ?_⟩
  rw [hx, List.dropLast_append_of_ne_nil _ (by simp)]

theorem splice_valid {h h' : Heap} {la lb : Nat} {as bs : List Nat} {ds es : List VoidPtr}
    (hv : h.Valid) (hA : ListRep h la as ds) (hB : ListRep h lb bs es)
    (hb : h'.brk = h.brk) (hm : h'.mallocOk = h.mallocOk)
    (hfn : ∀ a, a ∉ as → a ∉ bs → h'.nodes a = h.nodes a)
    (hfl : ∀ k, k ≠ la → k ≠ lb → h'.lists k = h.lists k) : h'.Valid := by
  have hla : ∀ {l : Nat} {cs : List Nat} {vs : List VoidPtr}, ListRep h l cs vs → l < h.brk := by
    intro l cs vs hr
    by_contra hge
    have := hv.lists_brk l (not_lt.1 hge)
    rw [hr.header] at this
    cases this
  refine ⟨fun a ha => ?_, fun k hk => ?_, fun a ha => ?_, fun a ha => ?_⟩
  · rw [hb] at ha
    rw [hfn a (fun hm => by have := seg_lt_brk hv hA.seg a hm; omega)
      (fun hm => by have := seg_lt_brk hv hB.seg a hm; omega)]
    exact hv.nodes_brk a ha
  · rw [hb] at hk
    rw [hfl k (by have := hla hA; omega) (by have := hla hB; omega)]
    exact hv.lists_brk k hk
  · rw [hfn a (fun hm => by have := seg_lt_size hv hA.seg a hm; omega)
      (fun hm => by have := seg_lt_size hv hB.seg a hm; omega)]
    exact hv.nodes_size a ha
  · rw [hm]
    exact hv.ok_size a ha

theorem splice_lists {h : Heap} (hv : h.Valid) {la lb : Nat} {xs ys : List VoidPtr}
    {i j m : Nat} {b c d : Iter} (hwfA : WellFormed h la) (hwfB : WellFormed h lb)
    (hne : la ≠ lb) (hxs : values h la = some xs) (hys : values h lb = some ys)
    (hij : i < j) (hj : j ≤ xs.length) (hm : m ≤ ys.length)
    (hb : iterAt h la i = some b) (hc : iterAt h la j = some c)
    (hd : iterAt h lb m = some d) :
    ∃ h' PA sf M st RA PB d' RB dPA xsf dM xst dRA dPB xd dRB,
      b = some sf ∧ c = some st ∧ d = some d' ∧
      PA.length = i ∧ dPA.length = i ∧ M.length = j - i - 1 ∧ dM.length = j - i - 1 ∧
      PB.length = m ∧ dPB.length = m ∧
      xs = dPA ++ xsf :: (dM ++ (xst :: dRA).dropLast) ∧ ys = dPB ++ (xd :: dRB).dropLast ∧
      ListRep h la (PA ++ sf :: (M ++ st :: RA)) (dPA ++ xsf :: (dM ++ xst :: dRA)) ∧
      ListRep h lb (PB ++ d' :: RB) (dPB ++ xd :: dRB) ∧
      DLLSplice h d b c = some h' ∧ h'.Valid ∧
      ListRep h' la (PA ++ sf :: RA) (dPA ++ xst :: dRA) ∧
      ListRep h' lb (PB ++ d' :: (M ++ st :: RB)) (dPB ++ xsf :: (dM ++ xd :: dRB)) ∧
      h'.brk = h.brk ∧ h'.mallocOk = h.mallocOk ∧
      (∀ a, a ∉ PA ++ sf :: (M ++ st :: RA) → a ∉ PB ++ d' :: RB → h'.nodes a = h.nodes a) ∧
      (∀ k, k ≠ la → k ≠ lb → h'.lists k = h.lists k) ∧
      values h' la = some (xs.take i ++ xs.drop j) ∧
      values h' lb = some (ys.take m ++ (xs.drop i).take (j - i) ++ ys.drop m) := by
  obtain ⟨PA, sf, M, st, RA, dPA, xsf, dM, xst, dRA, hbs, hcs, hA, h1, h2, h3, h4, hx⟩ :=
    wf_two_positions hv hwfA hxs hij hj hb hc
  obtain ⟨PB, d', RB, dPB, xd, dRB, hds, hB, h5, h6, hy⟩ := wf_one_position hv hwfB hys hm hd
  obtain ⟨h', hrun, hA', hB', hbrk, hmo, hfn, hfl⟩ :=
    splice_repr hA hB hne (by omega) (by omega) (by omega)
  have hv' := splice_valid hv hA hB hbrk hmo hfn hfl
  refine ⟨h', PA, sf, M, st, RA, PB, d', RB, dPA, xsf, dM, xst, dRA, dPB, xd, dRB, hbs, hcs, hds,
    h1, h2, h3, h4, h5, h6, hx, hy, hA, hB, by rw [hds, hbs, hcs]; exact hrun, hv', hA', hB',
    hbrk, hmo, hfn, hfl, ?_, ?_⟩
  · rw [repr_values hv' hA', List.dropLast_append_of_ne_nil _ (by simp), hx]
    have e1 : List.take i (dPA ++ xsf :: (dM ++ (xst :: dRA).dropLast)) = dPA := by
      rw [List.take_append_eq_append_take, List.take_of_length_le (by omega), h2, Nat.sub_self]
      simp
    have e2 : List.drop j (dPA ++ xsf :: (dM ++ (xst :: dRA).dropLast)) =
        (xst :: dRA).dropLast := by
      have e : dPA ++ xsf :: (dM ++ (xst :: dRA).dropLast) =
          (dPA ++ xsf :: dM) ++ (xst :: dRA).dropLast := by simp
      rw [e, List.drop_left' (by simp only [List.length_append, List.length_cons]; omega)]
    rw [e1, e2]
  · rw [repr_values hv' hB', List.dropLast_append_of_ne_nil _ (by simp),
      List.dropLast_cons_of_ne_nil (by simp), List.dropLast_append_of_ne_nil _ (by simp), hx, hy]
    have e1 : List.take m (dPB ++ (xd :: dRB).dropLast) = dPB := by
      rw [List.take_append_eq_append_take, List.take_of_length_le (by omega), h6, Nat.sub_self]
      simp
    have e2 : List.drop m (dPB ++ (xd :: dRB).dropLast) = (xd :: dRB).dropLast :=
      List.drop_left' h6
    have e3 : List.take (j - i) (List.drop i (dPA ++ xsf :: (dM ++ (xst :: dRA).dropLast))) =
        xsf :: dM := by
      rw [List.drop_left' h2]
      have e : xsf :: (dM ++ (xst :: dRA).dropLast) = (xsf :: dM) ++ (xst :: dRA).dropLast := by
        simp
      rw [e, List.take_left' (by simp only [List.length_cons]; omega)]
    rw [e1, e2, e3]
    simp

theorem pushBackAll_other : ∀ (vs : List VoidPtr) {h h' : Heap} {la lb : Nat} {as bs : List Nat}
    {ds es : List VoidPtr}, h.Valid → ListRep h la as ds → ListRep h lb bs (es ++ [.tailField lb]) →
    la ≠ lb → (∀ k, k < vs.length → h.mallocOk (h.brk + k) = true) →
    pushBackAll h lb vs = some h' → ListRep h' la as ds
  | [], h, h', _, _, _, _, _, _, _, hA, _, _, _, hp => by
    simp only [pushBackAll, Option.some.injEq] at hp
    exact hp ▸ hA
  | v :: vs, h, h', la, lb, as, bs, ds, es, hv, hA, hB, hne, hok, hp => by
    obtain ⟨h1, s, hpush, _, hv1, hB1, hb1, hm1, hfn, hfl⟩ :=
      pushBack_frame v hv hB (by simpa using hok 0 (by simp))
    simp only [pushBackAll, hpush, Option.some_bind] at hp
    have hA1 : ListRep h1 la as ds :=
      repr_frame hA (fun a ha => hfn a (fun hm => repr_disjoint hA hB hne a ha hm)
        (by have := seg_lt_brk hv hA.seg a ha; omega)) (hfl la hne)
    exact pushBackAll_other vs hv1 hA1 hB1 hne (fun k hk => by
      rw [hm1, hb1, Nat.add_assoc, Nat.add_comm 1 k]
      exact hok (k + 1) (by simpa using hk)) hp

theorem fourHeap_eq : searchHeap [.user 1, .user 2, .user 3, .user 4] = some (fourHeap, some 6) :=
  rfl

theorem pairHeap_eq : pushBackAll fourHeap 6 [.user 10, .user 20] = some pairHeap := rfl

theorem pairHeap_sound : pairHeap.Valid ∧ WellFormed pairHeap 0 ∧ WellFormed pairHeap 6 := by
  obtain ⟨hv, h0, h6, hne⟩ := searchHeap_sound (by decide) fourHeap_eq
  have hok : ∀ k, k < [VoidPtr.user 10, VoidPtr.user 20].length →
      fourHeap.mallocOk (fourHeap.brk + k) = true := fun k hk => by
    have hk2 : k < 2 := hk
    interval_cases k <;> rfl
  obtain ⟨hv', h6'⟩ := pushBackAll_valid hv h6 hok pairHeap_eq
  obtain ⟨as, ds, hA⟩ := repr_of_wellFormed h0
  obtain ⟨bs, es, hB⟩ := repr_of_wellFormed h6
  rw [repr_dummy_split hB] at hB
  exact ⟨hv', wellFormed_of_repr (pushBackAll_other _ hv hA hB hne hok pairHeap_eq), h6'⟩

theorem repr_suffix_at {h : Heap} {l : Nat} {X Y : List Nat} {dX dY : List VoidPtr}
    (hr : ListRep h l (X ++ Y) (dX ++ dY)) (hl : X.length = dX.length) {k : Nat}
    (hk : k < Y.length) :
    ∃ a v, Y[k]? = some a ∧ dY[k]? = some v ∧ iterAt h l (X.length + k) = some (some a) ∧
      DLLGetData h (some a) = some v := by
  have hlen := seg_length hr.seg
  simp only [List.length_append] at hlen
  have hk' : X.length + k < (X ++ Y).length := by rw [List.length_append]; omega
  have hkd : k < dY.length := by omega
  have hit := repr_iterAt hr hk'
  have hgd := repr_getData hr hk'
  rw [List.getElem?_append_right (by omega), Nat.add_sub_cancel_left,
    List.getElem?_eq_getElem hk] at hit hgd
  rw [hl, List.getElem?_append_right (by omega), Nat.add_sub_cancel_left,
    List.getElem?_eq_getElem hkd] at hgd
  exact ⟨Y[k], dY[k], List.getElem?_eq_getElem hk, List.getElem?_eq_getElem hkd, hit, hgd⟩

theorem repr_prefix_at {h : Heap} {l : Nat} {X Y : List Nat} {dX dY : List VoidPtr}
    (hr : ListRep h l (X ++ Y) (dX ++ dY)) (hl : X.length = dX.length) {k : Nat}
    (hk : k < X.length) :
    ∃ a v, X[k]? = some a ∧ dX[k]? = some v ∧ iterAt h l k = some (some a) ∧
      DLLGetData h (some a) = some v := by
  have hk' : k < (X ++ Y).length := by rw [List.length_append]; omega
  have hkd : k < dX.length := by omega
  have hit := repr_iterAt hr hk'
  have hgd := repr_getData hr hk'
  rw [List.getElem?_append_left hk, List.getElem?_eq_getElem hk] at hit hgd
  rw [List.getElem?_append_left hkd, List.getElem?_eq_getElem hkd] at hgd
  exact ⟨X[k], dX[k], List.getElem?_eq_getElem hk, List.getElem?_eq_getElem hkd, hit, hgd⟩

/-! ## Arranging around a pivot -/

theorem repr_split_at {h : Heap} {l : Nat} {as : List Nat} {ds : List VoidPtr}
    (hr : ListRep h l as ds) {k : Nat} (hk : k < as.length) :
    ∃ (hkd : k < ds.length),
      ListRep h l (as.take k ++ as[k] :: as.drop (k + 1)) (ds.take k ++ ds[k] :: ds.drop (k + 1)) ∧
      (as.take k).length = (ds.take k).length := by
  have hlen := seg_length hr.seg
  have hkd : k < ds.length := by omega
  have e1 : as = as.take k ++ as[k] :: as.drop (k + 1) := by
    rw [← List.drop_eq_getElem_cons hk, List.take_append_drop]
  have e2 : ds = ds.take k ++ ds[k] :: ds.drop (k + 1) := by
    rw [← List.drop_eq_getElem_cons hkd, List.take_append_drop]
  refine ⟨hkd, ?_, by simp only [List.length_take]; omega⟩
  rw [← e1, ← e2]
  exact hr

theorem repr_next_at {h : Heap} {l : Nat} {as : List Nat} {ds : List VoidPtr}
    (hr : ListRep h l as ds) {k : Nat} (hk : k + 1 < as.length) :
    DLLNext h (some as[k]) = some (some as[k + 1]) := by
  obtain ⟨_, hr2, hl⟩ := repr_split_at hr (by omega : k < as.length)
  have hn := repr_node hr2 hl
  have e : hdPtr (as.drop (k + 1)) none = some as[k + 1] := by
    rw [List.drop_eq_getElem_cons hk]
    rfl
  rw [e] at hn
  simp [DLLNext, hn]

theorem repr_prev_at {h : Heap} {l : Nat} {as : List Nat} {ds : List VoidPtr}
    (hr : ListRep h l as ds) {k : Nat} (hk : k + 1 < as.length) :
    DLLPrev h (some as[k + 1]) = some (some as[k]) := by
  obtain ⟨_, hr2, hl⟩ := repr_split_at hr hk
  have hn := repr_node hr2 hl
  have : lastPtr (as.take (k + 1)) none = some as[k] := by
    rw [List.take_succ, List.getElem?_eq_getElem (by omega : k < as.length)]
    show lastPtr (as.take k ++ [as[k]]) none = _
    rw [lastPtr_append_cons]
    rfl
  rw [this] at hn
  simp [DLLPrev, hn]

theorem repr_data_at {h : Heap} {l : Nat} {as : List Nat} {ds : List VoidPtr}
    (hr : ListRep h l as ds) {k : Nat} (hk : k < as.length) (hkd : k < ds.length) :
    ∃ n, h.nodes as[k] = some n ∧ n.data = ds[k] := by
  obtain ⟨_, hr2, hl⟩ := repr_split_at hr hk
  exact ⟨_, repr_node hr2 hl, rfl⟩

theorem setData_repr {h : Heap} {l : Nat} {as : List Nat} {ds : List VoidPtr}
    (hr : ListRep h l as ds) {k : Nat} (hk : k + 1 < as.length) (v : VoidPtr) :
    ∃ h' n, h.nodes as[k] = some n ∧ setData h as[k] v = some h' ∧
      ListRep h' l as (ds.set k v) ∧
      h'.nodes as[k] = some { n with data := v } ∧
      (∀ a, a ≠ as[k] → h'.nodes a = h.nodes a) ∧
      h'.lists = h.lists ∧ h'.brk = h.brk ∧ h'.mallocOk = h.mallocOk := by
  have hlen := seg_length hr.seg
  obtain ⟨hkd, hr2, hl⟩ := repr_split_at hr (by omega : k < as.length)
  have hn := repr_node hr2 hl
  obtain ⟨hapre, hapost, npre, npost, _⟩ := nodup_mid hr2.nodup
  obtain ⟨spre, s2⟩ := seg_split hl hr2.seg
  simp only [Seg] at s2
  obtain ⟨_, spost⟩ := s2
  have e1 : as = as.take k ++ as[k] :: as.drop (k + 1) := by
    rw [← List.drop_eq_getElem_cons (by omega : k < as.length), List.take_append_drop]
  have e3 : ds.set k v = ds.take k ++ v :: ds.drop (k + 1) := by
    rw [List.set_eq_take_append_cons_drop, if_pos hkd]
  have hdrop : ds.drop (k + 1) ≠ [] := by
    intro e
    have := congrArg List.length e
    simp only [List.length_drop, List.length_nil] at this
    omega
  refine ⟨{ h with nodes := upd h.nodes as[k] (some ⟨v, hdPtr (as.drop (k + 1)) none,
      lastPtr (as.take k) none⟩) }, _, hn,
    by simp only [setData, hn], ?_, by simp [upd], fun a ha => by simp [upd, ha], rfl, rfl, rfl⟩
  have hfr : ∀ {cs : List Nat} {vs : List VoidPtr} {p n : Iter}, Seg h p cs vs n →
      as[k] ∉ cs → Seg ({ h with nodes := upd h.nodes as[k] (some ⟨v,
        hdPtr (as.drop (k + 1)) none, lastPtr (as.take k) none⟩) } : Heap) p cs vs n :=
    fun hs hm => seg_frame (h := h) (fun a ha => by
      have : a ≠ as[k] := fun e => hm (e ▸ ha)
      simp [upd, this]) hs
  refine ⟨?_, hr.nodup, ?_, hr.header⟩
  · rw [e3]
    conv => arg 3; rw [e1]
    refine seg_append (hfr spre hapre) ?_
    simp only [Seg]
    exact ⟨by simp [upd], hfr spost hapost⟩
  · have hd := hr2.dummy
    obtain ⟨x, rest, hx⟩ := List.exists_cons_of_ne_nil hdrop
    rw [hx] at hd
    rw [e3, hx]
    have e4 : ds.take k ++ ds[k] :: x :: rest = (ds.take k ++ [ds[k]]) ++ x :: rest := by
      rw [List.append_assoc]
      rfl
    have e5 : ds.take k ++ v :: x :: rest = (ds.take k ++ [v]) ++ x :: rest := by
      rw [List.append_assoc]
      rfl
    rw [e4, List.getLast?_append_cons] at hd
    rw [e5, List.getLast?_append_cons]
    exact hd

theorem set_perm_cons {α : Type} (x : α) : ∀ (t : List α) (k : Nat) (y : α),
    t[k]? = some y → (y :: t.set k x).Perm (x :: t)
  | [], _, _, h => by simp at h
  | z :: t, 0, y, h => by
    simp only [List.getElem?_cons_zero, Option.some.injEq] at h
    subst h
    exact List.Perm.swap _ _ _
  | z :: t, k + 1, y, h => by
    simp only [List.getElem?_cons_succ] at h
    simp only [List.set_cons_succ]
    exact (List.Perm.swap _ _ _).trans (((set_perm_cons x t k y h).cons z).trans
      (List.Perm.swap _ _ _))

theorem swap_perm {α : Type} : ∀ (ds : List α) (i j : Nat) (a b : α), i < j →
    ds[i]? = some a → ds[j]? = some b → ((ds.set i b).set j a).Perm ds
  | [], _, _, _, _, _, h, _ => by simp at h
  | x :: t, 0, 0, _, _, hij, _, _ => by omega
  | x :: t, 0, j + 1, a, b, _, ha, hb => by
    simp only [List.getElem?_cons_zero, Option.some.injEq] at ha
    simp only [List.getElem?_cons_succ] at hb
    subst ha
    simp only [List.set_cons_zero, List.set_cons_succ]
    exact set_perm_cons _ t j b hb
  | x :: t, i + 1, 0, _, _, hij, _, _ => by omega
  | x :: t, i + 1, j + 1, a, b, hij, ha, hb => by
    simp only [List.getElem?_cons_succ] at ha hb
    simp only [List.set_cons_succ]
    exact (swap_perm t i j a b (by omega) ha hb).cons x

theorem setData_links {h h' : Heap} {a : Nat} {n : Node} {v : VoidPtr}
    (hn : h.nodes a = some n) (hn' : h'.nodes a = some { n with data := v })
    (hfr : ∀ b, b ≠ a → h'.nodes b = h.nodes b) :
    ∀ b, (h'.nodes b).map (fun n => (n.next, n.prev)) =
      (h.nodes b).map (fun n => (n.next, n.prev)) := by
  intro b
  by_cases hb : b = a
  · rw [hb, hn, hn']
    rfl
  · rw [hfr b hb]

theorem swap_repr {h : Heap} {l : Nat} {as : List Nat} {ds : List VoidPtr}
    (hr : ListRep h l as ds) {i j : Nat} (hij : i ≤ j) (hj : j + 1 < as.length) :
    ∃ h' ds', DLLSwap h as[i]? as[j]? = some h' ∧ ListRep h' l as ds' ∧ ds'.Perm ds ∧
      (∀ k, k ≠ i → k ≠ j → ds'[k]? = ds[k]?) ∧ ds'[i]? = ds[j]? ∧ ds'[j]? = ds[i]? ∧
      (∀ b, (h'.nodes b).map (fun n => (n.next, n.prev)) =
        (h.nodes b).map (fun n => (n.next, n.prev))) ∧
      (∀ b, b ∉ as → h'.nodes b = h.nodes b) ∧
      h'.lists = h.lists ∧ h'.brk = h.brk ∧ h'.mallocOk = h.mallocOk := by
  have hlen := seg_length hr.seg
  have hi' : i < as.length := by omega
  have hj' : j < as.length := by omega
  rw [List.getElem?_eq_getElem hi', List.getElem?_eq_getElem hj']
  rcases Nat.eq_or_lt_of_le hij with e | hlt
  · subst e
    exact ⟨h, ds, by simp [DLLSwap, DLLIterIsEqual], hr, List.Perm.refl _, fun _ _ _ => rfl, rfl,
      rfl, fun _ => rfl, fun _ _ => rfl, rfl, rfl, rfl⟩
  · have hne : as[i] ≠ as[j] := fun e => by
      have := (List.Nodup.getElem_inj_iff hr.nodup).1 e
      omega
    obtain ⟨ni, hni, hdi⟩ := repr_data_at hr hi' (by omega)
    obtain ⟨nj, hnj, hdj⟩ := repr_data_at hr hj' (by omega)
    obtain ⟨h1, n1, hn1, hs1, hr1, hn1', hfr1, hl1, hb1, hm1⟩ :=
      setData_repr hr (by omega : i + 1 < as.length) ds[j]
    obtain ⟨h2, n2, hn2, hs2, hr2, hn2', hfr2, hl2, hb2, hm2⟩ := setData_repr hr1 hj ds[i]
    rw [hni, Option.some.injEq] at hn1
    subst hn1
    refine ⟨h2, _, ?_, hr2, ?_, ?_, ?_, ?_, ?_, ?_, by rw [hl2, hl1], by rw [hb2, hb1],
      by rw [hm2, hm1]⟩
    · simp only [DLLSwap, DLLIterIsEqual, hne, if_false, Option.some_bind, ne_eq,
        not_true_eq_false, hni, hnj, hdi, hdj, hs1, hs2]
    · exact swap_perm ds i j ds[i] ds[j] hlt (List.getElem?_eq_getElem _)
        (List.getElem?_eq_getElem _)
    · intro k hk1 hk2
      rw [List.getElem?_set_ne (Ne.symm hk2), List.getElem?_set_ne (Ne.symm hk1)]
    · rw [List.getElem?_set_ne (by omega), List.getElem?_set_self (by omega),
        List.getElem?_eq_getElem]
    · rw [List.getElem?_set_self (by rw [List.length_set]; omega), List.getElem?_eq_getElem]
    · intro b
      rw [setData_links hn2 hn2' hfr2 b, setData_links hni hn1' hfr1 b]
    · intro b hb
      rw [hfr2 b (fun e => hb (e ▸ List.getElem_mem _)),
        hfr1 b (fun e => hb (e ▸ List.getElem_mem _))]

theorem repr_index_inj {h : Heap} {l : Nat} {as : List Nat} {ds : List VoidPtr}
    (hr : ListRep h l as ds) {i j : Nat} (hi : i < as.length) (hj : j < as.length)
    (e : as[i]? = as[j]?) : i = j := by
  rw [List.getElem?_eq_getElem hi, List.getElem?_eq_getElem hj, Option.some.injEq] at e
  exact (List.Nodup.getElem_inj_iff hr.nodup).1 e

theorem advanceLeft_spec {g : Heap} {l : Nat} {as : List Nat} {ds : List VoidPtr}
    (hr : ListRep g l as ds) (mem : Nat → Option Int) (piv : Int) {j : Nat}
    (hj : j + 1 < as.length) : ∀ (fuel i : Nat) (r : Iter), i ≤ j →
    DLLArrange.advanceLeft g mem piv as[j]? fuel as[i]? = some r →
    ∃ i', i ≤ i' ∧ i' ≤ j ∧ r = as[i']? ∧
      ∀ k, i ≤ k → k < i' → ∃ v x, ds[k]? = some v ∧ derefInt mem v = some x ∧ x < piv
  | 0, _, _, _, hres => by simp [DLLArrange.advanceLeft] at hres
  | fuel + 1, i, r, hi, hres => by
    have hlen := seg_length hr.seg
    simp only [DLLArrange.advanceLeft] at hres
    by_cases e : as[i]? = as[j]?
    · simp only [e, if_true, Option.some.injEq] at hres
      exact ⟨i, le_refl _, hi, by rw [← hres, e], fun k h1 h2 => by omega⟩
    · have hij : i < j := by
        rcases Nat.eq_or_lt_of_le hi with e' | e'
        · exact absurd (by rw [e']) e
        · exact e'
      obtain ⟨n, hn, hd⟩ := repr_data_at hr (by omega : i < as.length) (by omega)
      simp only [e, if_false] at hres
      rw [List.getElem?_eq_getElem (by omega : i < as.length)] at hres
      simp only [hn, Option.some_bind, hd] at hres
      cases hx : derefInt mem ds[i] with
      | none => simp [hx] at hres
      | some x =>
        simp only [hx, Option.some_bind] at hres
        by_cases hlt : x < piv
        · simp only [hlt, if_true, repr_next_at hr (by omega : i + 1 < as.length),
            Option.some_bind] at hres
          rw [← List.getElem?_eq_getElem (by omega : i + 1 < as.length)] at hres
          obtain ⟨i', h1, h2, h3, h4⟩ := advanceLeft_spec hr mem piv hj fuel (i + 1) r (by omega) hres
          refine ⟨i', by omega, h2, h3, fun k hk1 hk2 => ?_⟩
          rcases Nat.eq_or_lt_of_le hk1 with e' | e'
          · subst e'
            exact ⟨ds[i], x, List.getElem?_eq_getElem _, hx, hlt⟩
          · exact h4 k (by omega) hk2
        · simp only [hlt, if_false, Option.some.injEq] at hres
          exact ⟨i, le_refl _, hi, by rw [← hres, List.getElem?_eq_getElem],
            fun k h1 h2 => by omega⟩

theorem retreatRight_spec {g : Heap} {l : Nat} {as : List Nat} {ds : List VoidPtr}
    (hr : ListRep g l as ds) (mem : Nat → Option Int) (piv : Int) {i : Nat} :
    ∀ (fuel j : Nat) (r : Iter), i ≤ j → j + 1 < as.length →
    DLLArrange.retreatRight g mem piv as[i]? fuel as[j]? = some r →
    ∃ j', i ≤ j' ∧ j' ≤ j ∧ r = as[j']? ∧
      ∀ k, j' < k → k ≤ j → ∃ v x, ds[k]? = some v ∧ derefInt mem v = some x ∧ x > piv
  | 0, _, _, _, _, hres => by simp [DLLArrange.retreatRight] at hres
  | fuel + 1, j, r, hi, hj, hres => by
    have hlen := seg_length hr.seg
    simp only [DLLArrange.retreatRight] at hres
    by_cases e : as[i]? = as[j]?
    · simp only [e, if_true, Option.some.injEq] at hres
      exact ⟨j, hi, le_refl _, hres.symm, fun k h1 h2 => by omega⟩
    · have hij : i < j := by
        rcases Nat.eq_or_lt_of_le hi with e' | e'
        · exact absurd (by rw [e']) e
        · exact e'
      obtain ⟨n, hn, hd⟩ := repr_data_at hr (by omega : j < as.length) (by omega)
      simp only [e, if_false] at hres
      rw [List.getElem?_eq_getElem (by omega : j < as.length)] at hres
      simp only [hn, Option.some_bind, hd] at hres
      cases hx : derefInt mem ds[j] with
      | none => simp [hx] at hres
      | some x =>
        simp only [hx, Option.some_bind] at hres
        by_cases hlt : x > piv
        · obtain ⟨j0, hj0⟩ : ∃ j0, j = j0 + 1 := ⟨j - 1, by omega⟩
          subst hj0
          simp only [hlt, if_true, repr_prev_at hr (by omega : j0 + 1 < as.length),
            Option.some_bind] at hres
          rw [← List.getElem?_eq_getElem (by omega : j0 < as.length)] at hres
          obtain ⟨j', h1, h2, h3, h4⟩ :=
            retreatRight_spec hr mem piv fuel j0 r (by omega) (by omega) hres
          refine ⟨j', h1, by omega, h3, fun k hk1 hk2 => ?_⟩
          rcases Nat.eq_or_lt_of_le hk2 with e' | e'
          · subst e'
            exact ⟨ds[j0 + 1], x, List.getElem?_eq_getElem _, hx, hlt⟩
          · exact h4 k hk1 (by omega)
        · simp only [hlt, if_false, Option.some.injEq] at hres
          exact ⟨j, hi, le_refl _, by rw [← hres, List.getElem?_eq_getElem],
            fun k h1 h2 => by omega⟩

theorem arrange_loop_spec {l : Nat} {as : List Nat} (mem : Nat → Option Int) (piv : Int) :
    ∀ (fuel : Nat) {g h' : Heap} {ds : List VoidPtr} {i j : Nat},
    ListRep g l as ds → i ≤ j → j + 1 < as.length →
    (∀ k, k < i → ∃ v x, ds[k]? = some v ∧ derefInt mem v = some x ∧ x < piv) →
    (∀ k, j < k → k + 1 < as.length →
      ∃ v x, ds[k]? = some v ∧ derefInt mem v = some x ∧ x > piv) →
    DLLArrange.loop mem piv fuel g as[i]? as[j]? = some h' →
    ∃ ds' m, ListRep h' l as ds' ∧ ds'.Perm ds ∧
      (∀ k, k < m → ∃ v x, ds'[k]? = some v ∧ derefInt mem v = some x ∧ x < piv) ∧
      (∀ k, m < k → k + 1 < as.length →
        ∃ v x, ds'[k]? = some v ∧ derefInt mem v = some x ∧ x > piv) ∧
      (∀ b, (h'.nodes b).map (fun n => (n.next, n.prev)) =
        (g.nodes b).map (fun n => (n.next, n.prev))) ∧
      (∀ b, b ∉ as → h'.nodes b = g.nodes b) ∧
      h'.lists = g.lists ∧ h'.brk = g.brk ∧ h'.mallocOk = g.mallocOk
  | 0, _, _, _, _, _, _, _, _, _, _, hres => by simp [DLLArrange.loop] at hres
  | fuel + 1, g, h', ds, i, j, hr, hij, hj, hlow, hhigh, hres => by
    simp only [DLLArrange.loop] at hres
    by_cases e : as[i]? = as[j]?
    · simp only [e, if_true, Option.some.injEq] at hres
      subst hres
      have hijeq := repr_index_inj hr (by omega) (by omega) e
      subst hijeq
      exact ⟨ds, i, hr, List.Perm.refl _, hlow, hhigh, fun _ => rfl, fun _ _ => rfl, rfl, rfl,
        rfl⟩
    · simp only [e, if_false] at hres
      rw [List.getElem?_eq_getElem (by omega : j < as.length), repr_next_at hr hj,
        Option.some_bind, ← List.getElem?_eq_getElem (by omega : j < as.length),
        ← List.getElem?_eq_getElem hj] at hres
      have e2 : as[i]? ≠ as[j + 1]? := fun e' => by
        have := repr_index_inj hr (by omega) hj e'
        omega
      simp only [e2, if_false] at hres
      obtain ⟨left, hleft, hres⟩ := Option.bind_eq_some.1 hres
      obtain ⟨right, hright, hres⟩ := Option.bind_eq_some.1 hres
      obtain ⟨g1, hswap, hres⟩ := Option.bind_eq_some.1 hres
      obtain ⟨i', hi1, hi2, hi3, hi4⟩ := advanceLeft_spec hr mem piv hj _ i left hij hleft
      subst hi3
      obtain ⟨j', hj1, hj2, hj3, hj4⟩ :=
        retreatRight_spec hr mem piv _ j right hi2 hj hright
      subst hj3
      obtain ⟨g1', ds1, hswap', hr1, hperm, hother, hsi, hsj, hlinks, hfr, hl, hb, hm⟩ :=
        swap_repr hr hj1 (by omega : j' + 1 < as.length)
      rw [hswap, Option.some.injEq] at hswap'
      subst hswap'
      obtain ⟨ds', m, hr', hperm', hlow', hhigh', hlinks', hfr', hl', hb', hm'⟩ :=
        arrange_loop_spec mem piv fuel hr1 hj1 (by omega)
          (fun k hk => by
            rw [hother k (by omega) (by omega)]
            by_cases hki : k < i
            · exact hlow k hki
            · exact hi4 k (by omega) hk)
          (fun k hk1 hk2 => by
            rw [hother k (by omega) (by omega)]
            by_cases hkj : j < k
            · exact hhigh k hkj hk2
            · exact hj4 k hk1 (by omega))
          hres
      exact ⟨ds', m, hr', hperm'.trans hperm, hlow', hhigh',
        fun b => by rw [hlinks' b, hlinks b], fun b hb0 => by rw [hfr' b hb0, hfr b hb0],
        by rw [hl', hl], by rw [hb', hb], by rw [hm', hm]⟩

theorem arrange_loop_null (mem : Nat → Option Int) (piv : Int) (h : Heap) (a : Nat) :
    ∀ fuel, DLLArrange.loop mem piv fuel h (some a) none = none
  | 0 => rfl
  | fuel + 1 => by simp [DLLArrange.loop, DLLNext]

theorem arrHeap_sound : arrHeap.Valid ∧ WellFormed arrHeap 0 :=
  pushBackAll_valid createdHeap_valid createdHeap_wf
    (fun k hk => by
      have hk6 : k < 6 := hk
      interval_cases k <;> rfl)
    (rfl : pushBackAll createdHeap 0
      [.user 8, .user 1, .user 9, .user 3, .user 5, .user 2] = some arrHeap)

theorem fivesHeap_sound : fivesHeap.Valid ∧ WellFormed fivesHeap 0 :=
  pushBackAll_valid createdHeap_valid createdHeap_wf
    (fun k hk => by
      have hk2 : k < 2 := hk
      interval_cases k <;> rfl)
    (rfl : pushBackAll createdHeap 0 [.user 1, .user 2] = some fivesHeap)

theorem fives_loop : ∀ (fuel : Nat) (g : Heap) (p q : Nat),
    g.nodes 1 = some ⟨.user p, some 2, none⟩ → g.nodes 2 = some ⟨.user q, some 3, some 1⟩ →
    DLLArrange.loop fiveMem 5 fuel g (some 1) (some 2) = none
  | 0, _, _, _, _, _ => rfl
  | fuel + 1, g, p, q, h1, h2 => by
    have hl : DLLArrange.advanceLeft g fiveMem 5 (some 2) (g.brk + 1) (some 1) =
        some (some 1) := by
      simp [DLLArrange.advanceLeft, h1, derefInt, fiveMem]
    have hrt : DLLArrange.retreatRight g fiveMem 5 (some 1) (g.brk + 1) (some 2) =
        some (some 2) := by
      simp [DLLArrange.retreatRight, h2, derefInt, fiveMem]
    have hsw : DLLSwap g (some 1) (some 2) =
        some { g with nodes := (upd (upd g.nodes 1 (some ⟨.user q, some 2, none⟩)) 2
          (some ⟨.user p, some 3, some 1⟩)) } := by
      simp [DLLSwap, DLLIterIsEqual, h1, h2, setData, upd]
    have ih := fives_loop fuel { g with nodes := (upd (upd g.nodes 1
      (some ⟨.user q, some 2, none⟩)) 2 (some ⟨.user p, some 3, some 1⟩)) } q p
      (by simp [upd]) (by simp [upd])
    simp [DLLArrange.loop, DLLNext, h2, hl, hrt, hsw, ih]

theorem fives_arrange (fuel : Nat) :
    DLLArrange fuel fivesHeap (some 0) fiveMem (.user 0) = none :=
  fives_loop fuel fivesHeap 1 2 rfl rfl

theorem splice_data_links_same {h : Heap} {d s : Nat} {ns nd : Node}
    (hs : h.nodes s = some ns) (hd : h.nodes d = some nd) (hne : s ≠ d) :
    ∃ h', (DLLSplice.rotateData h d s s ns.data).bind
        (fun h => DLLSplice.moveLinks h d s s ns.next) = some h' ∧
      h'.nodes s = some ⟨nd.data, ns.next, ns.prev⟩ ∧
      h'.nodes d = some ⟨ns.data, nd.next, nd.prev⟩ ∧
      (∀ a, a ≠ s → a ≠ d → h'.nodes a = h.nodes a) ∧
      h'.lists = h.lists ∧ h'.brk = h.brk ∧ h'.mallocOk = h.mallocOk := by
  have hne' := Ne.symm hne
  refine ⟨{ h with nodes := (fun a =>
      if a = s then some ⟨nd.data, ns.next, ns.prev⟩
      else if a = d then some ⟨ns.data, nd.next, nd.prev⟩
      else h.nodes a) }, ?_, ?_, ?_, ?_, rfl, rfl, rfl⟩
  · simp only [DLLSplice.rotateData, DLLSplice.moveLinks, setData, setNext, upd, hs, hd,
      Option.some_bind, hne, hne', if_true, if_false, Option.some.injEq]
    congr 1
    funext a
    by_cases ha1 : a = s
    · simp [upd, ha1, hne]
    · by_cases ha2 : a = d
      · simp [upd, ha2, hne']
      · simp [upd, ha1, ha2]
  · simp
  · simp [hne']
  · intro a ha1 ha2
    simp [ha1, ha2]

theorem splice_same_end {h : Heap} {la lb : Nat} {PA TA PB : List Nat} {s d : Nat}
    {dPA dTA dPB : List VoidPtr} {x xd : VoidPtr}
    (hA : ListRep h la (PA ++ s :: TA) (dPA ++ x :: dTA))
    (hB : ListRep h lb (PB ++ [d]) (dPB ++ [xd]))
    (hne : la ≠ lb) (hlPA : PA.length = dPA.length) (hlPB : PB.length = dPB.length) :
    DLLSplice h (some d) (some s) (some s) = none := by
  have ns := repr_node hA hlPA
  have nd := repr_node hB hlPB
  have hsd : s ≠ d := fun e => repr_disjoint hA hB hne s (by simp) (by simp [e])
  obtain ⟨h1, e1, h1s, h1d, h1fr, h1l, h1b, h1m⟩ := splice_data_links_same ns nd hsd
  simp only at e1 h1d
  have hassoc : DLLSplice h (some d) (some s) (some s) =
      ((DLLSplice.rotateData h d s s x).bind
        (fun g => DLLSplice.moveLinks g d s s (hdPtr TA none))).bind
      (fun g => (DLLSplice.setNextPrev g d).bind fun g =>
        (DLLSplice.rethread g s).bind fun g => DLLSplice.rethread g s) := by
    simp only [DLLSplice, ns, Option.some_bind, Option.bind_assoc]
  rw [hassoc, e1]
  simp [DLLSplice.setNextPrev, h1d]

theorem splice_same {h : Heap} {la lb : Nat} {PA RA PB RB : List Nat} {s z d y : Nat}
    {dPA dRA dPB dRB : List VoidPtr} {x xd : VoidPtr}
    (hA : ListRep h la (PA ++ s :: z :: RA) (dPA ++ x :: dRA))
    (hB : ListRep h lb (PB ++ d :: y :: RB) (dPB ++ xd :: dRB))
    (hne : la ≠ lb) (hlPA : PA.length = dPA.length) (hlPB : PB.length = dPB.length) :
    ∃ h', DLLSplice h (some d) (some s) (some s) = some h' ∧
      ListRep h' la (PA ++ s :: z :: RA) (dPA ++ xd :: dRA) ∧
      ListRep h' lb (PB ++ d :: y :: RB) (dPB ++ x :: dRB) ∧
      h'.brk = h.brk ∧ h'.mallocOk = h.mallocOk ∧
      (∀ a, a ∉ PA ++ s :: z :: RA → a ∉ PB ++ d :: y :: RB → h'.nodes a = h.nodes a) ∧
      h'.lists = h.lists := by
  have hlenA := seg_length hA.seg
  have hlenB := seg_length hB.seg
  simp only [List.length_append, List.length_cons] at hlenA hlenB
  obtain ⟨sPA, sA2⟩ := seg_split hlPA hA.seg
  obtain ⟨sPB, sB2⟩ := seg_split hlPB hB.seg
  have ns := repr_node hA hlPA
  have nd := repr_node hB hlPB
  obtain ⟨v0, dRA', rfl⟩ : ∃ v0 dRA', dRA = v0 :: dRA' := by
    cases dRA with
    | nil => simp at hlenA; omega
    | cons v0 t => exact ⟨v0, t, rfl⟩
  obtain ⟨w0, dRB', rfl⟩ : ∃ w0 dRB', dRB = w0 :: dRB' := by
    cases dRB with
    | nil => simp at hlenB; omega
    | cons w0 t => exact ⟨w0, t, rfl⟩
  simp only [Seg] at sA2 sB2
  obtain ⟨_, _, sRA⟩ := sA2
  obtain ⟨_, _, sRB⟩ := sB2
  have sTA : Seg h (some s) (z :: RA) (v0 :: dRA') none := by
    simp only [Seg]
    exact ⟨by assumption, sRA⟩
  have sTB : Seg h (some d) (y :: RB) (w0 :: dRB') none := by
    simp only [Seg]
    exact ⟨by assumption, sRB⟩
  simp only [hdPtr_cons] at sPA sPB ns nd
  obtain ⟨hsPA, hsT, nPA, nTA, dPAT⟩ := nodup_mid hA.nodup
  obtain ⟨hdPB, hdT, nPB, nTB, dPBT⟩ := nodup_mid hB.nodup
  have hAB := repr_disjoint hA hB hne
  have inA_PA : ∀ a ∈ PA, a ∈ PA ++ s :: z :: RA := fun a ha => by simp [ha]
  have inA_T : ∀ a ∈ z :: RA, a ∈ PA ++ s :: z :: RA := fun a ha => by
    simp only [List.mem_append, List.mem_cons] at ha ⊢
    tauto
  have inA_s : s ∈ PA ++ s :: z :: RA := by simp
  have inB_PB : ∀ a ∈ PB, a ∈ PB ++ d :: y :: RB := fun a ha => by simp [ha]
  have inB_T : ∀ a ∈ y :: RB, a ∈ PB ++ d :: y :: RB := fun a ha => by
    simp only [List.mem_append, List.mem_cons] at ha ⊢
    tauto
  have inB_d : d ∈ PB ++ d :: y :: RB := by simp
  have hsd : s ≠ d := fun e => hAB s inA_s (e ▸ inB_d)
  obtain ⟨h1, e1, h1s, h1d, h1fr, h1l, h1b, h1m⟩ := splice_data_links_same ns nd hsd
  simp only at e1 h1s h1d
  have fr1 : ∀ {as : List Nat} {ds : List VoidPtr} {p n : Iter}, Seg h p as ds n →
      s ∉ as → d ∉ as → Seg h1 p as ds n := fun hs a1 a2 =>
    seg_frame (h := h) (fun a ha => h1fr a (fun e => a1 (e ▸ ha)) (fun e => a2 (e ▸ ha))) hs
  have s1TB : Seg h1 (some d) (y :: RB) (w0 :: dRB') none :=
    fr1 sTB (fun hm => hAB s inA_s (inB_T s hm)) hdT
  obtain ⟨h2, e2, s2TB, h2fr, h2l, h2b, h2m⟩ :=
    seg_setPrev (some d) s1TB (List.nodup_cons.1 nTB).1
  have hyin : y ∈ y :: RB := List.mem_cons_self _ _
  have hys : s ≠ y := fun e => hAB s inA_s (inB_T s (e ▸ hyin))
  have hyd : d ≠ y := fun e => hdT (e ▸ hyin)
  have h2s : h2.nodes s = some ⟨xd, hdPtr (z :: RA) none, lastPtr PA none⟩ := by
    rw [h2fr s hys, h1s]
    rfl
  have s2TA : Seg h2 (some s) (z :: RA) (v0 :: dRA') none :=
    seg_frame (h := h1) (fun a ha => h2fr a (fun e => hAB a (inA_T a ha) (inB_T a (e ▸ hyin))))
      (fr1 sTA hsT (fun hm => hAB d (inA_T d hm) inB_d))
  obtain ⟨h3, e3, s3TA, h3fr, h3l, _, h3b, h3m⟩ :=
    rethread_seg (l := la) (L := ⟨none, none⟩) h2s s2TA nTA (fun e => by cases e)
  have h3s : h3.nodes s = some ⟨xd, hdPtr (z :: RA) none, lastPtr PA none⟩ := by
    rw [h3fr s hsT, h2s]
  obtain ⟨h4, e4, s4TA, h4fr, h4l, _, h4b, h4m⟩ :=
    rethread_seg (l := la) (L := ⟨none, none⟩) h3s s3TA nTA (fun e => by cases e)
  have toFinal : ∀ a, a ∉ z :: RA → a ≠ y → h4.nodes a = h1.nodes a := fun a a1 a2 => by
    rw [h4fr a a1, h3fr a a1, h2fr a a2]
  have hlists : h4.lists = h.lists := by
    funext k
    rw [h4l k (fun e => by cases e), h3l k (fun e => by cases e), h2l, h1l]
  have s4TB : Seg h4 (some d) (y :: RB) (w0 :: dRB') none :=
    seg_frame (h := h2) (fun a ha => by
      rw [h4fr a (fun hm => hAB a (inA_T a hm) (inB_T a ha)),
        h3fr a (fun hm => hAB a (inA_T a hm) (inB_T a ha))]) s2TB
  have s4PA : Seg h4 none PA dPA (some s) :=
    seg_frame (h := h1) (fun a ha => toFinal a (fun hm => dPAT a ha hm)
      (fun e => hAB a (inA_PA a ha) (inB_T a (e ▸ hyin))))
      (fr1 sPA hsPA (fun hm => hAB d (inA_PA d hm) inB_d))
  have s4PB : Seg h4 none PB dPB (some d) :=
    seg_frame (h := h1) (fun a ha => toFinal a (fun hm => hAB a (inA_T a hm) (inB_PB a ha))
      (fun e => dPBT a ha (e ▸ hyin)))
      (fr1 sPB (fun hm => hAB s inA_s (inB_PB s hm)) hdPB)
  have h4s : h4.nodes s = some ⟨xd, hdPtr (z :: RA) none, lastPtr PA none⟩ := by
    rw [h4fr s hsT, h3s]
  have h4d : h4.nodes d = some ⟨x, hdPtr (y :: RB) none, lastPtr PB none⟩ := by
    rw [toFinal d (fun hm => hAB d (inA_T d hm) inB_d) hyd, h1d]
    rfl
  have hrun : DLLSplice h (some d) (some s) (some s) = some h4 := by
    have hassoc : DLLSplice h (some d) (some s) (some s) =
        ((DLLSplice.rotateData h d s s x).bind
          (fun g => DLLSplice.moveLinks g d s s (some z))).bind
        (fun g => (DLLSplice.setNextPrev g d).bind fun g =>
          (DLLSplice.rethread g s).bind fun g => DLLSplice.rethread g s) := by
      simp only [DLLSplice, ns, Option.some_bind, Option.bind_assoc]
    rw [hassoc, e1]
    simp only [Option.some_bind, DLLSplice.setNextPrev, h1d, e2, e3, e4]
  refine ⟨h4, hrun, ⟨?_, hA.nodup, ?_, by rw [hlists]; exact hA.header⟩,
    ⟨?_, hB.nodup, ?_, by rw [hlists]; exact hB.header⟩,
    by rw [h4b, h3b, h2b, h1b], by rw [h4m, h3m, h2m, h1m], ?_, hlists⟩
  · refine seg_append (by simpa using s4PA) ?_
    exact ⟨h4s, s4TA⟩
  · have := hA.dummy
    have e : dPA ++ x :: v0 :: dRA' = (dPA ++ [x]) ++ v0 :: dRA' := by
      rw [List.append_assoc]; rfl
    have e' : dPA ++ xd :: v0 :: dRA' = (dPA ++ [xd]) ++ v0 :: dRA' := by
      rw [List.append_assoc]; rfl
    rw [e, List.getLast?_append_cons] at this
    rw [e', List.getLast?_append_cons]
    exact this
  · refine seg_append (by simpa using s4PB) ?_
    exact ⟨h4d, s4TB⟩
  · have := hB.dummy
    have e : dPB ++ xd :: w0 :: dRB' = (dPB ++ [xd]) ++ w0 :: dRB' := by
      rw [List.append_assoc]; rfl
    have e' : dPB ++ x :: w0 :: dRB' = (dPB ++ [x]) ++ w0 :: dRB' := by
      rw [List.append_assoc]; rfl
    rw [e, List.getLast?_append_cons] at this
    rw [e', List.getLast?_append_cons]
    exact this
  · intro a haA haB
    rw [toFinal a (fun hm => haA (inA_T a hm)) (fun e => haB (inB_T a (e ▸ hyin))),
      h1fr a (fun e => haA (e ▸ inA_s)) (fun e => haB (e ▸ inB_d))]

theorem reprs_frame {h h' : Heap} {l : Nat} {P X X' R : List Nat}
    {dP dX dX' dR : List VoidPtr}
    (hr : ListRep h l (P ++ (X ++ R)) (dP ++ (dX ++ dR)))
    (hr' : ListRep h' l (P ++ (X' ++ R)) (dP ++ (dX' ++ dR)))
    (hlP : P.length = dP.length) (hlX : X.length = dX.length) (hlX' : X'.length = dX'.length) :
    (∀ k, k < P.length → ∃ a v, iterAt h l k = some (some a) ∧ DLLGetData h (some a) = some v ∧
      iterAt h' l k = some (some a) ∧ DLLGetData h' (some a) = some v) ∧
    (∀ k, k < R.length → ∃ a v, iterAt h l (P.length + X.length + k) = some (some a) ∧
      DLLGetData h (some a) = some v ∧
      iterAt h' l (P.length + X'.length + k) = some (some a) ∧
      DLLGetData h' (some a) = some v) := by
  constructor
  · intro k hk
    obtain ⟨a, v, e1, e2, hit, hgd⟩ := repr_prefix_at hr hlP hk
    obtain ⟨a', v', e1', e2', hit', hgd'⟩ := repr_prefix_at hr' hlP hk
    rw [e1, Option.some.injEq] at e1'
    rw [e2, Option.some.injEq] at e2'
    subst e1' e2'
    exact ⟨a, v, hit, hgd, hit', hgd'⟩
  · intro k hk
    have hr2 : ListRep h l ((P ++ X) ++ R) ((dP ++ dX) ++ dR) := by
      rw [List.append_assoc, List.append_assoc]
      exact hr
    have hr2' : ListRep h' l ((P ++ X') ++ R) ((dP ++ dX') ++ dR) := by
      rw [List.append_assoc, List.append_assoc]
      exact hr'
    obtain ⟨a, v, e1, e2, hit, hgd⟩ := repr_suffix_at hr2
      (by simp only [List.length_append]; omega) hk
    obtain ⟨a', v', e1', e2', hit', hgd'⟩ := repr_suffix_at hr2'
      (by simp only [List.length_append]; omega) hk
    rw [e1, Option.some.injEq] at e1'
    rw [e2, Option.some.injEq] at e2'
    subst e1' e2'
    rw [List.length_append] at hit hit'
    exact ⟨a, v, hit, hgd, hit', hgd'⟩

/-! ## Pushes followed by pops -/

theorem pushFrontAll_repr : ∀ (vs : List VoidPtr) {h : Heap} {l : Nat} {as : List Nat}
    {ds : List VoidPtr}, h.Valid → ListRep h l as ds →
    (∀ k, k < vs.length → h.mallocOk (h.brk + k) = true) →
    ∃ h' as', pushFrontAll h l vs = some h' ∧ h'.Valid ∧ ListRep h' l as' (vs.reverse ++ ds)
  | [], h, _, as, _, hv, hr, _ => ⟨h, as, rfl, hv, by simpa using hr⟩
  | v :: vs, h, l, as, ds, hv, hr, hok => by
    obtain ⟨h1, r, as1, hp, _, hv1, hr1, hb, hm⟩ :=
      pushFront_repr v hv hr (by simpa using hok 0 (by simp))
    obtain ⟨h', as', hp', hv', hr'⟩ := pushFrontAll_repr vs hv1 hr1 (by
      intro k hk
      rw [hm, hb, Nat.add_assoc, Nat.add_comm 1 k]
      exact hok (k + 1) (by simpa using hk))
    exact ⟨h', as', by simp [pushFrontAll, hp, hp'], hv', by simpa using hr'⟩

theorem popFrontAll_repr : ∀ (vs : List VoidPtr) {h : Heap} {l : Nat} {as : List Nat}
    {ds : List VoidPtr}, h.Valid → ListRep h l as (vs ++ ds) → ds ≠ [] →
    ∃ h' as', popFrontAll h l vs.length = some (h', vs) ∧ h'.Valid ∧ ListRep h' l as' ds
  | [], h, _, as, _, hv, hr, _ => ⟨h, as, rfl, hv, by simpa using hr⟩
  | v :: vs, h, l, as, ds, hv, hr, hne => by
    obtain ⟨h1, as1, hp, hv1, hr1, _⟩ :=
      popFront_repr hv (show ListRep h l as (v :: (vs ++ ds)) from hr) (by simp [hne])
    obtain ⟨h', as', hp', hv', hr'⟩ := popFrontAll_repr vs hv1 hr1 hne
    exact ⟨h', as', by simp [popFrontAll, hp, hp'], hv', hr'⟩

theorem popBackAll_repr : ∀ (vs : List VoidPtr) {h : Heap} {l : Nat} {as : List Nat}
    {xs : List VoidPtr}, h.Valid → ListRep h l as (xs ++ vs.reverse ++ [.tailField l]) →
    ∃ h' as', popBackAll h l vs.length = some (h', vs) ∧ h'.Valid ∧
      ListRep h' l as' (xs ++ [.tailField l])
  | [], h, _, as, _, hv, hr => ⟨h, as, rfl, hv, by simpa using hr⟩
  | v :: vs, h, l, as, xs, hv, hr => by
    have hr0 : ListRep h l as ((xs ++ vs.reverse) ++ [v] ++ [.tailField l]) := by
      simpa using hr
    obtain ⟨h1, as1, hp, hv1, hr1, _⟩ := popBack_repr hv hr0
    obtain ⟨h', as', hp', hv', hr'⟩ := popBackAll_repr vs hv1 hr1
    exact ⟨h', as', by simp [popBackAll, hp, hp'], hv', hr'⟩

theorem repr_end {h : Heap} {l : Nat} {as : List Nat} {ds : List VoidPtr}
    (hr : ListRep h l as ds) :
    ∃ s, as.getLast? = some s ∧ DLLEnd h (some l) = some (some s) ∧
      iterAt h l (as.length - 1) = some (some s) ∧
      DLLNext h (some s) = some none ∧ DLLGetData h (some s) = some (.tailField l) := by
  obtain ⟨ns, s, vs, rfl, rfl, hl, _, hs, _, _, hhd⟩ := repr_unfold hr
  refine ⟨s, by simp, by simp [DLLEnd, hhd], ?_, by simp [DLLNext, hs], by simp [DLLGetData, hs]⟩
  rw [repr_iterAt hr (by simp)]
  simp

/-! ## The run of `DLLArrange`, its faults told apart -/

theorem andThen_toOption {α β : Type} (r : Traced α) (f : α → Traced β) :
    (Traced.andThen r f).2.toOption = r.2.toOption.bind fun a => (f a).2.toOption := by
  obtain ⟨t, o⟩ := r
  cases o <;> rfl

theorem readNode_next (h : Heap) (it : Iter) :
    (readNode h it).toOption.map (fun n => n.next) = DLLNext h it := by
  cases it with
  | none => rfl
  | some a => cases hn : h.nodes a <;> simp [readNode, DLLNext, hn, Outcome.toOption]

theorem readNode_prev (h : Heap) (it : Iter) :
    (readNode h it).toOption.map (fun n => n.prev) = DLLPrev h it := by
  cases it with
  | none => rfl
  | some a => cases hn : h.nodes a <;> simp [readNode, DLLPrev, hn, Outcome.toOption]

theorem readNode_some (h : Heap) (a : Nat) : (readNode h (some a)).toOption = h.nodes a := by
  cases hn : h.nodes a <;> simp [readNode, hn, Outcome.toOption]

theorem readInt_toOption (mem : Nat → Option Int) (p : VoidPtr) :
    (readInt mem p).toOption = derefInt mem p := by
  cases hn : derefInt mem p <;> simp [readInt, hn, Outcome.toOption]

theorem swapRun_toOption (h : Heap) (a b : Iter) :
    (DLLSwapRun h a b).toOption = DLLSwap h a b := by
  simp only [DLLSwapRun]
  cases hs : DLLSwap h a b with
  | some g => rfl
  | none => by_cases hn : a = none ∨ b = none <;> simp [hn, Outcome.toOption]

theorem advanceLeftRun_toOption (h : Heap) (mem : Nat → Option Int) (piv : Int) (right : Iter) :
    ∀ (fuel : Nat) (left : Iter),
    (DLLArrange.advanceLeftRun h mem piv right fuel left).2.toOption =
      DLLArrange.advanceLeft h mem piv right fuel left
  | 0, _ => rfl
  | fuel + 1, left => by
    have ih := advanceLeftRun_toOption h mem piv right fuel
    simp only [DLLArrange.advanceLeftRun, DLLArrange.advanceLeft]
    by_cases e : left = right
    · simp [e, Outcome.toOption]
    · simp only [e, if_false, andThen_toOption]
      cases left with
      | none => rfl
      | some a =>
        simp only [readNode_some]
        cases hn : h.nodes a with
        | none => simp
        | some n =>
          simp only [Option.some_bind, readInt_toOption]
          cases hx : derefInt mem n.data with
          | none => simp
          | some x =>
            simp only [Option.some_bind]
            by_cases hlt : x < piv
            · simp only [hlt, if_true, DLLNext, hn, Option.map_some', Option.some_bind]
              exact ih n.next
            · simp [hlt, Outcome.toOption]

theorem retreatRightRun_toOption (h : Heap) (mem : Nat → Option Int) (piv : Int) (left : Iter) :
    ∀ (fuel : Nat) (right : Iter),
    (DLLArrange.retreatRightRun h mem piv left fuel right).2.toOption =
      DLLArrange.retreatRight h mem piv left fuel right
  | 0, _ => rfl
  | fuel + 1, right => by
    have ih := retreatRightRun_toOption h mem piv left fuel
    simp only [DLLArrange.retreatRightRun, DLLArrange.retreatRight]
    by_cases e : left = right
    · simp [e, Outcome.toOption]
    · simp only [e, if_false, andThen_toOption]
      cases right with
      | none => rfl
      | some a =>
        simp only [readNode_some]
        cases hn : h.nodes a with
        | none => simp
        | some n =>
          simp only [Option.some_bind, readInt_toOption]
          cases hx : derefInt mem n.data with
          | none => simp
          | some x =>
            simp only [Option.some_bind]
            by_cases hlt : x > piv
            · simp only [hlt, if_true, DLLPrev, hn, Option.map_some', Option.some_bind]
              exact ih n.prev
            · simp [hlt, Outcome.toOption]

theorem loopRun_toOption (mem : Nat → Option Int) (piv : Int) :
    ∀ (fuel : Nat) (h : Heap) (left right : Iter),
    (DLLArrange.loopRun mem piv fuel h left right).2.toOption =
      DLLArrange.loop mem piv fuel h left right
  | 0, _, _, _ => rfl
  | fuel + 1, h, left, right => by
    simp only [DLLArrange.loopRun, DLLArrange.loop]
    by_cases e : left = right
    · simp [e, Outcome.toOption]
    · simp only [e, if_false, andThen_toOption]
      rw [← readNode_next]
      cases hr : (readNode h right).toOption with
      | none => rfl
      | some rn =>
        simp only [Option.some_bind, Option.map_some']
        by_cases e2 : left = rn.next
        · simp [e2, Outcome.toOption]
        · simp only [e2, if_false, andThen_toOption, advanceLeftRun_toOption,
            retreatRightRun_toOption, swapRun_toOption, loopRun_toOption mem piv fuel]

theorem run_toOption (fuel : Nat) (h : Heap) (dll : Option Nat) (mem : Nat → Option Int)
    (pivot : VoidPtr) :
    (DLLArrange.run fuel h dll mem pivot).2.toOption = DLLArrange fuel h dll mem pivot := by
  cases dll with
  | none => rfl
  | some l =>
    simp only [DLLArrange.run, DLLArrange, DLLBegin, DLLEnd]
    cases hl : h.lists l with
    | none => rfl
    | some d =>
      simp only [Option.map_some', Option.some_bind, andThen_toOption, ← readNode_prev,
        readInt_toOption, loopRun_toOption]
      cases (readNode h d.tail).toOption <;> rfl

theorem repr_readNode {h : Heap} {l : Nat} {as : List Nat} {ds : List VoidPtr}
    (hr : ListRep h l as ds) {k : Nat} (hk : k < as.length) :
    ∃ n, readNode h as[k]? = .done n ∧ ds[k]? = some n.data ∧ n.next = as[k + 1]? ∧
      (∀ k0, k = k0 + 1 → n.prev = as[k0]?) := by
  have hlen := seg_length hr.seg
  obtain ⟨hkd, hr2, hl⟩ := repr_split_at hr hk
  have hn := repr_node hr2 hl
  refine ⟨⟨ds[k], hdPtr (as.drop (k + 1)) none, lastPtr (as.take k) none⟩,
    by rw [List.getElem?_eq_getElem hk]; simp only [readNode, hn],
    by rw [List.getElem?_eq_getElem hkd], ?_, ?_⟩
  · show hdPtr (as.drop (k + 1)) none = as[k + 1]?
    rw [← List.head?_drop]
    cases as.drop (k + 1) <;> simp
  · intro k0 e
    subst e
    show lastPtr (as.take (k0 + 1)) none = as[k0]?
    rw [List.take_succ, List.getElem?_eq_getElem (by omega : k0 < as.length)]
    show lastPtr (as.take k0 ++ [as[k0]]) none = _
    rw [lastPtr_append_cons]
    rfl

theorem advanceLeftRun_inv {g : Heap} {l : Nat} {as : List Nat} {ds : List VoidPtr}
    (hr : ListRep g l as ds) (mem : Nat → Option Int) (piv : Int) {j : Nat}
    (hj : j + 1 < as.length)
    (hint : ∀ k, k + 1 < as.length → ∃ v x, ds[k]? = some v ∧ derefInt mem v = some x) :
    ∀ (fuel i : Nat), i ≤ j →
    (∀ p ∈ (DLLArrange.advanceLeftRun g mem piv as[j]? fuel as[i]?).1,
      ∃ k, i ≤ k ∧ k ≤ j ∧ p = (as[k]?, as[j]?)) ∧
    ((∃ i', i ≤ i' ∧ i' ≤ j ∧
        (DLLArrange.advanceLeftRun g mem piv as[j]? fuel as[i]?).2 = .done as[i']?) ∨
      ((DLLArrange.advanceLeftRun g mem piv as[j]? fuel as[i]?).2 = .unfinished ∧
        fuel ≤ j - i))
  | 0, i, hi => by
    refine ⟨fun p hp => ?_, Or.inr ⟨rfl, Nat.zero_le _⟩⟩
    simp only [DLLArrange.advanceLeftRun, List.mem_singleton] at hp
    exact ⟨i, le_refl _, hi, hp⟩
  | fuel + 1, i, hi => by
    simp only [DLLArrange.advanceLeftRun]
    by_cases e : as[i]? = as[j]?
    · simp only [e, if_true, List.mem_singleton]
      have hijeq := repr_index_inj hr (by omega) (by omega) e
      exact ⟨fun p hp => ⟨j, by omega, le_refl _, hp⟩, Or.inl ⟨i, le_refl _, hi, by rw [e]⟩⟩
    · have hij : i < j := by
        rcases Nat.eq_or_lt_of_le hi with e' | e'
        · exact absurd (by rw [e']) e
        · exact e'
      obtain ⟨n, hn, hd, hnx, _⟩ := repr_readNode hr (by omega : i < as.length)
      obtain ⟨v, x, hv, hx⟩ := hint i (by omega)
      rw [hd, Option.some.injEq] at hv
      subst hv
      simp only [e, if_false, hn, Traced.andThen, readInt, hx, hnx, List.nil_append]
      by_cases hlt : x < piv
      · obtain ⟨ih1, ih2⟩ := advanceLeftRun_inv hr mem piv hj hint fuel (i + 1) (by omega)
        simp only [hlt, if_true, List.singleton_append, List.mem_cons]
        refine ⟨?_, ?_⟩
        · rintro p (hp | hp)
          · exact ⟨i, le_refl _, hi, hp⟩
          · obtain ⟨k, h1, h2, h3⟩ := ih1 p hp
            exact ⟨k, by omega, h2, h3⟩
        · rcases ih2 with ⟨i', h1, h2, h3⟩ | ⟨h1, h2⟩
          · exact Or.inl ⟨i', by omega, h2, h3⟩
          · exact Or.inr ⟨h1, by omega⟩
      · simp only [hlt, if_false, List.append_nil, List.mem_singleton]
        exact ⟨fun p hp => ⟨i, le_refl _, hi, hp⟩, Or.inl ⟨i, le_refl _, hi, rfl⟩⟩

theorem retreatRightRun_inv {g : Heap} {l : Nat} {as : List Nat} {ds : List VoidPtr}
    (hr : ListRep g l as ds) (mem : Nat → Option Int) (piv : Int) {i : Nat}
    (hint : ∀ k, k + 1 < as.length → ∃ v x, ds[k]? = some v ∧ derefInt mem v = some x) :
    ∀ (fuel j : Nat), i ≤ j → j + 1 < as.length →
    (∀ p ∈ (DLLArrange.retreatRightRun g mem piv as[i]? fuel as[j]?).1,
      ∃ k, i ≤ k ∧ k ≤ j ∧ p = (as[i]?, as[k]?)) ∧
    ((∃ j', i ≤ j' ∧ j' ≤ j ∧
        (DLLArrange.retreatRightRun g mem piv as[i]? fuel as[j]?).2 = .done as[j']?) ∨
      ((DLLArrange.retreatRightRun g mem piv as[i]? fuel as[j]?).2 = .unfinished ∧
        fuel ≤ j - i))
  | 0, j, hi, _ => by
    refine ⟨fun p hp => ?_, Or.inr ⟨rfl, Nat.zero_le _⟩⟩
    simp only [DLLArrange.retreatRightRun, List.mem_singleton] at hp
    exact ⟨j, hi, le_refl _, hp⟩
  | fuel + 1, j, hi, hj => by
    simp only [DLLArrange.retreatRightRun]
    by_cases e : as[i]? = as[j]?
    · simp only [e, if_true, List.mem_singleton]
      have hijeq := repr_index_inj hr (by omega) (by omega) e
      exact ⟨fun p hp => ⟨j, by omega, le_refl _, hp⟩,
        Or.inl ⟨j, hi, le_refl _, rfl⟩⟩
    · have hij : i < j := by
        rcases Nat.eq_or_lt_of_le hi with e' | e'
        · exact absurd (by rw [e']) e
        · exact e'
      obtain ⟨j0, rfl⟩ : ∃ j0, j = j0 + 1 := ⟨j - 1, by omega⟩
      obtain ⟨n, hn, hd, _, hpv⟩ := repr_readNode hr (by omega : j0 + 1 < as.length)
      have hpv := hpv j0 rfl
      obtain ⟨v, x, hv, hx⟩ := hint (j0 + 1) (by omega)
      rw [hd, Option.some.injEq] at hv
      subst hv
      simp only [e, if_false, hn, Traced.andThen, readInt, hx, hpv, List.nil_append]
      by_cases hlt : x > piv
      · obtain ⟨ih1, ih2⟩ := retreatRightRun_inv (i := i) hr mem piv hint fuel j0 (by omega) (by omega)
        simp only [hlt, if_true, List.singleton_append, List.mem_cons]
        refine ⟨?_, ?_⟩
        · rintro p (hp | hp)
          · exact ⟨j0 + 1, hi, le_refl _, hp⟩
          · obtain ⟨k, h1, h2, h3⟩ := ih1 p hp
            exact ⟨k, h1, by omega, h3⟩
        · rcases ih2 with ⟨j', h1, h2, h3⟩ | ⟨h1, h2⟩
          · exact Or.inl ⟨j', h1, by omega, h3⟩
          · exact Or.inr ⟨h1, by omega⟩
      · simp only [hlt, if_false, List.append_nil, List.mem_singleton]
        exact ⟨fun p hp => ⟨j0 + 1, hi, le_refl _, hp⟩, Or.inl ⟨j0 + 1, hi, le_refl _, rfl⟩⟩

theorem loopRun_inv {l : Nat} {as : List Nat} (mem : Nat → Option Int) (piv : Int) :
    ∀ (fuel : Nat) {g : Heap} {ds : List VoidPtr} {i j : Nat},
    ListRep g l as ds → as.length ≤ g.brk →
    (∀ k, k + 1 < as.length → ∃ v x, ds[k]? = some v ∧ derefInt mem v = some x) →
    i ≤ j → j + 1 < as.length →
    (∀ p ∈ (DLLArrange.loopRun mem piv fuel g as[i]? as[j]?).1,
      ∃ a b, a ≤ b ∧ b + 1 < as.length ∧ p = (as[a]?, as[b]?)) ∧
    ((∃ h', (DLLArrange.loopRun mem piv fuel g as[i]? as[j]?).2 = .done h') ∨
      (DLLArrange.loopRun mem piv fuel g as[i]? as[j]?).2 = .unfinished)
  | 0, g, ds, i, j, _, _, _, hij, hj => by
    refine ⟨fun p hp => ?_, Or.inr rfl⟩
    simp only [DLLArrange.loopRun, List.mem_singleton] at hp
    exact ⟨i, j, hij, hj, hp⟩
  | fuel + 1, g, ds, i, j, hr, hbrk, hint, hij, hj => by
    simp only [DLLArrange.loopRun]
    by_cases e : as[i]? = as[j]?
    · simp only [e, if_true, List.mem_singleton]
      exact ⟨fun p hp => ⟨j, j, le_refl _, hj, hp⟩, Or.inl ⟨g, rfl⟩⟩
    · obtain ⟨rn, hrn, _, hnx, _⟩ := repr_readNode hr (by omega : j < as.length)
      have e2 : as[i]? ≠ as[j + 1]? := fun e' => by
        have := repr_index_inj hr (by omega) hj e'
        omega
      obtain ⟨t1, o1⟩ : ∃ t1, t1 = DLLArrange.advanceLeftRun g mem piv as[j]? (g.brk + 1) as[i]? :=
        ⟨_, rfl⟩
      obtain ⟨a1, a2⟩ := advanceLeftRun_inv hr mem piv hj hint (g.brk + 1) i hij
      rw [← o1] at a1 a2
      rcases a2 with ⟨i', hi1, hi2, hi3⟩ | ⟨_, hf⟩
      swap
      · omega
      obtain ⟨t2, o2⟩ : ∃ t2, t2 = DLLArrange.retreatRightRun g mem piv as[i']? (g.brk + 1) as[j]? :=
        ⟨_, rfl⟩
      obtain ⟨b1, b2⟩ := retreatRightRun_inv (i := i') hr mem piv hint (g.brk + 1) j hi2 hj
      rw [← o2] at b1 b2
      rcases b2 with ⟨j', hj1, hj2, hj3⟩ | ⟨_, hf⟩
      swap
      · omega
      obtain ⟨g1, ds1, hswap, hr1, hperm, hother, hsi, hsj, _, _, _, hb1, _⟩ :=
        swap_repr hr hj1 (by omega : j' + 1 < as.length)
      have hint1 : ∀ k, k + 1 < as.length →
          ∃ v x, ds1[k]? = some v ∧ derefInt mem v = some x := by
        intro k hk
        by_cases hki : k = i'
        · rw [hki, hsi]
          exact hint j' (by omega)
        · by_cases hkj : k = j'
          · rw [hkj, hsj]
            exact hint i' (by omega)
          · rw [hother k hki hkj]
            exact hint k hk
      obtain ⟨c1, c2⟩ := loopRun_inv mem piv fuel hr1 (by omega) hint1 hj1
        (by omega : j' + 1 < as.length)
      simp only [e, if_false, hrn, Traced.andThen, hnx, e2, ← o1, hi3, ← o2, hj3, DLLSwapRun,
        hswap, List.nil_append, List.singleton_append, List.mem_cons, List.mem_append]
      refine ⟨?_, c2⟩
      rintro p (hp | hp | hp | hp)
      · exact ⟨i, j, hij, hj, hp⟩
      · obtain ⟨k, h1, h2, h3⟩ := a1 p hp
        exact ⟨k, j, h2, hj, h3⟩
      · obtain ⟨k, h1, h2, h3⟩ := b1 p hp
        exact ⟨i', k, h1, by omega, h3⟩
      · exact c1 p hp

theorem loopRun_null (mem : Nat → Option Int) (piv : Int) (h : Heap) (a : Nat) (fuel : Nat) :
    DLLArrange.loopRun mem piv (fuel + 1) h (some a) none = ([(some a, none)], .nullIter) := by
  simp [DLLArrange.loopRun, Traced.andThen, readNode]

/-! ## The claims -/

/-- Claim C1: in a well-formed list with value sequence `xs`, for the iterator
`it` at position `i ≤ |xs|` (position `|xs|` is the dummy), a `DLLInsertBefore`
whose allocation succeeds returns `it` itself, `DLLGetData(it)` is then the new
value, what `it` held before the call is then in `DLLNext(it)`, and the value
sequence read from `DLLBegin` to `DLLEnd` is `xs` with `v` inserted at index
`i`. -/
theorem insertBefore_contract (h : Heap) (l : Nat) (xs : List VoidPtr) (i : Nat) (it : Iter)
    (v : VoidPtr) (hv : h.Valid) (hwf : WellFormed h l) (hxs : values h l = some xs)
    (hi : i ≤ xs.length) (hit : iterAt h l i = some it) (hok : h.mallocOk h.brk = true) :
    ∃ h' old nx, DLLGetData h it = some old ∧
      DLLInsertBefore h it v = some (h', it) ∧
      DLLGetData h' it = some v ∧
      DLLNext h' it = some nx ∧ DLLGetData h' nx = some old ∧
      values h' l = some (xs.insertIdx i v) := by
  obtain ⟨pre, a, post, dpre, d, dpost, rfl, hr, hl1, hl2, rfl⟩ := wf_position hv hwf hxs hi hit
  have hlen : pre.length = dpre.length := by omega
  obtain ⟨h', hins, hv', hr', _⟩ := insertBefore_repr v hv hr hlen hok
  have hn := repr_node hr hlen
  have hn' := repr_node hr' hlen
  have hr'' : ListRep h' l ((pre ++ [a]) ++ h.brk :: post) ((dpre ++ [v]) ++ d :: dpost) := by
    simpa using hr'
  have hnn := repr_node hr'' (by simp [hlen])
  refine ⟨h', d, some h.brk, by simp [DLLGetData, hn], hins, by simp [DLLGetData, hn'],
    by simp [DLLNext, hn'], by simp [DLLGetData, hnn], ?_⟩
  rw [repr_values hv' hr', ← hl2]
  congr 1
  rw [List.dropLast_append_cons, List.dropLast_append_cons,
    List.dropLast_cons_of_ne_nil (List.cons_ne_nil _ _), insertIdx_length_append]

/-- The contract of C1 on the list 1, 2, 3, inserting 9 before the node that
holds 2. -/
theorem insertBefore_contract_witness :
    exHeap.Valid ∧ WellFormed exHeap 0 ∧
    values exHeap 0 = some [.user 1, .user 2, .user 3] ∧
    iterAt exHeap 0 1 = some (some 2) ∧ exHeap.mallocOk exHeap.brk = true ∧
    ∃ h' old nx, DLLGetData exHeap (some 2) = some old ∧
      DLLInsertBefore exHeap (some 2) (.user 9) = some (h', some 2) ∧
      DLLGetData h' (some 2) = some (.user 9) ∧
      DLLNext h' (some 2) = some nx ∧ DLLGetData h' nx = some old ∧
      values h' 0 = some ([VoidPtr.user 1, .user 2, .user 3].insertIdx 1 (.user 9)) :=
  ⟨exHeap_sound.1, exHeap_sound.2, rfl, rfl, rfl,
    insertBefore_contract exHeap 0 [.user 1, .user 2, .user 3] 1 (some 2) (.user 9)
      exHeap_sound.1 exHeap_sound.2 rfl (by decide) rfl rfl⟩

/-- Claim C2: in a well-formed list with value sequence `xs`, for the iterator
`it` at a real position `i < |xs|`, `DLLRemove(it)` returns `it` itself, the
value sequence becomes `xs` without its `i`-th element, `it` is still the
iterator at position `i`, and it holds `xs[i+1]` when there is one and is
`DLLEnd` of the list when the last element was removed. -/
theorem remove_contract (h : Heap) (l : Nat) (xs : List VoidPtr) (i : Nat) (it : Iter)
    (hv : h.Valid) (hwf : WellFormed h l) (hxs : values h l = some xs)
    (hi : i < xs.length) (hit : iterAt h l i = some it) :
    ∃ h', DLLRemove h it = some (h', it) ∧
      values h' l = some (xs.eraseIdx i) ∧
      iterAt h' l i = some it ∧
      (i + 1 < xs.length → DLLGetData h' it = xs[i + 1]?) ∧
      (i + 1 = xs.length → DLLEnd h' (some l) = some it) := by
  obtain ⟨pre, a, post, dpre, d, dpost, rfl, hr, hl1, hl2, rfl⟩ :=
    wf_position hv hwf hxs (Nat.le_of_lt hi) hit
  have hlen : pre.length = dpre.length := by omega
  have hlen2 := seg_length hr.seg
  cases dpost with
  | nil => simp [List.dropLast_append_cons] at hi; omega
  | cons dt dpost =>
    cases post with
    | nil => simp at hlen2; omega
    | cons tmp post =>
      obtain ⟨h', hrem, hv', hr', _⟩ := remove_repr hv hr hlen
      have hn' := repr_node hr' hlen
      have hxs' : (dpre ++ d :: dt :: dpost).dropLast = dpre ++ d :: (dt :: dpost).dropLast := by
        rw [List.dropLast_append_cons, List.dropLast_cons_of_ne_nil (List.cons_ne_nil _ _)]
      refine ⟨h', hrem, ?_, ?_, ?_, ?_⟩
      · rw [repr_values hv' hr', hxs', ← hl2, eraseIdx_length_append,
          List.dropLast_append_cons]
      · have hat : iterAt h' l pre.length = some (pre ++ a :: post)[pre.length]? :=
          repr_iterAt hr' (by simp)
        rw [← hl1, hat, List.getElem?_append_right (le_refl _)]
        simp
      · intro hlt
        rw [hxs'] at hlt ⊢
        cases dpost with
        | nil => simp at hlt; omega
        | cons e dpost =>
          rw [List.getElem?_append_right (by omega)]
          simp [DLLGetData, hn', hl2]
      · intro he
        rw [hxs'] at he
        cases dpost with
        | nil =>
          cases post with
          | cons _ _ => simp at hlen2; omega
          | nil =>
            have := hr'.header
            simp [DLLEnd, this, List.getLast?_append]
        | cons e dpost => simp at he; omega

/-- The contract of C2 on the list 1, 2, 3, removing the node that holds 2. -/
theorem remove_contract_witness :
    exHeap.Valid ∧ WellFormed exHeap 0 ∧
    values exHeap 0 = some [.user 1, .user 2, .user 3] ∧
    iterAt exHeap 0 1 = some (some 2) ∧
    ∃ h', DLLRemove exHeap (some 2) = some (h', some 2) ∧
      values h' 0 = some ([VoidPtr.user 1, .user 2, .user 3].eraseIdx 1) ∧
      iterAt h' 0 1 = some (some 2) ∧
      (1 + 1 < [VoidPtr.user 1, .user 2, .user 3].length →
        DLLGetData h' (some 2) = [VoidPtr.user 1, .user 2, .user 3][1 + 1]?) ∧
      (1 + 1 = [VoidPtr.user 1, .user 2, .user 3].length →
        DLLEnd h' (some 0) = some (some 2)) :=
  ⟨exHeap_sound.1, exHeap_sound.2, rfl, rfl,
    remove_contract exHeap 0 [.user 1, .user 2, .user 3] 1 (some 2)
      exHeap_sound.1 exHeap_sound.2 rfl (by decide) rfl⟩

/-- Claim C3: when no allocation fails, creating a list and pushing the values
`vs` in order with `DLLPushBack` gives a list whose walk from `DLLBegin` to
`DLLEnd` with `DLLNext` and `DLLGetData` reads exactly `vs`; and on any
well-formed list with value sequence `xs`, a `DLLPushBack` of `v` whose
allocation succeeds gives the value sequence `xs ++ [v]`. -/
theorem pushBack_roundtrip (h0 : Heap) (vs : List VoidPtr)
    (g : Heap) (m : Nat) (xs : List VoidPtr) (v : VoidPtr)
    (hv : h0.Valid) (hok : ∀ k, k < vs.length + 2 → h0.mallocOk (h0.brk + k) = true)
    (hg : g.Valid) (hwf : WellFormed g m) (hxs : values g m = some xs)
    (hgok : g.mallocOk g.brk = true) :
    (∃ h l h', DLLCreate h0 = some (h, some l) ∧ pushBackAll h l vs = some h' ∧
      values h' l = some vs) ∧
    (∃ g' r, DLLPushBack g (some m) v = some (g', r) ∧ values g' m = some (xs ++ [v])) := by
  constructor
  · obtain ⟨h, hc⟩ := create_ok (by simpa using hok 0 (by omega)) (hok 1 (by omega))
    obtain ⟨hv1, hr1, _, hb, hm, _⟩ := create_repr hv hc
    obtain ⟨h', as', hp, hv', hr'⟩ := pushBackAll_repr vs hv1
      (show ListRep h h0.brk [h0.brk + 1] ([] ++ [VoidPtr.tailField h0.brk]) from hr1)
      (by
        intro k hk
        rw [hm, hb, Nat.add_assoc, Nat.add_comm 2 k]
        exact hok (k + 2) (by omega))
    exact ⟨h, h0.brk, h', hc, hp, by rw [repr_values hv' hr']; simp⟩
  · obtain ⟨as, hr⟩ := wf_values hg hwf hxs
    obtain ⟨g', r, hp, _, hv', hr', _⟩ := pushBack_repr v hg hr hgok
    exact ⟨g', r, hp, by rw [repr_values hv' hr']; simp⟩

/-- The round trip of C3 for the values 1, 2, 3 in the empty heap, and a push
of 4 on the list 1, 2, 3. -/
theorem pushBack_roundtrip_witness :
    emptyHeap.Valid ∧
    (∀ k, k < [VoidPtr.user 1, .user 2, .user 3].length + 2 →
      emptyHeap.mallocOk (emptyHeap.brk + k) = true) ∧
    exHeap.Valid ∧ WellFormed exHeap 0 ∧
    values exHeap 0 = some [.user 1, .user 2, .user 3] ∧
    exHeap.mallocOk exHeap.brk = true ∧
    (∃ h l h', DLLCreate emptyHeap = some (h, some l) ∧
      pushBackAll h l [.user 1, .user 2, .user 3] = some h' ∧
      values h' l = some [.user 1, .user 2, .user 3]) ∧
    (∃ g' r, DLLPushBack exHeap (some 0) (.user 4) = some (g', r) ∧
      values g' 0 = some ([VoidPtr.user 1, .user 2, .user 3] ++ [.user 4])) :=
  have hok : ∀ k, k < [VoidPtr.user 1, .user 2, .user 3].length + 2 →
      emptyHeap.mallocOk (emptyHeap.brk + k) = true := fun k hk => by
    have hk5 : k < 5 := hk
    interval_cases k <;> rfl
  ⟨emptyHeap_valid, hok, exHeap_sound.1, exHeap_sound.2, rfl, rfl,
    pushBack_roundtrip emptyHeap [.user 1, .user 2, .user 3] exHeap 0
      [.user 1, .user 2, .user 3] (.user 4) emptyHeap_valid hok
      exHeap_sound.1 exHeap_sound.2 rfl rfl⟩

/-- Claim C4: on a well-formed list whose value sequence is `xs ++ [v]`,
`DLLPopBack` returns `v` and leaves the list, still well formed, with the value
sequence `xs`. -/
theorem popBack_contract (h : Heap) (l : Nat) (xs : List VoidPtr) (v : VoidPtr)
    (hv : h.Valid) (hwf : WellFormed h l) (hxs : values h l = some (xs ++ [v])) :
    ∃ h', DLLPopBack h (some l) = some (h', v) ∧ values h' l = some xs ∧
      h'.Valid ∧ WellFormed h' l := by
  obtain ⟨as, hr⟩ := wf_values hv hwf hxs
  obtain ⟨h', as', hp, hv', hr', _⟩ := popBack_repr hv hr
  exact ⟨h', hp, by rw [repr_values hv' hr']; simp, hv', wellFormed_of_repr hr'⟩

/-- The contract of C4 on the list 1, 2, 3: the pop returns 3 and leaves 1, 2;
two pops in a row return 3, then 2, and leave 1. -/
theorem popBack_contract_witness :
    exHeap.Valid ∧ WellFormed exHeap 0 ∧
    values exHeap 0 = some ([.user 1, .user 2] ++ [.user 3]) ∧
    (∃ h', DLLPopBack exHeap (some 0) = some (h', .user 3) ∧
      values h' 0 = some [.user 1, .user 2] ∧ h'.Valid ∧ WellFormed h' 0) ∧
    ((DLLPopBack exHeap (some 0)).bind fun r =>
      (DLLPopBack r.1 (some 0)).bind fun r' =>
      (values r'.1 0).map fun ys => (r.2, r'.2, ys)) =
      some (.user 3, .user 2, [.user 1]) :=
  ⟨exHeap_sound.1, exHeap_sound.2, rfl,
    popBack_contract exHeap 0 [.user 1, .user 2] (.user 3) exHeap_sound.1 exHeap_sound.2 rfl,
    rfl⟩

/-- Claim C5: on a well-formed list whose value sequence is `v :: xs`,
`DLLPopFront` returns `v` and leaves the list, still well formed, with the value
sequence `xs`; `DLLBegin` of the list is the same node before and after the
call. -/
theorem popFront_contract (h : Heap) (l : Nat) (xs : List VoidPtr) (v : VoidPtr)
    (hv : h.Valid) (hwf : WellFormed h l) (hxs : values h l = some (v :: xs)) :
    ∃ h', DLLPopFront h (some l) = some (h', v) ∧ values h' l = some xs ∧
      DLLBegin h' (some l) = DLLBegin h (some l) ∧ h'.Valid ∧ WellFormed h' l := by
  obtain ⟨as, hr⟩ := wf_values hv hwf hxs
  obtain ⟨h', as', hp, hv', hr', _, _, hb⟩ := popFront_repr hv
      (show ListRep h l as (v :: (xs ++ [VoidPtr.tailField l])) from hr) (by simp)
  exact ⟨h', hp, by rw [repr_values hv' hr']; simp, hb, hv', wellFormed_of_repr hr'⟩

/-- The contract of C5 on the list 1, 2, 3: the pop returns 1 and leaves 2, 3. -/
theorem popFront_contract_witness :
    exHeap.Valid ∧ WellFormed exHeap 0 ∧
    values exHeap 0 = some (.user 1 :: [.user 2, .user 3]) ∧
    ∃ h', DLLPopFront exHeap (some 0) = some (h', .user 1) ∧
      values h' 0 = some [.user 2, .user 3] ∧
      DLLBegin h' (some 0) = DLLBegin exHeap (some 0) ∧ h'.Valid ∧ WellFormed h' 0 :=
  ⟨exHeap_sound.1, exHeap_sound.2, rfl,
    popFront_contract exHeap 0 [.user 2, .user 3] (.user 1) exHeap_sound.1 exHeap_sound.2 rfl⟩

/-- Claim C6: for every sequence of `DLLPushBack`, `DLLPushFront`, `DLLPopBack`
and `DLLPopFront` calls on a newly created list, with no pop issued on an empty
list and no allocation failure, every call returns and `DLLCount` afterwards is
the number of pushes minus the number of pops, which is the number of values
between `DLLBegin` and `DLLEnd`. -/
theorem count_after_ops (h0 : Heap) (ops : List Op)
    (hv : h0.Valid) (hp : popsOk 0 ops = true)
    (hok : ∀ k, k < pushes ops + 2 → h0.mallocOk (h0.brk + k) = true) :
    ∃ h l h' xs, DLLCreate h0 = some (h, some l) ∧ runOps h l ops = some h' ∧
      DLLCount h' (some l) = some (pushes ops - pops ops) ∧
      values h' l = some xs ∧ xs.length = pushes ops - pops ops := by
  obtain ⟨h, hc⟩ := create_ok (by simpa using hok 0 (by omega)) (hok 1 (by omega))
  obtain ⟨hv1, hr1, _, hb, hm, _⟩ := create_repr hv hc
  obtain ⟨h', as', xs', hrun, hv', hr', hcnt⟩ := runOps_repr ops hv1
    (show ListRep h h0.brk [h0.brk + 1] ([] ++ [VoidPtr.tailField h0.brk]) from hr1) hp
    (by
      intro k hk
      rw [hm, hb, Nat.add_assoc, Nat.add_comm 2 k]
      exact hok (k + 2) (by omega))
  have hlen := seg_length hr'.seg
  simp only [List.length_nil, Nat.zero_add] at hcnt
  refine ⟨h, h0.brk, h', xs', hc, hrun, ?_, by rw [repr_values hv' hr']; simp, by omega⟩
  rw [repr_count hv' hr', hlen]
  simp
  omega

/-- The count of C6 after push back 1, push front 2, pop back, push back 3 in
the empty heap. -/
theorem count_after_ops_witness :
    emptyHeap.Valid ∧
    popsOk 0 [.pushBack (.user 1), .pushFront (.user 2), .popBack, .pushBack (.user 3)] = true ∧
    (∀ k, k < pushes [.pushBack (.user 1), .pushFront (.user 2), .popBack,
      .pushBack (.user 3)] + 2 → emptyHeap.mallocOk (emptyHeap.brk + k) = true) ∧
    ∃ h l h' xs, DLLCreate emptyHeap = some (h, some l) ∧
      runOps h l [.pushBack (.user 1), .pushFront (.user 2), .popBack,
        .pushBack (.user 3)] = some h' ∧
      DLLCount h' (some l) =
        some (pushes [.pushBack (.user 1), .pushFront (.user 2), .popBack, .pushBack (.user 3)] -
          pops [.pushBack (.user 1), .pushFront (.user 2), .popBack, .pushBack (.user 3)]) ∧
      values h' l = some xs ∧
      xs.length =
        pushes [.pushBack (.user 1), .pushFront (.user 2), .popBack, .pushBack (.user 3)] -
          pops [.pushBack (.user 1), .pushFront (.user 2), .popBack, .pushBack (.user 3)] :=
  have hok : ∀ k, k < pushes [.pushBack (.user 1), .pushFront (.user 2), .popBack,
      .pushBack (.user 3)] + 2 → emptyHeap.mallocOk (emptyHeap.brk + k) = true := fun k hk => by
    have hk5 : k < 5 := hk
    interval_cases k <;> rfl
  ⟨emptyHeap_valid, rfl, hok,
    count_after_ops emptyHeap
      [.pushBack (.user 1), .pushFront (.user 2), .popBack, .pushBack (.user 3)]
      emptyHeap_valid rfl hok⟩

/-- Claim C7: on every well-formed list, well-formedness being the invariant
that creation, insertion, removal, push and pop maintain, `DLLIsEmpty`,
`DLLBegin`, `DLLEnd` and `DLLCount` return, and `DLLIsEmpty` is 1 iff `DLLBegin`
equals `DLLEnd` iff `DLLCount` is 0; `DLLIsEmpty` is 0 otherwise. -/
theorem isEmpty_iff_begin_end_iff_count (h : Heap) (l : Nat)
    (hv : h.Valid) (hwf : WellFormed h l) :
    ∃ e b t c, DLLIsEmpty h (some l) = some e ∧ DLLBegin h (some l) = some b ∧
      DLLEnd h (some l) = some t ∧ DLLCount h (some l) = some c ∧
      (e = 1 ↔ b = t) ∧ (b = t ↔ c = 0) ∧ (e ≠ 1 → e = 0) := by
  obtain ⟨as, ds, hr⟩ := repr_of_wellFormed hwf
  have hcnt := repr_count hv hr
  obtain ⟨ns, s, vs, rfl, rfl, hl, hseg, hs, hmem, hnd, hhd⟩ := repr_unfold hr
  refine ⟨if hdPtr ns (some s) = some s then 1 else 0, hdPtr ns (some s), some s, ns.length,
    by simp [DLLIsEmpty, DLLBegin, DLLEnd, hhd], by simp [DLLBegin, hhd], by simp [DLLEnd, hhd],
    by simpa using hcnt, ?_, ?_, ?_⟩
  · split_ifs with hc <;> simp [hc]
  · cases ns with
    | nil => simp
    | cons a ns =>
      simp only [hdPtr_cons, Option.some.injEq, List.length_cons, Nat.succ_ne_zero, iff_false]
      intro e
      exact hmem (by simp [e])
  · split_ifs with hc <;> simp

/-- The equivalences of C7 on the newly created list, which is empty. -/
theorem isEmpty_iff_begin_end_iff_count_witness :
    createdHeap.Valid ∧ WellFormed createdHeap 0 ∧
    ∃ e b t c, DLLIsEmpty createdHeap (some 0) = some e ∧
      DLLBegin createdHeap (some 0) = some b ∧
      DLLEnd createdHeap (some 0) = some t ∧ DLLCount createdHeap (some 0) = some c ∧
      (e = 1 ↔ b = t) ∧ (b = t ↔ c = 0) ∧ (e ≠ 1 → e = 0) :=
  ⟨createdHeap_valid, createdHeap_wf,
    isEmpty_iff_begin_end_iff_count createdHeap 0 createdHeap_valid createdHeap_wf⟩

/-- Claim C8: well-formedness, as the specification words it, is an invariant:
a successful `DLLCreate` returns a well-formed list, and on a well-formed list
every `DLLInsertBefore`, `DLLInsertAfter`, `DLLPushBack`, `DLLPushFront` whose
allocation succeeds and every `DLLRemove`, `DLLPopBack`, `DLLPopFront`, called
within its precondition, returns and leaves the list well formed. -/
theorem wellFormed_invariant (h0 h1 : Heap) (l1 : Nat) (h : Heap) (l : Nat) (c : Call)
    (hv0 : h0.Valid) (hc : DLLCreate h0 = some (h1, some l1))
    (hv : h.Valid) (hwf : WellFormed h l) (hpre : c.pre h l) :
    (h1.Valid ∧ WellFormed h1 l1) ∧
      ∃ h', c.run h l = some h' ∧ h'.Valid ∧ WellFormed h' l := by
  refine ⟨?_, ?_⟩
  · obtain ⟨hv1, hr1, _⟩ := create_repr hv0 hc
    exact ⟨hv1, wellFormed_of_repr hr1⟩
  · obtain ⟨as, ds, hr⟩ := repr_of_wellFormed hwf
    cases c with
    | insertBefore it v =>
      obtain ⟨hit, hok⟩ := hpre
      obtain ⟨pre, a, post, dpre, d, dpost, rfl, rfl, rfl, hl⟩ := isIter_position hr hit
      obtain ⟨h', hins, hv', hr', _⟩ := insertBefore_repr v hv hr hl hok
      exact ⟨h', by simp [Call.run, hins], hv', wellFormed_of_repr hr'⟩
    | insertAfter it v =>
      obtain ⟨hit, hok⟩ := hpre
      obtain ⟨pre, a, b, post, dpre, d, db, dpost, rfl, rfl, rfl, hl⟩ :=
        isRealIter_position hr hit
      obtain ⟨h', hins, hv', hr'⟩ := insertAfter_repr v hv hr hl hok
      exact ⟨h', by simp [Call.run, hins], hv', wellFormed_of_repr hr'⟩
    | pushBack v =>
      rw [repr_dummy_split hr] at hr
      obtain ⟨h', r, hp, _, hv', hr', _⟩ := pushBack_repr v hv hr hpre
      exact ⟨h', by simp [Call.run, hp], hv', wellFormed_of_repr hr'⟩
    | pushFront v =>
      obtain ⟨h', r, as', hp, _, hv', hr', _⟩ := pushFront_repr v hv hr hpre
      exact ⟨h', by simp [Call.run, hp], hv', wellFormed_of_repr hr'⟩
    | remove it =>
      obtain ⟨pre, a, b, post, dpre, d, db, dpost, rfl, rfl, rfl, hl⟩ :=
        isRealIter_position hr hpre
      obtain ⟨h', hrem, hv', hr', _⟩ := remove_repr hv hr hl
      exact ⟨h', by simp [Call.run, hrem], hv', wellFormed_of_repr hr'⟩
    | popBack =>
      obtain ⟨_, _, _, _, ys, w, rfl⟩ := nonempty_of_isEmpty_zero hr hpre
      obtain ⟨h', as', hp, hv', hr', _⟩ := popBack_repr hv hr
      exact ⟨h', by simp [Call.run, hp], hv', wellFormed_of_repr hr'⟩
    | popFront =>
      obtain ⟨v, xs, rfl, hne, _⟩ := nonempty_of_isEmpty_zero hr hpre
      obtain ⟨h', as', hp, hv', hr', _⟩ := popFront_repr hv hr hne
      exact ⟨h', by simp [Call.run, hp], hv', wellFormed_of_repr hr'⟩

/-- The invariant of C8 for the creation in the empty heap and for the removal
of the node that holds 2 from the list 1, 2, 3. -/
theorem wellFormed_invariant_witness :
    emptyHeap.Valid ∧ DLLCreate emptyHeap = some (createdHeap, some 0) ∧
    exHeap.Valid ∧ WellFormed exHeap 0 ∧ (Call.remove (some 2)).pre exHeap 0 ∧
    (createdHeap.Valid ∧ WellFormed createdHeap 0) ∧
      ∃ h', (Call.remove (some 2)).run exHeap 0 = some h' ∧ h'.Valid ∧ WellFormed h' 0 :=
  have hpre : (Call.remove (some 2)).pre exHeap 0 :=
    ⟨⟨by decide, 1, rfl⟩, by decide⟩
  ⟨emptyHeap_valid, rfl, exHeap_sound.1, exHeap_sound.2, hpre,
    wellFormed_invariant emptyHeap createdHeap 0 exHeap 0 (Call.remove (some 2))
      emptyHeap_valid rfl exHeap_sound.1 exHeap_sound.2 hpre⟩

/-- Claim C9: in a well-formed list with value sequence `xs`, for the range from
position `i` to position `j`, `i ≤ j ≤ |xs|`, and every comparison function,
`DLLFind` returns: either `to`, and then the comparison is non-zero on every
value of the range, or the node at a position `k` of the range on whose value
the comparison is 0, and then it is non-zero on the values of the range before
`k`.  It returns `to` whenever `from == to`. -/
theorem find_contract (h : Heap) (l : Nat) (xs : List VoidPtr) (i j : Nat) (frm to_ : Iter)
    (cmp : VoidPtr → Int) (hv : h.Valid) (hwf : WellFormed h l)
    (hxs : values h l = some xs) (hij : i ≤ j) (hj : j ≤ xs.length)
    (hfrm : iterAt h l i = some frm) (hto : iterAt h l j = some to_) :
    ∃ r, DLLFind h frm to_ cmp = some r ∧
      ((r = to_ ∧ ∀ (k : Nat) (d : VoidPtr), i ≤ k → k < j → xs[k]? = some d → cmp d ≠ 0) ∨
       (∃ (k : Nat) (d : VoidPtr), i ≤ k ∧ k < j ∧ iterAt h l k = some r ∧
          xs[k]? = some d ∧ cmp d = 0 ∧
          ∀ (k' : Nat) (d' : VoidPtr), i ≤ k' → k' < k → xs[k']? = some d' → cmp d' ≠ 0)) ∧
      (frm = to_ → r = to_) := by
  obtain ⟨as, ds, hr⟩ := repr_of_wellFormed hwf
  have hval := repr_values hv hr
  rw [hxs, Option.some.injEq] at hval
  have hlen := seg_length hr.seg
  have hds : ds ≠ [] := by
    intro e
    have := hr.dummy
    simp [e] at this
  have hxl : xs.length + 1 = ds.length := by
    rw [hval, List.length_dropLast]
    have := List.length_pos.2 hds
    omega
  have hja : j < as.length := by omega
  have hia : i < as.length := by omega
  have hfrm2 := repr_iterAt hr hia
  have hto2 := repr_iterAt hr hja
  rw [hfrm, Option.some.injEq] at hfrm2
  rw [hto, Option.some.injEq] at hto2
  obtain ⟨p, hseg, hhd, hne⟩ := repr_range hr hij hja
  have hbrk := (repr_length_lt hv hr).1
  have hfuel : ((as.drop i).take (j - i)).length < h.brk + 1 := by
    simp only [List.length_take, List.length_drop]
    omega
  obtain ⟨r, hfind, hcase⟩ := find_seg cmp (h.brk + 1) hseg hne hfuel
  rw [hhd, ← hfrm2, ← hto2] at hfind
  have hxk : ∀ k, k < j → xs[k]? = ds[k]? := by
    intro k hk
    rw [hval, dropLast_getElem? ds (by omega)]
  have hdef : DLLFind h frm to_ cmp = DLLFind.loop h to_ cmp (h.brk + 1) frm := by
    rw [hfrm2, hto2, List.getElem?_eq_getElem hia, List.getElem?_eq_getElem hja]
    rfl
  refine ⟨r, by rw [hdef, hfind], ?_, ?_⟩
  · rcases hcase with ⟨e, hall⟩ | ⟨k, a, d, h1, h2, h3, h4, h5⟩
    · refine Or.inl ⟨by rw [e, hto2], ?_⟩
      intro k d hik hkj hd
      refine hall (k - i) d ?_
      have hki : i + (k - i) = k := by omega
      rw [range_getElem? ds (by omega), hki, ← hxk k hkj, hd]
    · have hk : k < j - i := by
        have := (List.getElem?_eq_some.1 h3).1
        simp only [List.length_take, List.length_drop] at this
        omega
      rw [range_getElem? ds hk] at h3
      rw [range_getElem? as hk] at h1
      refine Or.inr ⟨i + k, d, by omega, by omega, ?_, by rw [hxk _ (by omega), h3], h4, ?_⟩
      · rw [repr_iterAt hr (by omega), h1, h2]
      · intro k' d' hik' hk' hd'
        refine h5 (k' - i) d' (by omega) ?_
        have hki : i + (k' - i) = k' := by omega
        rw [range_getElem? ds (by omega), hki, ← hxk k' (by omega), hd']
  · intro e
    rw [e] at hfind
    simp only [DLLFind.loop, if_true, Option.some.injEq] at hfind
    exact hfind.symm

/-- The contract of C9 on the whole list 1, 2, 3, searched for 2. -/
theorem find_contract_witness :
    exHeap.Valid ∧ WellFormed exHeap 0 ∧
    values exHeap 0 = some [.user 1, .user 2, .user 3] ∧
    iterAt exHeap 0 0 = some (some 1) ∧ iterAt exHeap 0 3 = some (some 4) ∧
    DLLFind exHeap (some 1) (some 4) isTwo = some (some 2) ∧
    ∃ r, DLLFind exHeap (some 1) (some 4) isTwo = some r ∧
      ((r = some 4 ∧ ∀ (k : Nat) (d : VoidPtr), 0 ≤ k → k < 3 →
          [VoidPtr.user 1, .user 2, .user 3][k]? = some d → isTwo d ≠ 0) ∨
       (∃ (k : Nat) (d : VoidPtr), 0 ≤ k ∧ k < 3 ∧ iterAt exHeap 0 k = some r ∧
          [VoidPtr.user 1, .user 2, .user 3][k]? = some d ∧ isTwo d = 0 ∧
          ∀ (k' : Nat) (d' : VoidPtr), 0 ≤ k' → k' < k →
            [VoidPtr.user 1, .user 2, .user 3][k']? = some d' → isTwo d' ≠ 0)) ∧
      (some 1 = some 4 → r = some 4) :=
  ⟨exHeap_sound.1, exHeap_sound.2, rfl, rfl, rfl, rfl,
    find_contract exHeap 0 [.user 1, .user 2, .user 3] 0 3 (some 1) (some 4) isTwo
      exHeap_sound.1 exHeap_sound.2 rfl (by decide) (by decide) rfl rfl⟩

/-- Claim C10, evaluated: on the well-formed list 2, 5, searched for 2 over
the whole list with an empty destination list, `DLLMultiFind` does not return
the count 1: after the last match the search gives `to`, the loop steps to
`to->next`, which is null, and `DLLFind` is called on a null iterator.  On the
list 2, 5, 2, 7, 2, whose last value matches, it returns 3. -/
theorem multiFind_fails_when_last_differs :
    searchHeap [.user 2, .user 5] = some (twoFiveHeap, some 4) ∧
    twoFiveHeap.Valid ∧ WellFormed twoFiveHeap 0 ∧ WellFormed twoFiveHeap 4 ∧
    values twoFiveHeap 0 = some [.user 2, .user 5] ∧
    values twoFiveHeap 4 = some [] ∧
    DLLBegin twoFiveHeap (some 0) = some (some 1) ∧
    DLLEnd twoFiveHeap (some 0) = some (some 3) ∧
    DLLFind twoFiveHeap (some 2) (some 3) isTwo = some (some 3) ∧
    DLLNext twoFiveHeap (some 3) = some none ∧
    DLLFind twoFiveHeap none (some 3) isTwo = none ∧
    DLLMultiFind twoFiveHeap (some 1) (some 3) isTwo (some 4) = none ∧
    (DLLMultiFind fiveHeap (some 1) (some 6) isTwo (some 7)).map (fun r => r.2) = some 3 :=
  ⟨rfl, twoFiveHeap_sound.1, twoFiveHeap_sound.2.1, twoFiveHeap_sound.2.2, rfl, rfl, rfl, rfl,
    rfl, rfl, rfl, rfl, rfl⟩

/-- Claim C11, counterexample: on the specification's own example, the list
2, 5, 2, 7, 2 searched for 2 over the whole list with an empty destination list
and no allocation failure, `DLLMultiFind` returns 3, and the three entries the
destination gains are the iterators of the matching nodes (the nodes 1, 3 and 5
of the source list), not three entries equal to 2. -/
theorem multiFind_appends_values_counterexample :
    fiveHeap.Valid ∧ WellFormed fiveHeap 0 ∧ WellFormed fiveHeap 7 ∧
    values fiveHeap 0 = some [.user 2, .user 5, .user 2, .user 7, .user 2] ∧
    values fiveHeap 7 = some [] ∧
    iterAt fiveHeap 0 0 = some (some 1) ∧ iterAt fiveHeap 0 5 = some (some 6) ∧
    (∀ k, fiveHeap.brk ≤ k → k < fiveHeap.brk + 3 → fiveHeap.mallocOk k = true) ∧
    (DLLMultiFind fiveHeap (some 1) (some 6) isTwo (some 7)).map (fun r => r.2) = some 3 ∧
    (DLLMultiFind fiveHeap (some 1) (some 6) isTwo (some 7)).bind (fun r => values r.1 7) =
      some [.node 1, .node 3, .node 5] ∧
    (DLLMultiFind fiveHeap (some 1) (some 6) isTwo (some 7)).bind (fun r => values r.1 7) ≠
      some ([] ++ [.user 2, .user 2, .user 2]) ∧
    (DLLGetData fiveHeap (some 1), DLLGetData fiveHeap (some 3), DLLGetData fiveHeap (some 5)) =
      (some (.user 2), some (.user 2), some (.user 2)) :=
  ⟨fiveHeap_sound.1, fiveHeap_sound.2.1, fiveHeap_sound.2.2, rfl, rfl, rfl, rfl,
    fun k h1 h2 => by
      have h3 : 9 ≤ k := h1
      have h4 : k < 12 := h2
      interval_cases k <;> rfl,
    rfl, rfl, by decide, rfl⟩

/-- Claim C11, amended: for different well-formed lists A (values `xs`) and
dest (values `ys`), a range from position `i` to position `j` of A that is empty
or whose last value matches, no allocation failure and at most `INT_MAX`
matches, `DLLMultiFind` returns the number of matching nodes of the range; A is
unchanged, and dest holds its previous values followed by one new entry per
matching node, in range order, each new entry being the iterator of the matching
node (`matchesIn`), through which `DLLGetData` reads the matched value. -/
theorem multiFind_appends_iterators (h : Heap) (la lb : Nat) (xs ys : List VoidPtr)
    (i j : Nat) (frm to_ : Iter) (cmp : VoidPtr → Int)
    (hv : h.Valid) (hwfA : WellFormed h la) (hwfB : WellFormed h lb) (hne : la ≠ lb)
    (hxs : values h la = some xs) (hys : values h lb = some ys)
    (hij : i ≤ j) (hj : j ≤ xs.length)
    (hfrm : iterAt h la i = some frm) (hto : iterAt h la j = some to_)
    (hlast : i = j ∨ ∃ d, xs[j - 1]? = some d ∧ cmp d = 0)
    (hok : ∀ k, k < (matchesIn h la cmp i (j - i)).length → h.mallocOk (h.brk + k) = true)
    (hint : ((matchesIn h la cmp i (j - i)).length : Int) ≤ INT_MAX) :
    ∃ h', DLLMultiFind h frm to_ cmp (some lb) =
        some (h', ((matchesIn h la cmp i (j - i)).length : Int)) ∧
      h'.Valid ∧ WellFormed h' la ∧ WellFormed h' lb ∧
      values h' la = some xs ∧
      values h' lb = some (ys ++ matchesIn h la cmp i (j - i)) ∧
      (matchesIn h la cmp i (j - i)).length =
        ((xs.drop i).take (j - i)).countP (fun d => cmp d = 0) ∧
      ∀ e ∈ matchesIn h la cmp i (j - i), ∃ k a d, i ≤ k ∧ k < j ∧ e = .node a ∧
        iterAt h la k = some (some a) ∧ xs[k]? = some d ∧ cmp d = 0 ∧
        DLLGetData h' (some a) = some d := by
  obtain ⟨as, ds, bs, R, D, t, p, hr, hb, hxd, ht, hf, hseg, hnt, hdis, hlt, hRa, hRl, hm,
    hemp, hlst, hdef⟩ := multiFind_setup hv cmp hwfA hwfB hne hxs hys hij hj hfrm hto
  rw [hm] at hok hint
  rw [List.length_map] at hok hint
  have hlast' : R = [] ∨ ∃ d, D.getLast? = some d ∧ cmp d = 0 := by
    rcases hlast with e | ⟨d, hd, hc⟩
    · exact Or.inl (hemp e)
    · rcases Nat.eq_or_lt_of_le hij with e | hlt'
      · exact Or.inl (hemp e)
      · exact Or.inr ⟨d, by rw [hlst hlt', hd], hc⟩
  obtain ⟨h', bs', hrun, hv', hb', hmo, hbrk, hfn, hfl⟩ :=
    multiFind_all cmp (h.brk + 1) (0 : Int) hv hseg hnt hb (fun a ha => hdis a (hRa a ha))
      (fun a ha => hlt a (hRa a ha)) hRl (by omega) hok hlast' (by simpa using hint)
  have hra' : ListRep h' la as ds :=
    repr_frame hr (fun a ha => hfn a (hdis a ha) (hlt a ha)) (hfl la hne)
  have hlen := seg_length hr.seg
  have hal : as.length = xs.length + 1 := by
    have hds : ds ≠ [] := by
      intro e
      have := hr.dummy
      simp [e] at this
    have := List.length_pos.2 hds
    rw [hxd, List.length_dropLast]
    omega
  refine ⟨h', ?_, hv', wellFormed_of_repr hra', wellFormed_of_repr hb', ?_, ?_, ?_, ?_⟩
  · rw [hdef, hrun, hm, List.length_map, zero_add]
  · rw [repr_values hv' hra', hxd]
  · rw [repr_values hv' hb', hm, List.dropLast_concat]
  · rw [matchesIn_eq hr cmp (j - i) i (by omega), List.length_map,
      matching_length cmp _ _ (by
        simp only [List.length_take, List.length_drop]
        omega),
      hxd, range_dropLast ds (by omega)]
  · intro e he
    obtain ⟨k, a, d, hk1, hk2, hea, hit, hak, hdk, hc⟩ :=
      matchesIn_mem hr cmp (by omega) he
    have hka : k < as.length := by omega
    have hgd := repr_getData hra' hka
    rw [hak, hdk] at hgd
    refine ⟨k, a, d, hk1, by omega, hea, hit, ?_, hc, hgd⟩
    rw [hxd, List.getElem?_dropLast, if_pos (by omega), hdk]

/-- The amended C11 on the specification's example: 2, 5, 2, 7, 2 searched for
2 into an empty list. -/
theorem multiFind_appends_iterators_witness :
    fiveHeap.Valid ∧ WellFormed fiveHeap 0 ∧ WellFormed fiveHeap 7 ∧
    values fiveHeap 0 = some [.user 2, .user 5, .user 2, .user 7, .user 2] ∧
    values fiveHeap 7 = some [] ∧
    matchesIn fiveHeap 0 isTwo 0 (5 - 0) = [.node 1, .node 3, .node 5] ∧
    ∃ h', DLLMultiFind fiveHeap (some 1) (some 6) isTwo (some 7) =
        some (h', ((matchesIn fiveHeap 0 isTwo 0 (5 - 0)).length : Int)) ∧
      h'.Valid ∧ WellFormed h' 0 ∧ WellFormed h' 7 ∧
      values h' 0 = some [.user 2, .user 5, .user 2, .user 7, .user 2] ∧
      values h' 7 = some ([] ++ matchesIn fiveHeap 0 isTwo 0 (5 - 0)) ∧
      (matchesIn fiveHeap 0 isTwo 0 (5 - 0)).length =
        (([VoidPtr.user 2, .user 5, .user 2, .user 7, .user 2].drop 0).take (5 - 0)).countP
          (fun d => isTwo d = 0) ∧
      ∀ e ∈ matchesIn fiveHeap 0 isTwo 0 (5 - 0), ∃ k a d, 0 ≤ k ∧ k < 5 ∧ e = .node a ∧
        iterAt fiveHeap 0 k = some (some a) ∧
        [VoidPtr.user 2, .user 5, .user 2, .user 7, .user 2][k]? = some d ∧ isTwo d = 0 ∧
        DLLGetData h' (some a) = some d :=
  ⟨fiveHeap_sound.1, fiveHeap_sound.2.1, fiveHeap_sound.2.2, rfl, rfl, rfl,
    multiFind_appends_iterators fiveHeap 0 7 [.user 2, .user 5, .user 2, .user 7, .user 2] []
      0 5 (some 1) (some 6) isTwo fiveHeap_sound.1 fiveHeap_sound.2.1 fiveHeap_sound.2.2
      (by decide) rfl rfl (by decide) (by decide) rfl rfl
      (Or.inr ⟨.user 2, rfl, rfl⟩)
      (fun k hk => by
        have h3 : k < 3 := hk
        interval_cases k <;> rfl)
      (by decide)⟩

/-- Claim C12, counterexample: with A = 1, 2, 3, 4 and B = 10, 20, `b` the node
of 2, `c` the node of 4 and `d` the node of 20, `DLLSplice(d, b, c)` leaves
A = 1, 4 and B = 10, 2, 3, 20 with counts 2 and 4: the element at `c` is not
moved and the values are placed before the element of `d`, where the claim has
A = 1, B = 10, 20, 2, 3, 4 and counts 1 and 5. -/
theorem splice_inclusive_counterexample :
    pairHeap.Valid ∧ WellFormed pairHeap 0 ∧ WellFormed pairHeap 6 ∧
    values pairHeap 0 = some [.user 1, .user 2, .user 3, .user 4] ∧
    values pairHeap 6 = some [.user 10, .user 20] ∧
    iterAt pairHeap 0 1 = some (some 2) ∧ iterAt pairHeap 0 3 = some (some 4) ∧
    iterAt pairHeap 6 1 = some (some 8) ∧
    (DLLSplice pairHeap (some 8) (some 2) (some 4)).bind (fun g => values g 0) =
      some [.user 1, .user 4] ∧
    (DLLSplice pairHeap (some 8) (some 2) (some 4)).bind (fun g => values g 0) ≠
      some [.user 1] ∧
    (DLLSplice pairHeap (some 8) (some 2) (some 4)).bind (fun g => values g 6) =
      some [.user 10, .user 2, .user 3, .user 20] ∧
    (DLLSplice pairHeap (some 8) (some 2) (some 4)).bind (fun g => values g 6) ≠
      some [.user 10, .user 20, .user 2, .user 3, .user 4] ∧
    (DLLSplice pairHeap (some 8) (some 2) (some 4)).bind (fun g => DLLCount g (some 0)) =
      some 2 ∧
    (DLLSplice pairHeap (some 8) (some 2) (some 4)).bind (fun g => DLLCount g (some 6)) =
      some 4 :=
  ⟨pairHeap_sound.1, pairHeap_sound.2.1, pairHeap_sound.2.2, rfl, rfl, rfl, rfl, rfl, rfl,
    by decide, rfl, by decide, rfl, rfl⟩

/-- Claim C12, amended: for well-formed distinct lists A (values `xs`) and B
(values `ys`), `b` at position `i` strictly before `c` at position `j` of A
(`c` may be `DLLEnd`) and `d` at position `m` of B (`d` may be `DLLEnd`),
`DLLSplice(d, b, c)` returns, both lists stay well-formed, A loses exactly the
values of the half-open range from `b` up to, not including, `c`, and B receives
them, in order, before the element `d` held; `DLLCount(A)` decreases and
`DLLCount(B)` increases by `j - i`, and no node or list is allocated or freed. -/
theorem splice_moves_half_open (h : Heap) (la lb : Nat) (xs ys : List VoidPtr) (i j m : Nat)
    (b c d : Iter) (hv : h.Valid) (hwfA : WellFormed h la) (hwfB : WellFormed h lb)
    (hne : la ≠ lb) (hxs : values h la = some xs) (hys : values h lb = some ys)
    (hij : i < j) (hj : j ≤ xs.length) (hm : m ≤ ys.length)
    (hb : iterAt h la i = some b) (hc : iterAt h la j = some c)
    (hd : iterAt h lb m = some d) :
    ∃ h', DLLSplice h d b c = some h' ∧ h'.Valid ∧ WellFormed h' la ∧ WellFormed h' lb ∧
      values h' la = some (xs.take i ++ xs.drop j) ∧
      values h' lb = some (ys.take m ++ (xs.drop i).take (j - i) ++ ys.drop m) ∧
      DLLCount h (some la) = some xs.length ∧ DLLCount h (some lb) = some ys.length ∧
      DLLCount h' (some la) = some (xs.length - (j - i)) ∧
      DLLCount h' (some lb) = some (ys.length + (j - i)) ∧
      h'.brk = h.brk ∧
      (∀ a, (h'.nodes a).isSome = (h.nodes a).isSome) ∧
      (∀ k, (h'.lists k).isSome = (h.lists k).isSome) := by
  obtain ⟨h', PA, sf, M, st, RA, PB, d', RB, dPA, xsf, dM, xst, dRA, dPB, xd, dRB, hbs, hcs, hds,
    h1, h2, h3, h4, h5, h6, hx, hy, hA, hB, hrun, hv', hA', hB', hbrk, hmo, hfn, hfl, hvA, hvB⟩ :=
    splice_lists hv hwfA hwfB hne hxs hys hij hj hm hb hc hd
  have hlA := seg_length hA.seg
  have hlB := seg_length hB.seg
  have hxl : xs.length + 1 = (dPA ++ xsf :: (dM ++ xst :: dRA)).length := by
    rw [hx]
    simp only [List.length_append, List.length_cons, List.length_dropLast]
    omega
  have hyl : ys.length + 1 = (dPB ++ xd :: dRB).length := by
    rw [hy]
    simp only [List.length_append, List.length_cons, List.length_dropLast]
    omega
  simp only [List.length_append, List.length_cons] at hlA hlB hxl hyl
  refine ⟨h', hrun, hv', wellFormed_of_repr hA', wellFormed_of_repr hB', hvA, hvB, ?_, ?_, ?_, ?_,
    hbrk, ?_, ?_⟩
  · rw [repr_count hv hA]
    simp only [List.length_append, List.length_cons]
    congr 1
    omega
  · rw [repr_count hv hB]
    simp only [List.length_append, List.length_cons]
    congr 1
    omega
  · rw [repr_count hv' hA']
    simp only [List.length_append, List.length_cons]
    congr 1
    omega
  · rw [repr_count hv' hB']
    simp only [List.length_append, List.length_cons]
    congr 1
    omega
  · intro a
    by_cases haA : a ∈ PA ++ sf :: (M ++ st :: RA)
    · obtain ⟨n, hn⟩ := seg_alloc hA.seg a haA
      have ha' : a ∈ PA ++ sf :: RA ∨ a ∈ PB ++ d' :: (M ++ st :: RB) := by
        simp only [List.mem_append, List.mem_cons] at haA ⊢
        tauto
      rcases ha' with ha' | ha'
      · obtain ⟨n', hn'⟩ := seg_alloc hA'.seg a ha'
        rw [hn, hn']
        rfl
      · obtain ⟨n', hn'⟩ := seg_alloc hB'.seg a ha'
        rw [hn, hn']
        rfl
    · by_cases haB : a ∈ PB ++ d' :: RB
      · obtain ⟨n, hn⟩ := seg_alloc hB.seg a haB
        have ha' : a ∈ PB ++ d' :: (M ++ st :: RB) := by
          simp only [List.mem_append, List.mem_cons] at haB ⊢
          tauto
        obtain ⟨n', hn'⟩ := seg_alloc hB'.seg a ha'
        rw [hn, hn']
        rfl
      · rw [hfn a haA haB]
  · intro k
    by_cases hka : k = la
    · rw [hka, hA.header, hA'.header]
      rfl
    · by_cases hkb : k = lb
      · rw [hkb, hB.header, hB'.header]
        rfl
      · rw [hfl k hka hkb]

/-- The amended C12 on A = 1, 2, 3, 4 and B = 10, 20: the range from the node
of 2 up to the node of 4, spliced at the node of 20. -/
theorem splice_moves_half_open_witness :
    pairHeap.Valid ∧ WellFormed pairHeap 0 ∧ WellFormed pairHeap 6 ∧
    ∃ h', DLLSplice pairHeap (some 8) (some 2) (some 4) = some h' ∧ h'.Valid ∧
      WellFormed h' 0 ∧ WellFormed h' 6 ∧
      values h' 0 = some ([VoidPtr.user 1, .user 2, .user 3, .user 4].take 1 ++
        [VoidPtr.user 1, .user 2, .user 3, .user 4].drop 3) ∧
      values h' 6 = some ([VoidPtr.user 10, .user 20].take 1 ++
        ([VoidPtr.user 1, .user 2, .user 3, .user 4].drop 1).take (3 - 1) ++
        [VoidPtr.user 10, .user 20].drop 1) ∧
      DLLCount pairHeap (some 0) = some [VoidPtr.user 1, .user 2, .user 3, .user 4].length ∧
      DLLCount pairHeap (some 6) = some [VoidPtr.user 10, .user 20].length ∧
      DLLCount h' (some 0) =
        some ([VoidPtr.user 1, .user 2, .user 3, .user 4].length - (3 - 1)) ∧
      DLLCount h' (some 6) = some ([VoidPtr.user 10, .user 20].length + (3 - 1)) ∧
      h'.brk = pairHeap.brk ∧
      (∀ a, (h'.nodes a).isSome = (pairHeap.nodes a).isSome) ∧
      (∀ k, (h'.lists k).isSome = (pairHeap.lists k).isSome) :=
  ⟨pairHeap_sound.1, pairHeap_sound.2.1, pairHeap_sound.2.2,
    splice_moves_half_open pairHeap 0 6 [.user 1, .user 2, .user 3, .user 4]
      [.user 10, .user 20] 1 3 1 (some 2) (some 4) (some 8) pairHeap_sound.1 pairHeap_sound.2.1
      pairHeap_sound.2.2 (by decide) rfl rfl (by decide) (by decide) (by decide) rfl rfl rfl⟩

/-- Claim C13: for well-formed distinct lists A (values `xs`) and B (values
`ys`), `source_from` at position `i` strictly before `source_to` at position `j`
of A and `dest` at position `m` of B, `DLLSplice` returns and does not take
`source_to` along: the value `source_to` held is still in A, at position `i`, in
the node `source_from`; A has lost exactly the values at the positions `i` to
`j - 1`; these values are in B at the positions `m` to `m + (j - i) - 1`, in
their order, the first of them in the node `dest`, and the element `dest` held
follows them directly, at position `m + (j - i)`, in the node `source_to`. -/
theorem splice_half_open (h : Heap) (la lb : Nat) (xs ys : List VoidPtr) (i j m : Nat)
    (source_from source_to dest : Iter) (hv : h.Valid) (hwfA : WellFormed h la)
    (hwfB : WellFormed h lb) (hne : la ≠ lb) (hxs : values h la = some xs)
    (hys : values h lb = some ys) (hij : i < j) (hj : j ≤ xs.length) (hm : m ≤ ys.length)
    (hb : iterAt h la i = some source_from) (hc : iterAt h la j = some source_to)
    (hd : iterAt h lb m = some dest) :
    ∃ h' xs' ys', DLLSplice h dest source_from source_to = some h' ∧
      WellFormed h' la ∧ WellFormed h' lb ∧
      values h' la = some xs' ∧ values h' lb = some ys' ∧
      xs' = xs.take i ++ xs.drop j ∧
      ys' = ys.take m ++ (xs.drop i).take (j - i) ++ ys.drop m ∧
      xs'[i]? = xs[j]? ∧
      (∀ k, k < j - i → ys'[m + k]? = xs[i + k]?) ∧
      ys'[m + (j - i)]? = ys[m]? ∧
      iterAt h' la i = some source_from ∧
      DLLGetData h' source_from = DLLGetData h source_to ∧
      iterAt h' lb m = some dest ∧
      DLLGetData h' dest = DLLGetData h source_from ∧
      iterAt h' lb (m + (j - i)) = some source_to ∧
      DLLGetData h' source_to = DLLGetData h dest := by
  obtain ⟨h', PA, sf, M, st, RA, PB, d', RB, dPA, xsf, dM, xst, dRA, dPB, xd, dRB, hbs, hcs, hds,
    h1, h2, h3, h4, h5, h6, hx, hy, hA, hB, hrun, hv', hA', hB', hbrk, hmo, hfn, hfl, hvA, hvB⟩ :=
    splice_lists hv hwfA hwfB hne hxs hys hij hj hm hb hc hd
  have hti : (xs.take i).length = i := by rw [List.length_take]; omega
  have htm : (ys.take m).length = m := by rw [List.length_take]; omega
  have hrl : ((xs.drop i).take (j - i)).length = j - i := by
    rw [List.length_take, List.length_drop]; omega
  have nA := repr_node hA (by omega : PA.length = dPA.length)
  have nA' := repr_node hA' (by omega : PA.length = dPA.length)
  have nB := repr_node hB (by omega : PB.length = dPB.length)
  have nB' := repr_node hB' (by omega : PB.length = dPB.length)
  have nst := repr_node
    (show ListRep h la ((PA ++ sf :: M) ++ st :: RA) ((dPA ++ xsf :: dM) ++ xst :: dRA) by
      simpa using hA)
    (by simp only [List.length_append, List.length_cons]; omega)
  have nst' := repr_node
    (show ListRep h' lb ((PB ++ d' :: M) ++ st :: RB) ((dPB ++ xsf :: dM) ++ xd :: dRB) by
      simpa using hB')
    (by simp only [List.length_append, List.length_cons]; omega)
  refine ⟨h', _, _, hrun, wellFormed_of_repr hA', wellFormed_of_repr hB', hvA, hvB, rfl, rfl,
    ?_, ?_, ?_, ?_, ?_, ?_, ?_, ?_, ?_⟩
  · rw [List.getElem?_append_right (by omega), hti, Nat.sub_self, List.getElem?_drop]
    rfl
  · intro k hk
    rw [List.append_assoc, List.getElem?_append_right (by omega), htm, Nat.add_sub_cancel_left,
      List.getElem?_append_left (by omega), List.getElem?_take_of_lt hk, List.getElem?_drop]
  · rw [List.getElem?_append_right (by rw [List.length_append]; omega), List.length_append, htm,
      hrl, Nat.sub_self, List.getElem?_drop]
    rfl
  · rw [repr_iterAt hA' (by simp only [List.length_append, List.length_cons]; omega), hbs,
      List.getElem?_append_right (by omega), h1, Nat.sub_self, List.getElem?_cons_zero]
  · rw [hbs, hcs]
    simp [DLLGetData, nA', nst]
  · rw [repr_iterAt hB' (by simp only [List.length_append, List.length_cons]; omega), hds,
      List.getElem?_append_right (by omega), h5, Nat.sub_self, List.getElem?_cons_zero]
  · rw [hds, hbs]
    simp [DLLGetData, nB', nA]
  · have e : PB ++ d' :: (M ++ st :: RB) = (PB ++ d' :: M) ++ st :: RB := by simp
    rw [repr_iterAt hB' (by simp only [List.length_append, List.length_cons]; omega), hcs, e,
      List.getElem?_append_right (by simp only [List.length_append, List.length_cons]; omega)]
    have : m + (j - i) - (PB ++ d' :: M).length = 0 := by
      simp only [List.length_append, List.length_cons]; omega
    rw [this, List.getElem?_cons_zero]
  · rw [hcs, hds]
    simp [DLLGetData, nst', nB]

/-- The contract of C13 on A = 1, 2, 3, 4 and B = 10, 20: the range from the
node of 2 up to the node of 4, spliced at the node of 20. -/
theorem splice_half_open_witness :
    pairHeap.Valid ∧ WellFormed pairHeap 0 ∧ WellFormed pairHeap 6 ∧
    ∃ h' xs' ys', DLLSplice pairHeap (some 8) (some 2) (some 4) = some h' ∧
      WellFormed h' 0 ∧ WellFormed h' 6 ∧
      values h' 0 = some xs' ∧ values h' 6 = some ys' ∧
      xs' = [VoidPtr.user 1, .user 2, .user 3, .user 4].take 1 ++
        [VoidPtr.user 1, .user 2, .user 3, .user 4].drop 3 ∧
      ys' = [VoidPtr.user 10, .user 20].take 1 ++
        ([VoidPtr.user 1, .user 2, .user 3, .user 4].drop 1).take (3 - 1) ++
        [VoidPtr.user 10, .user 20].drop 1 ∧
      xs'[1]? = [VoidPtr.user 1, .user 2, .user 3, .user 4][3]? ∧
      (∀ k, k < 3 - 1 → ys'[1 + k]? = [VoidPtr.user 1, .user 2, .user 3, .user 4][1 + k]?) ∧
      ys'[1 + (3 - 1)]? = [VoidPtr.user 10, .user 20][1]? ∧
      iterAt h' 0 1 = some (some 2) ∧
      DLLGetData h' (some 2) = DLLGetData pairHeap (some 4) ∧
      iterAt h' 6 1 = some (some 8) ∧
      DLLGetData h' (some 8) = DLLGetData pairHeap (some 2) ∧
      iterAt h' 6 (1 + (3 - 1)) = some (some 4) ∧
      DLLGetData h' (some 4) = DLLGetData pairHeap (some 8) :=
  ⟨pairHeap_sound.1, pairHeap_sound.2.1, pairHeap_sound.2.2,
    splice_half_open pairHeap 0 6 [.user 1, .user 2, .user 3, .user 4]
      [.user 10, .user 20] 1 3 1 (some 2) (some 4) (some 8) pairHeap_sound.1 pairHeap_sound.2.1
      pairHeap_sound.2.2 (by decide) rfl rfl (by decide) (by decide) (by decide) rfl rfl rfl⟩

/-- Claim C14: for every well-formed list (values `xs`) and every pivot, when
`DLLArrange` returns (with some number `fuel` of turns of its outer loop), the
pivot was read as an integer `piv`, no `next`, `prev`, `head` or `tail` pointer
has changed and nothing was allocated (only data slots were exchanged), the list
is still well-formed, its value sequence is a permutation of `xs`, and in it no
integer greater than `piv` stands before an integer less than `piv`. -/
theorem arrange_contract (fuel : Nat) (h h' : Heap) (l : Nat) (mem : Nat → Option Int)
    (pivot : VoidPtr) (xs : List VoidPtr) (hv : h.Valid) (hwf : WellFormed h l)
    (hxs : values h l = some xs) (hres : DLLArrange fuel h (some l) mem pivot = some h') :
    ∃ xs' piv, derefInt mem pivot = some piv ∧ xs ≠ [] ∧
      h'.Valid ∧ WellFormed h' l ∧ values h' l = some xs' ∧ xs'.Perm xs ∧
      (∀ a, (h'.nodes a).map (fun n => (n.next, n.prev)) =
        (h.nodes a).map (fun n => (n.next, n.prev))) ∧
      h'.lists = h.lists ∧ h'.brk = h.brk ∧
      (∀ (k1 k2 : Nat) (v1 v2 : VoidPtr) (x1 x2 : Int), k1 < k2 →
        xs'[k1]? = some v1 → xs'[k2]? = some v2 →
        derefInt mem v1 = some x1 → derefInt mem v2 = some x2 → ¬ (x1 > piv ∧ x2 < piv)) := by
  obtain ⟨as, ds, hr⟩ := repr_of_wellFormed hwf
  have hval := repr_values hv hr
  rw [hxs, Option.some.injEq] at hval
  have hlen := seg_length hr.seg
  have hds : ds ≠ [] := by
    intro e
    have := hr.dummy
    simp [e] at this
  have hdl := List.length_pos.2 hds
  have hxl : xs.length + 1 = as.length := by
    rw [hval, List.length_dropLast]
    omega
  have hbegin : DLLBegin h (some l) = some as[0]? := by
    simp only [DLLBegin, hr.header, Option.map_some']
    cases as <;> simp
  have hend : DLLEnd h (some l) = some as[xs.length]? := by
    simp only [DLLEnd, hr.header, Option.map_some', List.getLast?_eq_getElem?]
    congr 2
    omega
  simp only [DLLArrange, hbegin, hend, Option.some_bind] at hres
  rw [List.getElem?_eq_getElem (by omega : xs.length < as.length)] at hres
  cases hp : derefInt mem pivot with
  | none =>
    cases hprev : DLLPrev h (some as[xs.length]) <;> simp [hp, hprev] at hres
  | some piv =>
    rcases Nat.eq_zero_or_pos xs.length with h0 | hpos
    · exfalso
      obtain ⟨_, hr2, hl2⟩ := repr_split_at hr (by omega : xs.length < as.length)
      have hn := repr_node hr2 hl2
      have e0 : as.take xs.length = [] := by rw [h0]; rfl
      rw [e0] at hn
      have hprev : DLLPrev h (some as[xs.length]) = some none := by
        simp [DLLPrev, hn]
      rw [hprev, Option.some_bind, hp, Option.some_bind,
        List.getElem?_eq_getElem (by omega : 0 < as.length), arrange_loop_null] at hres
      cases hres
    · obtain ⟨n, hn⟩ : ∃ n, xs.length = n + 1 := ⟨xs.length - 1, by omega⟩
      have hprev : DLLPrev h (some as[n + 1]) = some (some as[n]) :=
        repr_prev_at hr (by omega : n + 1 < as.length)
      simp only [hn] at hres
      rw [hprev, Option.some_bind, hp, Option.some_bind,
        ← List.getElem?_eq_getElem (by omega : n < as.length)] at hres
      obtain ⟨ds', m, hr', hperm, hlow, hhigh, hlinks, hfr, hl, hb, hm⟩ :=
        arrange_loop_spec mem piv fuel hr (Nat.zero_le n) (by omega)
          (fun k hk => by omega) (fun k hk1 hk2 => by omega) hres
      have hv' : h'.Valid := by
        refine ⟨fun a ha => ?_, fun a ha => ?_, fun a ha => ?_, fun a ha => ?_⟩
        · rw [hb] at ha
          rw [hfr a (fun hm' => by have := seg_lt_brk hv hr.seg a hm'; omega)]
          exact hv.nodes_brk a ha
        · rw [hb] at ha
          rw [hl]
          exact hv.lists_brk a ha
        · rw [hfr a (fun hm' => by have := seg_lt_size hv hr.seg a hm'; omega)]
          exact hv.nodes_size a ha
        · rw [hm]
          exact hv.ok_size a ha
      have hlen' := seg_length hr'.seg
      refine ⟨ds'.dropLast, piv, rfl, fun e => by rw [e] at hn; simp at hn, hv',
        wellFormed_of_repr hr', repr_values hv' hr', ?_, hlinks, hl, hb, ?_⟩
      · rw [hval]
        have e1 := repr_dummy_split hr'
        have e2 := repr_dummy_split hr
        rw [e1, e2] at hperm
        exact (List.perm_append_right_iff _).1 hperm
      · intro k1 k2 v1 v2 x1 x2 hk hv1 hv2 hx1 hx2 hcon
        have hk2 : k2 < ds'.length - 1 := by
          by_contra hge
          rw [List.getElem?_dropLast, if_neg hge] at hv2
          cases hv2
        rw [List.getElem?_dropLast, if_pos (by omega)] at hv1
        rw [List.getElem?_dropLast, if_pos hk2] at hv2
        by_cases hkm : k1 < m
        · obtain ⟨v, x, e1, e2, e3⟩ := hlow k1 hkm
          rw [hv1, Option.some.injEq] at e1
          subst e1
          rw [hx1, Option.some.injEq] at e2
          subst e2
          omega
        · obtain ⟨v, x, e1, e2, e3⟩ := hhigh k2 (by omega) (by omega)
          rw [hv2, Option.some.injEq] at e1
          subst e1
          rw [hx2, Option.some.injEq] at e2
          subst e2
          omega

/-- The contract of C14 on the list 8, 1, 9, 3, 5, 2 with pivot 5: the call
returns within 5 turns of the outer loop and leaves 2, 1, 3, 5, 9, 8. -/
theorem arrange_contract_witness :
    arrHeap.Valid ∧ WellFormed arrHeap 0 ∧
    values arrHeap 0 = some [.user 8, .user 1, .user 9, .user 3, .user 5, .user 2] ∧
    DLLArrange 5 arrHeap (some 0) intMem (.user 5) = some arrangedHeap ∧
    values arrangedHeap 0 = some [.user 2, .user 1, .user 3, .user 5, .user 9, .user 8] ∧
    ∃ xs' piv, derefInt intMem (.user 5) = some piv ∧
      [VoidPtr.user 8, .user 1, .user 9, .user 3, .user 5, .user 2] ≠ [] ∧
      arrangedHeap.Valid ∧ WellFormed arrangedHeap 0 ∧ values arrangedHeap 0 = some xs' ∧
      xs'.Perm [.user 8, .user 1, .user 9, .user 3, .user 5, .user 2] ∧
      (∀ a, (arrangedHeap.nodes a).map (fun n => (n.next, n.prev)) =
        (arrHeap.nodes a).map (fun n => (n.next, n.prev))) ∧
      arrangedHeap.lists = arrHeap.lists ∧ arrangedHeap.brk = arrHeap.brk ∧
      (∀ (k1 k2 : Nat) (v1 v2 : VoidPtr) (x1 x2 : Int), k1 < k2 →
        xs'[k1]? = some v1 → xs'[k2]? = some v2 →
        derefInt intMem v1 = some x1 → derefInt intMem v2 = some x2 →
        ¬ (x1 > piv ∧ x2 < piv)) :=
  ⟨arrHeap_sound.1, arrHeap_sound.2, rfl, rfl, rfl,
    arrange_contract 5 arrHeap arrangedHeap 0 intMem (.user 5)
      [.user 8, .user 1, .user 9, .user 3, .user 5, .user 2]
      arrHeap_sound.1 arrHeap_sound.2 rfl rfl⟩

/-- Claim C15, refuted by the code: on the well-formed list of the integers
5, 5 with the pivot 5, `DLLArrange` does not return, whatever the number of turns
allowed to its outer loop: `left` stays on the first node and `right` on the
second, neither inner loop moves (5 is neither less nor greater than the pivot),
`DLLSwap` exchanges the two equal values, and `left != right` holds for ever.
On the list 8, 1, 9, 3, 5, 2 with pivot 5 the call does return. -/
theorem arrange_loops_on_values_equal_to_pivot :
    fivesHeap.Valid ∧ WellFormed fivesHeap 0 ∧
    values fivesHeap 0 = some [.user 1, .user 2] ∧
    derefInt fiveMem (.user 1) = some 5 ∧ derefInt fiveMem (.user 2) = some 5 ∧
    derefInt fiveMem (.user 0) = some 5 ∧
    (∀ fuel, DLLArrange fuel fivesHeap (some 0) fiveMem (.user 0) = none) ∧
    DLLArrange 5 arrHeap (some 0) intMem (.user 5) = some arrangedHeap :=
  ⟨fivesHeap_sound.1, fivesHeap_sound.2, rfl, rfl, rfl, rfl,
    fives_arrange, rfl⟩

/-- Claim C16: over the range from position `i` to position `j` of a
well-formed list, `DLLForEach` returns, and the record of the calls of the
action shows that it is invoked on the nodes of the range in forward order,
starting with the first, that every call but the last gave the status 0, that a
result other than 0 is the status of the last call made, after which no node is
visited, and that the result is 0 iff the action was called on every node of the
range and gave 0 each time, as it does for `from == to`.  Recording the calls
changes neither the result nor the final state. -/
theorem forEach_contract {σ : Type} (h : Heap) (l : Nat) (xs : List VoidPtr) (i j : Nat)
    (frm to_ : Iter) (act : VoidPtr → σ → Int × σ) (s : σ)
    (hv : h.Valid) (hwf : WellFormed h l) (hxs : values h l = some xs) (hij : i ≤ j)
    (hj : j ≤ xs.length) (hfrm : iterAt h l i = some frm) (hto : iterAt h l j = some to_) :
    ∃ status s' log,
      DLLForEach h frm to_ (logged act) (s, []) = some (status, (s', log)) ∧
      DLLForEach h frm to_ act s = some (status, s') ∧
      log.length ≤ j - i ∧
      (∀ t, t < log.length → ∃ a, iterAt h l (i + t) = some (some a) ∧
        (log[t]?).map Prod.fst = some (.dataField a)) ∧
      (∀ t, t + 1 < log.length → (log[t]?).map Prod.snd = some 0) ∧
      (status ≠ 0 → (log.getLast?).map Prod.snd = some status) ∧
      (status = 0 ↔ log.length = j - i ∧ ∀ e ∈ log, e.2 = 0) ∧
      (frm = to_ → status = 0 ∧ log = []) := by
  obtain ⟨as, ds, hr, _, hal, _, rfl, rfl⟩ := wf_range hv hwf hxs hij hj hfrm hto
  obtain ⟨status, s', log, h1, h2, h3, h4, h5, h6, h7⟩ :=
    forEach_range hv hr hij (show j < as.length by omega) act s
  refine ⟨status, s', log, h1, h2, h3, ?_, h5, h6, h7, ?_⟩
  · intro t ht
    obtain ⟨a, ha, hlog⟩ := h4 t ht
    exact ⟨a, by rw [repr_iterAt hr (show i + t < as.length by omega), ha], hlog⟩
  · intro e
    rw [e] at h1
    simp only [DLLForEach] at h1
    cases hq : as[j]? with
    | none => simp [hq] at h1
    | some a =>
      simp only [hq, DLLForEach.loop, if_true, Option.some.injEq, Prod.mk.injEq] at h1
      exact ⟨h1.1.symm, h1.2.2.symm⟩

/-- The contract of C16 on the whole list 1, 2, 3 with an action that gives the
status 7 on the second node: two calls, the result 7. -/
theorem forEach_contract_witness :
    exHeap.Valid ∧ WellFormed exHeap 0 ∧
    values exHeap 0 = some [.user 1, .user 2, .user 3] ∧
    iterAt exHeap 0 0 = some (some 1) ∧ iterAt exHeap 0 3 = some (some 4) ∧
    DLLForEach exHeap (some 1) (some 4) (logged stopAtTwo) (0, []) =
      some (7, (2, [(.dataField 1, 0), (.dataField 2, 7)])) ∧
    ∃ status s' log,
      DLLForEach exHeap (some 1) (some 4) (logged stopAtTwo) (0, []) =
        some (status, (s', log)) ∧
      DLLForEach exHeap (some 1) (some 4) stopAtTwo 0 = some (status, s') ∧
      log.length ≤ 3 - 0 ∧
      (∀ t, t < log.length → ∃ a, iterAt exHeap 0 (0 + t) = some (some a) ∧
        (log[t]?).map Prod.fst = some (.dataField a)) ∧
      (∀ t, t + 1 < log.length → (log[t]?).map Prod.snd = some 0) ∧
      (status ≠ 0 → (log.getLast?).map Prod.snd = some status) ∧
      (status = 0 ↔ log.length = 3 - 0 ∧ ∀ e ∈ log, e.2 = 0) ∧
      ((some 1 : Iter) = some 4 → status = 0 ∧ log = []) :=
  ⟨exHeap_sound.1, exHeap_sound.2, rfl, rfl, rfl, rfl,
    forEach_contract exHeap 0 [.user 1, .user 2, .user 3] 0 3 (some 1) (some 4) stopAtTwo 0
      exHeap_sound.1 exHeap_sound.2 rfl (by decide) (by decide) rfl rfl⟩

/-- Claim C17, refuted by the code: on the list 1, 2, 3, `DLLGetData` returns
the payloads 1, 2, 3 and `DLLFind` hands them to its comparison function, so
that with `isTwo` it returns the node of 2; `DLLForEach` hands its action
`&from->data`, the addresses of the data slots of nodes 1, 2, 3, and none of
the stored values.  An action that tests its argument the way `isTwo` does,
`stopAtValueTwo`, is therefore never handed the payload 2: it is called three
times, gives 0 each time, and `DLLForEach` returns 0 instead of stopping at the
second node with the status 7. -/
theorem forEach_hands_slot_address_not_value :
    exHeap.Valid ∧ WellFormed exHeap 0 ∧
    values exHeap 0 = some [.user 1, .user 2, .user 3] ∧
    iterAt exHeap 0 0 = some (some 1) ∧ iterAt exHeap 0 1 = some (some 2) ∧
    iterAt exHeap 0 2 = some (some 3) ∧ DLLEnd exHeap (some 0) = some (some 4) ∧
    [DLLGetData exHeap (some 1), DLLGetData exHeap (some 2), DLLGetData exHeap (some 3)] =
      [some (.user 1), some (.user 2), some (.user 3)] ∧
    DLLFind exHeap (some 1) (some 4) isTwo = some (some 2) ∧
    (DLLForEach exHeap (some 1) (some 4) (logged Action) (0, [])).map
        (fun r => r.2.2.map Prod.fst) =
      some [.dataField 1, .dataField 2, .dataField 3] ∧
    ¬ ((DLLForEach exHeap (some 1) (some 4) (logged Action) (0, [])).map
        (fun r => r.2.2.map fun e => some e.1) =
      some [DLLGetData exHeap (some 1), DLLGetData exHeap (some 2),
        DLLGetData exHeap (some 3)]) ∧
    stopAtValueTwo (.user 2) 1 = (7, 2) ∧
    DLLForEach exHeap (some 1) (some 4) (logged stopAtValueTwo) (0, []) =
      some (0, (3, [(.dataField 1, 0), (.dataField 2, 0), (.dataField 3, 0)])) ∧
    DLLForEach exHeap (some 1) (some 4) stopAtValueTwo 0 = some (0, 3) :=
  ⟨exHeap_sound.1, exHeap_sound.2, rfl, rfl, rfl, rfl, rfl, rfl, rfl, rfl, by decide, rfl, rfl,
    rfl⟩

/-- Claim C18: on a well-formed list, a call of `DLLInsertBefore`,
`DLLInsertAfter`, `DLLPushBack` or `DLLPushFront` within its precondition
returns; when its allocation fails, it returns the end iterator of the list
and no node field and no list field changes; when the allocation succeeds, the
iterator it returns is not `DLLEnd` of the list read after the call.  So the
returned iterator equals `DLLEnd`, read after the call, iff the allocation
failed. -/
theorem insert_failure_signal (h : Heap) (l : Nat) (c : Call)
    (hv : h.Valid) (hwf : WellFormed h l) (hpre : c.insertPre h l) :
    ∃ h' r, c.insert h l = some (h', r) ∧
      (h.mallocOk h.brk = false →
        DLLEnd h (some l) = some r ∧ h'.nodes = h.nodes ∧ h'.lists = h.lists) ∧
      (h.mallocOk h.brk = true → DLLEnd h' (some l) ≠ some r) ∧
      (DLLEnd h' (some l) = some r ↔ h.mallocOk h.brk = false) := by
  obtain ⟨as, ds, hr⟩ := repr_of_wellFormed hwf
  have key : ∀ (pre post : List Nat) (it : Nat) (dpre dpost : List VoidPtr) (d v : VoidPtr),
      ListRep h l (pre ++ it :: post) (dpre ++ d :: dpost) → pre.length = dpre.length →
      ∃ h' r, DLLInsertBefore h (some it) v = some (h', r) ∧
        (h.mallocOk h.brk = false →
          DLLEnd h (some l) = some r ∧ h'.nodes = h.nodes ∧ h'.lists = h.lists) ∧
        (h.mallocOk h.brk = true → DLLEnd h' (some l) ≠ some r) ∧
        (DLLEnd h' (some l) = some r ↔ h.mallocOk h.brk = false) := by
    intro pre post it dpre dpost d v hr' hl
    cases hok : h.mallocOk h.brk with
    | false =>
      refine ⟨_, _, insertBefore_fail v hv hr' hl hok, fun _ => ⟨?_, rfl, rfl⟩, by simp, ?_⟩
      · simp [DLLEnd, hr'.header]
      · simp [DLLEnd, hr'.header]
    | true =>
      obtain ⟨h', hins, _, hr2, _⟩ := insertBefore_repr v hv hr' hl hok
      have hne := end_ne_of_later hr2
      exact ⟨h', some it, hins, by simp, fun _ => hne, by simp [hne]⟩
  cases c with
  | insertBefore it v =>
    obtain ⟨pre, a, post, dpre, d, dpost, rfl, rfl, rfl, hl⟩ := isIter_position hr hpre
    exact key pre post a dpre dpost d v hr hl
  | insertAfter it v =>
    obtain ⟨pre, a, b, post, dpre, d, db, dpost, rfl, rfl, rfl, hl⟩ :=
      isRealIter_position hr hpre
    have ha := repr_node hr hl
    have hr2 : ListRep h l ((pre ++ [a]) ++ b :: post) ((dpre ++ [d]) ++ db :: dpost) := by
      simpa using hr
    obtain ⟨h', r, hins, hrest⟩ := key (pre ++ [a]) post b (dpre ++ [d]) dpost db v hr2
      (by simp [hl])
    exact ⟨h', r, by simp [Call.insert, DLLInsertAfter, ha, hins], hrest⟩
  | pushBack v =>
    obtain ⟨ns, s, vs, rfl, rfl, hl, _, _, _, _, hhd⟩ := repr_unfold hr
    obtain ⟨h', r, hins, hrest⟩ := key ns [] s vs [] (.tailField l) v hr hl
    exact ⟨h', r, by simp [Call.insert, DLLPushBack, hhd, hins], hrest⟩
  | pushFront v =>
    have hlen := seg_length hr.seg
    cases as with
    | nil =>
      have hd := hr.dummy
      cases ds <;> simp at hlen hd
    | cons a post =>
      cases ds with
      | nil => simp at hlen
      | cons d dpost =>
        obtain ⟨h', r, hins, hrest⟩ := key [] post a [] dpost d v hr rfl
        have hhd := hr.header
        simp only [List.head?_cons] at hhd
        exact ⟨h', r, by simp [Call.insert, DLLPushFront, hhd, hins], hrest⟩
  | remove it => exact absurd hpre (by simp [Call.insertPre])
  | popBack => exact absurd hpre (by simp [Call.insertPre])
  | popFront => exact absurd hpre (by simp [Call.insertPre])

/-- The signal of C18 on the list 1, 2, 3 for an insertion before the node that
holds 2: in a heap where `malloc` fails the call returns the dummy, node 4, and
in the heap where it succeeds the call returns node 2. -/
theorem insert_failure_signal_witness :
    fullHeap.Valid ∧ WellFormed fullHeap 0 ∧
    (Call.insertBefore (some 2) (.user 9)).insertPre fullHeap 0 ∧
    fullHeap.mallocOk fullHeap.brk = false ∧
    (DLLInsertBefore fullHeap (some 2) (.user 9)).map (fun r => r.2) = some (some 4) ∧
    (DLLInsertBefore exHeap (some 2) (.user 9)).map (fun r => r.2) = some (some 2) ∧
    ∃ h' r, (Call.insertBefore (some 2) (.user 9)).insert fullHeap 0 = some (h', r) ∧
      (fullHeap.mallocOk fullHeap.brk = false →
        DLLEnd fullHeap (some 0) = some r ∧ h'.nodes = fullHeap.nodes ∧
          h'.lists = fullHeap.lists) ∧
      (fullHeap.mallocOk fullHeap.brk = true → DLLEnd h' (some 0) ≠ some r) ∧
      (DLLEnd h' (some 0) = some r ↔ fullHeap.mallocOk fullHeap.brk = false) :=
  have hpre : (Call.insertBefore (some 2) (.user 9)).insertPre fullHeap 0 :=
    ⟨by decide, 1, rfl⟩
  ⟨fullHeap_sound.1, fullHeap_sound.2, hpre, rfl, rfl, rfl,
    insert_failure_signal fullHeap 0 (Call.insertBefore (some 2) (.user 9))
      fullHeap_sound.1 fullHeap_sound.2 hpre⟩

/-- Claim C19: for different well-formed lists A and dest, when the call of
`malloc` for the match number `k + 1` of the range is the first to fail,
`DLLMultiFind` returns -1 and dest holds its previous values followed by the
`k` entries appended before the failure.  And whenever `DLLMultiFind`, called
with any iterators and any comparison function on a well-formed dest, returns a
negative value, that value is -1 and the last call of `malloc` it made, for a
`DLLPushBack` into dest, failed. -/
theorem multiFind_failure_signal (h : Heap) (la lb : Nat) (xs ys : List VoidPtr)
    (i j k : Nat) (frm to_ : Iter) (cmp : VoidPtr → Int)
    (g g' : Heap) (lg : Nat) (gfrm gto : Iter) (gcmp : VoidPtr → Int) (r : Int)
    (hv : h.Valid) (hwfA : WellFormed h la) (hwfB : WellFormed h lb) (hne : la ≠ lb)
    (hxs : values h la = some xs) (hys : values h lb = some ys)
    (hij : i ≤ j) (hj : j ≤ xs.length)
    (hfrm : iterAt h la i = some frm) (hto : iterAt h la j = some to_)
    (hk : k < (matchesIn h la cmp i (j - i)).length)
    (hfail : h.mallocOk (h.brk + k) = false)
    (hok : ∀ k', k' < k → h.mallocOk (h.brk + k') = true)
    (hint : (k : Int) ≤ INT_MAX)
    (hgv : g.Valid) (hgwf : WellFormed g lg) :
    (∃ h', DLLMultiFind h frm to_ cmp (some lb) = some (h', -1) ∧
      h'.Valid ∧ WellFormed h' la ∧ WellFormed h' lb ∧
      values h' la = some xs ∧
      values h' lb = some (ys ++ (matchesIn h la cmp i (j - i)).take k)) ∧
    (DLLMultiFind g gfrm gto gcmp (some lg) = some (g', r) → r < 0 →
      r = -1 ∧ ∃ n, g'.brk = g.brk + n + 1 ∧ g.mallocOk (g.brk + n) = false ∧
        ∀ n', n' < n → g.mallocOk (g.brk + n') = true) := by
  constructor
  · obtain ⟨as, ds, bs, R, D, t, p, hr, hb, hxd, ht, hf, hseg, hnt, hdis, hlt, hRa, hRl, hm,
      hemp, hlst, hdef⟩ := multiFind_setup hv cmp hwfA hwfB hne hxs hys hij hj hfrm hto
    rw [hm, List.length_map] at hk
    obtain ⟨h', bs', hrun, hv', hb', hfn, hfl⟩ :=
      multiFind_fail cmp (h.brk + 1) (0 : Int) k hv hseg hnt hb
        (fun a ha => hdis a (hRa a ha)) (fun a ha => hlt a (hRa a ha)) hRl (by omega)
        hk hfail hok (by simpa using hint)
    have hra' : ListRep h' la as ds :=
      repr_frame hr (fun a ha => hfn a (hdis a ha) (hlt a ha)) (hfl la hne)
    refine ⟨h', ?_, hv', wellFormed_of_repr hra', wellFormed_of_repr hb', ?_, ?_⟩
    · rw [hdef, hrun]
    · rw [repr_values hv' hra', hxd]
    · rw [repr_values hv' hb', hm, List.dropLast_concat, List.map_take]
  · intro hres hneg
    obtain ⟨bs, es, hb⟩ := repr_of_wellFormed hgwf
    cases gfrm with
    | none => simp [DLLMultiFind] at hres
    | some f =>
      cases gto with
      | none => simp [DLLMultiFind] at hres
      | some t =>
        simp only [DLLMultiFind] at hres
        rcases multiFind_negative (some t) gcmp (g.brk + 1) (some f) 0 r hgv hb (le_refl 0)
            hres with hpos | hr
        · omega
        · exact hr

/-- The contract of C19 on the list 2, 5, 2, 7, 2 searched for 2 when memory
is left for one node: the second append fails, the call returns -1 and the
destination keeps the first match. -/
theorem multiFind_failure_signal_witness :
    lowHeap.Valid ∧ WellFormed lowHeap 0 ∧ WellFormed lowHeap 7 ∧
    values lowHeap 0 = some [.user 2, .user 5, .user 2, .user 7, .user 2] ∧
    values lowHeap 7 = some [] ∧
    matchesIn lowHeap 0 isTwo 0 (5 - 0) = [.node 1, .node 3, .node 5] ∧
    lowHeap.mallocOk (lowHeap.brk + 1) = false ∧
    (DLLMultiFind lowHeap (some 1) (some 6) isTwo (some 7)).map (fun r => r.2) = some (-1) ∧
    (∃ h', DLLMultiFind lowHeap (some 1) (some 6) isTwo (some 7) = some (h', -1) ∧
      h'.Valid ∧ WellFormed h' 0 ∧ WellFormed h' 7 ∧
      values h' 0 = some [.user 2, .user 5, .user 2, .user 7, .user 2] ∧
      values h' 7 = some ([] ++ (matchesIn lowHeap 0 isTwo 0 (5 - 0)).take 1)) ∧
    (DLLMultiFind lowHeap (some 1) (some 6) isTwo (some 7) =
        some (match DLLMultiFind lowHeap (some 1) (some 6) isTwo (some 7) with
          | some r => r.1
          | none => emptyHeap, -1) →
      (-1 : Int) < 0 →
      (-1 : Int) = -1 ∧ ∃ n, (match DLLMultiFind lowHeap (some 1) (some 6) isTwo (some 7) with
          | some r => r.1
          | none => emptyHeap).brk = lowHeap.brk + n + 1 ∧
        lowHeap.mallocOk (lowHeap.brk + n) = false ∧
        ∀ n', n' < n → lowHeap.mallocOk (lowHeap.brk + n') = true) :=
  ⟨lowHeap_sound.1, lowHeap_sound.2.1, lowHeap_sound.2.2, rfl, rfl, rfl, rfl, rfl,
    multiFind_failure_signal lowHeap 0 7 [.user 2, .user 5, .user 2, .user 7, .user 2] []
      0 5 1 (some 1) (some 6) isTwo lowHeap
      (match DLLMultiFind lowHeap (some 1) (some 6) isTwo (some 7) with
        | some r => r.1
        | none => emptyHeap) 7 (some 1) (some 6) isTwo (-1)
      lowHeap_sound.1 lowHeap_sound.2.1 lowHeap_sound.2.2
      (by decide) rfl rfl (by decide) (by decide) rfl rfl (by decide) rfl
      (fun k hk => by
        have h1 : k < 1 := hk
        interval_cases k
        rfl)
      (by decide) lowHeap_sound.1 lowHeap_sound.2.2⟩

/-- Claim C20: for well-formed distinct lists A (values `xs`) and B (values
`ys`), `b` at position `i` at or before `c` at position `j` of A (a real node
when `b == c`) and `d` at position `m` of B, `DLLSplice(d, b, c)` returns when
`b` is strictly before `c` or `d` is a real node, and whenever it returns every
node outside the moved range keeps its identity, its value and its list: the
node at a position `k < i` of A is at position `k` of A, the node at a position
`k > j` of A (the dummy included) is at position `k - (j - i)` of A, the node at
a position `k < m` of B is at position `k` of B, and the node at a position
`k > m` of B (the dummy included) is at position `k + (j - i)` of B, each with
the value it held; both lists are still well-formed and no other list header
changes. -/
theorem splice_frame (h : Heap) (la lb : Nat) (xs ys : List VoidPtr) (i j m : Nat)
    (b c d : Iter) (hv : h.Valid) (hwfA : WellFormed h la) (hwfB : WellFormed h lb)
    (hne : la ≠ lb) (hxs : values h la = some xs) (hys : values h lb = some ys)
    (hij : i ≤ j) (hj : j ≤ xs.length) (hreal : i = j → j < xs.length) (hm : m ≤ ys.length)
    (hb : iterAt h la i = some b) (hc : iterAt h la j = some c)
    (hd : iterAt h lb m = some d) :
    (i < j ∨ m < ys.length → ∃ h', DLLSplice h d b c = some h') ∧
    ∀ h', DLLSplice h d b c = some h' → WellFormed h' la ∧ WellFormed h' lb ∧
      (∀ k, k < i → ∃ a v, iterAt h la k = some (some a) ∧ DLLGetData h (some a) = some v ∧
        iterAt h' la k = some (some a) ∧ DLLGetData h' (some a) = some v) ∧
      (∀ k, j < k → k ≤ xs.length → ∃ a v, iterAt h la k = some (some a) ∧
        DLLGetData h (some a) = some v ∧
        iterAt h' la (k - (j - i)) = some (some a) ∧ DLLGetData h' (some a) = some v) ∧
      (∀ k, k < m → ∃ a v, iterAt h lb k = some (some a) ∧ DLLGetData h (some a) = some v ∧
        iterAt h' lb k = some (some a) ∧ DLLGetData h' (some a) = some v) ∧
      (∀ k, m < k → k ≤ ys.length → ∃ a v, iterAt h lb k = some (some a) ∧
        DLLGetData h (some a) = some v ∧
        iterAt h' lb (k + (j - i)) = some (some a) ∧ DLLGetData h' (some a) = some v) ∧
      (∀ k, k ≠ la → k ≠ lb → h'.lists k = h.lists k) := by
  rcases Nat.eq_or_lt_of_le hij with heq | hlt
  · -- `b == c`: the values of `b` and `d` are exchanged
    subst heq
    have hi := hreal rfl
    obtain ⟨PA, s, TA, dPA, x, dTA, hbs, hA, h1, h2, hx⟩ :=
      wf_one_position hv hwfA hxs (by omega : i ≤ xs.length) hb
    obtain ⟨PB, d', TB, dPB, xd, dTB, hds, hB, h5, h6, hy⟩ := wf_one_position hv hwfB hys hm hd
    have hcs : c = some s := by
      rw [hb, Option.some.injEq] at hc
      rw [← hc, hbs]
    have hlA := seg_length hA.seg
    have hlB := seg_length hB.seg
    have hxl : xs.length = dPA.length + dTA.length := by
      rw [hx]
      simp only [List.length_append, List.length_cons, List.length_dropLast]
      omega
    have hyl : ys.length = dPB.length + dTB.length := by
      rw [hy]
      simp only [List.length_append, List.length_cons, List.length_dropLast]
      omega
    simp only [List.length_append, List.length_cons] at hlA hlB
    obtain ⟨z, RA, rfl⟩ : ∃ z RA, TA = z :: RA := by
      cases TA with
      | nil => simp at hlA; omega
      | cons z RA => exact ⟨z, RA, rfl⟩
    cases TB with
    | nil =>
      simp only [List.length_nil] at hlB
      have hdT : dTB = [] := List.length_eq_zero.1 (by omega)
      subst hdT
      have hnone := splice_same_end hA
        (show ListRep h lb (PB ++ [d']) (dPB ++ [xd]) from hB) hne
        (show PA.length = dPA.length by omega) (show PB.length = dPB.length by omega)
      rw [hds, hbs, hcs]
      refine ⟨fun hor => ?_, fun h' hres => by rw [hnone] at hres; cases hres⟩
      simp only [List.length_nil] at hyl
      omega
    | cons y RB =>
      obtain ⟨h0, hrun, hA', hB', hbrk, hmo, hfn, hfl⟩ :=
        splice_same hA hB hne (by omega) (by omega)
      rw [hds, hbs, hcs]
      refine ⟨fun _ => ⟨h0, hrun⟩, fun h' hres => ?_⟩
      rw [hrun, Option.some.injEq] at hres
      subst hres
      obtain ⟨fA1, fA2⟩ := reprs_frame
        (show ListRep h la (PA ++ ([s] ++ z :: RA)) (dPA ++ ([x] ++ dTA)) from hA)
        (show ListRep h0 la (PA ++ ([s] ++ z :: RA)) (dPA ++ ([xd] ++ dTA)) from hA')
        (by omega) rfl rfl
      obtain ⟨fB1, fB2⟩ := reprs_frame
        (show ListRep h lb (PB ++ ([d'] ++ y :: RB)) (dPB ++ ([xd] ++ dTB)) from hB)
        (show ListRep h0 lb (PB ++ ([d'] ++ y :: RB)) (dPB ++ ([x] ++ dTB)) from hB')
        (by omega) rfl rfl
      refine ⟨wellFormed_of_repr hA', wellFormed_of_repr hB', fun k hk => fA1 k (by omega), ?_,
        fun k hk => fB1 k (by omega), ?_, fun k _ _ => by rw [hfl]⟩
      · intro k hk1 hk2
        have := fA2 (k - i - 1) (by simp only [List.length_cons] at hlA ⊢; omega)
        have e : PA.length + [s].length + (k - i - 1) = k := by
          simp only [List.length_cons, List.length_nil]; omega
        rw [e] at this
        rw [Nat.sub_self, Nat.sub_zero]
        exact this
      · intro k hk1 hk2
        have := fB2 (k - m - 1) (by simp only [List.length_cons] at hlB ⊢; omega)
        have e : PB.length + [d'].length + (k - m - 1) = k := by
          simp only [List.length_cons, List.length_nil]; omega
        rw [e] at this
        rw [Nat.sub_self, Nat.add_zero]
        exact this
  · -- `b` strictly before `c`: the range moves to B
    obtain ⟨h0, PA, sf, M, st, RA, PB, d', RB, dPA, xsf, dM, xst, dRA, dPB, xd, dRB, hbs, hcs,
      hds, h1, h2, h3, h4, h5, h6, hx, hy, hA, hB, hrun, hv', hA', hB', hbrk, hmo, hfn, hfl, hvA,
      hvB⟩ := splice_lists hv hwfA hwfB hne hxs hys hlt hj hm hb hc hd
    refine ⟨fun _ => ⟨h0, hrun⟩, fun h' hres => ?_⟩
    rw [hrun, Option.some.injEq] at hres
    subst hres
    have hlA := seg_length hA.seg
    have hlB := seg_length hB.seg
    have hxl : xs.length + 1 = (dPA ++ xsf :: (dM ++ xst :: dRA)).length := by
      rw [hx]
      simp only [List.length_append, List.length_cons, List.length_dropLast]
      omega
    have hyl : ys.length + 1 = (dPB ++ xd :: dRB).length := by
      rw [hy]
      simp only [List.length_append, List.length_cons, List.length_dropLast]
      omega
    simp only [List.length_append, List.length_cons] at hlA hlB hxl hyl
    obtain ⟨fA1, fA2⟩ := reprs_frame
      (show ListRep h la (PA ++ ((sf :: (M ++ [st])) ++ RA))
        (dPA ++ ((xsf :: (dM ++ [xst])) ++ dRA)) by simpa using hA)
      (show ListRep h0 la (PA ++ ([sf] ++ RA)) (dPA ++ ([xst] ++ dRA)) from hA')
      (by omega) (by simp only [List.length_append, List.length_cons, List.length_nil]; omega)
      rfl
    obtain ⟨fB1, fB2⟩ := reprs_frame
      (show ListRep h lb (PB ++ ([d'] ++ RB)) (dPB ++ ([xd] ++ dRB)) from hB)
      (show ListRep h0 lb (PB ++ ((d' :: (M ++ [st])) ++ RB))
        (dPB ++ ((xsf :: (dM ++ [xd])) ++ dRB)) by simpa using hB')
      (by omega) rfl (by simp only [List.length_append, List.length_cons, List.length_nil]; omega)
    refine ⟨wellFormed_of_repr hA', wellFormed_of_repr hB', fun k hk => fA1 k (by omega), ?_,
      fun k hk => fB1 k (by omega), ?_, hfl⟩
    · intro k hk1 hk2
      have := fA2 (k - j - 1) (by omega)
      have e : PA.length + (sf :: (M ++ [st])).length + (k - j - 1) = k := by
        simp only [List.length_append, List.length_cons, List.length_nil]; omega
      have e' : PA.length + [sf].length + (k - j - 1) = k - (j - i) := by
        simp only [List.length_cons, List.length_nil]; omega
      rw [e, e'] at this
      exact this
    · intro k hk1 hk2
      have := fB2 (k - m - 1) (by omega)
      have e : PB.length + [d'].length + (k - m - 1) = k := by
        simp only [List.length_cons, List.length_nil]; omega
      have e' : PB.length + (d' :: (M ++ [st])).length + (k - m - 1) = k + (j - i) := by
        simp only [List.length_append, List.length_cons, List.length_nil]; omega
      rw [e, e'] at this
      exact this

/-- The contract of C20 on A = 1, 2, 3, 4 and B = 10, 20: the range from the
node of 2 up to the node of 3, spliced at the node of 20. -/
theorem splice_frame_witness :
    pairHeap.Valid ∧ WellFormed pairHeap 0 ∧ WellFormed pairHeap 6 ∧
    iterAt pairHeap 0 0 = some (some 1) ∧ iterAt pairHeap 0 3 = some (some 4) ∧
    iterAt pairHeap 6 0 = some (some 7) ∧ iterAt pairHeap 6 2 = some (some 9) ∧
    (1 < 2 ∨ 1 < [VoidPtr.user 10, .user 20].length →
      ∃ h', DLLSplice pairHeap (some 8) (some 2) (some 3) = some h') ∧
    ∀ h', DLLSplice pairHeap (some 8) (some 2) (some 3) = some h' → WellFormed h' 0 ∧
      WellFormed h' 6 ∧
      (∀ k, k < 1 → ∃ a v, iterAt pairHeap 0 k = some (some a) ∧
        DLLGetData pairHeap (some a) = some v ∧
        iterAt h' 0 k = some (some a) ∧ DLLGetData h' (some a) = some v) ∧
      (∀ k, 2 < k → k ≤ [VoidPtr.user 1, .user 2, .user 3, .user 4].length →
        ∃ a v, iterAt pairHeap 0 k = some (some a) ∧ DLLGetData pairHeap (some a) = some v ∧
        iterAt h' 0 (k - (2 - 1)) = some (some a) ∧ DLLGetData h' (some a) = some v) ∧
      (∀ k, k < 1 → ∃ a v, iterAt pairHeap 6 k = some (some a) ∧
        DLLGetData pairHeap (some a) = some v ∧
        iterAt h' 6 k = some (some a) ∧ DLLGetData h' (some a) = some v) ∧
      (∀ k, 1 < k → k ≤ [VoidPtr.user 10, .user 20].length →
        ∃ a v, iterAt pairHeap 6 k = some (some a) ∧ DLLGetData pairHeap (some a) = some v ∧
        iterAt h' 6 (k + (2 - 1)) = some (some a) ∧ DLLGetData h' (some a) = some v) ∧
      (∀ k, k ≠ 0 → k ≠ 6 → h'.lists k = pairHeap.lists k) :=
  ⟨pairHeap_sound.1, pairHeap_sound.2.1, pairHeap_sound.2.2, rfl, rfl, rfl, rfl,
    splice_frame pairHeap 0 6 [.user 1, .user 2, .user 3, .user 4]
      [.user 10, .user 20] 1 2 1 (some 2) (some 3) (some 8) pairHeap_sound.1 pairHeap_sound.2.1
      pairHeap_sound.2.2 (by decide) rfl rfl (by decide) (by decide) (by decide) (by decide)
      rfl rfl rfl⟩

/-- Claim C21: on every well-formed list with value sequence `xs`, a
`DLLPushBack` of `v` whose allocation succeeds followed by `DLLPopBack` returns
`v` and leaves `xs`, and likewise `DLLPushFront` followed by `DLLPopFront`; and
on every well-formed empty list, after the values `vs` are pushed in order with
`DLLPushBack`, `|vs|` calls of `DLLPopFront` return the values of `vs` in push
order and leave the list empty, and likewise after `DLLPushFront`, `|vs|` calls
of `DLLPopBack` return `vs` in push order. -/
theorem push_pop_order (h : Heap) (l : Nat) (xs : List VoidPtr) (v : VoidPtr)
    (g : Heap) (m : Nat) (vs : List VoidPtr)
    (hv : h.Valid) (hwf : WellFormed h l) (hxs : values h l = some xs)
    (hok : h.mallocOk h.brk = true)
    (hgv : g.Valid) (hgwf : WellFormed g m) (hgxs : values g m = some [])
    (hgok : ∀ k, k < vs.length → g.mallocOk (g.brk + k) = true) :
    (∃ h1 r h2, DLLPushBack h (some l) v = some (h1, r) ∧
      DLLPopBack h1 (some l) = some (h2, v) ∧ values h2 l = some xs ∧ WellFormed h2 l) ∧
    (∃ h1 r h2, DLLPushFront h (some l) v = some (h1, r) ∧
      DLLPopFront h1 (some l) = some (h2, v) ∧ values h2 l = some xs ∧ WellFormed h2 l) ∧
    (∃ g1 g2, pushBackAll g m vs = some g1 ∧ values g1 m = some vs ∧
      popFrontAll g1 m vs.length = some (g2, vs) ∧ values g2 m = some []) ∧
    (∃ g1 g2, pushFrontAll g m vs = some g1 ∧ values g1 m = some vs.reverse ∧
      popBackAll g1 m vs.length = some (g2, vs) ∧ values g2 m = some []) := by
  obtain ⟨as, hr⟩ := wf_values hv hwf hxs
  obtain ⟨bs, hg⟩ := wf_values hgv hgwf hgxs
  refine ⟨?_, ?_, ?_, ?_⟩
  · obtain ⟨h1, r, hp, _, hv1, hr1, _⟩ := pushBack_repr v hv hr hok
    obtain ⟨h2, as2, hq, hv2, hr2, _⟩ := popBack_repr hv1 hr1
    exact ⟨h1, r, h2, hp, hq, by rw [repr_values hv2 hr2]; simp, wellFormed_of_repr hr2⟩
  · obtain ⟨h1, r, as1, hp, _, hv1, hr1, _⟩ := pushFront_repr v hv hr hok
    obtain ⟨h2, as2, hq, hv2, hr2, _⟩ := popFront_repr hv1 hr1 (by simp)
    exact ⟨h1, r, h2, hp, hq, by rw [repr_values hv2 hr2]; simp, wellFormed_of_repr hr2⟩
  · obtain ⟨g1, as1, hp, hv1, hr1⟩ := pushBackAll_repr vs hgv hg hgok
    obtain ⟨g2, as2, hq, hv2, hr2⟩ := popFrontAll_repr vs hv1
      (show ListRep g1 m as1 (vs ++ [VoidPtr.tailField m]) by simpa using hr1) (by simp)
    exact ⟨g1, g2, hp, by rw [repr_values hv1 hr1]; simp, hq, by rw [repr_values hv2 hr2]; simp⟩
  · obtain ⟨g1, as1, hp, hv1, hr1⟩ := pushFrontAll_repr vs hgv hg hgok
    obtain ⟨g2, as2, hq, hv2, hr2⟩ := popBackAll_repr vs hv1
      (show ListRep g1 m as1 ([] ++ vs.reverse ++ [VoidPtr.tailField m]) by simpa using hr1)
    exact ⟨g1, g2, hp, by rw [repr_values hv1 hr1]; simp, hq, by rw [repr_values hv2 hr2]; simp⟩

/-- The contract of C21: a push and a pop on the list 1, 2, 3, and the values
7, 8, 9 pushed onto the newly created list and popped from the other side. -/
theorem push_pop_order_witness :
    exHeap.Valid ∧ WellFormed exHeap 0 ∧ values exHeap 0 = some [.user 1, .user 2, .user 3] ∧
    exHeap.mallocOk exHeap.brk = true ∧
    createdHeap.Valid ∧ WellFormed createdHeap 0 ∧ values createdHeap 0 = some [] ∧
    (∃ h1 r h2, DLLPushBack exHeap (some 0) (.user 4) = some (h1, r) ∧
      DLLPopBack h1 (some 0) = some (h2, .user 4) ∧
      values h2 0 = some [.user 1, .user 2, .user 3] ∧ WellFormed h2 0) ∧
    (∃ h1 r h2, DLLPushFront exHeap (some 0) (.user 4) = some (h1, r) ∧
      DLLPopFront h1 (some 0) = some (h2, .user 4) ∧
      values h2 0 = some [.user 1, .user 2, .user 3] ∧ WellFormed h2 0) ∧
    (∃ g1 g2, pushBackAll createdHeap 0 [.user 7, .user 8, .user 9] = some g1 ∧
      values g1 0 = some [.user 7, .user 8, .user 9] ∧
      popFrontAll g1 0 [VoidPtr.user 7, .user 8, .user 9].length =
        some (g2, [.user 7, .user 8, .user 9]) ∧
      values g2 0 = some []) ∧
    (∃ g1 g2, pushFrontAll createdHeap 0 [.user 7, .user 8, .user 9] = some g1 ∧
      values g1 0 = some [VoidPtr.user 7, .user 8, .user 9].reverse ∧
      popBackAll g1 0 [VoidPtr.user 7, .user 8, .user 9].length =
        some (g2, [.user 7, .user 8, .user 9]) ∧
      values g2 0 = some []) :=
  ⟨exHeap_sound.1, exHeap_sound.2, rfl, rfl, createdHeap_valid, createdHeap_wf, rfl,
    push_pop_order exHeap 0 [.user 1, .user 2, .user 3] (.user 4) createdHeap 0
      [.user 7, .user 8, .user 9] exHeap_sound.1 exHeap_sound.2 rfl rfl
      createdHeap_valid createdHeap_wf rfl
      (fun k hk => by
        have hk3 : k < 3 := hk
        interval_cases k <;> rfl)⟩

/-- Claim C22: on every well-formed list `l` with `e = DLLEnd(l)` read before
the call, a `DLLPushBack(l, v)` whose allocation succeeds is `DLLInsertBefore`
on `e`, returns `e`, leaves `v` in `e`, and `DLLEnd(l)` is afterwards
`DLLNext(e)`, the node just allocated, which is not `e`; and on every
well-formed list with value sequence `ys ++ [w]`, `DLLRemove` on the last real
node `it`, which is not `DLLEnd` before the call, returns `it` and makes
`DLLEnd` equal to `it`. -/
theorem sentinel_migrates (h : Heap) (l : Nat) (xs : List VoidPtr) (v : VoidPtr) (e : Iter)
    (g : Heap) (m : Nat) (ys : List VoidPtr) (w : VoidPtr) (it : Iter)
    (hv : h.Valid) (hwf : WellFormed h l) (hxs : values h l = some xs)
    (he : DLLEnd h (some l) = some e) (hok : h.mallocOk h.brk = true)
    (hgv : g.Valid) (hgwf : WellFormed g m) (hgxs : values g m = some (ys ++ [w]))
    (hit : iterAt g m ys.length = some it) :
    (∃ h' nx, DLLPushBack h (some l) v = some (h', e) ∧
      DLLInsertBefore h e v = some (h', e) ∧
      DLLGetData h' e = some v ∧ DLLNext h' e = some nx ∧
      nx = some h.brk ∧ h.nodes h.brk = none ∧ DLLGetData h' nx = some (.tailField l) ∧
      DLLEnd h' (some l) = some nx ∧ nx ≠ e ∧ values h' l = some (xs ++ [v])) ∧
    (∃ g', DLLRemove g it = some (g', it) ∧ DLLGetData g it = some w ∧
      DLLEnd g (some m) ≠ some it ∧ DLLEnd g' (some m) = some it ∧
      DLLGetData g' it = some (.tailField m) ∧ values g' m = some ys) := by
  constructor
  · obtain ⟨as, hr⟩ := wf_values hv hwf hxs
    obtain ⟨ns, s, vs, rfl, hds, hl, _, _, _, _, hhd⟩ := repr_unfold hr
    obtain rfl : xs = vs := List.append_inj_left' hds rfl
    have hes : e = some s := by
      simp only [DLLEnd, hhd, Option.map_some', Option.some.injEq] at he
      exact he.symm
    subst hes
    have hr0 : ListRep h l (ns ++ s :: []) (xs ++ VoidPtr.tailField l :: []) := hr
    obtain ⟨h', hins, hv', hr', hb, hm, _⟩ := insertBefore_repr v hv hr0 hl hok
    have hn := repr_node hr' hl
    have hr2 : ListRep h' l ((ns ++ [s]) ++ h.brk :: [])
        ((xs ++ [v]) ++ VoidPtr.tailField l :: []) := by
      simpa using hr'
    have hn2 := repr_node hr2 (by simp [hl])
    have hlt := seg_lt_brk hv hr.seg s (by simp)
    refine ⟨h', some h.brk, by simp [DLLPushBack, hhd, hins], hins, by simp [DLLGetData, hn],
      by simp [DLLNext, hn], rfl, hv.nodes_brk _ (le_refl _), by simp [DLLGetData, hn2], ?_, ?_, ?_⟩
    · simp [DLLEnd, hr'.header, List.getLast?_append]
    · intro e'
      rw [Option.some.injEq] at e'
      omega
    · rw [repr_values hv' hr2]
      simp
  · obtain ⟨pre, a, post, dpre, d, dpost, rfl, hr, hl1, hl2, hx⟩ :=
      wf_position hgv hgwf hgxs (by simp) hit
    have hlen := seg_length hr.seg
    simp only [List.length_append, List.length_cons] at hlen
    have hxl := congrArg List.length hx
    simp only [List.length_append, List.length_cons, List.length_nil, List.length_dropLast] at hxl
    obtain ⟨tmp, rfl⟩ : ∃ tmp, post = [tmp] := by
      cases post with
      | nil => simp at hlen; omega
      | cons t post =>
        cases post with
        | nil => exact ⟨t, rfl⟩
        | cons _ _ => simp at hlen; omega
    obtain ⟨dt, rfl⟩ : ∃ dt, dpost = [dt] := by
      cases dpost with
      | nil => simp at hlen; omega
      | cons t dpost =>
        cases dpost with
        | nil => exact ⟨t, rfl⟩
        | cons _ _ => simp at hlen; omega
    have hdt : dt = .tailField m := by
      have := hr.dummy
      have e : dpre ++ [d, dt] = (dpre ++ [d]) ++ [dt] := by simp
      rw [e, List.getLast?_concat] at this
      exact Option.some.inj this
    subst hdt
    have e1 : (dpre ++ [d, VoidPtr.tailField m]).dropLast = dpre ++ [d] := by
      have e : dpre ++ [d, VoidPtr.tailField m] = (dpre ++ [d]) ++ [VoidPtr.tailField m] := by
        simp
      rw [e, List.dropLast_concat]
    rw [e1] at hx
    have hyd : ys = dpre := List.append_inj_left' hx rfl
    have hwd : w = d := by
      have := List.append_inj_right' hx rfl
      simpa using this
    subst hyd hwd
    obtain ⟨g', hrem, hv', hr', _⟩ := remove_repr hgv hr (by omega)
    have hn := repr_node hr (by omega : pre.length = ys.length)
    have hn' := repr_node hr' (by omega : pre.length = ys.length)
    have hnd := nodup_mid hr.nodup
    refine ⟨g', hrem, by simp [DLLGetData, hn], ?_, ?_, by simp [DLLGetData, hn'], ?_⟩
    · simp only [DLLEnd, hr.header, Option.map_some', List.getLast?_append, ne_eq,
        Option.some.injEq]
      intro e'
      apply hnd.2.1
      simp at e'
      simp [e']
    · simp [DLLEnd, hr'.header, List.getLast?_append]
    · rw [repr_values hv' hr']
      simp

/-- The contract of C22 on the list 1, 2, 3: a push of 4, and the removal of
the node that holds 3. -/
theorem sentinel_migrates_witness :
    exHeap.Valid ∧ WellFormed exHeap 0 ∧
    values exHeap 0 = some ([.user 1, .user 2] ++ [.user 3]) ∧
    DLLEnd exHeap (some 0) = some (some 4) ∧ exHeap.mallocOk exHeap.brk = true ∧
    iterAt exHeap 0 [VoidPtr.user 1, .user 2].length = some (some 3) ∧
    (∃ h' nx, DLLPushBack exHeap (some 0) (.user 4) = some (h', some 4) ∧
      DLLInsertBefore exHeap (some 4) (.user 4) = some (h', some 4) ∧
      DLLGetData h' (some 4) = some (.user 4) ∧ DLLNext h' (some 4) = some nx ∧
      nx = some exHeap.brk ∧ exHeap.nodes exHeap.brk = none ∧
      DLLGetData h' nx = some (.tailField 0) ∧
      DLLEnd h' (some 0) = some nx ∧ nx ≠ some 4 ∧
      values h' 0 = some ([.user 1, .user 2] ++ [.user 3] ++ [.user 4])) ∧
    (∃ g', DLLRemove exHeap (some 3) = some (g', some 3) ∧
      DLLGetData exHeap (some 3) = some (.user 3) ∧
      DLLEnd exHeap (some 0) ≠ some (some 3) ∧ DLLEnd g' (some 0) = some (some 3) ∧
      DLLGetData g' (some 3) = some (.tailField 0) ∧
      values g' 0 = some [.user 1, .user 2]) :=
  ⟨exHeap_sound.1, exHeap_sound.2, rfl, rfl, rfl, rfl,
    sentinel_migrates exHeap 0 ([VoidPtr.user 1, .user 2] ++ [VoidPtr.user 3]) (.user 4) (some 4)
      exHeap 0 [.user 1, .user 2] (.user 3) (some 3)
      exHeap_sound.1 exHeap_sound.2 rfl rfl rfl exHeap_sound.1 exHeap_sound.2 rfl rfl⟩

/-- Claim C23: for well-formed distinct lists A (values `xs`) and B (values
`ys`), `source_from` at position `i` strictly before `source_to` at position
`j ≤ |xs|` of A (position `|xs|` is A's dummy) and `dest` at position
`m ≤ |ys|` of B (position `|ys|` is B's dummy), `DLLSplice` returns and both
lists are well-formed again: in each, the dummy is reached from the head by as
many `next` steps as the list has values, its `next` is null, `n.next.prev == n`
for every real node, `DLLEnd` is the list's own dummy, different from the
other list's, and the data slot of the dummy is the address of the `tail` field
of the list it ends.  The dummy of A is the node `source_from` when `source_to`
was A's dummy and is unchanged otherwise; the dummy of B is the node
`source_to` when `dest` was B's dummy and is unchanged otherwise. -/
theorem splice_wellFormed (h : Heap) (la lb : Nat) (xs ys : List VoidPtr) (i j m : Nat)
    (source_from source_to dest : Iter) (hv : h.Valid) (hwfA : WellFormed h la)
    (hwfB : WellFormed h lb) (hne : la ≠ lb) (hxs : values h la = some xs)
    (hys : values h lb = some ys) (hij : i < j) (hj : j ≤ xs.length) (hm : m ≤ ys.length)
    (hb : iterAt h la i = some source_from) (hc : iterAt h la j = some source_to)
    (hd : iterAt h lb m = some dest) :
    ∃ h' ta tb, DLLSplice h dest source_from source_to = some h' ∧ h'.Valid ∧
      WellFormed h' la ∧ WellFormed h' lb ∧
      DLLEnd h' (some la) = some (some ta) ∧ DLLEnd h' (some lb) = some (some tb) ∧ ta ≠ tb ∧
      iterAt h' la (xs.length - (j - i)) = some (some ta) ∧
      iterAt h' lb (ys.length + (j - i)) = some (some tb) ∧
      DLLNext h' (some ta) = some none ∧ DLLNext h' (some tb) = some none ∧
      DLLGetData h' (some ta) = some (.tailField la) ∧
      DLLGetData h' (some tb) = some (.tailField lb) ∧
      (j = xs.length → some ta = source_from) ∧
      (j < xs.length → DLLEnd h (some la) = some (some ta)) ∧
      (m = ys.length → some tb = source_to) ∧
      (m < ys.length → DLLEnd h (some lb) = some (some tb)) := by
  obtain ⟨h', PA, sf, M, st, RA, PB, d', RB, dPA, xsf, dM, xst, dRA, dPB, xd, dRB, hbs, hcs, hds,
    h1, h2, h3, h4, h5, h6, hx, hy, hA, hB, hrun, hv', hA', hB', hbrk, hmo, hfn, hfl, hvA, hvB⟩ :=
    splice_lists hv hwfA hwfB hne hxs hys hij hj hm hb hc hd
  have hlA := seg_length hA.seg
  have hlB := seg_length hB.seg
  have hxl : xs.length + 1 = (dPA ++ xsf :: (dM ++ xst :: dRA)).length := by
    rw [hx]
    simp only [List.length_append, List.length_cons, List.length_dropLast]
    omega
  have hyl : ys.length + 1 = (dPB ++ xd :: dRB).length := by
    rw [hy]
    simp only [List.length_append, List.length_cons, List.length_dropLast]
    omega
  simp only [List.length_append, List.length_cons] at hlA hlB hxl hyl
  obtain ⟨ta, hta, hea, hia, hna, hda⟩ := repr_end hA'
  obtain ⟨tb, htb, heb, hib, hnb, hdb⟩ := repr_end hB'
  obtain ⟨ta0, hta0, hea0, _⟩ := repr_end hA
  obtain ⟨tb0, htb0, heb0, _⟩ := repr_end hB
  have hla : (PA ++ sf :: RA).length - 1 = xs.length - (j - i) := by
    simp only [List.length_append, List.length_cons]; omega
  have hlb : (PB ++ d' :: (M ++ st :: RB)).length - 1 = ys.length + (j - i) := by
    simp only [List.length_append, List.length_cons]; omega
  rw [hla] at hia
  rw [hlb] at hib
  refine ⟨h', ta, tb, hrun, hv', wellFormed_of_repr hA', wellFormed_of_repr hB', hea, heb, ?_,
    hia, hib, hna, hnb, hda, hdb, ?_, ?_, ?_, ?_⟩
  · intro e
    exact repr_disjoint hA' hB' hne ta (List.mem_of_getLast?_eq_some hta)
      (e ▸ List.mem_of_getLast?_eq_some htb)
  · intro e
    have hRA : RA = [] := List.length_eq_zero.1 (by omega)
    subst hRA
    rw [List.getLast?_concat, Option.some.injEq] at hta
    rw [hbs, hta]
  · intro hlt
    obtain ⟨r, RA', rfl⟩ : ∃ r RA', RA = r :: RA' := by
      cases RA with
      | nil => simp at hlA; omega
      | cons r RA' => exact ⟨r, RA', rfl⟩
    have e1 : PA ++ sf :: (M ++ st :: r :: RA') = (PA ++ sf :: (M ++ [st])) ++ r :: RA' := by
      simp
    have e2 : PA ++ sf :: r :: RA' = (PA ++ [sf]) ++ r :: RA' := by simp
    rw [e1, List.getLast?_append_cons] at hta0
    rw [e2, List.getLast?_append_cons, hta0, Option.some.injEq] at hta
    rw [hea0, hta]
  · intro e
    have hRB : RB = [] := List.length_eq_zero.1 (by omega)
    subst hRB
    have e1 : PB ++ d' :: (M ++ [st]) = (PB ++ d' :: M) ++ [st] := by simp
    rw [e1, List.getLast?_concat, Option.some.injEq] at htb
    rw [hcs, htb]
  · intro hlt
    obtain ⟨r, RB', rfl⟩ : ∃ r RB', RB = r :: RB' := by
      cases RB with
      | nil => simp at hlB; omega
      | cons r RB' => exact ⟨r, RB', rfl⟩
    have e1 : PB ++ d' :: (M ++ st :: r :: RB') = (PB ++ d' :: (M ++ [st])) ++ r :: RB' := by
      simp
    have e2 : PB ++ d' :: r :: RB' = (PB ++ [d']) ++ r :: RB' := by simp
    rw [e2, List.getLast?_append_cons] at htb0
    rw [e1, List.getLast?_append_cons, htb0, Option.some.injEq] at htb
    rw [heb0, htb]

/-- The contract of C23 on A = 1, 2, 3, 4 and B = 10, 20, when both dummies
are touched: the range from the node of 3 up to `DLLEnd(A)`, spliced at
`DLLEnd(B)`. -/
theorem splice_wellFormed_witness :
    pairHeap.Valid ∧ WellFormed pairHeap 0 ∧ WellFormed pairHeap 6 ∧
    iterAt pairHeap 0 2 = some (some 3) ∧ DLLEnd pairHeap (some 0) = some (some 5) ∧
    DLLEnd pairHeap (some 6) = some (some 9) ∧
    (DLLSplice pairHeap (some 9) (some 3) (some 5)).bind (fun g => values g 0) =
      some [.user 1, .user 2] ∧
    (DLLSplice pairHeap (some 9) (some 3) (some 5)).bind (fun g => values g 6) =
      some [.user 10, .user 20, .user 3, .user 4] ∧
    ∃ h' ta tb, DLLSplice pairHeap (some 9) (some 3) (some 5) = some h' ∧ h'.Valid ∧
      WellFormed h' 0 ∧ WellFormed h' 6 ∧
      DLLEnd h' (some 0) = some (some ta) ∧ DLLEnd h' (some 6) = some (some tb) ∧ ta ≠ tb ∧
      iterAt h' 0 ([VoidPtr.user 1, .user 2, .user 3, .user 4].length - (4 - 2)) =
        some (some ta) ∧
      iterAt h' 6 ([VoidPtr.user 10, .user 20].length + (4 - 2)) = some (some tb) ∧
      DLLNext h' (some ta) = some none ∧ DLLNext h' (some tb) = some none ∧
      DLLGetData h' (some ta) = some (.tailField 0) ∧
      DLLGetData h' (some tb) = some (.tailField 6) ∧
      (4 = [VoidPtr.user 1, .user 2, .user 3, .user 4].length → some ta = some 3) ∧
      (4 < [VoidPtr.user 1, .user 2, .user 3, .user 4].length →
        DLLEnd pairHeap (some 0) = some (some ta)) ∧
      (2 = [VoidPtr.user 10, .user 20].length → some tb = some 5) ∧
      (2 < [VoidPtr.user 10, .user 20].length → DLLEnd pairHeap (some 6) = some (some tb)) :=
  ⟨pairHeap_sound.1, pairHeap_sound.2.1, pairHeap_sound.2.2, rfl, rfl, rfl, rfl, rfl,
    splice_wellFormed pairHeap 0 6 [.user 1, .user 2, .user 3, .user 4]
      [.user 10, .user 20] 2 4 2 (some 3) (some 5) (some 9) pairHeap_sound.1 pairHeap_sound.2.1
      pairHeap_sound.2.2 (by decide) rfl rfl (by decide) (by decide) (by decide) rfl rfl rfl⟩

/-- Claim C24: in a well-formed list with value sequence `xs`, for the real
node `it` at position `i < |xs|`, a `DLLInsertAfter(it, v)` whose allocation
succeeds gives exactly the result of `DLLInsertBefore(DLLNext(it), v)`: the same
heap and the same returned iterator, which is the node that was `DLLNext(it)`
before the call, is still `DLLNext(it)`, at position `i + 1`, and now holds `v`;
`it` keeps its value, and the value sequence is `xs` with `v` inserted at index
`i + 1`. -/
theorem insertAfter_contract (h : Heap) (l : Nat) (xs : List VoidPtr) (i : Nat) (it : Iter)
    (v : VoidPtr) (hv : h.Valid) (hwf : WellFormed h l) (hxs : values h l = some xs)
    (hi : i < xs.length) (hit : iterAt h l i = some it) (hok : h.mallocOk h.brk = true) :
    ∃ h' nx old, DLLNext h it = some nx ∧ DLLGetData h it = some old ∧ xs[i]? = some old ∧
      DLLInsertAfter h it v = some (h', nx) ∧
      DLLInsertBefore h nx v = some (h', nx) ∧
      DLLGetData h' it = some old ∧ DLLNext h' it = some nx ∧
      iterAt h' l (i + 1) = some nx ∧ DLLGetData h' nx = some v ∧
      values h' l = some (xs.insertIdx (i + 1) v) ∧ h'.Valid ∧ WellFormed h' l := by
  obtain ⟨pre, a, post, dpre, d, dpost, rfl, hr, hl1, hl2, rfl⟩ :=
    wf_position hv hwf hxs (by omega) hit
  have hlen := seg_length hr.seg
  have hxl : (dpre ++ d :: dpost).dropLast.length = dpre.length + dpost.length := by
    simp only [List.length_dropLast, List.length_append, List.length_cons]
    omega
  simp only [List.length_append, List.length_cons] at hlen
  rw [hxl] at hi
  obtain ⟨b, post, rfl⟩ : ∃ b post', post = b :: post' := by
    cases post with
    | nil => simp at hlen; omega
    | cons b post' => exact ⟨b, post', rfl⟩
  obtain ⟨db, dpost, rfl⟩ : ∃ db dpost', dpost = db :: dpost' := by
    cases dpost with
    | nil => simp at hi; omega
    | cons db dpost' => exact ⟨db, dpost', rfl⟩
  have hlp : pre.length = dpre.length := by omega
  obtain ⟨h', hins, hv', hr'⟩ := insertAfter_repr v hv hr hlp hok
  have hn := repr_node hr hlp
  have hn' := repr_node hr' hlp
  have hr2 : ListRep h' l ((pre ++ [a]) ++ b :: h.brk :: post)
      ((dpre ++ [d]) ++ v :: db :: dpost) := by
    simpa using hr'
  have hnb := repr_node hr2 (by simp [hlp])
  have hsame : DLLInsertAfter h (some a) v = DLLInsertBefore h (some b) v := by
    simp [DLLInsertAfter, hn]
  refine ⟨h', some b, d, by simp [DLLNext, hn], by simp [DLLGetData, hn], ?_, hins,
    by rw [← hsame, hins], by simp [DLLGetData, hn'], by simp [DLLNext, hn'], ?_,
    by simp [DLLGetData, hnb], ?_, hv', wellFormed_of_repr hr'⟩
  · rw [List.dropLast_append_cons, List.dropLast_cons_of_ne_nil (List.cons_ne_nil _ _),
      List.getElem?_append_right (by omega), ← hl2, Nat.sub_self, List.getElem?_cons_zero]
  · have hpl : (pre ++ [a]).length = i + 1 := by
      simp only [List.length_append, List.length_cons, List.length_nil]; omega
    have hlt : i + 1 < ((pre ++ [a]) ++ b :: h.brk :: post).length := by
      rw [List.length_append, hpl]
      simp
    rw [repr_iterAt hr2 hlt, List.getElem?_append_right (by omega), hpl, Nat.sub_self,
      List.getElem?_cons_zero]
  · rw [repr_values hv' hr2]
    congr 1
    have e1 : (dpre ++ d :: db :: dpost).dropLast = (dpre ++ [d]) ++ (db :: dpost).dropLast := by
      rw [List.dropLast_append_cons, List.dropLast_cons_of_ne_nil (List.cons_ne_nil _ _)]
      simp
    have e2 : ((dpre ++ [d]) ++ v :: db :: dpost).dropLast =
        (dpre ++ [d]) ++ v :: (db :: dpost).dropLast := by
      rw [List.dropLast_append_cons, List.dropLast_cons_of_ne_nil (List.cons_ne_nil _ _)]
    have e3 : i + 1 = (dpre ++ [d]).length := by
      simp only [List.length_append, List.length_cons, List.length_nil]; omega
    rw [e1, e2, e3, insertIdx_length_append]

/-- The contract of C24 on the list 1, 2, 3, inserting 9 after the node that
holds 2. -/
theorem insertAfter_contract_witness :
    exHeap.Valid ∧ WellFormed exHeap 0 ∧
    values exHeap 0 = some [.user 1, .user 2, .user 3] ∧
    iterAt exHeap 0 1 = some (some 2) ∧ exHeap.mallocOk exHeap.brk = true ∧
    (DLLInsertAfter exHeap (some 2) (.user 9)).bind (fun r => values r.1 0) =
      some [.user 1, .user 2, .user 9, .user 3] ∧
    ∃ h' nx old, DLLNext exHeap (some 2) = some nx ∧ DLLGetData exHeap (some 2) = some old ∧
      [VoidPtr.user 1, .user 2, .user 3][1]? = some old ∧
      DLLInsertAfter exHeap (some 2) (.user 9) = some (h', nx) ∧
      DLLInsertBefore exHeap nx (.user 9) = some (h', nx) ∧
      DLLGetData h' (some 2) = some old ∧ DLLNext h' (some 2) = some nx ∧
      iterAt h' 0 (1 + 1) = some nx ∧ DLLGetData h' nx = some (.user 9) ∧
      values h' 0 = some ([VoidPtr.user 1, .user 2, .user 3].insertIdx (1 + 1) (.user 9)) ∧
      h'.Valid ∧ WellFormed h' 0 :=
  ⟨exHeap_sound.1, exHeap_sound.2, rfl, rfl, rfl, rfl,
    insertAfter_contract exHeap 0 [.user 1, .user 2, .user 3] 1 (some 2) (.user 9)
      exHeap_sound.1 exHeap_sound.2 rfl (by decide) rfl rfl⟩

/-- Claim C25, refuted by the code: on A = 1, 2, 3, 4 and B = 10, 20, the
call `DLLSplice(dest, s, s)` with `s` the node of 2 and `dest` the node of 20
returns with the values of the two nodes exchanged, A = 1, 20, 3, 4 and
B = 10, 2, though the range from `s` up to, not including, `s` is empty; and
with `dest = DLLEnd(B)` the call does not return: `dest->next->prev = dest`
dereferences the null `next` of the dummy. -/
theorem splice_empty_range_exchanges_values :
    pairHeap.Valid ∧ WellFormed pairHeap 0 ∧ WellFormed pairHeap 6 ∧
    values pairHeap 0 = some [.user 1, .user 2, .user 3, .user 4] ∧
    values pairHeap 6 = some [.user 10, .user 20] ∧
    iterAt pairHeap 0 1 = some (some 2) ∧ iterAt pairHeap 6 1 = some (some 8) ∧
    DLLEnd pairHeap (some 0) = some (some 5) ∧ DLLEnd pairHeap (some 6) = some (some 9) ∧
    DLLGetData pairHeap (some 2) = some (.user 2) ∧
    DLLGetData pairHeap (some 8) = some (.user 20) ∧
    (DLLSplice pairHeap (some 8) (some 2) (some 2)).bind (fun g => values g 0) =
      some [.user 1, .user 20, .user 3, .user 4] ∧
    (DLLSplice pairHeap (some 8) (some 2) (some 2)).bind (fun g => values g 6) =
      some [.user 10, .user 2] ∧
    (DLLSplice pairHeap (some 8) (some 2) (some 2)).bind (fun g => DLLGetData g (some 2)) =
      some (.user 20) ∧
    (DLLSplice pairHeap (some 8) (some 2) (some 2)).bind (fun g => DLLGetData g (some 8)) =
      some (.user 2) ∧
    DLLNext pairHeap (some 9) = some none ∧
    DLLSplice pairHeap (some 9) (some 2) (some 2) = none :=
  ⟨pairHeap_sound.1, pairHeap_sound.2.1, pairHeap_sound.2.2, rfl, rfl, rfl, rfl, rfl, rfl, rfl,
    rfl, rfl, rfl, rfl, rfl, rfl, rfl⟩

/-- Claim C26: for a well-formed list of pointers to integers (values `xs`)
and a pivot that points to an integer, the run of `DLLArrange` (which gives the
result of `DLLArrange` when it runs to its end) applies `DLLNext`, `DLLPrev`,
`DLLIterIsEqual` or `->data` to a null iterator if and only if the list is
empty: on the empty list `right` is null and the first test of the outer loop
calls `DLLNext(right)`; on a non-empty list, whatever the number of turns
allowed, the run either ends or is still going, without any fault, and at every
loop test `left` and `right` are real nodes of the list, at positions `a ≤ b`. -/
theorem arrange_null_iff_empty (h : Heap) (l : Nat) (mem : Nat → Option Int) (pivot : VoidPtr)
    (piv : Int) (xs : List VoidPtr) (hv : h.Valid) (hwf : WellFormed h l)
    (hxs : values h l = some xs) (hint : ∀ v ∈ xs, ∃ x, derefInt mem v = some x)
    (hpiv : derefInt mem pivot = some piv) :
    (∀ fuel, (DLLArrange.run fuel h (some l) mem pivot).2.toOption =
      DLLArrange fuel h (some l) mem pivot) ∧
    ((∃ fuel, (DLLArrange.run fuel h (some l) mem pivot).2 = .nullIter) ↔ xs = []) ∧
    (xs = [] → ∀ fuel, 0 < fuel → ∃ e, DLLEnd h (some l) = some e ∧
      DLLArrange.run fuel h (some l) mem pivot = ([(e, none)], .nullIter)) ∧
    (xs ≠ [] → ∀ fuel,
      ((∃ h', (DLLArrange.run fuel h (some l) mem pivot).2 = .done h') ∨
        (DLLArrange.run fuel h (some l) mem pivot).2 = .unfinished) ∧
      ∀ p ∈ (DLLArrange.run fuel h (some l) mem pivot).1, ∃ a b, a ≤ b ∧ b < xs.length ∧
        iterAt h l a = some p.1 ∧ iterAt h l b = some p.2 ∧
        p.1 ≠ none ∧ p.2 ≠ none ∧ DLLEnd h (some l) ≠ some p.1 ∧
        DLLEnd h (some l) ≠ some p.2) := by
  obtain ⟨as, ds, hr⟩ := repr_of_wellFormed hwf
  have hval := repr_values hv hr
  rw [hxs, Option.some.injEq] at hval
  have hlen := seg_length hr.seg
  have hds : ds ≠ [] := by
    intro e
    have := hr.dummy
    simp [e] at this
  have hdl := List.length_pos.2 hds
  have hxl : xs.length + 1 = as.length := by
    rw [hval, List.length_dropLast]
    omega
  obtain ⟨s, hs, hend, _, _, _⟩ := repr_end hr
  have hsidx : as[xs.length]? = some s := by
    rw [← hs, List.getLast?_eq_getElem?]
    congr 1
    omega
  obtain ⟨sn, hsn, _, _, hsp⟩ := repr_readNode hr (by omega : xs.length < as.length)
  rw [hsidx] at hsn
  have hhead : as.head? = as[0]? := by cases as <;> simp
  have hrun : ∀ fuel, DLLArrange.run fuel h (some l) mem pivot =
      DLLArrange.loopRun mem piv fuel h as[0]? sn.prev := by
    intro fuel
    simp only [DLLArrange.run, hr.header, hs, hsn, Traced.andThen, readInt, hpiv,
      List.nil_append, hhead]
  have hempty : xs = [] → ∀ fuel, 0 < fuel →
      DLLArrange.run fuel h (some l) mem pivot = ([(some s, none)], .nullIter) := by
    intro e fuel hf
    obtain ⟨f, rfl⟩ : ∃ f, fuel = f + 1 := ⟨fuel - 1, by omega⟩
    have h0 : as[0]? = some s := by
      rw [← hsidx, e]
      rfl
    have hp : sn.prev = none := by
      obtain ⟨_, hr2, hl2⟩ := repr_split_at hr (by omega : xs.length < as.length)
      have hn := repr_node hr2 hl2
      have hsn2 : readNode h (some s) = .done sn := hsn
      rw [List.getElem?_eq_getElem (by omega : xs.length < as.length), Option.some.injEq]
        at hsidx
      rw [hsidx] at hn
      simp only [readNode, hn, Outcome.done.injEq] at hsn2
      rw [← hsn2]
      show lastPtr (as.take xs.length) none = none
      rw [e]
      rfl
    rw [hrun, h0, hp, loopRun_null]
  have hnonempty : xs ≠ [] → ∀ fuel,
      ((∃ h', (DLLArrange.run fuel h (some l) mem pivot).2 = .done h') ∨
        (DLLArrange.run fuel h (some l) mem pivot).2 = .unfinished) ∧
      ∀ p ∈ (DLLArrange.run fuel h (some l) mem pivot).1, ∃ a b, a ≤ b ∧ b < xs.length ∧
        iterAt h l a = some p.1 ∧ iterAt h l b = some p.2 ∧
        p.1 ≠ none ∧ p.2 ≠ none ∧ DLLEnd h (some l) ≠ some p.1 ∧
        DLLEnd h (some l) ≠ some p.2 := by
    intro hne fuel
    have hpos : 0 < xs.length := List.length_pos.2 hne
    obtain ⟨n, hn⟩ : ∃ n, xs.length = n + 1 := ⟨xs.length - 1, by omega⟩
    have hp : sn.prev = as[n]? := hsp n hn
    have hints : ∀ k, k + 1 < as.length → ∃ v x, ds[k]? = some v ∧ derefInt mem v = some x := by
      intro k hk
      have hkx : k < xs.length := by omega
      have hmem : xs[k] ∈ xs := List.getElem_mem _
      obtain ⟨x, hx⟩ := hint _ hmem
      refine ⟨xs[k], x, ?_, hx⟩
      have : xs[k]? = ds[k]? := by
        rw [hval, List.getElem?_dropLast, if_pos (by omega)]
      rw [← this, List.getElem?_eq_getElem hkx]
    obtain ⟨c1, c2⟩ := loopRun_inv mem piv fuel hr (repr_length_lt hv hr).1 hints
      (Nat.zero_le n) (by omega : n + 1 < as.length)
    rw [hrun, hp]
    refine ⟨c2, fun p hp' => ?_⟩
    obtain ⟨a, b, hab, hb, rfl⟩ := c1 p hp'
    have ha' : a < as.length := by omega
    have hb' : b < as.length := by omega
    refine ⟨a, b, hab, by omega, repr_iterAt hr ha', repr_iterAt hr hb', ?_, ?_, ?_, ?_⟩
    · rw [List.getElem?_eq_getElem ha']; simp
    · rw [List.getElem?_eq_getElem hb']; simp
    · rw [hend, ← hsidx]
      intro e
      have := repr_index_inj hr (by omega) ha' (Option.some.inj e)
      omega
    · rw [hend, ← hsidx]
      intro e
      have := repr_index_inj hr (by omega) hb' (Option.some.inj e)
      omega
  refine ⟨fun fuel => run_toOption fuel h (some l) mem pivot, ⟨?_, ?_⟩, ?_, hnonempty⟩
  · rintro ⟨fuel, hf⟩
    by_contra hne
    rcases (hnonempty hne fuel).1 with ⟨h', e⟩ | e
    · rw [e] at hf
      cases hf
    · rw [e] at hf
      cases hf
  · intro e
    exact ⟨1, by rw [hempty e 1 (by omega)]⟩
  · intro e fuel hf
    exact ⟨some s, hend, hempty e fuel hf⟩

/-- The contract of C26 on the list 8, 1, 9, 3, 5, 2 with pivot 5, and the
run on the newly created, empty list, which ends in `DLLNext` of a null
`right`. -/
theorem arrange_null_iff_empty_witness :
    arrHeap.Valid ∧ WellFormed arrHeap 0 ∧
    values arrHeap 0 = some [.user 8, .user 1, .user 9, .user 3, .user 5, .user 2] ∧
    derefInt intMem (.user 5) = some 5 ∧
    createdHeap.Valid ∧ WellFormed createdHeap 0 ∧ values createdHeap 0 = some [] ∧
    DLLArrange.run 3 createdHeap (some 0) intMem (.user 5) = ([(some 1, none)], .nullIter) ∧
    (DLLArrange.run 5 arrHeap (some 0) intMem (.user 5)).1.length = 18 ∧
    (∀ fuel, (DLLArrange.run fuel arrHeap (some 0) intMem (.user 5)).2.toOption =
      DLLArrange fuel arrHeap (some 0) intMem (.user 5)) ∧
    ((∃ fuel, (DLLArrange.run fuel arrHeap (some 0) intMem (.user 5)).2 = .nullIter) ↔
      [VoidPtr.user 8, .user 1, .user 9, .user 3, .user 5, .user 2] = []) ∧
    ([VoidPtr.user 8, .user 1, .user 9, .user 3, .user 5, .user 2] = [] → ∀ fuel, 0 < fuel →
      ∃ e, DLLEnd arrHeap (some 0) = some e ∧
      DLLArrange.run fuel arrHeap (some 0) intMem (.user 5) = ([(e, none)], .nullIter)) ∧
    ([VoidPtr.user 8, .user 1, .user 9, .user 3, .user 5, .user 2] ≠ [] → ∀ fuel,
      ((∃ h', (DLLArrange.run fuel arrHeap (some 0) intMem (.user 5)).2 = .done h') ∨
        (DLLArrange.run fuel arrHeap (some 0) intMem (.user 5)).2 = .unfinished) ∧
      ∀ p ∈ (DLLArrange.run fuel arrHeap (some 0) intMem (.user 5)).1, ∃ a b, a ≤ b ∧
        b < [VoidPtr.user 8, .user 1, .user 9, .user 3, .user 5, .user 2].length ∧
        iterAt arrHeap 0 a = some p.1 ∧ iterAt arrHeap 0 b = some p.2 ∧
        p.1 ≠ none ∧ p.2 ≠ none ∧ DLLEnd arrHeap (some 0) ≠ some p.1 ∧
        DLLEnd arrHeap (some 0) ≠ some p.2) :=
  ⟨arrHeap_sound.1, arrHeap_sound.2, rfl, rfl, createdHeap_valid, createdHeap_wf, rfl, rfl, rfl,
    arrange_null_iff_empty arrHeap 0 intMem (.user 5) 5
      [.user 8, .user 1, .user 9, .user 3, .user 5, .user 2] arrHeap_sound.1 arrHeap_sound.2 rfl
      (fun v hv => by
        simp only [List.mem_cons, List.mem_singleton, List.not_mem_nil, or_false] at hv
        rcases hv with rfl | rfl | rfl | rfl | rfl | rfl <;> exact ⟨_, rfl⟩)
      rfl⟩

end DLL
